import Mathlib

/-!
BusTub storage core: a shallow embedding.

Verification development for the buffer pool, the LRU-K replacer, the
extendible hash index and the lock manager of the BusTub teaching database.

Conventions of the embedding
* C++ arrays of fixed size are total functions from the index; every index the
  code uses stays inside the array (directory indices are below
  `1 << global_depth_`, bucket slots below `BUCKET_ARRAY_SIZE`).
* An `assert` that fails aborts the process: operations that contain asserts
  return `Option`, with `none` for the abort.  A loop whose model carries a
  fuel counter also returns `none` when the fuel runs out, so a result
  `some _` means the loop left through its own exit test.
* `uint8_t` / `uint32_t` increments, decrements and narrowing casts carry an
  explicit `% 2^w`.
* A function that runs under a mutex is one step.  A call that blocks in
  `cv_.wait` ends its step there and runs again from the top of its loop at the
  wake-up.
-/

set_option autoImplicit false

namespace bustub

/-- Modelled from the spec: the sentinel `INVALID_PAGE_ID` (declared in a
header that is not part of the sources); real page ids are non-negative. -/
def INVALID_PAGE_ID : Int := -1

/-! ## `hash_table_directory_page.cpp` -/

/-- Directory page of the extendible hash index: the fields of
`HashTableDirectoryPage`.  `local_depths_` is a `uint8_t` array and
`bucket_page_ids_` a `page_id_t` array, both indexed by the directory index. -/
@[ext]
structure HashTableDirectoryPage where
  page_id_ : Int
  lsn_ : Int
  global_depth_ : Nat
  local_depths_ : Nat → Nat
  bucket_page_ids_ : Nat → Int

namespace HashTableDirectoryPage

def GetPageId (d : HashTableDirectoryPage) : Int := d.page_id_

def SetPageId (d : HashTableDirectoryPage) (page_id : Int) : HashTableDirectoryPage :=
  { d with page_id_ := page_id }

def GetGlobalDepth (d : HashTableDirectoryPage) : Nat := d.global_depth_

def GetGlobalDepthMask (d : HashTableDirectoryPage) : Nat :=
  (1 <<< d.GetGlobalDepth) - 1

def GetLocalDepthMask (d : HashTableDirectoryPage) (bucket_idx : Nat) : Nat :=
  (1 <<< d.local_depths_ bucket_idx) - 1

def IncrGlobalDepth (d : HashTableDirectoryPage) : HashTableDirectoryPage :=
  { d with global_depth_ := (d.global_depth_ + 1) % 2 ^ 32 }

def DecrGlobalDepth (d : HashTableDirectoryPage) : HashTableDirectoryPage :=
  { d with global_depth_ := (d.global_depth_ + (2 ^ 32 - 1)) % 2 ^ 32 }

def GetBucketPageId (d : HashTableDirectoryPage) (bucket_idx : Nat) : Int :=
  d.bucket_page_ids_ bucket_idx

def SetBucketPageId (d : HashTableDirectoryPage) (bucket_idx : Nat) (bucket_page_id : Int) :
    HashTableDirectoryPage :=
  { d with bucket_page_ids_ := Function.update d.bucket_page_ids_ bucket_idx bucket_page_id }

def Size (d : HashTableDirectoryPage) : Nat := 1 <<< d.global_depth_

/-- The loop of `CanShrink` returns false at the first index whose local depth
is not below the global depth. -/
def CanShrink (d : HashTableDirectoryPage) : Bool :=
  (List.range d.Size).all (fun i => !(d.global_depth_ ≤ d.local_depths_ i))

def GetLocalDepth (d : HashTableDirectoryPage) (bucket_idx : Nat) : Nat :=
  d.local_depths_ bucket_idx

/-- The parameter of `SetLocalDepth` is a `uint8_t`; the assert aborts when it
exceeds the global depth. -/
def SetLocalDepth (d : HashTableDirectoryPage) (bucket_idx : Nat) (local_depth : Nat) :
    Option HashTableDirectoryPage :=
  if local_depth % 256 ≤ d.global_depth_ then
    some { d with local_depths_ := Function.update d.local_depths_ bucket_idx (local_depth % 256) }
  else none

def IncrLocalDepth (d : HashTableDirectoryPage) (bucket_idx : Nat) :
    Option HashTableDirectoryPage :=
  if d.local_depths_ bucket_idx < d.global_depth_ then
    some { d with local_depths_ :=
      Function.update d.local_depths_ bucket_idx ((d.local_depths_ bucket_idx + 1) % 256) }
  else none

def DecrLocalDepth (d : HashTableDirectoryPage) (bucket_idx : Nat) : HashTableDirectoryPage :=
  { d with local_depths_ :=
      Function.update d.local_depths_ bucket_idx ((d.local_depths_ bucket_idx + 255) % 256) }

def GetSplitImageIndex (d : HashTableDirectoryPage) (bucket_idx : Nat) : Nat :=
  bucket_idx ^^^ (1 <<< (d.local_depths_ bucket_idx - 1))

/-- Number of directory indices below `Size()` that hold `page_id`: the entry
`page_id_to_count[page_id]` built by `VerifyIntegrity`. -/
def pointerCount (d : HashTableDirectoryPage) (page_id : Int) : Nat :=
  (List.range d.Size).countP (fun i => d.bucket_page_ids_ i == page_id)

/-- Condition (1) of `VerifyIntegrity`: all LD <= GD. -/
def integrity1 (d : HashTableDirectoryPage) : Prop :=
  ∀ i, i < d.Size → d.local_depths_ i ≤ d.global_depth_

/-- Condition (2) of `VerifyIntegrity`: each bucket has precisely 2^(GD - LD)
pointers pointing to it. -/
def integrity2 (d : HashTableDirectoryPage) : Prop :=
  ∀ i, i < d.Size →
    d.pointerCount (d.bucket_page_ids_ i) = 2 ^ (d.global_depth_ - d.local_depths_ i)

/-- Condition (3) of `VerifyIntegrity`: the LD is the same at each index with
the same bucket_page_id. -/
def integrity3 (d : HashTableDirectoryPage) : Prop :=
  ∀ i j, i < d.Size → j < d.Size → d.bucket_page_ids_ i = d.bucket_page_ids_ j →
    d.local_depths_ i = d.local_depths_ j

/-- A page whose memory was reset to zero, read as a directory page. -/
def zeroed : HashTableDirectoryPage :=
  { page_id_ := 0, lsn_ := 0, global_depth_ := 0,
    local_depths_ := fun _ => 0, bucket_page_ids_ := fun _ => 0 }

end HashTableDirectoryPage

/-! ## `hash_table_bucket_page.cpp` -/

/-- Bucket page: the two byte-packed bitmaps `occupied_` and `readable_`
(indexed by byte) and the slot array `array_`. -/
structure HashTableBucketPage (K V : Type) where
  occupied_ : Nat → Nat
  readable_ : Nat → Nat
  array_ : Nat → K × V

namespace HashTableBucketPage

variable {K V : Type}

def IsOccupied (b : HashTableBucketPage K V) (bucket_idx : Nat) : Bool :=
  let di := bucket_idx / 8 % 256
  let yu := bucket_idx % 8
  (b.occupied_ di >>> yu) &&& 1 != 0

def SetOccupied (b : HashTableBucketPage K V) (bucket_idx : Nat) : HashTableBucketPage K V :=
  let di := bucket_idx / 8 % 256
  let yu := bucket_idx % 8
  { b with occupied_ := Function.update b.occupied_ di ((b.occupied_ di ||| (1 <<< yu)) % 256) }

def IsReadable (b : HashTableBucketPage K V) (bucket_idx : Nat) : Bool :=
  let di := bucket_idx / 8 % 256
  let yu := bucket_idx % 8
  (b.readable_ di >>> yu) &&& 1 != 0

def SetReadable (b : HashTableBucketPage K V) (bucket_idx : Nat) : HashTableBucketPage K V :=
  let di := bucket_idx / 8 % 256
  let yu := bucket_idx % 8
  { b with readable_ := Function.update b.readable_ di ((b.readable_ di ||| (1 <<< yu)) % 256) }

/-- The byte is combined with `~(1 << yu)` and narrowed back to `uint8_t`:
bit `yu` of the byte is cleared. -/
def RemoveAt (b : HashTableBucketPage K V) (bucket_idx : Nat) : HashTableBucketPage K V :=
  let di := bucket_idx / 8 % 256
  let yu := bucket_idx % 8
  { b with readable_ :=
      Function.update b.readable_ di ((b.readable_ di % 256) &&& (255 ^^^ (1 <<< yu))) }

def KeyAt (b : HashTableBucketPage K V) (bucket_idx : Nat) : K := (b.array_ bucket_idx).1

def ValueAt (b : HashTableBucketPage K V) (bucket_idx : Nat) : V := (b.array_ bucket_idx).2

/-- The comparator `cmp(key, k) == 0` is key equality. -/
def GetValue [DecidableEq K] (N : Nat) (b : HashTableBucketPage K V) (key : K)
    (result : List V) : Bool × List V :=
  (List.range N).foldl
    (fun acc i =>
      if b.IsReadable i && decide (key = (b.array_ i).1) then (true, acc.2 ++ [(b.array_ i).2])
      else acc)
    (false, result)

def Insert [DecidableEq K] [DecidableEq V] (N : Nat) (b : HashTableBucketPage K V)
    (key : K) (value : V) : Bool × HashTableBucketPage K V :=
  if (List.range N).any (fun i =>
      b.IsReadable i && decide (key = (b.array_ i).1) && decide (value = (b.array_ i).2)) then
    (false, b)
  else
    match (List.range N).find? (fun i => !b.IsReadable i) with
    | some i =>
      (true, SetReadable (SetOccupied { b with array_ := Function.update b.array_ i (key, value) } i) i)
    | none => (false, b)

def Remove [DecidableEq K] [DecidableEq V] (N : Nat) (b : HashTableBucketPage K V)
    (key : K) (value : V) : Bool × HashTableBucketPage K V :=
  match (List.range N).find? (fun i =>
      b.IsReadable i && decide (key = (b.array_ i).1) && decide (value = (b.array_ i).2)) with
  | some i => (true, b.RemoveAt i)
  | none => (false, b)

def IsFull (N : Nat) (b : HashTableBucketPage K V) : Bool :=
  (List.range N).all (fun i => b.IsReadable i)

def NumReadable (N : Nat) (b : HashTableBucketPage K V) : Nat :=
  (List.range N).countP (fun i => b.IsReadable i)

def IsEmpty (N : Nat) (b : HashTableBucketPage K V) : Bool :=
  (List.range N).all (fun i => !b.IsReadable i)

def GetArrayCopy (N : Nat) (b : HashTableBucketPage K V) : List (K × V) :=
  ((List.range N).filter (fun i => b.IsReadable i)).map b.array_

def Reset (b : HashTableBucketPage K V) : HashTableBucketPage K V :=
  { b with occupied_ := fun _ => 0, readable_ := fun _ => 0 }

/-- A page whose memory was reset to zero, read as a bucket page. -/
def zeroed [Inhabited K] [Inhabited V] : HashTableBucketPage K V :=
  { occupied_ := fun _ => 0, readable_ := fun _ => 0, array_ := fun _ => default }

end HashTableBucketPage

/-! ## `extendible_hash_table.cpp`

The hash table reaches its pages through the buffer pool.  It is modelled here
under the premise of its contract (single thread, a pool with enough frames):
`NewPage` hands out the id `next_page_id_` together with zeroed memory,
`FetchPage` returns the stored content of a page, and `UnpinPage` succeeds
without touching any content.  Latches have no effect on a single thread. -/

/-- Compile-time constants and the hash function the table is built with.
`BUCKET_ARRAY_SIZE` and `MAX_BUCKET_DEPTH` are declared in headers that are not
part of the sources, so they are parameters. -/
structure HashTableConfig (K : Type) where
  BUCKET_ARRAY_SIZE : Nat
  MAX_BUCKET_DEPTH : Nat
  hash_fn : K → Nat

/-- State of an `ExtendibleHashTable`: the member `directory_page_id_`, the
content of the directory page, the content of every bucket page by page id, and
the page-id allocator of the buffer pool it owns. -/
structure ExtendibleHashTable (K V : Type) where
  directory_page_id_ : Int
  dir_page : HashTableDirectoryPage
  bucket_pages : Int → HashTableBucketPage K V
  next_page_id_ : Int

namespace ExtendibleHashTable

variable {K V : Type}

/-- State left by the constructor: no directory page yet, no page allocated. -/
def init [Inhabited K] [Inhabited V] : ExtendibleHashTable K V :=
  { directory_page_id_ := INVALID_PAGE_ID,
    dir_page := HashTableDirectoryPage.zeroed,
    bucket_pages := fun _ => HashTableBucketPage.zeroed,
    next_page_id_ := 0 }

/-- Downcast of the 64-bit hash to `uint32_t`. -/
def Hash (cfg : HashTableConfig K) (key : K) : Nat := cfg.hash_fn key % 2 ^ 32

def KeyToDirectoryIndex (cfg : HashTableConfig K) (key : K) (dir_page : HashTableDirectoryPage) :
    Nat :=
  Hash cfg key &&& dir_page.GetGlobalDepthMask

def KeyToPageId (cfg : HashTableConfig K) (key : K) (dir_page : HashTableDirectoryPage) : Int :=
  dir_page.GetBucketPageId (KeyToDirectoryIndex cfg key dir_page)

/-- On first use the directory page and the first bucket page are created:
two `NewPage` calls, each returning zeroed memory. -/
def FetchDirectoryPage [Inhabited K] [Inhabited V] (t : ExtendibleHashTable K V) :
    ExtendibleHashTable K V :=
  if t.directory_page_id_ = INVALID_PAGE_ID then
    let new_direpageid := t.next_page_id_
    let temp := HashTableDirectoryPage.zeroed.SetPageId new_direpageid
    let new_buckpageid := t.next_page_id_ + 1
    { directory_page_id_ := new_direpageid,
      dir_page := temp.SetBucketPageId 0 new_buckpageid,
      bucket_pages := Function.update t.bucket_pages new_buckpageid HashTableBucketPage.zeroed,
      next_page_id_ := t.next_page_id_ + 2 }
  else t

def GetValue [DecidableEq K] [Inhabited K] [Inhabited V] (cfg : HashTableConfig K)
    (t : ExtendibleHashTable K V) (key : K) (result : List V) :
    (Bool × List V) × ExtendibleHashTable K V :=
  let t := t.FetchDirectoryPage
  let buck_page := t.bucket_pages (KeyToPageId cfg key t.dir_page)
  (buck_page.GetValue cfg.BUCKET_ARRAY_SIZE key result, t)

/-- Body shared by the four strided loops of `SplitInsert` and the two of
`Merge`: `SetBucketPageId(i, page_id); SetLocalDepth(i, GetLocalDepth(bucket_idx))`. -/
def setEntry (page_id : Int) (bucket_idx : Nat) (i : Nat) (d : HashTableDirectoryPage) :
    Option HashTableDirectoryPage :=
  (d.SetBucketPageId i page_id).SetLocalDepth i ((d.SetBucketPageId i page_id).GetLocalDepth bucket_idx)

/-- The loop `for (int i = start; i >= 0; i -= diff)`. -/
def loopDown (page_id : Int) (bucket_idx diff : Nat) :
    Nat → Int → HashTableDirectoryPage → Option HashTableDirectoryPage
  | 0, _, _ => none
  | fuel + 1, i, d =>
    if 0 ≤ i then
      (setEntry page_id bucket_idx i.toNat d).bind (loopDown page_id bucket_idx diff fuel (i - diff))
    else some d

/-- The loop `for (uint32_t i = start; i < dir_page->Size(); i += diff)`. -/
def loopUp (page_id : Int) (bucket_idx diff : Nat) :
    Nat → Nat → HashTableDirectoryPage → Option HashTableDirectoryPage
  | 0, _, _ => none
  | fuel + 1, i, d =>
    if i < d.Size then
      (setEntry page_id bucket_idx i d).bind (loopUp page_id bucket_idx diff fuel (i + diff))
    else some d

/-- Closed form of a strided pair of loops: every index selected by `P` gets
the page id `page_id` and the local depth `v`. -/
def setClass (page_id : Int) (v : Nat) (P : Nat → Bool) (d : HashTableDirectoryPage) :
    HashTableDirectoryPage :=
  { d with
    bucket_page_ids_ := fun j => if P j then page_id else d.bucket_page_ids_ j,
    local_depths_ := fun j => if P j then v else d.local_depths_ j }

/-- Both strided loops from one start index, with fuel for every possible
iteration and the final exit test. -/
def setStride (page_id : Int) (bucket_idx start diff : Nat) (d : HashTableDirectoryPage) :
    Option HashTableDirectoryPage :=
  (loopDown page_id bucket_idx diff (start + 2) (start : Int) d).bind
    (fun d => loopUp page_id bucket_idx diff (d.Size + 1) start d)

/-- The loop `for (i = Size()/2; i < Size(); i++) SetBucketPageId(i, INVALID_PAGE_ID)`. -/
def invalidateUpperHalf (d : HashTableDirectoryPage) : HashTableDirectoryPage :=
  (List.range' (d.Size / 2) (d.Size - d.Size / 2)).foldl
    (fun d i => d.SetBucketPageId i INVALID_PAGE_ID) d

/-- The loop that mirrors the lower half into the entries of the upper half
still holding `INVALID_PAGE_ID`. -/
def mirrorUpperHalf (d : HashTableDirectoryPage) : Option HashTableDirectoryPage :=
  (List.range' (d.Size / 2) (d.Size - d.Size / 2)).foldlM
    (fun d i =>
      if d.GetBucketPageId i = INVALID_PAGE_ID then
        (d.SetBucketPageId i (d.GetBucketPageId (i - d.Size / 2))).SetLocalDepth i
          ((d.SetBucketPageId i (d.GetBucketPageId (i - d.Size / 2))).GetLocalDepth (i - d.Size / 2))
      else some d) d

/-- The loop of `SplitInsert` that re-inserts the saved pairs; each of its three
asserts aborts. -/
def rehash [DecidableEq K] [DecidableEq V] (cfg : HashTableConfig K)
    (dir_page : HashTableDirectoryPage) (bucket_idx : Nat)
    (split_bucket_page_id image_bucket_page_id : Int) (origin_array : List (K × V))
    (pages : Int → HashTableBucketPage K V) : Option (Int → HashTableBucketPage K V) :=
  origin_array.foldlM
    (fun pages kv =>
      let target_bucket_index := Hash cfg kv.1 &&& dir_page.GetLocalDepthMask bucket_idx
      let target_bucket_index_page := dir_page.GetBucketPageId target_bucket_index
      if target_bucket_index_page = split_bucket_page_id ∨
          target_bucket_index_page = image_bucket_page_id then
        if target_bucket_index_page = split_bucket_page_id then
          let r := (pages split_bucket_page_id).Insert cfg.BUCKET_ARRAY_SIZE kv.1 kv.2
          if r.1 then some (Function.update pages split_bucket_page_id r.2) else none
        else
          let r := (pages image_bucket_page_id).Insert cfg.BUCKET_ARRAY_SIZE kv.1 kv.2
          if r.1 then some (Function.update pages image_bucket_page_id r.2) else none
      else none)
    pages

/-- `SplitInsert`; its last statement `return Insert(transaction, key, value)` is
the argument `retry`. -/
def SplitInsert [DecidableEq K] [DecidableEq V] [Inhabited K] [Inhabited V]
    (cfg : HashTableConfig K)
    (retry : ExtendibleHashTable K V → Option (Bool × ExtendibleHashTable K V))
    (t : ExtendibleHashTable K V) (key : K) (_value : V) :
    Option (Bool × ExtendibleHashTable K V) :=
  let t := t.FetchDirectoryPage
  let dir_page := t.dir_page
  let bucket_idx := KeyToDirectoryIndex cfg key dir_page
  let localdepth := dir_page.GetLocalDepth bucket_idx
  let split_bucket_page_id := KeyToPageId cfg key dir_page
  if cfg.MAX_BUCKET_DEPTH ≤ localdepth then some (false, t)
  else
    let glodep_inc := decide (localdepth = dir_page.GetGlobalDepth)
    let dir_page := if glodep_inc then dir_page.IncrGlobalDepth else dir_page
    (dir_page.IncrLocalDepth bucket_idx).bind fun dir_page =>
    let origin_array := (t.bucket_pages split_bucket_page_id).GetArrayCopy cfg.BUCKET_ARRAY_SIZE
    let pages := Function.update t.bucket_pages split_bucket_page_id
      (t.bucket_pages split_bucket_page_id).Reset
    let image_bucket_page_id := t.next_page_id_
    let pages := Function.update pages image_bucket_page_id HashTableBucketPage.zeroed
    let split_image_bucket_index := dir_page.GetSplitImageIndex bucket_idx
    (dir_page.SetLocalDepth split_image_bucket_index (dir_page.GetLocalDepth bucket_idx)).bind
    fun dir_page =>
    let dir_page := dir_page.SetBucketPageId split_image_bucket_index image_bucket_page_id
    let diff := 1 <<< dir_page.GetLocalDepth bucket_idx
    let dir_page := if glodep_inc then invalidateUpperHalf dir_page else dir_page
    (setStride split_bucket_page_id bucket_idx bucket_idx diff dir_page).bind fun dir_page =>
    (setStride image_bucket_page_id bucket_idx split_image_bucket_index diff dir_page).bind
    fun dir_page =>
    (if glodep_inc then mirrorUpperHalf dir_page else some dir_page).bind fun dir_page =>
    (rehash cfg dir_page bucket_idx split_bucket_page_id image_bucket_page_id origin_array
      pages).bind fun pages =>
    retry { t with dir_page := dir_page, bucket_pages := pages,
                   next_page_id_ := t.next_page_id_ + 1 }

/-- `Insert`, with the recursion `Insert -> SplitInsert -> Insert` counted by
`fuel`: `none` when the fuel runs out. -/
def InsertFuel [DecidableEq K] [DecidableEq V] [Inhabited K] [Inhabited V]
    (cfg : HashTableConfig K) :
    Nat → ExtendibleHashTable K V → K → V → Option (Bool × ExtendibleHashTable K V)
  | 0, _, _, _ => none
  | fuel + 1, t, key, value =>
    let t := t.FetchDirectoryPage
    let page_id := KeyToPageId cfg key t.dir_page
    let buck_page := t.bucket_pages page_id
    if !buck_page.IsFull cfg.BUCKET_ARRAY_SIZE then
      let res := buck_page.Insert cfg.BUCKET_ARRAY_SIZE key value
      some (res.1, { t with bucket_pages := Function.update t.bucket_pages page_id res.2 })
    else
      SplitInsert cfg (fun t => InsertFuel cfg fuel t key value) t key value

/-- `Insert`: every `SplitInsert` that retries has raised a local depth that was
below `MAX_BUCKET_DEPTH`, so `MAX_BUCKET_DEPTH + 1` rounds are enough. -/
def Insert [DecidableEq K] [DecidableEq V] [Inhabited K] [Inhabited V]
    (cfg : HashTableConfig K) (t : ExtendibleHashTable K V) (key : K) (value : V) :
    Option (Bool × ExtendibleHashTable K V) :=
  InsertFuel cfg (cfg.MAX_BUCKET_DEPTH + 1) t key value

def Merge [Inhabited K] [Inhabited V] (t : ExtendibleHashTable K V) (target_bucket_index : Nat) :
    Option (ExtendibleHashTable K V) :=
  let t := t.FetchDirectoryPage
  let dir_page := t.dir_page
  let localdepth := dir_page.GetLocalDepth target_bucket_index
  if localdepth = 0 then some t
  else
    let image_bucket_index := dir_page.GetSplitImageIndex target_bucket_index
    let image_bucket_page_id := dir_page.GetBucketPageId image_bucket_index
    let dir_page := dir_page.DecrLocalDepth target_bucket_index
    let diff := 1 <<< dir_page.GetLocalDepth target_bucket_index
    (setStride image_bucket_page_id target_bucket_index target_bucket_index diff dir_page).bind
    fun dir_page =>
    let dir_page := if dir_page.CanShrink then dir_page.DecrGlobalDepth else dir_page
    some { t with dir_page := dir_page }

def Remove [DecidableEq K] [DecidableEq V] [Inhabited K] [Inhabited V]
    (cfg : HashTableConfig K) (t : ExtendibleHashTable K V) (key : K) (value : V) :
    Option (Bool × ExtendibleHashTable K V) :=
  let t := t.FetchDirectoryPage
  let dir_page := t.dir_page
  let page_id := KeyToPageId cfg key dir_page
  let bucket_idx := KeyToDirectoryIndex cfg key dir_page
  let res := (t.bucket_pages page_id).Remove cfg.BUCKET_ARRAY_SIZE key value
  let t := { t with bucket_pages := Function.update t.bucket_pages page_id res.2 }
  if res.2.IsEmpty cfg.BUCKET_ARRAY_SIZE then
    (Merge t bucket_idx).map fun t => (res.1, t)
  else some (res.1, t)

def GetGlobalDepth [Inhabited K] [Inhabited V] (t : ExtendibleHashTable K V) : Nat :=
  t.FetchDirectoryPage.dir_page.GetGlobalDepth

end ExtendibleHashTable

/-! ### Invariants of the hash table -/

namespace ExtendibleHashTable

/-- Shape of a directory that the table operations maintain.  `next` is the
allocator of the buffer pool: every bucket page id in the directory has been
handed out already.  The clause `same` says that a bucket is pointed to by
exactly the indices that agree with it on its local-depth low bits. -/
structure DirInv (maxD : Nat) (next : Int) (d : HashTableDirectoryPage) : Prop where
  gd_le : d.global_depth_ ≤ maxD
  ld_le : ∀ i, i < 2 ^ d.global_depth_ → d.local_depths_ i ≤ d.global_depth_
  same : ∀ i j, i < 2 ^ d.global_depth_ → j < 2 ^ d.global_depth_ →
    (d.bucket_page_ids_ i = d.bucket_page_ids_ j ↔
      i % 2 ^ d.local_depths_ i = j % 2 ^ d.local_depths_ i)
  ld_eq : ∀ i j, i < 2 ^ d.global_depth_ → j < 2 ^ d.global_depth_ →
    d.bucket_page_ids_ i = d.bucket_page_ids_ j → d.local_depths_ i = d.local_depths_ j
  pid_range : ∀ i, i < 2 ^ d.global_depth_ →
    0 ≤ d.bucket_page_ids_ i ∧ d.bucket_page_ids_ i < next

/-- The directory statements of `SplitInsert` (lines 231-296 of
`extendible_hash_table.cpp`) on their own: `P` is the page id of the bucket that
is split and `Q` the page id of its new image. -/
def splitDirectory (d0 : HashTableDirectoryPage) (bucket_idx : Nat) (P Q : Int) :
    Option HashTableDirectoryPage :=
  let glodep_inc := decide (d0.GetLocalDepth bucket_idx = d0.GetGlobalDepth)
  let dir_page := if glodep_inc then d0.IncrGlobalDepth else d0
  (dir_page.IncrLocalDepth bucket_idx).bind fun dir_page =>
  let split_image_bucket_index := dir_page.GetSplitImageIndex bucket_idx
  (dir_page.SetLocalDepth split_image_bucket_index (dir_page.GetLocalDepth bucket_idx)).bind
  fun dir_page =>
  let dir_page := dir_page.SetBucketPageId split_image_bucket_index Q
  let diff := 1 <<< dir_page.GetLocalDepth bucket_idx
  let dir_page := if glodep_inc then invalidateUpperHalf dir_page else dir_page
  (setStride P bucket_idx bucket_idx diff dir_page).bind fun dir_page =>
  (setStride Q bucket_idx split_image_bucket_index diff dir_page).bind
  fun dir_page =>
  (if glodep_inc then mirrorUpperHalf dir_page else some dir_page)

/-- What `splitDirectory` leaves at every index below the new size: the indices
of the split bucket are shared between `P` and `Q` by one more hash bit, and
every other index keeps (or, after a doubling, mirrors) its old entry. -/
structure SplitSpec (d0 d1 : HashTableDirectoryPage) (idx : Nat) (P Q : Int) : Prop where
  gd : d1.global_depth_ =
    if d0.local_depths_ idx = d0.global_depth_ then d0.global_depth_ + 1 else d0.global_depth_
  inside : ∀ j, j < 2 ^ d1.global_depth_ →
    j % 2 ^ d0.local_depths_ idx = idx % 2 ^ d0.local_depths_ idx →
      d1.local_depths_ j = d0.local_depths_ idx + 1 ∧
      d1.bucket_page_ids_ j =
        if j % 2 ^ (d0.local_depths_ idx + 1) = idx % 2 ^ (d0.local_depths_ idx + 1) then P else Q
  outside : ∀ j, j < 2 ^ d1.global_depth_ →
    j % 2 ^ d0.local_depths_ idx ≠ idx % 2 ^ d0.local_depths_ idx →
      d1.local_depths_ j = d0.local_depths_ (j % 2 ^ d0.global_depth_) ∧
      d1.bucket_page_ids_ j = d0.bucket_page_ids_ (j % 2 ^ d0.global_depth_)

/-- Invariant of the whole table once the directory page exists: the directory
is well shaped, every pair stored in a bucket hashes to the indices that point
to the bucket, and no bucket holds a pair twice. -/
structure HTInv {K V : Type} (cfg : HashTableConfig K) (t : ExtendibleHashTable K V) : Prop where
  created : t.directory_page_id_ ≠ INVALID_PAGE_ID
  dir : DirInv cfg.MAX_BUCKET_DEPTH t.next_page_id_ t.dir_page
  keys : ∀ i, i < 2 ^ t.dir_page.global_depth_ →
    ∀ kv ∈ (t.bucket_pages (t.dir_page.bucket_page_ids_ i)).GetArrayCopy cfg.BUCKET_ARRAY_SIZE,
      Hash cfg kv.1 % 2 ^ t.dir_page.local_depths_ i = i % 2 ^ t.dir_page.local_depths_ i
  nodup : ∀ i, i < 2 ^ t.dir_page.global_depth_ →
    ((t.bucket_pages (t.dir_page.bucket_page_ids_ i)).GetArrayCopy cfg.BUCKET_ARRAY_SIZE).Nodup

end ExtendibleHashTable

/-- A call of the index interface that changes the table. -/
inductive HashOp (K V : Type) where
  | insert (key : K) (value : V)
  | remove (key : K) (value : V)

namespace ExtendibleHashTable

variable {K V : Type}

/-- One call: its boolean result and the state it leaves, `none` on an abort. -/
def applyOp [DecidableEq K] [DecidableEq V] [Inhabited K] [Inhabited V]
    (cfg : HashTableConfig K) (t : ExtendibleHashTable K V) :
    HashOp K V → Option (Bool × ExtendibleHashTable K V)
  | .insert key value => Insert cfg t key value
  | .remove key value => Remove cfg t key value

/-- A sequence of calls issued one after the other. -/
def runOps [DecidableEq K] [DecidableEq V] [Inhabited K] [Inhabited V]
    (cfg : HashTableConfig K) :
    List (HashOp K V) → ExtendibleHashTable K V → Option (ExtendibleHashTable K V)
  | [], t => some t
  | op :: ops, t => (applyOp cfg t op).bind fun r => runOps cfg ops r.2

/-- The values `GetValue(key)` appends to an empty result vector. -/
def lookup [DecidableEq K] [Inhabited K] [Inhabited V] (cfg : HashTableConfig K)
    (t : ExtendibleHashTable K V) (key : K) : List V :=
  (GetValue cfg t key []).1.2

end ExtendibleHashTable

/-! ## `lru_k_replacer.cpp`

The class `LRUKNode` is declared in a header that is not part of the sources;
its members are modelled from the specification of the replacer.  Timestamps
are natural numbers: the counter `current_timestamp_` is a `size_t` that grows
by one per recorded access and is taken not to wrap.  `node_store_` is an
`unordered_map`; it is an association list here, traversed front to back. -/

/-- Modelled from the spec: per-frame access record of the LRU-K replacer, the
history of access timestamps (oldest first, at most `k_` of them) and the
`evictable` flag, which a freshly created node has cleared. -/
structure LRUKNode where
  history_ : List Nat
  k_ : Nat
  is_evictable_ : Bool
deriving DecidableEq

namespace LRUKNode

/-- Modelled from the spec: the node a default constructor creates. -/
def fresh : LRUKNode := { history_ := [], k_ := 0, is_evictable_ := false }

/-- Modelled from the spec: number of recorded accesses. -/
def get_history_size (n : LRUKNode) : Nat := n.history_.length

/-- Modelled from the spec: the oldest retained timestamp (the front of the
history); on an empty history the C++ call has no defined value, 0 here. -/
def get_front (n : LRUKNode) : Nat := n.history_.headD 0

/-- Modelled from the spec: the bound `K` of the history. -/
def setk (n : LRUKNode) (k : Nat) : LRUKNode := { n with k_ := k }

/-- Modelled from the spec: append a timestamp; the history keeps at most `K`
entries, the oldest is dropped. -/
def push (n : LRUKNode) (ts : Nat) : LRUKNode :=
  { n with history_ :=
      if n.history_.length + 1 ≤ n.k_ then n.history_ ++ [ts]
      else (n.history_ ++ [ts]).drop (n.history_.length + 1 - n.k_) }

/-- Modelled from the spec: the evictable flag. -/
def is_evictable (n : LRUKNode) : Bool := n.is_evictable_

/-- Modelled from the spec: set the evictable flag. -/
def set_evictab (n : LRUKNode) (b : Bool) : LRUKNode := { n with is_evictable_ := b }

end LRUKNode

/-- State of an `LRUKReplacer`; `frame_id_t` is an `int`, `replacer_size_` a
`size_t`. -/
structure LRUKReplacer where
  node_store_ : List (Int × LRUKNode)
  current_timestamp_ : Nat
  replacer_size_ : Nat
  k_ : Nat
deriving DecidableEq

namespace LRUKReplacer

/-- The constructor `LRUKReplacer(num_frames, k)`. -/
def new (k : Nat) : LRUKReplacer :=
  { node_store_ := [], current_timestamp_ := 0, replacer_size_ := 0, k_ := k }

/-- `find` on the map `node_store_`. -/
def lookupNode (l : List (Int × LRUKNode)) (frame_id : Int) : Option LRUKNode :=
  (l.find? (fun e => e.1 == frame_id)).map Prod.snd

/-- `erase` on the map `node_store_`. -/
def eraseNode (l : List (Int × LRUKNode)) (frame_id : Int) : List (Int × LRUKNode) :=
  l.filter (fun e => !(e.1 == frame_id))

/-- Assignment to the node of `frame_id` through the iterator `it->second`. -/
def setNode (l : List (Int × LRUKNode)) (frame_id : Int) (n : LRUKNode) :
    List (Int × LRUKNode) :=
  l.map (fun e => if e.1 == frame_id then (e.1, n) else e)

/-- `node_store_.find(frame_id)`. -/
def find (r : LRUKReplacer) (frame_id : Int) : Option LRUKNode :=
  lookupNode r.node_store_ frame_id

/-- `x--` on a `size_t`. -/
def decr64 (x : Nat) : Nat := (x + (2 ^ 64 - 1)) % 2 ^ 64

/-- `x++` on a `size_t`. -/
def incr64 (x : Nat) : Nat := (x + 1) % 2 ^ 64

/-- One pass of `Evict` over `node_store_`: the running maximum `te` of
`current_timestamp_ - front` and the frame that attains it, over the evictable
nodes selected by `sel`. -/
def scan (r : LRUKReplacer) (sel : LRUKNode → Bool) : Nat × Int :=
  r.node_store_.foldl
    (fun acc e =>
      if sel e.2 && e.2.is_evictable && decide (acc.1 < r.current_timestamp_ - e.2.get_front) then
        (r.current_timestamp_ - e.2.get_front, e.1)
      else acc)
    (0, 1)

/-- `Evict`: first the nodes with fewer than `k_` accesses, then those with
exactly `k_`; `none` is the result `false`. -/
def Evict (r : LRUKReplacer) : Option Int × LRUKReplacer :=
  let p1 := r.scan (fun n => decide (n.get_history_size < r.k_))
  if p1.1 ≠ 0 then
    (some p1.2, { r with node_store_ := eraseNode r.node_store_ p1.2,
                         replacer_size_ := decr64 r.replacer_size_ })
  else
    let p2 := r.scan (fun n => decide (n.get_history_size = r.k_))
    if p2.1 ≠ 0 then
      (some p2.2, { r with node_store_ := eraseNode r.node_store_ p2.2,
                           replacer_size_ := decr64 r.replacer_size_ })
    else (none, r)

def RecordAccess (r : LRUKReplacer) (frame_id : Int) : LRUKReplacer :=
  let store := if (lookupNode r.node_store_ frame_id).isNone then
      r.node_store_ ++ [(frame_id, LRUKNode.fresh)]
    else r.node_store_
  let n := (lookupNode store frame_id).getD LRUKNode.fresh
  { r with node_store_ := setNode store frame_id ((n.setk r.k_).push r.current_timestamp_),
           current_timestamp_ := r.current_timestamp_ + 1 }

/-- `SetEvictable` dereferences the iterator without testing it: on a frame
that is not tracked the call has no defined behaviour, `none` here. -/
def SetEvictable (r : LRUKReplacer) (frame_id : Int) (set_evictable : Bool) :
    Option LRUKReplacer :=
  match r.find frame_id with
  | none => none
  | some n =>
    let size1 := if set_evictable && !n.is_evictable then incr64 r.replacer_size_
      else r.replacer_size_
    let size2 := if !set_evictable && n.is_evictable then decr64 size1 else size1
    some { r with replacer_size_ := size2,
                  node_store_ := setNode r.node_store_ frame_id (n.set_evictab set_evictable) }

/-- `Remove` dereferences the iterator without testing it, like
`SetEvictable`. -/
def Remove (r : LRUKReplacer) (frame_id : Int) : Option LRUKReplacer :=
  match r.find frame_id with
  | none => none
  | some n =>
    some { r with replacer_size_ := if n.is_evictable then decr64 r.replacer_size_
                    else r.replacer_size_,
                  node_store_ := eraseNode r.node_store_ frame_id }

def Size (r : LRUKReplacer) : Nat := r.replacer_size_

end LRUKReplacer

/-! ## `buffer_pool_manager.cpp`

`Page` and `DiskManager` are declared outside the sources.  The page ids handed
out by `AllocatePage` and the pin counts are `int`s, modelled as integers that
do not overflow. -/

/-- Modelled from the spec: the metadata and the byte buffer of a `Page`.  The
type `D` stands for the content of the fixed-size buffer and `default` for the
buffer filled with zeros. -/
structure Page (D : Type) where
  page_id_ : Int
  pin_count_ : Int
  is_dirty_ : Bool
  data_ : D

namespace Page

variable {D : Type}

/-- Modelled from the spec: a default-constructed page. -/
def fresh [Inhabited D] : Page D :=
  { page_id_ := INVALID_PAGE_ID, pin_count_ := 0, is_dirty_ := false, data_ := default }

/-- Modelled from the spec: `ResetMemory` zeroes the buffer. -/
def ResetMemory [Inhabited D] (p : Page D) : Page D := { p with data_ := default }

end Page

/-- State of a `BufferPoolManager` together with the disk it writes to.
`disk` is modelled from the spec: the disk manager as a map from page id to
page content, `WritePage` an update and `ReadPage` a lookup. -/
structure BufferPoolManager (D : Type) where
  pool_size_ : Nat
  pages_ : Int → Page D
  free_list_ : List Int
  page_table_ : Int → Option Int
  replacer_ : LRUKReplacer
  next_page_id_ : Int
  disk : Int → D

namespace BufferPoolManager

variable {D : Type} [Inhabited D]

/-- The constructor: every frame is in the free list. -/
def new (pool_size replacer_k : Nat) (disk : Int → D) : BufferPoolManager D :=
  { pool_size_ := pool_size,
    pages_ := fun _ => Page.fresh,
    free_list_ := (List.range pool_size).map Int.ofNat,
    page_table_ := fun _ => none,
    replacer_ := LRUKReplacer.new replacer_k,
    next_page_id_ := 0,
    disk := disk }

/-- `page_table_.insert`: an `unordered_map` keeps the old value when the key
is present already. -/
def tableInsert (t : Int → Option Int) (page_id frame_id : Int) : Int → Option Int :=
  match t page_id with
  | some _ => t
  | none => Function.update t page_id (some frame_id)

/-- `page_table_.erase`. -/
def tableErase (t : Int → Option Int) (page_id : Int) : Int → Option Int :=
  Function.update t page_id none

/-- The frame acquisition shared by `NewPage` and `FetchPage`: the front of the
free list, else a victim of the replacer, written back when dirty and unmapped.
The inner `none` is the case without a frame. -/
def acquireFrame (s : BufferPoolManager D) : Option (Int × BufferPoolManager D) :=
  match s.free_list_ with
  | fra :: rest => some (fra, { s with free_list_ := rest })
  | [] =>
    match s.replacer_.Evict with
    | (none, _) => none
    | (some fra, r) =>
      let disk := if (s.pages_ fra).is_dirty_ then
          Function.update s.disk (s.pages_ fra).page_id_ (s.pages_ fra).data_
        else s.disk
      some (fra, { s with replacer_ := r, disk := disk,
                          page_table_ := tableErase s.page_table_ (s.pages_ fra).page_id_ })

/-- `NewPage`.  The outer `none` is undefined behaviour inside the replacer; the
inner `none` is the result `nullptr`, otherwise the new page id and the frame. -/
def NewPage (s : BufferPoolManager D) : Option (Option (Int × Int) × BufferPoolManager D) :=
  match acquireFrame s with
  | none => some (none, s)
  | some (fra, s1) =>
    ((s1.replacer_.RecordAccess fra).SetEvictable fra false).map fun r =>
      let page_i := s1.next_page_id_
      (some (page_i, fra),
        { s1 with
          replacer_ := r,
          next_page_id_ := s1.next_page_id_ + 1,
          page_table_ := tableInsert s1.page_table_ page_i fra,
          pages_ := Function.update s1.pages_ fra
            { page_id_ := page_i, pin_count_ := 1, is_dirty_ := false, data_ := default } })

/-- `FetchPage`; the result is the frame that holds the page, or `none` for
`nullptr`. -/
def FetchPage (s : BufferPoolManager D) (page_id : Int) :
    Option (Option Int × BufferPoolManager D) :=
  match s.page_table_ page_id with
  | some fra =>
    ((s.replacer_.RecordAccess fra).SetEvictable fra false).map fun r =>
      (some fra,
        { s with
          replacer_ := r,
          pages_ := Function.update s.pages_ fra
            { s.pages_ fra with pin_count_ := (s.pages_ fra).pin_count_ + 1 } })
  | none =>
    match acquireFrame s with
    | none => some (none, s)
    | some (fra, s1) =>
      ((s1.replacer_.RecordAccess fra).SetEvictable fra false).map fun r =>
        (some fra,
          { s1 with
            replacer_ := r,
            page_table_ := tableInsert s1.page_table_ page_id fra,
            pages_ := Function.update s1.pages_ fra
              { page_id_ := page_id, pin_count_ := 1, is_dirty_ := false,
                data_ := s1.disk page_id } })

def UnpinPage (s : BufferPoolManager D) (page_id : Int) (is_dirty : Bool) :
    Option (Bool × BufferPoolManager D) :=
  match s.page_table_ page_id with
  | none => some (false, s)
  | some fra =>
    if page_id = INVALID_PAGE_ID ∨ (s.pages_ fra).pin_count_ = 0 then some (false, s)
    else
      let pin := (s.pages_ fra).pin_count_ - 1
      (if pin = 0 then s.replacer_.SetEvictable fra true else some s.replacer_).map fun r =>
        (true,
          { s with
            replacer_ := r,
            pages_ := Function.update s.pages_ fra
              { s.pages_ fra with pin_count_ := pin,
                                  is_dirty_ := (s.pages_ fra).is_dirty_ || is_dirty } })

def FlushPage (s : BufferPoolManager D) (page_id : Int) : Bool × BufferPoolManager D :=
  match s.page_table_ page_id with
  | none => (false, s)
  | some fra =>
    if page_id = INVALID_PAGE_ID then (false, s)
    else
      (true,
        { s with
          disk := Function.update s.disk page_id (s.pages_ fra).data_,
          pages_ := Function.update s.pages_ fra { s.pages_ fra with is_dirty_ := false } })

/-- Modelled from the spec: `latch_`, declared in a header outside the sources,
is a mutex.  `lock()` returns once the latch is free; called by the thread that
holds the latch already it never returns, which is the result `none`.  The
argument says whether the calling thread holds the latch. -/
def lockLatch (held : Bool) : Option Unit := if held then none else some ()

/-- `FlushPage` as it is called: its first statement is `latch_.lock()`, its
last `latch_.unlock()`. -/
def FlushPageCall (held : Bool) (s : BufferPoolManager D) (page_id : Int) :
    Option (Bool × BufferPoolManager D) :=
  (lockLatch held).map fun _ => FlushPage s page_id

/-- `FlushAllPages`: `latch_.lock()`, then the call `FlushPage(pages_[i].page_id_)`
for every frame `i < pool_size_`, then `latch_.unlock()`. -/
def FlushAllPages (s : BufferPoolManager D) : Option (BufferPoolManager D) :=
  (lockLatch false).bind fun _ =>
    (List.range s.pool_size_).foldlM
      (fun s i => (FlushPageCall true s (s.pages_ (Int.ofNat i)).page_id_).map Prod.snd) s

/-- `BufferPoolManagerInstance::FlushAllPgsImp`: the same loop, entered without
the latch (`FlushPgImp` has the body of `FlushPage`). -/
def FlushAllPgsImp (s : BufferPoolManager D) : Option (BufferPoolManager D) :=
  (List.range s.pool_size_).foldlM
    (fun s i => (FlushPageCall false s (s.pages_ (Int.ofNat i)).page_id_).map Prod.snd) s

def DeletePage (s : BufferPoolManager D) (page_id : Int) :
    Option (Bool × BufferPoolManager D) :=
  if page_id = INVALID_PAGE_ID then some (true, s)
  else
    match s.page_table_ page_id with
    | none => some (true, s)
    | some fra =>
      if 0 < (s.pages_ fra).pin_count_ then some (false, s)
      else
        (s.replacer_.Remove fra).map fun r =>
          (true,
            { s with
              free_list_ := s.free_list_ ++ [fra],
              replacer_ := r,
              page_table_ := tableErase s.page_table_ page_id,
              pages_ := Function.update s.pages_ fra (s.pages_ fra).ResetMemory })

end BufferPoolManager

/-- Shape of a replacer that its operations maintain: one node per frame, and
every node has between one and `k_` recorded accesses, all of them older than
the current timestamp. -/
structure ReplInv (r : LRUKReplacer) : Prop where
  kpos : 0 < r.k_
  keys_nodup : (r.node_store_.map Prod.fst).Nodup
  hist : ∀ e ∈ r.node_store_, e.2.history_ ≠ [] ∧ e.2.history_.length ≤ r.k_ ∧
    ∀ ts ∈ e.2.history_, ts < r.current_timestamp_

/-- Invariant of the buffer pool; it holds after every sequence of calls. -/
structure BPMInv {D : Type} (s : BufferPoolManager D) : Prop where
  repl : ReplInv s.replacer_
  free_nodup : s.free_list_.Nodup
  free_range : ∀ f ∈ s.free_list_, 0 ≤ f ∧ f < s.pool_size_
  table : ∀ p f, s.page_table_ p = some f →
    0 ≤ f ∧ f < s.pool_size_ ∧ (s.pages_ f).page_id_ = p ∧ f ∉ s.free_list_
  tracked : ∀ f, (s.replacer_.find f).isSome = true ↔
    (0 ≤ f ∧ f < s.pool_size_ ∧ f ∉ s.free_list_)
  evictable : ∀ f n, s.replacer_.find f = some n → n.is_evictable_ = true →
    (s.pages_ f).pin_count_ = 0 ∧ s.page_table_ (s.pages_ f).page_id_ = some f
  pin_nonneg : ∀ f, 0 ≤ (s.pages_ f).pin_count_

/-- A call of the buffer pool interface. -/
inductive BPMOp where
  | newPage
  | fetchPage (page_id : Int)
  | unpinPage (page_id : Int) (is_dirty : Bool)
  | flushPage (page_id : Int)
  | deletePage (page_id : Int)
deriving DecidableEq

namespace BufferPoolManager

variable {D : Type} [Inhabited D]

/-- The state one call leaves, `none` on undefined behaviour. -/
def applyOp (s : BufferPoolManager D) : BPMOp → Option (BufferPoolManager D)
  | .newPage => (NewPage s).map Prod.snd
  | .fetchPage p => (FetchPage s p).map Prod.snd
  | .unpinPage p d => (UnpinPage s p d).map Prod.snd
  | .flushPage p => some (FlushPage s p).2
  | .deletePage p => (DeletePage s p).map Prod.snd

/-- A sequence of calls issued one after the other. -/
def runOps : List BPMOp → BufferPoolManager D → Option (BufferPoolManager D)
  | [], s => some s
  | op :: ops, s => (applyOp s op).bind (runOps ops)

end BufferPoolManager

/-! ## `lock_manager.cpp`

Every lock function holds `latch_` from its first statement to its return or to
`cv_.wait`, so a call runs as one step up to the point where it returns or
blocks.  A blocked call resumes at the top of its `while (true)` loop: it is
modelled by running the function again on the state found at the wake-up. -/

inductive TransactionState where
  | GROWING
  | SHRINKING
  | COMMITTED
  | ABORTED
deriving DecidableEq

inductive IsolationLevel where
  | READ_UNCOMMITTED
  | REPEATABLE_READ
  | READ_COMMITTED
deriving DecidableEq

/-- Modelled from the spec: a transaction exposes its state, its isolation
level and the sets of RIDs it holds in shared and in exclusive mode
(`transaction.h` is not among the sources).  A set is given by its membership
function: `emplace` sets the value at a RID to true, `erase` to false. -/
structure Transaction (RID : Type) where
  state_ : TransactionState
  isolation_level_ : IsolationLevel
  shared_lock_set_ : RID → Bool
  exclusive_lock_set_ : RID → Bool

inductive LockMode where
  | SHARED
  | EXCLUSIVE
deriving DecidableEq

structure LockRequest where
  txn_id_ : Int
  lock_mode_ : LockMode
  granted_ : Bool
deriving DecidableEq

/-- The condition variable `cv_` carries no data. -/
structure LockRequestQueue where
  request_queue_ : List LockRequest
  upgrading_ : Bool
deriving DecidableEq

/-- Modelled from the spec: the registry of `TransactionManager`
(`transaction_manager.h` is not among the sources).  `GetTransaction(id)` is
the transaction registered under `id`, and the transaction passed to a lock
function is the one registered under its own id. -/
abbrev TransactionMap (RID : Type) : Type := Int → Transaction RID

/-- The member `lock_table_` (a RID without a queue reads as the empty queue
that `lock_table_[rid]` creates), together with the transactions the lock
manager reaches through `TransactionManager::GetTransaction`. -/
structure LockManager (RID : Type) where
  txn_map : TransactionMap RID
  lock_table_ : RID → LockRequestQueue

/-- How control leaves a lock function: by `return`, or blocked in `cv_.wait`
with the iterator at the entry `iterque`. -/
inductive LockResult where
  | returned (b : Bool)
  | waiting (iterque : LockRequest)
deriving DecidableEq

namespace LockManager

variable {RID : Type} [DecidableEq RID]

/-- `GetTransaction(txn_id)->SetState(state)`. -/
def SetState (m : Int → Transaction RID) (txn_id : Int) (state : TransactionState) :
    Int → Transaction RID :=
  Function.update m txn_id { m txn_id with state_ := state }

/-- The loop over the queue and the `emplace_back` after it. -/
def try_Insert (txn_id : Int) (lock_mode : LockMode) (grant : Bool) :
    List LockRequest → List LockRequest
  | [] => [{ txn_id_ := txn_id, lock_mode_ := lock_mode, granted_ := grant }]
  | itor :: rest =>
    if itor.txn_id_ = txn_id then { itor with granted_ := itor.granted_ || grant } :: rest
    else itor :: try_Insert txn_id lock_mode grant rest

/-- The three statements on a younger transaction in `LockShared`: the state
becomes ABORTED and `rid` leaves the exclusive lock set. -/
def woundShared (m : Int → Transaction RID) (txn_id : Int) (rid : RID) : Int → Transaction RID :=
  Function.update m txn_id
    { m txn_id with
      state_ := .ABORTED,
      exclusive_lock_set_ := Function.update (m txn_id).exclusive_lock_set_ rid false }

/-- The statements on a younger transaction in `LockExclusive` and
`LockUpgrade`: the state becomes ABORTED and `rid` leaves both lock sets. -/
def woundExclusive (m : Int → Transaction RID) (txn_id : Int) (rid : RID) :
    Int → Transaction RID :=
  Function.update m txn_id
    { m txn_id with
      state_ := .ABORTED,
      shared_lock_set_ := Function.update (m txn_id).shared_lock_set_ rid false,
      exclusive_lock_set_ := Function.update (m txn_id).exclusive_lock_set_ rid false }

/-- The inner loop of `LockShared` from the iterator position on.  The result
is the entry at which the loop was left with `fl = true` (if it was), the part
of the queue from the iterator position on as the loop leaves it, and the
transactions. -/
def scanShared (txn : Int) (rid : RID) :
    List LockRequest → (Int → Transaction RID) →
      Option LockRequest × List LockRequest × (Int → Transaction RID)
  | [], m => (none, [], m)
  | iterque :: rest, m =>
    if iterque.txn_id_ > txn ∧ iterque.lock_mode_ = .EXCLUSIVE then
      scanShared txn rid rest (woundShared m iterque.txn_id_ rid)
    else if iterque.txn_id_ < txn ∧ iterque.lock_mode_ = .EXCLUSIVE then
      (some iterque, iterque :: rest, m)
    else if iterque.txn_id_ = txn then
      (none, iterque :: rest, m)
    else
      let r := scanShared txn rid rest m
      (r.1, iterque :: r.2.1, r.2.2)

def LockShared (lm : LockManager RID) (txn : Int) (rid : RID) : LockResult × LockManager RID :=
  let t := lm.txn_map txn
  if t.state_ = .ABORTED ∨ t.state_ = .COMMITTED then (.returned false, lm)
  else if t.isolation_level_ = .READ_UNCOMMITTED then
    (.returned false, { lm with txn_map := SetState lm.txn_map txn .ABORTED })
  else if t.isolation_level_ = .REPEATABLE_READ ∧ t.state_ = .SHRINKING then
    (.returned false, { lm with txn_map := SetState lm.txn_map txn .ABORTED })
  else if t.shared_lock_set_ rid = true then (.returned true, lm)
  else
    let q := lm.lock_table_ rid
    let r := scanShared txn rid q.request_queue_ lm.txn_map
    match r.1 with
    | some iterque =>
      (.waiting iterque,
        { txn_map := r.2.2,
          lock_table_ := Function.update lm.lock_table_ rid
            { q with request_queue_ := try_Insert txn .SHARED false r.2.1 } })
    | none =>
      (.returned true,
        { txn_map := Function.update r.2.2 txn
            { r.2.2 txn with
              state_ := .GROWING,
              shared_lock_set_ := Function.update (r.2.2 txn).shared_lock_set_ rid true },
          lock_table_ := Function.update lm.lock_table_ rid
            { q with request_queue_ := try_Insert txn .SHARED true r.2.1 } })

/-- The inner loop of `LockExclusive`, with the result read as for
`scanShared`. -/
def scanExclusive (txn : Int) (rid : RID) :
    List LockRequest → (Int → Transaction RID) →
      Option LockRequest × List LockRequest × (Int → Transaction RID)
  | [], m => (none, [], m)
  | iterque :: rest, m =>
    if iterque.txn_id_ > txn then
      scanExclusive txn rid rest (woundExclusive m iterque.txn_id_ rid)
    else if iterque.txn_id_ < txn then
      (some iterque, iterque :: rest, m)
    else if iterque.txn_id_ = txn then
      (none, iterque :: rest, m)
    else
      let r := scanExclusive txn rid rest m
      (r.1, iterque :: r.2.1, r.2.2)

def LockExclusive (lm : LockManager RID) (txn : Int) (rid : RID) :
    LockResult × LockManager RID :=
  let t := lm.txn_map txn
  if t.state_ = .ABORTED ∨ t.state_ = .COMMITTED then (.returned false, lm)
  else if t.isolation_level_ = .REPEATABLE_READ ∧ t.state_ = .SHRINKING then
    (.returned false, { lm with txn_map := SetState lm.txn_map txn .ABORTED })
  else if t.exclusive_lock_set_ rid = true then (.returned true, lm)
  else
    let q := lm.lock_table_ rid
    let r := scanExclusive txn rid q.request_queue_ lm.txn_map
    match r.1 with
    | some iterque =>
      (.waiting iterque,
        { txn_map := r.2.2,
          lock_table_ := Function.update lm.lock_table_ rid
            { q with request_queue_ := try_Insert txn .EXCLUSIVE false r.2.1 } })
    | none =>
      (.returned true,
        { txn_map := Function.update r.2.2 txn
            { r.2.2 txn with
              state_ := .GROWING,
              exclusive_lock_set_ := Function.update (r.2.2 txn).exclusive_lock_set_ rid true },
          lock_table_ := Function.update lm.lock_table_ rid
            { q with request_queue_ := try_Insert txn .EXCLUSIVE true r.2.1 } })

/-- The inner loop of `LockUpgrade`; an entry of the caller is stepped over. -/
def scanUpgrade (txn : Int) (rid : RID) :
    List LockRequest → (Int → Transaction RID) →
      Option LockRequest × List LockRequest × (Int → Transaction RID)
  | [], m => (none, [], m)
  | iterque :: rest, m =>
    if iterque.txn_id_ > txn then
      scanUpgrade txn rid rest (woundExclusive m iterque.txn_id_ rid)
    else if iterque.txn_id_ < txn then
      (some iterque, iterque :: rest, m)
    else
      let r := scanUpgrade txn rid rest m
      (r.1, iterque :: r.2.1, r.2.2)

/-- The assignment `request_queue_.front().lock_mode_ = EXCLUSIVE`; it follows
a `try_Insert`, so the queue is not empty there. -/
def upgradeFront : List LockRequest → List LockRequest
  | [] => []
  | request_item :: rest => { request_item with lock_mode_ := .EXCLUSIVE } :: rest

def LockUpgrade (lm : LockManager RID) (txn : Int) (rid : RID) : LockResult × LockManager RID :=
  let t := lm.txn_map txn
  if t.state_ = .ABORTED ∨ t.state_ = .COMMITTED then (.returned false, lm)
  else if t.isolation_level_ = .REPEATABLE_READ ∧ t.state_ = .SHRINKING then
    (.returned false, { lm with txn_map := SetState lm.txn_map txn .ABORTED })
  else if t.exclusive_lock_set_ rid = true then (.returned true, lm)
  else if (lm.lock_table_ rid).upgrading_ = true then (.returned false, lm)
  else
    let q := lm.lock_table_ rid
    let r := scanUpgrade txn rid q.request_queue_ lm.txn_map
    match r.1 with
    | some iterque =>
      (.waiting iterque,
        { txn_map := r.2.2,
          lock_table_ := Function.update lm.lock_table_ rid
            { request_queue_ := r.2.1, upgrading_ := true } })
    | none =>
      (.returned true,
        { txn_map := Function.update r.2.2 txn
            { r.2.2 txn with
              shared_lock_set_ := Function.update (r.2.2 txn).shared_lock_set_ rid false,
              exclusive_lock_set_ := Function.update (r.2.2 txn).exclusive_lock_set_ rid true },
          lock_table_ := Function.update lm.lock_table_ rid
            { request_queue_ := upgradeFront (try_Insert txn .EXCLUSIVE true r.2.1),
              upgrading_ := false } })

/-- The loop of `Unlock`: the queue without the first entry of `txn`, or `none`
when the loop runs to the end. -/
def eraseOwn (txn : Int) : List LockRequest → Option (List LockRequest)
  | [] => none
  | itor :: rest =>
    if itor.txn_id_ = txn then some rest
    else (eraseOwn txn rest).map fun queue => itor :: queue

/-- `notify_all` wakes the blocked calls; it changes no data. -/
def Unlock (lm : LockManager RID) (txn : Int) (rid : RID) : Bool × LockManager RID :=
  let t := lm.txn_map txn
  let m :=
    if t.isolation_level_ = .REPEATABLE_READ ∧ t.state_ = .GROWING then
      SetState lm.txn_map txn .SHRINKING
    else lm.txn_map
  let q := lm.lock_table_ rid
  match eraseOwn txn q.request_queue_ with
  | some queue =>
    (true,
      { txn_map := Function.update m txn
          { m txn with
            shared_lock_set_ := Function.update (m txn).shared_lock_set_ rid false,
            exclusive_lock_set_ := Function.update (m txn).exclusive_lock_set_ rid false },
        lock_table_ := Function.update lm.lock_table_ rid { q with request_queue_ := queue } })
  | none => (false, { lm with txn_map := m })

end LockManager

/-- The lock function in which a thread is blocked. -/
inductive LockCall where
  | shared
  | exclusive
  | upgrade
deriving DecidableEq

/-- A call of the lock manager interface by the thread of transaction `txn`. -/
inductive LockOp (RID : Type) where
  | lockShared (txn : Int) (rid : RID)
  | lockExclusive (txn : Int) (rid : RID)
  | lockUpgrade (txn : Int) (rid : RID)
  | unlock (txn : Int) (rid : RID)

/-- The lock manager and the threads of the transactions, one thread each:
`blocked txn` is the call in which the thread of `txn` sits in `cv_.wait`. -/
structure LockSystem (RID : Type) where
  lm : LockManager RID
  blocked : Int → Option (LockCall × RID)

namespace LockSystem

variable {RID : Type} [DecidableEq RID]

/-- Modelled from the spec: transactions start in the GROWING phase without a
lock; `iso` gives their isolation levels.  The lock table of a new lock manager
is empty and no thread is blocked. -/
def start (iso : Int → IsolationLevel) : LockSystem RID :=
  { lm :=
      { txn_map := fun txn =>
          { state_ := .GROWING, isolation_level_ := iso txn,
            shared_lock_set_ := fun _ => false, exclusive_lock_set_ := fun _ => false },
        lock_table_ := fun _ => { request_queue_ := [], upgrading_ := false } },
    blocked := fun _ => none }

/-- The system after the thread of `txn` ran `call` on `rid` up to its return
or its `cv_.wait`. -/
def afterCall (s : LockSystem RID) (txn : Int) (call : LockCall) (rid : RID)
    (r : LockResult × LockManager RID) : LockSystem RID :=
  { lm := r.2,
    blocked := Function.update s.blocked txn
      (match r.1 with
        | .waiting _ => some (call, rid)
        | .returned _ => none) }

/-- A thread that is not blocked may start a call. -/
def free (s : LockSystem RID) (txn : Int) : Prop := s.blocked txn = none

instance (s : LockSystem RID) (txn : Int) : Decidable (s.free txn) := by
  unfold free; infer_instance

/-- The transaction holds no lock on `rid`: locking a RID that the transaction
has locked already is undefined behaviour by the note in `lock_manager.h`. -/
def unlocked (s : LockSystem RID) (txn : Int) (rid : RID) : Prop :=
  (s.lm.txn_map txn).shared_lock_set_ rid = false ∧
    (s.lm.txn_map txn).exclusive_lock_set_ rid = false

instance (s : LockSystem RID) (txn : Int) (rid : RID) : Decidable (s.unlocked txn rid) := by
  unfold unlocked; infer_instance

/-- One step of the system: a thread starts a call, or a blocked thread wakes
up and runs the loop of its call again.  The result is `none` for a step that
cannot occur: a lock call by a thread that is blocked in another call, and a
`LockShared` or `LockExclusive` on a RID the transaction has locked already.
`Unlock` never blocks and is admitted in every state, also on behalf of a
transaction whose thread is blocked. -/
def applyOp (s : LockSystem RID) : LockOp RID → Option (LockSystem RID)
  | .lockShared txn rid =>
    if s.blocked txn = some (.shared, rid) ∨ (s.free txn ∧ s.unlocked txn rid) then
      some (s.afterCall txn .shared rid (s.lm.LockShared txn rid))
    else none
  | .lockExclusive txn rid =>
    if s.blocked txn = some (.exclusive, rid) ∨ (s.free txn ∧ s.unlocked txn rid) then
      some (s.afterCall txn .exclusive rid (s.lm.LockExclusive txn rid))
    else none
  | .lockUpgrade txn rid =>
    if s.blocked txn = some (.upgrade, rid) ∨ s.free txn then
      some (s.afterCall txn .upgrade rid (s.lm.LockUpgrade txn rid))
    else none
  | .unlock txn rid => some { s with lm := (s.lm.Unlock txn rid).2 }

/-- A sequence of steps. -/
def runOps : List (LockOp RID) → LockSystem RID → Option (LockSystem RID)
  | [], s => some s
  | op :: ops, s => (applyOp s op).bind (runOps ops)

end LockSystem

/-! ## Executors (`src/execution`)

The executors are iterators: `Init` positions an executor before its first row
and `Next` returns the next row, or false at the end.  `Tuple`, `Schema`, the
expressions, the plan nodes, the catalogue, the table heap and the child
executors are declared outside the sources; they are modelled here by what the
executors use of them.  An executor is modelled by its members, `Init` and
`Next` by functions on them; a loop or a recursion that pulls rows from a child
is counted by `fuel`, with `none` when the fuel runs out. -/

/-- Modelled from the spec: a `Tuple` holds the values of its columns, in the
order of the schema it was built with, and a RID. -/
structure Tuple (Val RID : Type) where
  values : List Val
  rid_ : RID
deriving DecidableEq

namespace Tuple

variable {Val RID : Type}

/-- Modelled from the spec: the constructor `Tuple(values, schema)`; the RID of
the new tuple is the default-constructed one. -/
def ofValues [Inhabited RID] (values : List Val) : Tuple Val RID :=
  { values := values, rid_ := default }

def GetRid (t : Tuple Val RID) : RID := t.rid_

/-- Modelled from the spec: `GetValue(schema, column_idx)`; a column index
beyond the columns of the tuple is outside its contract, the result `none`. -/
def GetValue (t : Tuple Val RID) (column_idx : Nat) : Option Val := t.values[column_idx]?

/-- The loop `for (idx = 0; idx < count; idx++) vals.push_back(GetValue(schema, idx))`. -/
def columnValues (t : Tuple Val RID) : Nat → Option (List Val)
  | 0 => some []
  | idx + 1 => (columnValues t idx).bind fun vals => (t.GetValue idx).map fun v => vals ++ [v]

/-- Modelled from the spec: `KeyFromTuple(schema, key_schema, key_attrs)`, the
values of the key columns. -/
def KeyFromTuple (t : Tuple Val RID) : List Nat → Option (List Val)
  | [] => some []
  | attr :: key_attrs =>
    (t.GetValue attr).bind fun v => (KeyFromTuple t key_attrs).map fun vals => v :: vals

end Tuple

/-- Modelled from the spec: an expression, given by the values that
`Evaluate(tuple, schema)` and `EvaluateJoin(left, left_schema, right,
right_schema)` return; the schema arguments describe the layout of the tuples
and are left out. -/
structure AbstractExpression (Val RID : Type) where
  Evaluate : Tuple Val RID → Val
  EvaluateJoin : Tuple Val RID → Tuple Val RID → Val

/-- Modelled from the spec: a predicate of a plan node, an expression together
with the conversion `GetAs<bool>()` of its value. -/
structure PredicateExpression (Val RID : Type) where
  Evaluate : Tuple Val RID → Bool
  EvaluateJoin : Tuple Val RID → Tuple Val RID → Bool

/-- Modelled from the spec: a `Schema` is the list of its columns, and a column
is used through its expression `GetExpr()` only. -/
abbrev Schema (Val RID : Type) := List (AbstractExpression Val RID)

/-- Modelled from the spec: a child executor, `AbstractExecutor`.  It produces
the rows `rows`, each a tuple with a RID; `cursor` holds the rows not returned
yet. -/
structure AbstractExecutor (Val RID : Type) where
  rows : List (Tuple Val RID × RID)
  cursor : List (Tuple Val RID × RID)

namespace AbstractExecutor

variable {Val RID : Type}

/-- Modelled from the spec: `Init` positions the child before its first row. -/
def Init (c : AbstractExecutor Val RID) : AbstractExecutor Val RID :=
  { c with cursor := c.rows }

/-- Modelled from the spec: `Next` returns the next row, `none` standing for
the result false. -/
def Next (c : AbstractExecutor Val RID) :
    Option (Tuple Val RID × RID) × AbstractExecutor Val RID :=
  match c.cursor with
  | [] => (none, c)
  | row :: rest => (some row, { c with cursor := rest })

end AbstractExecutor

/-- The caller of an executor: `Next` is called until it returns false; the
result is the list of the rows returned and the state left.  `fuel` bounds the
number of calls. -/
def pullAll {S Row : Type} (next : S → Option (Option Row × S)) :
    Nat → S → Option (List Row × S)
  | 0, _ => none
  | fuel + 1, s =>
    match next s with
    | none => none
    | some (none, s) => some ([], s)
    | some (some row, s) => (pullAll next fuel s).map fun r => (row :: r.1, r.2)

/-! ### `limit_executor.cpp` -/

/-- Modelled from the spec: the plan node of a limit. -/
structure LimitPlanNode where
  GetLimit : Nat

/-- The members of a `LimitExecutor`; `output_num_` is a counter that does not
overflow. -/
structure LimitExecutor (Val RID : Type) where
  plan_ : LimitPlanNode
  child_executor_ : AbstractExecutor Val RID
  output_num_ : Nat

namespace LimitExecutor

variable {Val RID : Type}

def Init (e : LimitExecutor Val RID) : LimitExecutor Val RID :=
  { e with child_executor_ := e.child_executor_.Init, output_num_ := 0 }

def Next (e : LimitExecutor Val RID) : Option (Tuple Val RID × RID) × LimitExecutor Val RID :=
  if e.output_num_ ≥ e.plan_.GetLimit then (none, e)
  else
    match e.child_executor_.Next with
    | (some (te_tu, te_rid), child) =>
      (some (te_tu, te_rid),
        { e with child_executor_ := child, output_num_ := e.output_num_ + 1 })
    | (none, child) => (none, { e with child_executor_ := child })

end LimitExecutor

/-! ### `distinct_executor.cpp` -/

/-- Modelled from the spec: the plan node of a distinct. -/
structure DistinctPlanNode (Val RID : Type) where
  OutputSchema : Schema Val RID

/-- The members of a `DistinctExecutor`.  `map_` is an `unordered_map` from
`DistinctKey` to `Tuple`, searched by `find` only; it is modelled by the list of
its entries. -/
structure DistinctExecutor (Val RID : Type) where
  plan_ : DistinctPlanNode Val RID
  child_executor_ : AbstractExecutor Val RID
  map_ : List (List Val × Tuple Val RID)

namespace DistinctExecutor

variable {Val RID : Type}

def Init (e : DistinctExecutor Val RID) : DistinctExecutor Val RID :=
  { e with child_executor_ := e.child_executor_.Init }

/-- `Next`, with the recursion `return Next(tuple, rid)` counted by `fuel`.  The
outer `none` is a read beyond the columns of a child tuple, or the fuel running
out. -/
def NextFuel [DecidableEq Val] [Inhabited RID] :
    Nat → DistinctExecutor Val RID →
      Option (Option (Tuple Val RID × RID) × DistinctExecutor Val RID)
  | 0, _ => none
  | fuel + 1, e =>
    match e.child_executor_.Next with
    | (some (te_tu, _), child) =>
      (te_tu.columnValues e.plan_.OutputSchema.length).bind fun distincts_ =>
        let temp_tuple : Tuple Val RID := Tuple.ofValues distincts_
        if (e.map_.find? fun entry => decide (entry.1 = distincts_)).isNone then
          some (some (temp_tuple, temp_tuple.GetRid),
            { e with child_executor_ := child, map_ := (distincts_, temp_tuple) :: e.map_ })
        else NextFuel fuel { e with child_executor_ := child }
    | (none, child) => some (none, { e with child_executor_ := child })

/-- `Next`: every nested call has pulled a row from the child, so one call
more than the child has rows left is enough. -/
def Next [DecidableEq Val] [Inhabited RID] (e : DistinctExecutor Val RID) :
    Option (Option (Tuple Val RID × RID) × DistinctExecutor Val RID) :=
  NextFuel (e.child_executor_.cursor.length + 1) e

end DistinctExecutor

/-! ### `hash_join_executor.cpp` -/

/-- Modelled from the spec: the plan node of a hash join. -/
structure HashJoinPlanNode (Val RID : Type) where
  LeftJoinKeyExpression : AbstractExpression Val RID
  RightJoinKeyExpression : AbstractExpression Val RID
  OutputSchema : Schema Val RID

/-- The members of a `HashJoinExecutor`.  `map_` is an `unordered_map` from
`HashJoinKey` to a vector of tuples, modelled by a function with `none` for a
key without an entry. -/
structure HashJoinExecutor (Val RID : Type) where
  plan_ : HashJoinPlanNode Val RID
  left_child_executor_ : AbstractExecutor Val RID
  right_child_executor_ : AbstractExecutor Val RID
  map_ : Val → Option (List (Tuple Val RID))
  fl : Int
  right_tu : Tuple Val RID
  right_rid : RID

namespace HashJoinExecutor

variable {Val RID : Type}

/-- The loop of `Init` over the left child. -/
def buildLoop [DecidableEq Val] (plan : HashJoinPlanNode Val RID) :
    Nat → AbstractExecutor Val RID → (Val → Option (List (Tuple Val RID))) →
      Option (AbstractExecutor Val RID × (Val → Option (List (Tuple Val RID))))
  | 0, _, _ => none
  | fuel + 1, left, map =>
    match left.Next with
    | (some (left_tu, _), left) =>
      let temp_joinkey := plan.LeftJoinKeyExpression.Evaluate left_tu
      match map temp_joinkey with
      | none => buildLoop plan fuel left (Function.update map temp_joinkey (some [left_tu]))
      | some bucket =>
        buildLoop plan fuel left (Function.update map temp_joinkey (some (bucket ++ [left_tu])))
    | (none, left) => some (left, map)

/-- `Init`; the loop ends when the left child has returned its rows, so one
iteration more than the child has rows is enough. -/
def Init [DecidableEq Val] (e : HashJoinExecutor Val RID) : Option (HashJoinExecutor Val RID) :=
  let left := e.left_child_executor_.Init
  let right := e.right_child_executor_.Init
  (buildLoop e.plan_ (left.cursor.length + 1) left e.map_).map fun r =>
    { e with left_child_executor_ := r.1, right_child_executor_ := right, fl := -1,
             map_ := r.2 }

/-- The loop `while(true)` of `Next`, its iterations counted by `fuel`. -/
def NextFuel [DecidableEq Val] [Inhabited RID] :
    Nat → HashJoinExecutor Val RID →
      Option (Option (Tuple Val RID × RID) × HashJoinExecutor Val RID)
  | 0, _ => none
  | fuel + 1, e =>
    let pulled : Option (HashJoinExecutor Val RID) :=
      if e.fl = -1 then
        match e.right_child_executor_.Next with
        | (some (right_tu, right_rid), right) =>
          some { e with right_child_executor_ := right, right_tu := right_tu,
                        right_rid := right_rid }
        | (none, _) => none
      else some e
    match pulled with
    | none =>
      some (none, { e with right_child_executor_ := e.right_child_executor_.Next.2 })
    | some e =>
      let temp_joinkey := e.plan_.RightJoinKeyExpression.Evaluate e.right_tu
      let fl := e.fl + 1
      match e.map_ temp_joinkey with
      | none => NextFuel fuel { e with fl := -1 }
      | some bucket =>
        if fl ≥ (bucket.length : Int) then NextFuel fuel { e with fl := -1 }
        else
          bucket[fl.toNat]?.map fun left_tu =>
            let vals := e.plan_.OutputSchema.map fun col => col.EvaluateJoin left_tu e.right_tu
            let temp_tuple : Tuple Val RID := Tuple.ofValues vals
            (some (temp_tuple, temp_tuple.GetRid), { e with fl := fl })

/-- `Next`: an iteration that does not return either pulls a row from the right
child or follows one that did not, so two iterations more than the right child
has rows left are enough. -/
def Next [DecidableEq Val] [Inhabited RID] (e : HashJoinExecutor Val RID) :
    Option (Option (Tuple Val RID × RID) × HashJoinExecutor Val RID) :=
  NextFuel (e.right_child_executor_.cursor.length + 2) e

end HashJoinExecutor

/-! ### `nested_loop_join_executor.cpp` -/

/-- Modelled from the spec: the plan node of a nested loop join; `Predicate` is
`none` for `nullptr`. -/
structure NestedLoopJoinPlanNode (Val RID : Type) where
  Predicate : Option (PredicateExpression Val RID)
  OutputSchema : Schema Val RID

/-- The members of a `NestedLoopJoinExecutor`. -/
structure NestedLoopJoinExecutor (Val RID : Type) where
  plan_ : NestedLoopJoinPlanNode Val RID
  left_executor_ : AbstractExecutor Val RID
  right_executor_ : AbstractExecutor Val RID

namespace NestedLoopJoinExecutor

variable {Val RID : Type}

def Init (e : NestedLoopJoinExecutor Val RID) : NestedLoopJoinExecutor Val RID :=
  { e with left_executor_ := e.left_executor_.Init, right_executor_ := e.right_executor_.Init }

/-- The inner loop `while (right_executor_->Next(&right_tu, &right_rid))` for
the left tuple `left_tu`: the row it returns, or `none` when the right child is
at its end, and the right child. -/
def innerLoop [Inhabited RID] (plan : NestedLoopJoinPlanNode Val RID) (left_tu : Tuple Val RID) :
    Nat → AbstractExecutor Val RID →
      Option (Option (Tuple Val RID × RID) × AbstractExecutor Val RID)
  | 0, _ => none
  | fuel + 1, right =>
    match right.Next with
    | (some (right_tu, _), right) =>
      if (match plan.Predicate with
          | none => true
          | some predict => predict.EvaluateJoin left_tu right_tu) then
        let vals := plan.OutputSchema.map fun col => col.EvaluateJoin left_tu right_tu
        let temp_tuple : Tuple Val RID := Tuple.ofValues vals
        some (some (temp_tuple, temp_tuple.GetRid), right)
      else innerLoop plan left_tu fuel right
    | (none, right) => some (none, right)

/-- The outer loop `while(left_executor_->Next(&left_tu, &left_rid))`; `left_tu`
is a local variable of `Next`. -/
def outerLoop [Inhabited RID] :
    Nat → NestedLoopJoinExecutor Val RID →
      Option (Option (Tuple Val RID × RID) × NestedLoopJoinExecutor Val RID)
  | 0, _ => none
  | fuel + 1, e =>
    match e.left_executor_.Next with
    | (some (left_tu, _), left) =>
      match innerLoop e.plan_ left_tu (e.right_executor_.cursor.length + 1) e.right_executor_ with
      | none => none
      | some (some row, right) =>
        some (some row, { e with left_executor_ := left, right_executor_ := right })
      | some (none, right) =>
        outerLoop fuel { e with left_executor_ := left, right_executor_ := right.Init }
    | (none, left) => some (none, { e with left_executor_ := left })

/-- `Next`: every iteration of a loop pulls a row from the child of the loop. -/
def Next [Inhabited RID] (e : NestedLoopJoinExecutor Val RID) :
    Option (Option (Tuple Val RID × RID) × NestedLoopJoinExecutor Val RID) :=
  outerLoop (e.left_executor_.cursor.length + 1) e

end NestedLoopJoinExecutor

/-! ### `seq_scan_executor.cpp` -/

/-- Modelled from the spec: the plan node of a sequential scan; `GetPredicate`
is `none` for `nullptr`. -/
structure SeqScanPlanNode (Val RID : Type) where
  GetPredicate : Option (PredicateExpression Val RID)
  OutputSchema : Schema Val RID

/-- Modelled from the spec: a table heap is the list of its tuples in the order
of its iterator; a tuple of the heap carries its RID. -/
abbrev TableHeap (Val RID : Type) := List (Tuple Val RID)

/-- The members of a `SeqScanExecutor`.  `table` is the heap that the catalogue
of `exec_ctx_` holds for the table of the plan; `iter_` is modelled by the
tuples from the position of the iterator on, `End()` by the empty list. -/
structure SeqScanExecutor (Val RID : Type) where
  plan_ : SeqScanPlanNode Val RID
  table : TableHeap Val RID
  table_heap_ : TableHeap Val RID
  iter_ : List (Tuple Val RID)

namespace SeqScanExecutor

variable {Val RID : Type}

def Init (e : SeqScanExecutor Val RID) : SeqScanExecutor Val RID :=
  { e with table_heap_ := e.table, iter_ := e.table }

/-- `Next`, with the recursion `return Next(tuple, rid)` counted by `fuel`. -/
def NextFuel [Inhabited RID] :
    Nat → SeqScanExecutor Val RID →
      Option (Option (Tuple Val RID × RID) × SeqScanExecutor Val RID)
  | 0, _ => none
  | fuel + 1, e =>
    match e.iter_ with
    | [] => some (none, e)
    | row :: rest =>
      let original_rid := row.GetRid
      let vals := e.plan_.OutputSchema.map fun col => col.Evaluate row
      let e := { e with iter_ := rest }
      let temp_tuple : Tuple Val RID := Tuple.ofValues vals
      if (match e.plan_.GetPredicate with
          | none => true
          | some predict => predict.Evaluate temp_tuple) then
        some (some (temp_tuple, original_rid), e)
      else NextFuel fuel e

/-- `Next`: every nested call has advanced the iterator. -/
def Next [Inhabited RID] (e : SeqScanExecutor Val RID) :
    Option (Option (Tuple Val RID × RID) × SeqScanExecutor Val RID) :=
  NextFuel (e.iter_.length + 1) e

end SeqScanExecutor

/-! ### `update_executor.cpp` -/

/-- Modelled from the spec: `UpdateType`. -/
inductive UpdateType where
  | Add
  | Set
deriving DecidableEq

/-- Modelled from the spec: `UpdateInfo`. -/
structure UpdateInfo where
  type_ : UpdateType
  update_val_ : Int

/-- Modelled from the spec: the plan node of an update; `GetUpdateAttr` is the
map from column index to `UpdateInfo`. -/
structure UpdatePlanNode where
  GetUpdateAttr : Nat → Option UpdateInfo

/-- Modelled from the spec: an index of the table, `IndexInfo`.  The index is a
hash index: `InsertEntry(key, rid)` is the call `Insert` of its hash table and
`DeleteEntry(key, rid)` the call `Remove`; a key is the list of the values of
the key columns. -/
structure IndexInfo (RID : Type) where
  key_attrs : List Nat
  cfg : HashTableConfig (List Int)
  index_ : ExtendibleHashTable (List Int) RID

namespace IndexInfo

variable {RID : Type}

/-- Modelled from the spec: `InsertEntry`; the result of `Insert` is dropped. -/
def InsertEntry [DecidableEq RID] [Inhabited RID] (inde : IndexInfo RID) (key : List Int)
    (rid : RID) : Option (IndexInfo RID) :=
  (ExtendibleHashTable.Insert inde.cfg inde.index_ key rid).map fun r =>
    { inde with index_ := r.2 }

/-- Modelled from the spec: `DeleteEntry`; the result of `Remove` is dropped. -/
def DeleteEntry [DecidableEq RID] [Inhabited RID] (inde : IndexInfo RID) (key : List Int)
    (rid : RID) : Option (IndexInfo RID) :=
  (ExtendibleHashTable.Remove inde.cfg inde.index_ key rid).map fun r =>
    { inde with index_ := r.2 }

/-- Modelled from the spec: `ScanKey(key, &result)`, the RIDs stored under the
key. -/
def ScanKey [Inhabited RID] (inde : IndexInfo RID) (key : List Int) : List RID :=
  ExtendibleHashTable.lookup inde.cfg inde.index_ key

end IndexInfo

/-- Modelled from the spec: `TableInfo`, with the number of columns of the
schema and the table heap. -/
structure TableInfo (RID : Type) where
  schema_ : Nat
  table_ : TableHeap Int RID

/-- Modelled from the spec: `TableHeap::UpdateTuple(tuple, rid, txn)` replaces
the tuple stored at `rid`. -/
def TableHeap.UpdateTuple {RID : Type} [DecidableEq RID] (table : TableHeap Int RID)
    (tuple : Tuple Int RID) (rid : RID) : TableHeap Int RID :=
  table.map fun old => if old.rid_ = rid then { tuple with rid_ := rid } else old

/-- The members of an `UpdateExecutor`.  A `Value` is modelled by an integer:
`Add` is the sum and `Value(type, update_val_)` the integer `update_val_`.
`indexes` is the list `GetTableIndexes(table_info_->name_)` of the catalogue. -/
structure UpdateExecutor (RID : Type) where
  plan_ : UpdatePlanNode
  child_executor_ : AbstractExecutor Int RID
  table_info_ : TableInfo RID
  indexes : List (IndexInfo RID)

namespace UpdateExecutor

variable {RID : Type}

/-- One iteration of the loop of `GenerateUpdatedTuple`. -/
def updatedValue (plan : UpdatePlanNode) (src_tuple : Tuple Int RID) (i : Nat) : Option Int :=
  match plan.GetUpdateAttr i with
  | none => src_tuple.GetValue i
  | some info =>
    if info.type_ = UpdateType.Add then
      (src_tuple.GetValue i).map fun v => v + info.update_val_
    else
      (src_tuple.GetValue i).map fun _ => info.update_val_

/-- The loop of `GenerateUpdatedTuple` over the columns below `n`. -/
def updatedValues (plan : UpdatePlanNode) (src_tuple : Tuple Int RID) : Nat → Option (List Int)
  | 0 => some []
  | i + 1 =>
    (updatedValues plan src_tuple i).bind fun vals =>
      (updatedValue plan src_tuple i).map fun v => vals ++ [v]

def GenerateUpdatedTuple [Inhabited RID] (e : UpdateExecutor RID) (src_tuple : Tuple Int RID) :
    Option (Tuple Int RID) :=
  (updatedValues e.plan_ src_tuple e.table_info_.schema_).map Tuple.ofValues

/-- The body of the loop over the indexes, for one index. -/
def updateIndex [DecidableEq RID] [Inhabited RID] (tu new_tu : Tuple Int RID) (ri : RID)
    (inde : IndexInfo RID) : Option (IndexInfo RID) :=
  (new_tu.KeyFromTuple inde.key_attrs).bind fun new_key =>
    (inde.InsertEntry new_key ri).bind fun inde =>
      (tu.KeyFromTuple inde.key_attrs).bind fun key =>
        inde.DeleteEntry key ri

/-- The loop over the indexes of the table. -/
def updateIndexes [DecidableEq RID] [Inhabited RID] (tu new_tu : Tuple Int RID) (ri : RID) :
    List (IndexInfo RID) → Option (List (IndexInfo RID))
  | [] => some []
  | inde :: rest =>
    (updateIndex tu new_tu ri inde).bind fun inde =>
      (updateIndexes tu new_tu ri rest).map fun rest => inde :: rest

/-- The body of the loop of `Next` for the child row `(tu, ri)`. -/
def processRow [DecidableEq RID] [Inhabited RID] (e : UpdateExecutor RID) (tu : Tuple Int RID)
    (ri : RID) : Option (UpdateExecutor RID) :=
  (e.GenerateUpdatedTuple tu).bind fun new_tu =>
    let table := e.table_info_.table_.UpdateTuple new_tu ri
    (updateIndexes tu new_tu ri e.indexes).map fun indexes =>
      { e with table_info_ := { e.table_info_ with table_ := table }, indexes := indexes }

/-- The loop `while(child_executor_->Next(&tu, &ri))` of `Next`. -/
def NextFuel [DecidableEq RID] [Inhabited RID] :
    Nat → UpdateExecutor RID → Option (Option (Tuple Int RID × RID) × UpdateExecutor RID)
  | 0, _ => none
  | fuel + 1, e =>
    match e.child_executor_.Next with
    | (some (tu, ri), child) =>
      (processRow { e with child_executor_ := child } tu ri).bind (NextFuel fuel)
    | (none, child) => some (none, { e with child_executor_ := child })

def Init (e : UpdateExecutor RID) : UpdateExecutor RID :=
  { e with child_executor_ := e.child_executor_.Init }

/-- `Next`: every iteration pulls a row from the child. -/
def Next [DecidableEq RID] [Inhabited RID] (e : UpdateExecutor RID) :
    Option (Option (Tuple Int RID × RID) × UpdateExecutor RID) :=
  NextFuel (e.child_executor_.cursor.length + 1) e

end UpdateExecutor

/-! ## The hash table on its buffer pool

The calls that the functions of `extendible_hash_table.cpp` make to the buffer
pool, in the order of the source.  The page ids of the calls are read from the
state of the table; the id that `NewPage` hands out is the allocation counter
of the pool, mirrored by `next_page_id_` of the table. -/

/-- A call of the hash table to its buffer pool.  The result of `NewPage` and
`FetchPage` is dereferenced or asserted to be a page; `UnpinPage` is called
inside an `assert`, except for the two calls of `FetchDirectoryPage`, which
drop the result. -/
inductive PoolCall where
  | newPage
  | fetchPage (page_id : Int)
  | unpinPage (page_id : Int) (is_dirty : Bool)
  | unpinPageUnchecked (page_id : Int) (is_dirty : Bool)
deriving DecidableEq

namespace BufferPoolManager

variable {D : Type} [Inhabited D]

/-- One call of the hash table, `none` when the call returns `nullptr` or an
assert on its result fails. -/
def poolCall (s : BufferPoolManager D) : PoolCall → Option (BufferPoolManager D)
  | .newPage =>
    match NewPage s with
    | some (some _, s) => some s
    | _ => none
  | .fetchPage page_id =>
    match FetchPage s page_id with
    | some (some _, s) => some s
    | _ => none
  | .unpinPage page_id is_dirty =>
    match UnpinPage s page_id is_dirty with
    | some (true, s) => some s
    | _ => none
  | .unpinPageUnchecked page_id is_dirty => (UnpinPage s page_id is_dirty).map Prod.snd

/-- A sequence of calls of the hash table. -/
def poolCalls : List PoolCall → BufferPoolManager D → Option (BufferPoolManager D)
  | [], s => some s
  | c :: cs, s => (poolCall s c).bind (poolCalls cs)

end BufferPoolManager

namespace ExtendibleHashTable

variable {K V : Type}

/-- The calls of `FetchDirectoryPage`: on first use `NewPage` for the directory
page and for the first bucket page and `UnpinPage` for both, then in every case
`FetchPage(directory_page_id_)`. -/
def FetchDirectoryPageCalls [Inhabited K] [Inhabited V] (t : ExtendibleHashTable K V) :
    List PoolCall :=
  (if t.directory_page_id_ = INVALID_PAGE_ID then
    [.newPage, .newPage, .unpinPageUnchecked t.next_page_id_ true,
      .unpinPageUnchecked (t.next_page_id_ + 1) true]
  else []) ++ [.fetchPage t.FetchDirectoryPage.directory_page_id_]

/-- The calls of `GetValue`. -/
def GetValueCalls [Inhabited K] [Inhabited V] (cfg : HashTableConfig K)
    (t : ExtendibleHashTable K V) (key : K) : List PoolCall :=
  let dir_page := t.FetchDirectoryPage.dir_page
  t.FetchDirectoryPageCalls ++
    [.fetchPage (KeyToPageId cfg key dir_page),
      .unpinPage (KeyToPageId cfg key dir_page) false,
      .unpinPage dir_page.GetPageId false]

/-- The calls of `SplitInsert`, followed by those of its last statement
`return Insert(transaction, key, value)`, which is the argument `retry`; `none`
when `SplitInsert` aborts. -/
def SplitInsertCalls [DecidableEq K] [DecidableEq V] [Inhabited K] [Inhabited V]
    (cfg : HashTableConfig K) (retry : ExtendibleHashTable K V → Option (List PoolCall))
    (t : ExtendibleHashTable K V) (key : K) (value : V) : Option (List PoolCall) :=
  let dir_page := t.FetchDirectoryPage.dir_page
  let bucket_idx := KeyToDirectoryIndex cfg key dir_page
  let split_bucket_page_id := KeyToPageId cfg key dir_page
  if cfg.MAX_BUCKET_DEPTH ≤ dir_page.GetLocalDepth bucket_idx then
    some (t.FetchDirectoryPageCalls ++
      [.fetchPage split_bucket_page_id,
        .unpinPage dir_page.GetPageId false,
        .unpinPage (KeyToPageId cfg key dir_page) false])
  else
    (SplitInsert cfg (fun t => some (true, t)) t key value).bind fun r =>
      let image_bucket_page_id := t.FetchDirectoryPage.next_page_id_
      (retry r.2).map fun calls =>
        t.FetchDirectoryPageCalls ++
          [.fetchPage split_bucket_page_id,
            .newPage,
            .unpinPage split_bucket_page_id true,
            .unpinPage image_bucket_page_id true,
            .unpinPage r.2.dir_page.GetPageId true] ++ calls

/-- The calls of `Insert`, with the recursion `Insert -> SplitInsert -> Insert`
counted by `fuel` as in `InsertFuel`. -/
def InsertCallsFuel [DecidableEq K] [DecidableEq V] [Inhabited K] [Inhabited V]
    (cfg : HashTableConfig K) :
    Nat → ExtendibleHashTable K V → K → V → Option (List PoolCall)
  | 0, _, _, _ => none
  | fuel + 1, t, key, value =>
    let dir_page := t.FetchDirectoryPage.dir_page
    let page_id := KeyToPageId cfg key dir_page
    let buck_page := t.FetchDirectoryPage.bucket_pages page_id
    if !buck_page.IsFull cfg.BUCKET_ARRAY_SIZE then
      some (t.FetchDirectoryPageCalls ++
        [.fetchPage page_id,
          .unpinPage (KeyToPageId cfg key dir_page) true,
          .unpinPage dir_page.GetPageId false])
    else
      (SplitInsertCalls cfg (fun t => InsertCallsFuel cfg fuel t key value)
          t.FetchDirectoryPage key value).map fun calls =>
        t.FetchDirectoryPageCalls ++
          [.fetchPage page_id,
            .unpinPage (KeyToPageId cfg key dir_page) false,
            .unpinPage dir_page.GetPageId false] ++ calls

/-- The calls of `Insert`. -/
def InsertCalls [DecidableEq K] [DecidableEq V] [Inhabited K] [Inhabited V]
    (cfg : HashTableConfig K) (t : ExtendibleHashTable K V) (key : K) (value : V) :
    Option (List PoolCall) :=
  InsertCallsFuel cfg (cfg.MAX_BUCKET_DEPTH + 1) t key value

/-- The calls of `Merge`; `none` when `Merge` aborts. -/
def MergeCalls [Inhabited K] [Inhabited V] (t : ExtendibleHashTable K V)
    (target_bucket_index : Nat) : Option (List PoolCall) :=
  let dir_page := t.FetchDirectoryPage.dir_page
  if dir_page.GetLocalDepth target_bucket_index = 0 then
    some (t.FetchDirectoryPageCalls ++ [.unpinPage dir_page.GetPageId false])
  else
    (Merge t target_bucket_index).map fun merged =>
      t.FetchDirectoryPageCalls ++ [.unpinPage merged.dir_page.GetPageId true]

/-- The calls of `Remove`. -/
def RemoveCalls [DecidableEq K] [DecidableEq V] [Inhabited K] [Inhabited V]
    (cfg : HashTableConfig K) (t : ExtendibleHashTable K V) (key : K) (value : V) :
    Option (List PoolCall) :=
  let t1 := t.FetchDirectoryPage
  let dir_page := t1.dir_page
  let page_id := KeyToPageId cfg key dir_page
  let bucket_idx := KeyToDirectoryIndex cfg key dir_page
  let res := (t1.bucket_pages page_id).Remove cfg.BUCKET_ARRAY_SIZE key value
  let calls := t.FetchDirectoryPageCalls ++
    [.fetchPage page_id,
      .unpinPage dir_page.GetPageId false,
      .unpinPage (KeyToPageId cfg key dir_page) true]
  if res.2.IsEmpty cfg.BUCKET_ARRAY_SIZE then
    (MergeCalls { t1 with bucket_pages := Function.update t1.bucket_pages page_id res.2 }
      bucket_idx).map fun merge => calls ++ merge
  else some calls

/-- The calls of `GetGlobalDepth`. -/
def GetGlobalDepthCalls [Inhabited K] [Inhabited V] (t : ExtendibleHashTable K V) :
    List PoolCall :=
  t.FetchDirectoryPageCalls ++ [.unpinPage t.FetchDirectoryPage.directory_page_id_ false]

end ExtendibleHashTable

/-- A call of the interface of the hash table. -/
inductive TableCall (K V : Type) where
  | getValue (key : K)
  | insert (key : K) (value : V)
  | remove (key : K) (value : V)
  | getGlobalDepth

/-- A hash table together with the buffer pool that holds its pages. -/
structure IndexOnPool (K V D : Type) where
  table : ExtendibleHashTable K V
  pool : BufferPoolManager D

namespace IndexOnPool

variable {K V D : Type}

/-- The buffer pool calls of one call of the table. -/
def callsOf [DecidableEq K] [DecidableEq V] [Inhabited K] [Inhabited V]
    (cfg : HashTableConfig K) (t : ExtendibleHashTable K V) :
    TableCall K V → Option (List PoolCall)
  | .getValue key => some (t.GetValueCalls cfg key)
  | .insert key value => t.InsertCalls cfg key value
  | .remove key value => t.RemoveCalls cfg key value
  | .getGlobalDepth => some t.GetGlobalDepthCalls

/-- The state of the table after one call, `none` on an abort. -/
def tableAfter [DecidableEq K] [DecidableEq V] [Inhabited K] [Inhabited V]
    (cfg : HashTableConfig K) (t : ExtendibleHashTable K V) :
    TableCall K V → Option (ExtendibleHashTable K V)
  | .getValue key => some (ExtendibleHashTable.GetValue cfg t key []).2
  | .insert key value => (ExtendibleHashTable.Insert cfg t key value).map Prod.snd
  | .remove key value => (ExtendibleHashTable.Remove cfg t key value).map Prod.snd
  | .getGlobalDepth => some t.FetchDirectoryPage

/-- One call of the table that runs to its end: the table it leaves and the
pool after the calls it has made. -/
def step [DecidableEq K] [DecidableEq V] [Inhabited K] [Inhabited V] [Inhabited D]
    (cfg : HashTableConfig K) (x : IndexOnPool K V D) (c : TableCall K V) :
    Option (IndexOnPool K V D) :=
  (callsOf cfg x.table c).bind fun calls =>
    (x.pool.poolCalls calls).bind fun pool =>
      (tableAfter cfg x.table c).map fun table => { table := table, pool := pool }

/-- A sequence of calls of the table, each running to its end. -/
def run [DecidableEq K] [DecidableEq V] [Inhabited K] [Inhabited V] [Inhabited D]
    (cfg : HashTableConfig K) :
    List (TableCall K V) → IndexOnPool K V D → Option (IndexOnPool K V D)
  | [], x => some x
  | c :: cs, x => (step cfg x c).bind (run cfg cs)

end IndexOnPool

namespace BufferPoolManager

variable {D : Type}

/-- The pin count of a page: that of the frame that holds it, 0 for a page
that is not in the pool. -/
def pinCount (s : BufferPoolManager D) (page_id : Int) : Int :=
  match s.page_table_ page_id with
  | some fra => (s.pages_ fra).pin_count_
  | none => 0

end BufferPoolManager

end bustub

/-! ## Definitions used by the proofs

Closed forms of the loops, the invariants of intermediate states and the
example inputs. -/

namespace bustub
namespace ExtendibleHashTable
open HashTableDirectoryPage

/-- One step of the mirroring loop, for a fixed half size `h`. -/
def mirrorStep (h : Nat) (d : HashTableDirectoryPage) (i : Nat) : Option HashTableDirectoryPage :=
  if d.GetBucketPageId i = INVALID_PAGE_ID then
    (d.SetBucketPageId i (d.GetBucketPageId (i - h))).SetLocalDepth i
      ((d.SetBucketPageId i (d.GetBucketPageId (i - h))).GetLocalDepth (i - h))
  else some d

/-- Closed form of the mirroring loop over the indices in `l`. -/
def mirrorClosed (h : Nat) (l : List Nat) (d : HashTableDirectoryPage) : HashTableDirectoryPage :=
  { d with
    bucket_page_ids_ := fun j =>
      if j ∈ l ∧ d.bucket_page_ids_ j = INVALID_PAGE_ID then d.bucket_page_ids_ (j - h)
      else d.bucket_page_ids_ j,
    local_depths_ := fun j =>
      if j ∈ l ∧ d.bucket_page_ids_ j = INVALID_PAGE_ID then d.local_depths_ (j - h)
      else d.local_depths_ j }

end ExtendibleHashTable
end bustub

namespace bustub
namespace ExtendibleHashTable
open HashTableDirectoryPage

/-- The directory after the first three statements on it. -/
def splitStart (d0 : HashTableDirectoryPage) (idx : Nat) (Q : Int) (g : Nat) :
    HashTableDirectoryPage :=
  { d0 with
    global_depth_ := g
    local_depths_ := Function.update (Function.update d0.local_depths_ idx (d0.local_depths_ idx + 1))
      (idx ^^^ 2 ^ d0.local_depths_ idx) (d0.local_depths_ idx + 1)
    bucket_page_ids_ := Function.update d0.bucket_page_ids_ (idx ^^^ 2 ^ d0.local_depths_ idx) Q }

/-- The directory after the upper half of a doubled directory was invalidated. -/
def splitInval (d0 : HashTableDirectoryPage) (idx : Nat) (Q : Int) : HashTableDirectoryPage :=
  { splitStart d0 idx Q (d0.global_depth_ + 1) with
    bucket_page_ids_ := fun j =>
      if 2 ^ d0.global_depth_ ≤ j ∧ j < 2 ^ (d0.global_depth_ + 1) then INVALID_PAGE_ID
      else (splitStart d0 idx Q (d0.global_depth_ + 1)).bucket_page_ids_ j }

/-- Closed form of `splitDirectory` when the directory doubles. -/
def splitGrown (d0 : HashTableDirectoryPage) (idx : Nat) (P Q : Int) : HashTableDirectoryPage :=
  mirrorClosed (2 ^ d0.global_depth_) (List.range' (2 ^ d0.global_depth_) (2 ^ d0.global_depth_))
    (setClass Q (d0.local_depths_ idx + 1)
      (fun j => decide (j < 2 ^ (d0.global_depth_ + 1) ∧
        j % 2 ^ (d0.local_depths_ idx + 1) =
          (idx ^^^ 2 ^ d0.local_depths_ idx) % 2 ^ (d0.local_depths_ idx + 1)))
      (setClass P (d0.local_depths_ idx + 1)
        (fun j => decide (j < 2 ^ (d0.global_depth_ + 1) ∧
          j % 2 ^ (d0.local_depths_ idx + 1) = idx % 2 ^ (d0.local_depths_ idx + 1)))
        (splitInval d0 idx Q)))

end ExtendibleHashTable
end bustub

namespace bustub
namespace HashTableBucketPage
variable {K V : Type}

/-- The readable slots of the bucket are exactly the first `m` slots. -/
def Compact (N : Nat) (b : HashTableBucketPage K V) (m : Nat) : Prop :=
  ∀ i, i < N → b.IsReadable i = decide (i < m)

end HashTableBucketPage
end bustub

namespace bustub
namespace ExtendibleHashTable
open HashTableDirectoryPage HashTableBucketPage
variable {K V : Type} [DecidableEq K] [DecidableEq V]

/-- One iteration of the loop of `rehash`. -/
def rehashStep (cfg : HashTableConfig K) (d1 : HashTableDirectoryPage) (idx : Nat) (P Q : Int)
    (pages : Int → HashTableBucketPage K V) (kv : K × V) :
    Option (Int → HashTableBucketPage K V) :=
  if d1.GetBucketPageId (Hash cfg kv.1 &&& d1.GetLocalDepthMask idx) = P ∨
      d1.GetBucketPageId (Hash cfg kv.1 &&& d1.GetLocalDepthMask idx) = Q then
    if d1.GetBucketPageId (Hash cfg kv.1 &&& d1.GetLocalDepthMask idx) = P then
      if ((pages P).Insert cfg.BUCKET_ARRAY_SIZE kv.1 kv.2).1 then
        some (Function.update pages P ((pages P).Insert cfg.BUCKET_ARRAY_SIZE kv.1 kv.2).2)
      else none
    else
      if ((pages Q).Insert cfg.BUCKET_ARRAY_SIZE kv.1 kv.2).1 then
        some (Function.update pages Q ((pages Q).Insert cfg.BUCKET_ARRAY_SIZE kv.1 kv.2).2)
      else none
  else none

end ExtendibleHashTable
end bustub

namespace bustub
namespace ExtendibleHashTable
open HashTableDirectoryPage HashTableBucketPage
variable {K V : Type} [DecidableEq K] [DecidableEq V] [Inhabited K] [Inhabited V]

/-- The result clauses shared by `Insert` and its rounds. -/
def InsertPost (cfg : HashTableConfig K) (t : ExtendibleHashTable K V) (key : K) (value : V)
    (r : Bool) (t' : ExtendibleHashTable K V) : Prop :=
  HTInv cfg t' ∧
  (value ∈ lookup cfg t key → r = false) ∧
  (r = true → (lookup cfg t' key).Perm (value :: lookup cfg t key) ∧
    ∀ k, k ≠ key → (lookup cfg t' k).Perm (lookup cfg t k)) ∧
  (r = false → ∀ k, lookup cfg t' k = lookup cfg t k)

end ExtendibleHashTable
end bustub

namespace bustub
namespace LRUKReplacer

/-- The node `RecordAccess` leaves for the accessed frame. -/
def accessed (r : LRUKReplacer) (f : Int) : LRUKNode :=
  ((((r.find f).getD LRUKNode.fresh).setk r.k_).push r.current_timestamp_)

/-- One iteration of a pass of `Evict`. -/
def scanStep (cur : Nat) (sel : LRUKNode → Bool) (acc : Nat × Int) (e : Int × LRUKNode) :
    Nat × Int :=
  if sel e.2 && e.2.is_evictable && decide (acc.1 < cur - e.2.get_front) then
    (cur - e.2.get_front, e.1)
  else acc

end LRUKReplacer
end bustub

namespace bustub
open LRUKReplacer

/-- State of the pool between the acquisition of frame `fra` and its
installation: the frame is neither free, nor tracked, nor mapped. -/
structure AcqInv {D : Type} (s : BufferPoolManager D) (fra : Int) : Prop where
  repl : ReplInv s.replacer_
  free_nodup : s.free_list_.Nodup
  free_range : ∀ f ∈ s.free_list_, 0 ≤ f ∧ f < s.pool_size_
  fra_range : 0 ≤ fra ∧ fra < s.pool_size_
  fra_free : fra ∉ s.free_list_
  fra_untracked : s.replacer_.find fra = none
  fra_unmapped : ∀ p, s.page_table_ p ≠ some fra
  table : ∀ p f, s.page_table_ p = some f →
    0 ≤ f ∧ f < s.pool_size_ ∧ (s.pages_ f).page_id_ = p ∧ f ∉ s.free_list_
  tracked : ∀ f, f ≠ fra → ((s.replacer_.find f).isSome = true ↔
    (0 ≤ f ∧ f < s.pool_size_ ∧ f ∉ s.free_list_))
  evictable : ∀ f n, s.replacer_.find f = some n → n.is_evictable_ = true →
    (s.pages_ f).pin_count_ = 0 ∧ s.page_table_ (s.pages_ f).page_id_ = some f
  pin_nonneg : ∀ f, 0 ≤ (s.pages_ f).pin_count_

namespace BufferPoolManager
variable {D : Type} [Inhabited D]

/-- The state after frame `fra` was installed for page `pid`: the tail shared
by `NewPage` and the unmapped branch of `FetchPage`. -/
def install (s1 : BufferPoolManager D) (fra : Int) (r : LRUKReplacer) (pid next : Int)
    (data : D) : BufferPoolManager D :=
  { s1 with
    replacer_ := r,
    next_page_id_ := next,
    page_table_ := tableInsert s1.page_table_ pid fra,
    pages_ := Function.update s1.pages_ fra
      { page_id_ := pid, pin_count_ := 1, is_dirty_ := false, data_ := data } }

end BufferPoolManager
end bustub

namespace bustub
open LRUKReplacer

/-- What the pool keeps in addition while `FetchPage` is only asked for page
ids below the allocation counter: mapped ids are below the counter, and every
frame outside the free list holds a mapped page. -/
structure AllocInv {D : Type} (s : BufferPoolManager D) : Prop where
  below : ∀ p f, s.page_table_ p = some f → p < s.next_page_id_
  mapped : ∀ f : Int, 0 ≤ f → f < s.pool_size_ → f ∉ s.free_list_ →
    ∃ p, s.page_table_ p = some f

namespace BufferPoolManager
variable {D : Type} [Inhabited D]

/-- Whether the call is not a `FetchPage` of a page id that `NewPage` has not
handed out yet. -/
def fetchAllocated (s : BufferPoolManager D) : BPMOp → Bool
  | .fetchPage p => decide (p < s.next_page_id_)
  | _ => true

/-- Whether every `FetchPage` of the sequence, issued from `s` on, asks for a
page id below the allocation counter at the time of the call. -/
def fetchesAllocated : List BPMOp → BufferPoolManager D → Bool
  | [], _ => true
  | op :: ops, s =>
    fetchAllocated s op &&
      (match applyOp s op with
       | some s' => fetchesAllocated ops s'
       | none => true)

end BufferPoolManager
end bustub

namespace bustub
open LRUKReplacer
namespace BufferPoolManager
variable {D : Type} [Inhabited D]

/-- A client writes `b` through the page pointer of frame `fra`. -/
def writeFrame (s : BufferPoolManager D) (fra : Int) (b : D) : BufferPoolManager D :=
  { s with pages_ := Function.update s.pages_ fra { s.pages_ fra with data_ := b } }

/-- Whether a call is one of `NewPage`, `FetchPage`, `UnpinPage` and does not
name page `p`. -/
def onOtherPage (p : Int) : BPMOp → Bool
  | .newPage => true
  | .fetchPage q => q != p
  | .unpinPage q _ => q != p
  | _ => false

/-- Page `p` holds `b`: in its frame while it is mapped, with the disk copy
equal to `b` unless the frame is dirty, else on disk. -/
def Stored (p : Int) (b : D) (s : BufferPoolManager D) : Prop :=
  p < s.next_page_id_ ∧
    match s.page_table_ p with
    | some f => (s.pages_ f).data_ = b ∧ ((s.pages_ f).is_dirty_ = true ∨ s.disk p = b)
    | none => s.disk p = b

end BufferPoolManager
end bustub

namespace bustub
open LRUKReplacer

/-- A disk on which every page is zero. -/
def exampleDisk : Int → Nat := fun _ => 0

namespace BufferPoolManager
variable {D : Type} [Inhabited D]
end BufferPoolManager
end bustub

namespace bustub

/-- A small table: buckets of one slot, keys hashed to themselves. -/
def exampleConfig : HashTableConfig Nat :=
  { BUCKET_ARRAY_SIZE := 1, MAX_BUCKET_DEPTH := 9, hash_fn := fun k => k }

namespace ExtendibleHashTable
variable {K V : Type} [DecidableEq K] [DecidableEq V] [Inhabited K] [Inhabited V]
end ExtendibleHashTable
end bustub

namespace bustub

/-- A call of the replacer interface. -/
inductive ReplacerCall where
  | recordAccess (frame_id : Int)
  | setEvictable (frame_id : Int) (set_evictable : Bool)
  | evict
  | remove (frame_id : Int)
deriving DecidableEq

namespace LRUKReplacer

/-- The replacer one call leaves; `none` when `SetEvictable` or `Remove` is
called on a frame that is not tracked. -/
def applyCall (r : LRUKReplacer) : ReplacerCall → Option LRUKReplacer
  | .recordAccess f => some (r.RecordAccess f)
  | .setEvictable f b => r.SetEvictable f b
  | .evict => some r.Evict.2
  | .remove f => r.Remove f

/-- A sequence of replacer calls issued one after the other. -/
def runCalls : List ReplacerCall → LRUKReplacer → Option LRUKReplacer
  | [], r => some r
  | c :: cs, r => (applyCall r c).bind (runCalls cs)

/-- Number of entries of a node store whose evictable flag is set. -/
def countEvictable (l : List (Int × LRUKNode)) : Nat :=
  (l.filter (fun e => e.2.is_evictable_)).length

/-- Number of tracked frames whose evictable flag is set. -/
def evictableCount (r : LRUKReplacer) : Nat := countEvictable r.node_store_

/-- The counter `replacer_size_` counts the evictable frames. -/
def SizeInv (r : LRUKReplacer) : Prop := r.replacer_size_ = r.evictableCount

end LRUKReplacer
end bustub

namespace bustub
namespace LRUKReplacer
end LRUKReplacer

/-- What every sequence of at most `n` replacer calls keeps. -/
structure ReplReach (r : LRUKReplacer) (n : Nat) : Prop where
  inv : ReplInv r
  size : LRUKReplacer.SizeInv r
  len : r.node_store_.length ≤ n

namespace LRUKReplacer
end LRUKReplacer
end bustub

namespace bustub
namespace LRUKReplacer

/-- Example calls for `K = 2`: frames 1, 2, 3 are accessed once, frame 3 a
second time, and all three are made evictable. -/
def exampleCalls : List ReplacerCall :=
  [ReplacerCall.recordAccess 1, ReplacerCall.recordAccess 2,
    ReplacerCall.recordAccess 3, ReplacerCall.recordAccess 3,
    ReplacerCall.setEvictable 1 true, ReplacerCall.setEvictable 2 true,
    ReplacerCall.setEvictable 3 true]

/-- The replacer the example calls reach from the initial state with `K = 2`. -/
def exampleReplacer : LRUKReplacer :=
  (runCalls exampleCalls (LRUKReplacer.new 2)).getD (LRUKReplacer.new 2)

/-- Example calls for `K = 1`: frames 1 and 2 are accessed, frame 1 is accessed
again, and both are made evictable. -/
def exampleCallsFull : List ReplacerCall :=
  [ReplacerCall.recordAccess 1, ReplacerCall.recordAccess 2,
    ReplacerCall.recordAccess 1,
    ReplacerCall.setEvictable 1 true, ReplacerCall.setEvictable 2 true]

/-- The replacer `exampleCallsFull` reaches from the initial state with `K = 1`. -/
def exampleReplacerFull : LRUKReplacer :=
  (runCalls exampleCallsFull (LRUKReplacer.new 1)).getD (LRUKReplacer.new 1)

end LRUKReplacer
end bustub

namespace bustub
open LRUKReplacer

/-- The replacer's counter in a buffer pool: `replacer_size_` counts the
evictable nodes, and a tracked frame with pin count 0 is evictable. -/
structure BPMSizeInv {D : Type} (s : BufferPoolManager D) : Prop where
  size : LRUKReplacer.SizeInv s.replacer_
  zero : ∀ f n, s.replacer_.find f = some n → (s.pages_ f).pin_count_ = 0 →
    n.is_evictable_ = true

namespace BufferPoolManager
variable {D : Type} [Inhabited D]
end BufferPoolManager
end bustub

namespace bustub
open LRUKReplacer
namespace BufferPoolManager
variable {D : Type} [Inhabited D]

/-- Whether the call is a `FetchPage` or an `UnpinPage`. -/
def fetchOrUnpin : BPMOp → Bool
  | .fetchPage _ => true
  | .unpinPage _ _ => true
  | _ => false

/-- Whether page `p` is in the page table after every call of the sequence
issued from `s`, that is, the page is not evicted on the way. -/
def staysMapped (p : Int) : List BPMOp → BufferPoolManager D → Bool
  | [], _ => true
  | op :: ops, s =>
    match applyOp s op with
    | some s' => (s'.page_table_ p).isSome && staysMapped p ops s'
    | none => true

/-- The pool of two frames after one `NewPage`: page 0 is in frame 0, pinned
once and clean. -/
def exampleOnePage : BufferPoolManager Nat :=
  (runOps [BPMOp.newPage] (new 2 2 exampleDisk)).getD (new 2 2 exampleDisk)

/-- The state `exampleOnePage` after `UnpinPage(0, true)`. -/
def exampleOnePageDirty : BufferPoolManager Nat :=
  ((UnpinPage exampleOnePage 0 true).map Prod.snd).getD exampleOnePage

end BufferPoolManager
end bustub

namespace bustub
open LRUKReplacer

/-- State `sn` of the flush loop started in `s0` after the frames below `n`:
only dirty flags and the disk differ, and every mapped page in a frame below
`n` is clean and on disk. -/
structure FlushedUpTo {D : Type} (s0 : BufferPoolManager D) (n : Nat)
    (sn : BufferPoolManager D) : Prop where
  table : sn.page_table_ = s0.page_table_
  pool : sn.pool_size_ = s0.pool_size_
  free : sn.free_list_ = s0.free_list_
  repl : sn.replacer_ = s0.replacer_
  pin : ∀ f, (sn.pages_ f).pin_count_ = (s0.pages_ f).pin_count_
  data : ∀ f, (sn.pages_ f).data_ = (s0.pages_ f).data_
  pid : ∀ f, (sn.pages_ f).page_id_ = (s0.pages_ f).page_id_
  done : ∀ p f, s0.page_table_ p = some f → p ≠ INVALID_PAGE_ID → f < (n : Int) →
    (sn.pages_ f).is_dirty_ = false ∧ sn.disk p = (s0.pages_ f).data_

namespace BufferPoolManager
variable {D : Type} [Inhabited D]
end BufferPoolManager
end bustub

namespace bustub

/-- A call on a bucket page.  `setSlot i` is the pair `SetOccupied(i)`,
`SetReadable(i)` in the order `Insert` issues it. -/
inductive BucketOp (K V : Type) where
  | insert (key : K) (value : V)
  | remove (key : K) (value : V)
  | removeAt (bucket_idx : Nat)
  | setSlot (bucket_idx : Nat)
  | reset

namespace HashTableBucketPage
variable {K V : Type}

/-- The page one call leaves; `N` is `BUCKET_ARRAY_SIZE`. -/
def applyBucketOp [DecidableEq K] [DecidableEq V] (N : Nat) (b : HashTableBucketPage K V) :
    BucketOp K V → HashTableBucketPage K V
  | .insert key value => (b.Insert N key value).2
  | .remove key value => (b.Remove N key value).2
  | .removeAt i => b.RemoveAt i
  | .setSlot i => (b.SetOccupied i).SetReadable i
  | .reset => b.Reset

/-- A sequence of calls on one bucket page. -/
def runBucketOps [DecidableEq K] [DecidableEq V] (N : Nat) :
    List (BucketOp K V) → HashTableBucketPage K V → HashTableBucketPage K V
  | [], b => b
  | op :: ops, b => runBucketOps N ops (applyBucketOp N b op)

/-- Every bit set in a byte of `readable_` is set in the same byte of
`occupied_`. -/
def BitmapInv (b : HashTableBucketPage K V) : Prop :=
  ∀ d y, y < 8 → (b.readable_ d).testBit y = true → (b.occupied_ d).testBit y = true

/-- A page with three slots: `(1, 10)` and `(2, 20)` were inserted, then
`(1, 10)` was removed. -/
def exampleBucket : HashTableBucketPage Nat Nat :=
  runBucketOps 3 [.insert 1 10, .insert 2 20, .remove 1 10] zeroed

end HashTableBucketPage
end bustub

namespace bustub

/-- A transaction that takes no lock any more: every lock function returns
false for it at its first test. -/
def Transaction.finished {RID : Type} (tx : Transaction RID) : Prop :=
  tx.state_ = .ABORTED ∨ tx.state_ = .COMMITTED

/-- The lock function that parks an entry of the given mode. -/
def callOf : LockMode → LockCall
  | .SHARED => .shared
  | .EXCLUSIVE => .exclusive

/-- Relation between an entry `a` of a queue and an entry `b` behind it: they
belong to different transactions, and `b` is granted only if both are in
SHARED mode. -/
def QueueRel (a b : LockRequest) : Prop :=
  a.txn_id_ ≠ b.txn_id_ ∧
    (b.granted_ = true → a.lock_mode_ = .SHARED ∧ b.lock_mode_ = .SHARED)

namespace LockManager
variable {RID : Type} [DecidableEq RID]

/-- The statements on a younger transaction, with or without the `erase` on the
shared lock set. -/
def woundGen (both : Bool) (m : Int → Transaction RID) (txn_id : Int) (rid : RID) :
    Int → Transaction RID :=
  if both then woundExclusive m txn_id rid else woundShared m txn_id rid

/-- The common form of the three inner loops: `W` selects the entries whose
transaction is aborted, `B` the entries to wait for, `S` the entries at which
the loop stops. -/
def scanGen (W B S : LockRequest → Bool) (both : Bool) (rid : RID) :
    List LockRequest → (Int → Transaction RID) →
      Option LockRequest × List LockRequest × (Int → Transaction RID)
  | [], m => (none, [], m)
  | e :: rest, m =>
    if W e = true then scanGen W B S both rid rest (woundGen both m e.txn_id_ rid)
    else if B e = true then (some e, e :: rest, m)
    else if S e = true then (none, e :: rest, m)
    else
      let r := scanGen W B S both rid rest m
      (r.1, e :: r.2.1, r.2.2)

end LockManager
namespace LockSystem
variable {RID : Type} [DecidableEq RID]

/-- The entry `e` of the queue of `rid` agrees with the lock sets of its
transaction: a granted entry is in the lock set of its mode and not in the
other one; an entry that is not granted is in neither, and its transaction is
finished or blocked in the call that parked the entry. -/
def EntryOK (s : LockSystem RID) (rid : RID) (e : LockRequest) : Prop :=
  (e.granted_ = true → e.lock_mode_ = .EXCLUSIVE →
    (s.lm.txn_map e.txn_id_).exclusive_lock_set_ rid = true ∧
      (s.lm.txn_map e.txn_id_).shared_lock_set_ rid = false) ∧
  (e.granted_ = true → e.lock_mode_ = .SHARED →
    (s.lm.txn_map e.txn_id_).shared_lock_set_ rid = true ∧
      (s.lm.txn_map e.txn_id_).exclusive_lock_set_ rid = false) ∧
  (e.granted_ = false →
    (s.lm.txn_map e.txn_id_).shared_lock_set_ rid = false ∧
      (s.lm.txn_map e.txn_id_).exclusive_lock_set_ rid = false ∧
      ((s.lm.txn_map e.txn_id_).finished ∨
        s.blocked e.txn_id_ = some (callOf e.lock_mode_, rid)))

/-- Invariant of the lock system. -/
structure LockInv (s : LockSystem RID) : Prop where
  queue : ∀ rid, ((s.lm.lock_table_ rid).request_queue_).Pairwise QueueRel
  entry : ∀ rid e, e ∈ (s.lm.lock_table_ rid).request_queue_ → EntryOK s rid e
  held : ∀ t rid, (s.lm.txn_map t).shared_lock_set_ rid = true ∨
      (s.lm.txn_map t).exclusive_lock_set_ rid = true →
    ∃ e ∈ (s.lm.lock_table_ rid).request_queue_, e.txn_id_ = t ∧ e.granted_ = true
  parked : ∀ t c rid, s.blocked t = some (c, rid) → c ≠ .upgrade →
    (s.lm.txn_map t).shared_lock_set_ rid = false ∧
      (s.lm.txn_map t).exclusive_lock_set_ rid = false

/-- The system with the queue of `rid` and the transactions replaced. -/
def setQueue (s : LockSystem RID) (rid : RID) (q : LockRequestQueue)
    (m : Int → Transaction RID) : LockSystem RID :=
  { lm := { txn_map := m, lock_table_ := Function.update s.lm.lock_table_ rid q },
    blocked := s.blocked }

end LockSystem
namespace LockManager
variable {RID : Type} [DecidableEq RID]
end LockManager
end bustub

namespace bustub
namespace LockManager
variable {RID : Type} [DecidableEq RID]

/-- An entry of a younger transaction in EXCLUSIVE mode. -/
def youngerX (txn : Int) (e : LockRequest) : Bool :=
  decide (e.txn_id_ > txn ∧ e.lock_mode_ = .EXCLUSIVE)

/-- An entry of an older transaction in EXCLUSIVE mode. -/
def olderX (txn : Int) (e : LockRequest) : Bool :=
  decide (e.txn_id_ < txn ∧ e.lock_mode_ = .EXCLUSIVE)

/-- An entry of a younger transaction. -/
def younger (txn : Int) (e : LockRequest) : Bool := decide (e.txn_id_ > txn)

/-- An entry of an older transaction. -/
def older (txn : Int) (e : LockRequest) : Bool := decide (e.txn_id_ < txn)

/-- An entry of the transaction itself. -/
def own (txn : Int) (e : LockRequest) : Bool := decide (e.txn_id_ = txn)

/-- The tests that precede the loop of a lock function have let the
transaction pass. -/
def admitted (tx : Transaction RID) : Prop :=
  ¬ tx.finished ∧ ¬ (tx.isolation_level_ = .REPEATABLE_READ ∧ tx.state_ = .SHRINKING)

end LockManager
end bustub

namespace bustub

/-- A REPEATABLE_READ transaction past its GROWING phase. -/
def Transaction.shrunk {RID : Type} (tx : Transaction RID) : Prop :=
  tx.isolation_level_ = .REPEATABLE_READ ∧ (tx.state_ = .SHRINKING ∨ tx.state_ = .ABORTED)

namespace LockManager
variable {RID : Type} [DecidableEq RID]

/-- The call `r` of a lock function by transaction `T` on the lock manager `lm`
returned false, left `T` ABORTED and changed neither a queue nor a lock set. -/
def Rejected (lm : LockManager RID) (T : Int) (r : LockResult × LockManager RID) : Prop :=
  r.1 = .returned false ∧ (r.2.txn_map T).state_ = .ABORTED ∧
    r.2.lock_table_ = lm.lock_table_ ∧
    ∀ t, (r.2.txn_map t).shared_lock_set_ = (lm.txn_map t).shared_lock_set_ ∧
      (r.2.txn_map t).exclusive_lock_set_ = (lm.txn_map t).exclusive_lock_set_

/-- The transactions after every entry of `q` was treated as the entry of a
younger transaction by `LockExclusive`. -/
def woundAll (rid : RID) (q : List LockRequest) (m : Int → Transaction RID) :
    Int → Transaction RID :=
  q.foldl (fun m e => woundExclusive m e.txn_id_ rid) m

end LockManager
namespace LockSystem
variable {RID : Type} [DecidableEq RID]
open LockManager
end LockSystem
end bustub

namespace bustub

/-- Isolation levels of the examples: every transaction runs at
REPEATABLE_READ. -/
def exampleIso : Int → IsolationLevel := fun _ => .REPEATABLE_READ

/-- Transaction 2 takes a shared lock on RID 0, transaction 3 blocks behind it
in `LockExclusive`, then transaction 1 takes the exclusive lock. -/
def woundOps : List (LockOp Nat) :=
  [.lockShared 2 0, .lockExclusive 3 0, .lockExclusive 1 0]

/-- The state after `woundOps`. -/
def woundState : LockSystem Nat :=
  (LockSystem.runOps woundOps (LockSystem.start exampleIso)).getD (LockSystem.start exampleIso)

/-- Transaction 5 locks RID 1 and RID 2; the older transaction 2 then takes the
exclusive lock on RID 2. -/
def abortOps : List (LockOp Nat) :=
  [.lockShared 5 1, .lockExclusive 5 2, .lockExclusive 2 2]

/-- The state after `abortOps`. -/
def abortState : LockSystem Nat :=
  (LockSystem.runOps abortOps (LockSystem.start exampleIso)).getD (LockSystem.start exampleIso)

/-- Transaction 1 holds a shared lock on RID 0. -/
def holderState : LockSystem Nat :=
  (LockSystem.runOps [.lockShared 1 0] (LockSystem.start exampleIso)).getD
    (LockSystem.start exampleIso)

/-- The state after transaction 1 released RID 0 in `holderState` and
transaction 2 locked it. -/
def releasedState : LockSystem Nat :=
  (LockSystem.runOps [.unlock 1 0, .lockShared 2 0] holderState).getD holderState

/-- Transaction 2 holds a shared lock on RID 0 and transaction 3 is blocked
behind it in `LockExclusive`. -/
def queuedState : LockSystem Nat :=
  (LockSystem.runOps [.lockShared 2 0, .lockExclusive 3 0] (LockSystem.start exampleIso)).getD
    (LockSystem.start exampleIso)

/-- Transactions 1 and 2 hold shared locks on RID 0. -/
def sharedState : LockSystem Nat :=
  (LockSystem.runOps [.lockShared 1 0, .lockShared 2 0] (LockSystem.start exampleIso)).getD
    (LockSystem.start exampleIso)

/-- Transactions 1 and 2 hold shared locks on RID 0, transaction 2 is blocked
in `LockUpgrade` behind transaction 1, and transaction 1 has released its
lock. -/
def upgradeState : LockSystem Nat :=
  (LockSystem.runOps [.lockShared 1 0, .lockShared 2 0, .lockUpgrade 2 0, .unlock 1 0]
    (LockSystem.start exampleIso)).getD (LockSystem.start exampleIso)

namespace LockManager
variable {RID : Type} [DecidableEq RID]

/-- Transaction `T` waits for transaction `U`: in some state of the lock
manager a lock function called by `T` blocks with the iterator at an entry of
`U`. -/
def WaitsFor (RID : Type) [DecidableEq RID] (T U : Int) : Prop :=
  ∃ (lm : LockManager RID) (rid : RID) (it : LockRequest), it.txn_id_ = U ∧
    ((LockShared lm T rid).1 = .waiting it ∨ (LockExclusive lm T rid).1 = .waiting it ∨
      (LockUpgrade lm T rid).1 = .waiting it)

end LockManager
namespace LockSystem
variable {RID : Type} [DecidableEq RID]
open LockManager
end LockSystem
end bustub

namespace bustub
namespace LimitExecutor
variable {Val RID : Type}
end LimitExecutor

/-- Rows of the examples: a tuple of integers with the RID `n`. -/
def exampleRow (values : List Int) (n : Nat) : Tuple Int Nat × Nat :=
  ({ values := values, rid_ := n }, n)

namespace LimitExecutor
end LimitExecutor

/-- The first occurrences of the elements of a list, in the order of the list:
an element is kept where it occurs, and dropped from what follows. -/
def firstOccurrences {α : Type} [DecidableEq α] : List α → List α
  | [] => []
  | a :: l => a :: (firstOccurrences l).filter fun b => decide (b ≠ a)

/-- The elements of a list that do not occur before, with `seen` the elements
met already. -/
def unseen {α : Type} [DecidableEq α] (seen : List α) : List α → List α
  | [] => []
  | a :: l => if a ∈ seen then unseen seen l else a :: unseen (a :: seen) l

end bustub

namespace bustub
namespace Tuple
variable {Val RID : Type}
end Tuple

/-- A schema of two columns, the first two columns of a tuple of integers. -/
def exampleSchema : Schema Int Nat :=
  [{ Evaluate := fun t => t.values.headD 0, EvaluateJoin := fun l _ => l.values.headD 0 },
    { Evaluate := fun t => t.values.getD 1 0, EvaluateJoin := fun _ r => r.values.getD 1 0 }]

/-- A child executor with three rows, the third a copy of the first under
another RID. -/
def exampleChild : AbstractExecutor Int Nat :=
  { rows := [exampleRow [1, 5] 10, exampleRow [2, 6] 11, exampleRow [1, 5] 12],
    cursor := [] }

namespace DistinctExecutor
variable {Val RID : Type} [DecidableEq Val] [Inhabited RID]

/-- The key of a child row: the values of its first `cols` columns. -/
def keyOf (cols : Nat) (row : Tuple Val RID × RID) : List Val := row.1.values.take cols

/-- The row that `Next` builds from a key. -/
def rowOf (key : List Val) : Tuple Val RID × RID :=
  ((Tuple.ofValues key : Tuple Val RID), (Tuple.ofValues key : Tuple Val RID).GetRid)

/-- The rows that a `DistinctExecutor` has still to return. -/
def pending (s : DistinctExecutor Val RID) : List (Tuple Val RID × RID) :=
  (unseen (s.map_.map Prod.fst)
    (s.child_executor_.cursor.map (keyOf s.plan_.OutputSchema.length))).map rowOf

/-- What stays true of the executor from call to call. -/
def Stays (plan : DistinctPlanNode Val RID) (rows : List (Tuple Val RID × RID))
    (s : DistinctExecutor Val RID) : Prop :=
  s.plan_ = plan ∧ s.child_executor_.rows = rows ∧
    ∀ row ∈ s.child_executor_.cursor, plan.OutputSchema.length ≤ row.1.values.length

end DistinctExecutor
namespace DistinctExecutor
end DistinctExecutor
end bustub

namespace bustub
namespace HashJoinExecutor
variable {Val RID : Type} [DecidableEq Val] [Inhabited RID]

/-- The map that the loop of `Init` builds from `map` and the rows `rows` of the
left child. -/
def addRows (plan : HashJoinPlanNode Val RID) :
    (Val → Option (List (Tuple Val RID))) → List (Tuple Val RID × RID) →
      Val → Option (List (Tuple Val RID))
  | map, [] => map
  | map, row :: rest =>
    addRows plan
      (Function.update map (plan.LeftJoinKeyExpression.Evaluate row.1)
        (some ((map (plan.LeftJoinKeyExpression.Evaluate row.1)).getD [] ++ [row.1])))
      rest

/-- The row that `Next` builds from a left and a right tuple. -/
def joinRow (plan : HashJoinPlanNode Val RID) (left_tu right_tu : Tuple Val RID) :
    Tuple Val RID × RID :=
  ((Tuple.ofValues (plan.OutputSchema.map fun col => col.EvaluateJoin left_tu right_tu) :
      Tuple Val RID),
    (Tuple.ofValues (plan.OutputSchema.map fun col => col.EvaluateJoin left_tu right_tu) :
      Tuple Val RID).GetRid)

/-- The left tuples stored under the key of a right tuple. -/
def bucketOf (s : HashJoinExecutor Val RID) (right_tu : Tuple Val RID) : List (Tuple Val RID) :=
  (s.map_ (s.plan_.RightJoinKeyExpression.Evaluate right_tu)).getD []

/-- The rows that a `HashJoinExecutor` has still to return: those of the right
tuple at hand, behind the cursor `fl`, and those of the rows left in the right
child. -/
def pending (s : HashJoinExecutor Val RID) : List (Tuple Val RID × RID) :=
  (if s.fl = -1 then []
    else ((bucketOf s s.right_tu).drop (s.fl.toNat + 1)).map fun l =>
      joinRow s.plan_ l s.right_tu) ++
    s.right_child_executor_.cursor.flatMap fun r =>
      (bucketOf s r.1).map fun l => joinRow s.plan_ l r.1

/-- What stays true of the executor from call to call. -/
def Stays (plan : HashJoinPlanNode Val RID) (map : Val → Option (List (Tuple Val RID)))
    (s : HashJoinExecutor Val RID) : Prop :=
  s.plan_ = plan ∧ s.map_ = map ∧ -1 ≤ s.fl

/-- The rows of a hash join: for every right row, in the order of the right
child, the rows built from the left rows with the key of the right row, in the
order of the left child. -/
def joinRows (plan : HashJoinPlanNode Val RID) (L R : List (Tuple Val RID × RID)) :
    List (Tuple Val RID × RID) :=
  R.flatMap fun r =>
    (L.filter fun l =>
      decide (plan.LeftJoinKeyExpression.Evaluate l.1 =
        plan.RightJoinKeyExpression.Evaluate r.1)).map fun l => joinRow plan l.1 r.1

end HashJoinExecutor
end bustub

namespace bustub

/-- A plan that joins on the first column and returns the second column of
the left and of the right tuple. -/
def exampleJoinPlan : HashJoinPlanNode Int Nat :=
  { LeftJoinKeyExpression :=
      { Evaluate := fun t => t.values.headD 0, EvaluateJoin := fun l _ => l.values.headD 0 },
    RightJoinKeyExpression :=
      { Evaluate := fun t => t.values.headD 0, EvaluateJoin := fun _ r => r.values.headD 0 },
    OutputSchema :=
      [{ Evaluate := fun t => t.values.getD 1 0, EvaluateJoin := fun l _ => l.values.getD 1 0 },
        { Evaluate := fun t => t.values.getD 1 0, EvaluateJoin := fun _ r => r.values.getD 1 0 }] }

/-- A right child with two rows. -/
def exampleRight : AbstractExecutor Int Nat :=
  { rows := [exampleRow [1, 8] 20, exampleRow [3, 9] 21], cursor := [] }

namespace HashJoinExecutor
end HashJoinExecutor

/-- A left child with one row. -/
def exampleOuter : AbstractExecutor Int Nat :=
  { rows := [exampleRow [1] 10], cursor := [] }

/-- A right child with two rows. -/
def exampleInner : AbstractExecutor Int Nat :=
  { rows := [exampleRow [2] 20, exampleRow [3] 21], cursor := [] }

/-- A join without predicate that returns the first column of the left and of
the right tuple. -/
def exampleLoopPlan : NestedLoopJoinPlanNode Int Nat :=
  { Predicate := none,
    OutputSchema :=
      [{ Evaluate := fun t => t.values.headD 0, EvaluateJoin := fun l _ => l.values.headD 0 },
        { Evaluate := fun t => t.values.headD 0, EvaluateJoin := fun _ r => r.values.headD 0 }] }

namespace NestedLoopJoinExecutor
variable {Val RID : Type}

/-- The rows of a nested loop join: the tuples built from the pairs of a left
and a right row that satisfy the predicate, the pairs of a left row in the
order of the right child and one left row after the other. -/
def joinRows [Inhabited RID] (plan : NestedLoopJoinPlanNode Val RID)
    (L R : List (Tuple Val RID × RID)) : List (Tuple Val RID × RID) :=
  ((L.product R).filter fun x =>
    match plan.Predicate with
    | none => true
    | some predict => predict.EvaluateJoin x.1.1 x.2.1).map fun x =>
      ((Tuple.ofValues (plan.OutputSchema.map fun col => col.EvaluateJoin x.1.1 x.2.1) :
          Tuple Val RID), default)

end NestedLoopJoinExecutor

/-- A scan that returns the second column of the rows whose first column is 1. -/
def exampleScanPlan : SeqScanPlanNode Int Nat :=
  { GetPredicate :=
      some { Evaluate := fun t => decide (t.values.headD 0 = 1),
             EvaluateJoin := fun l _ => decide (l.values.headD 0 = 1) },
    OutputSchema :=
      [{ Evaluate := fun t => t.values.getD 1 0, EvaluateJoin := fun l _ => l.values.getD 1 0 }] }

/-- A table with one row, stored at RID 10. -/
def exampleTable : TableHeap Int Nat := [{ values := [1, 0], rid_ := 10 }]

namespace SeqScanExecutor
variable {Val RID : Type}

/-- The rows of a scan: the tuples built by the output schema from the rows of
the table that satisfy the predicate, each with the RID of its row. -/
def scanRows [Inhabited RID] (plan : SeqScanPlanNode Val RID) (table : TableHeap Val RID) :
    List (Tuple Val RID × RID) :=
  (table.filter fun row =>
    match plan.GetPredicate with
    | none => true
    | some predict => predict.Evaluate row).map fun row =>
      ((Tuple.ofValues (plan.OutputSchema.map fun col => col.Evaluate row) : Tuple Val RID),
        row.GetRid)

end SeqScanExecutor
end bustub

namespace bustub

/-- An index on the first column: buckets of two slots, keys hashed to their
first value. -/
def exampleIndexConfig : HashTableConfig (List Int) :=
  { BUCKET_ARRAY_SIZE := 2, MAX_BUCKET_DEPTH := 9, hash_fn := fun key => (key.headD 0).toNat }

/-- The index on the first column of a table whose one row (5, 7) is stored at
RID 10: the state after `InsertEntry((5), 10)` on the empty index. -/
def exampleIndex : IndexInfo Nat :=
  ((IndexInfo.InsertEntry
      { key_attrs := [0], cfg := exampleIndexConfig, index_ := ExtendibleHashTable.init }
      [5] 10).getD
    { key_attrs := [0], cfg := exampleIndexConfig, index_ := ExtendibleHashTable.init })

/-- An update of the table that sets the second column to 8; its child returns
the one row of the table. -/
def exampleUpdate : UpdateExecutor Nat :=
  { plan_ := { GetUpdateAttr := fun i => if i = 1 then some { type_ := .Set, update_val_ := 8 }
                                         else none },
    child_executor_ := { rows := [exampleRow [5, 7] 10], cursor := [] },
    table_info_ := { schema_ := 2, table_ := [{ values := [5, 7], rid_ := 10 }] },
    indexes := [exampleIndex] }

namespace UpdateExecutor
end UpdateExecutor
end bustub

namespace bustub
open LRUKReplacer

/-- The pins that a sequence of calls adds to page `q`, with `next` the
allocation counter of the pool before the calls. -/
def pinDelta (next : Int) : List PoolCall → Int → Int
  | [], _ => 0
  | .newPage :: cs, q => (if q = next then 1 else 0) + pinDelta (next + 1) cs q
  | .fetchPage p :: cs, q => (if q = p then 1 else 0) + pinDelta next cs q
  | .unpinPage p _ :: cs, q => pinDelta next cs q - (if q = p then 1 else 0)
  | .unpinPageUnchecked p _ :: cs, q => pinDelta next cs q - (if q = p then 1 else 0)

/-- The allocation counter after a sequence of calls. -/
def nextAfter (next : Int) : List PoolCall → Int
  | [] => next
  | .newPage :: cs => nextAfter (next + 1) cs
  | _ :: cs => nextAfter next cs

/-- Every `FetchPage` of the sequence asks for a page id that `NewPage` has
handed out before the call. -/
def fetchesBelow (next : Int) : List PoolCall → Prop
  | [] => True
  | .newPage :: cs => fetchesBelow (next + 1) cs
  | .fetchPage p :: cs => p < next ∧ fetchesBelow next cs
  | _ :: cs => fetchesBelow next cs

/-- Every `UnpinPage` whose result is dropped is called for a page with a
non-negative id that holds a pin, `lo` being a lower bound of the pin counts
before the calls. -/
def uncheckedPinned (next : Int) (lo : Int → Int) : List PoolCall → Prop
  | [] => True
  | .newPage :: cs =>
    uncheckedPinned (next + 1) (fun q => lo q + if q = next then 1 else 0) cs
  | .fetchPage p :: cs => uncheckedPinned next (fun q => lo q + if q = p then 1 else 0) cs
  | .unpinPage p _ :: cs => uncheckedPinned next (fun q => lo q - if q = p then 1 else 0) cs
  | .unpinPageUnchecked p _ :: cs =>
    0 ≤ p ∧ 0 < lo p ∧ uncheckedPinned next (fun q => lo q - if q = p then 1 else 0) cs

namespace BufferPoolManager
variable {D : Type} [Inhabited D]
end BufferPoolManager
end bustub

namespace bustub
namespace ExtendibleHashTable
open HashTableDirectoryPage HashTableBucketPage
variable {K V : Type} [DecidableEq K] [DecidableEq V] [Inhabited K] [Inhabited V]

/-- What the table keeps once its directory page exists, in addition to
`HTInv`: the directory page was handed out by the pool, and it stores its own
page id. -/
structure TableInv (cfg : HashTableConfig K) (t : ExtendibleHashTable K V) : Prop where
  ht : HTInv cfg t
  dir_nonneg : 0 ≤ t.directory_page_id_
  dir_lt : t.directory_page_id_ < t.next_page_id_
  dir_page_id : t.dir_page.page_id_ = t.directory_page_id_

/-- The calls of `FetchDirectoryPage` that create the directory page on first
use. -/
def creationCalls (t : ExtendibleHashTable K V) : List PoolCall :=
  if t.directory_page_id_ = INVALID_PAGE_ID then
    [.newPage, .newPage, .unpinPageUnchecked t.next_page_id_ true,
      .unpinPageUnchecked (t.next_page_id_ + 1) true]
  else []

end ExtendibleHashTable
end bustub

namespace bustub
namespace IndexOnPool
open ExtendibleHashTable BufferPoolManager
variable {K V : Type} [DecidableEq K] [DecidableEq V] [Inhabited K] [Inhabited V]
variable {D : Type} [Inhabited D]

/-- What a hash table and its buffer pool keep between the calls of the table,
with the table the only user of the pool: the invariants of the table and of
the pool, the allocation counter of the pool mirrored by the table, and no
page pinned. -/
structure PoolInv (cfg : HashTableConfig K) (x : IndexOnPool K V D) : Prop where
  table : TableInv cfg x.table.FetchDirectoryPage
  next_nonneg : 0 ≤ x.table.next_page_id_
  bpm : BPMInv x.pool
  alloc : AllocInv x.pool
  next_eq : x.pool.next_page_id_ = x.table.next_page_id_
  unpinned : ∀ q, pinCount x.pool q = 0

end IndexOnPool
end bustub

namespace bustub

/-- The table of `exampleConfig` and a pool of three frames before the first
call. -/
def examplePooledInit : IndexOnPool Nat Nat Nat :=
  { table := ExtendibleHashTable.init, pool := BufferPoolManager.new 3 2 exampleDisk }

/-- The state after `Insert(1, 10)`. -/
def examplePooled : IndexOnPool Nat Nat Nat :=
  (IndexOnPool.run exampleConfig [TableCall.insert 1 10] examplePooledInit).getD
    examplePooledInit

/-- The state after a further `Insert(3, 30)`, which splits the bucket twice. -/
def examplePooledSplit : IndexOnPool Nat Nat Nat :=
  (IndexOnPool.step exampleConfig examplePooled (TableCall.insert 3 30)).getD examplePooled

namespace IndexOnPool
open BufferPoolManager
end IndexOnPool
end bustub

/-! ## Theorems -/

/-! ### Bucket page: bitmaps and slot array -/

namespace bustub
namespace HashTableBucketPage
variable {K V : Type}

theorem IsReadable_eq_testBit (b : HashTableBucketPage K V) (i : Nat) :
    b.IsReadable i = (b.readable_ (i / 8 % 256)).testBit (i % 8) := by
  simp only [IsReadable, Nat.testBit, Nat.and_comm]

theorem slot_byte_bit {i j : Nat} (h8 : i / 8 = j / 8) (hb : i % 8 = j % 8) : i = j := by
  omega

theorem IsReadable_SetReadable (b : HashTableBucketPage K V) {i j : Nat}
    (hi : i < 2048) (hj : j < 2048) :
    (b.SetReadable i).IsReadable j = (decide (j = i) || b.IsReadable j) := by
  have hi8 : i / 8 % 256 = i / 8 := by omega
  have hj8 : j / 8 % 256 = j / 8 := by omega
  have hjm : j % 8 < 8 := Nat.mod_lt _ (by norm_num)
  simp only [IsReadable_eq_testBit, SetReadable, Function.update_apply]
  simp only [hi8, hj8]
  by_cases h : j / 8 = i / 8
  · rw [if_pos h, h]
    have : (256 : Nat) = 2 ^ 8 := by norm_num
    rw [this, Nat.testBit_mod_two_pow, Nat.testBit_or, Nat.one_shiftLeft, Nat.testBit_two_pow]
    by_cases hb : i % 8 = j % 8
    · have := slot_byte_bit h.symm hb
      simp [hjm, hb, this]
    · have hne : j ≠ i := fun e => hb (by rw [e])
      simp [hjm, hb, hne]
  · rw [if_neg h]
    have hne : j ≠ i := fun e => h (by rw [e])
    simp [hne]

theorem IsReadable_RemoveAt (b : HashTableBucketPage K V) {i j : Nat}
    (hi : i < 2048) (hj : j < 2048) :
    (b.RemoveAt i).IsReadable j = (decide (j ≠ i) && b.IsReadable j) := by
  have hi8 : i / 8 % 256 = i / 8 := by omega
  have hj8 : j / 8 % 256 = j / 8 := by omega
  have hjm : j % 8 < 8 := Nat.mod_lt _ (by norm_num)
  simp only [IsReadable_eq_testBit, RemoveAt, Function.update_apply]
  simp only [hi8, hj8]
  by_cases h : j / 8 = i / 8
  · rw [if_pos h, h]
    have h256 : (256 : Nat) = 2 ^ 8 := by norm_num
    have h255 : (255 : Nat) = 2 ^ 8 - 1 := by norm_num
    rw [Nat.testBit_and, Nat.testBit_xor, h256, Nat.testBit_mod_two_pow, h255,
      Nat.testBit_two_pow_sub_one, Nat.one_shiftLeft, Nat.testBit_two_pow]
    by_cases hb : i % 8 = j % 8
    · have := slot_byte_bit h.symm hb
      simp [hjm, hb, this]
    · have hne : j ≠ i := fun e => hb (by rw [e])
      simp [hjm, hb, hne]
  · rw [if_neg h]
    have hne : j ≠ i := fun e => h (by rw [e])
    simp [hne]

@[simp] theorem IsReadable_SetOccupied (b : HashTableBucketPage K V) (i j : Nat) :
    (b.SetOccupied i).IsReadable j = b.IsReadable j := rfl

@[simp] theorem IsReadable_Reset (b : HashTableBucketPage K V) (j : Nat) :
    b.Reset.IsReadable j = false := by
  simp [IsReadable, Reset]

@[simp] theorem IsReadable_zeroed [Inhabited K] [Inhabited V] (j : Nat) :
    (zeroed : HashTableBucketPage K V).IsReadable j = false := by
  simp [IsReadable, zeroed]

/-- Adding one slot to the readable set of a bucket adds its pair to the
readable pairs: the counting step behind `Insert` and `Remove`. -/
theorem filter_map_perm_add {α : Type} (a : Nat → α) (r r' : Nat → Bool) (i0 : Nat)
    (hr : ∀ j, r j = (decide (j = i0) || r' j)) (h0 : r' i0 = false) :
    ∀ l : List Nat, l.Nodup → i0 ∈ l →
      ((l.filter r).map a).Perm (a i0 :: (l.filter r').map a) := by
  intro l
  induction l with
  | nil => intro _ h; simp at h
  | cons x xs ih =>
    intro hnd hmem
    rw [List.nodup_cons] at hnd
    by_cases hx : x = i0
    · subst hx
      have hrx : r x = true := by rw [hr]; simp
      have hsame : xs.filter r = xs.filter r' := by
        apply List.filter_congr
        intro j hj
        have : j ≠ x := fun e => hnd.1 (e ▸ hj)
        rw [hr]; simp [this]
      simp [List.filter_cons, hrx, h0, hsame]
    · have hmem' : i0 ∈ xs := by
        rcases List.mem_cons.1 hmem with h | h
        · exact absurd h.symm hx
        · exact h
      have hrx : r x = r' x := by rw [hr]; simp [hx]
      have := ih hnd.2 hmem'
      by_cases hx' : r' x = true
      · simp only [List.filter_cons, hrx, hx', if_true, List.map_cons]
        exact (List.Perm.cons _ this).trans (List.Perm.swap _ _ _)
      · simp only [List.filter_cons, hrx, hx', List.map_cons]
        simpa using this

theorem mem_GetArrayCopy {N : Nat} {b : HashTableBucketPage K V} {kv : K × V} :
    kv ∈ b.GetArrayCopy N ↔ ∃ i, i < N ∧ b.IsReadable i = true ∧ b.array_ i = kv := by
  simp only [GetArrayCopy, List.mem_map, List.mem_filter, List.mem_range]
  constructor
  · rintro ⟨i, ⟨h1, h2⟩, h3⟩; exact ⟨i, h1, h2, h3⟩
  · rintro ⟨i, h1, h2, h3⟩; exact ⟨i, ⟨h1, h2⟩, h3⟩

theorem GetValue_snd [DecidableEq K] (N : Nat) (b : HashTableBucketPage K V) (key : K)
    (result : List V) :
    (b.GetValue N key result).2 =
      result ++ ((b.GetArrayCopy N).filter (fun kv => decide (key = kv.1))).map Prod.snd := by
  unfold GetValue GetArrayCopy
  generalize List.range N = l
  generalize false = f
  induction l generalizing f result with
  | nil => simp
  | cons x xs ih =>
    rw [List.foldl_cons]
    by_cases hc : (b.IsReadable x && decide (key = (b.array_ x).1)) = true
    · rw [if_pos hc, ih]
      simp only [Bool.and_eq_true, decide_eq_true_eq] at hc
      simp [List.filter_cons, hc.1, ← hc.2]
    · rw [if_neg hc, ih]
      by_cases hr : b.IsReadable x = true
      · have hk : ¬ key = (b.array_ x).1 := by simpa [hr] using hc
        simp [List.filter_cons, hr, hk]
      · simp [List.filter_cons, hr]

theorem Insert_any_iff [DecidableEq K] [DecidableEq V] (N : Nat) (b : HashTableBucketPage K V)
    (key : K) (value : V) :
    (List.range N).any (fun i =>
      b.IsReadable i && decide (key = (b.array_ i).1) && decide (value = (b.array_ i).2)) = true
      ↔ (key, value) ∈ b.GetArrayCopy N := by
  rw [mem_GetArrayCopy, List.any_eq_true]
  constructor
  · rintro ⟨i, hi, h⟩
    simp only [Bool.and_eq_true, decide_eq_true_eq] at h
    refine ⟨i, List.mem_range.1 hi, h.1.1, ?_⟩
    exact Prod.ext h.1.2.symm h.2.symm
  · rintro ⟨i, hi, hr, ha⟩
    refine ⟨i, List.mem_range.2 hi, ?_⟩
    simp [hr, ha]

theorem Insert_of_mem [DecidableEq K] [DecidableEq V] {N : Nat} {b : HashTableBucketPage K V}
    {key : K} {value : V} (h : (key, value) ∈ b.GetArrayCopy N) :
    b.Insert N key value = (false, b) := by
  unfold Insert
  rw [if_pos ((Insert_any_iff N b key value).2 h)]

theorem IsFull_iff {N : Nat} {b : HashTableBucketPage K V} :
    b.IsFull N = true ↔ ∀ i, i < N → b.IsReadable i = true := by
  simp [IsFull, List.all_eq_true]

theorem IsEmpty_iff {N : Nat} {b : HashTableBucketPage K V} :
    b.IsEmpty N = true ↔ b.GetArrayCopy N = [] := by
  simp [IsEmpty, GetArrayCopy, List.all_eq_true, List.filter_eq_nil_iff]

theorem length_GetArrayCopy_le (N : Nat) (b : HashTableBucketPage K V) :
    (b.GetArrayCopy N).length ≤ N := by
  unfold GetArrayCopy
  rw [List.length_map]
  exact (List.length_filter_le _ _).trans (by simp)

theorem length_GetArrayCopy_of_IsFull {N : Nat} {b : HashTableBucketPage K V}
    (h : b.IsFull N = true) : (b.GetArrayCopy N).length = N := by
  unfold GetArrayCopy
  rw [List.length_map, List.filter_eq_self.2, List.length_range]
  intro i hi
  exact IsFull_iff.1 h i (List.mem_range.1 hi)

theorem Insert_of_IsFull [DecidableEq K] [DecidableEq V] {N : Nat} {b : HashTableBucketPage K V}
    (key : K) (value : V) (h : b.IsFull N = true) : b.Insert N key value = (false, b) := by
  unfold Insert
  split
  · rfl
  · have : (List.range N).find? (fun i => !b.IsReadable i) = none := by
      rw [List.find?_eq_none]
      intro i hi
      simp [IsFull_iff.1 h i (List.mem_range.1 hi)]
    rw [this]

theorem Insert_of_not_mem [DecidableEq K] [DecidableEq V] {N : Nat} (hN : N ≤ 2048)
    {b : HashTableBucketPage K V} {key : K} {value : V}
    (hmem : (key, value) ∉ b.GetArrayCopy N) (hfull : b.IsFull N = false) :
    (b.Insert N key value).1 = true ∧
      ((b.Insert N key value).2.GetArrayCopy N).Perm ((key, value) :: b.GetArrayCopy N) := by
  unfold Insert
  rw [if_neg (fun h => hmem ((Insert_any_iff N b key value).1 h))]
  have hex : ∃ i, i < N ∧ b.IsReadable i = false := by
    by_contra hcon
    push_neg at hcon
    have : b.IsFull N = true := IsFull_iff.2 (fun i hi => by simpa using hcon i hi)
    rw [this] at hfull; cases hfull
  cases hf : (List.range N).find? (fun i => !b.IsReadable i) with
  | none =>
    obtain ⟨i, hi, hr⟩ := hex
    have := List.find?_eq_none.1 hf i (List.mem_range.2 hi)
    simp [hr] at this
  | some i0 =>
    have h0 : b.IsReadable i0 = false := by
      have := List.find?_some hf
      simpa using this
    have hi0 : i0 < N := List.mem_range.1 (List.mem_of_find?_eq_some hf)
    refine ⟨rfl, ?_⟩
    simp only
    set b1 : HashTableBucketPage K V :=
      { b with array_ := Function.update b.array_ i0 (key, value) } with hb1
    have hread : ∀ j ∈ List.range N, ((b1.SetOccupied i0).SetReadable i0).IsReadable j =
        (decide (j = i0) || b.IsReadable j) := by
      intro j hj
      rw [IsReadable_SetReadable _ (by omega) (by have := List.mem_range.1 hj; omega)]
      rfl
    unfold GetArrayCopy
    rw [List.filter_congr hread]
    have harr : ((b1.SetOccupied i0).SetReadable i0).array_ = Function.update b.array_ i0 (key, value) :=
      rfl
    rw [harr]
    have key1 := filter_map_perm_add (Function.update b.array_ i0 (key, value))
      (fun j => decide (j = i0) || b.IsReadable j) (fun j => b.IsReadable j) i0
      (fun j => rfl) h0 (List.range N) (List.nodup_range N) (List.mem_range.2 hi0)
    rw [Function.update_same] at key1
    refine key1.trans (List.Perm.cons _ (List.Perm.of_eq ?_))
    apply List.map_congr_left
    intro j hj
    have : j ≠ i0 := by
      rintro rfl
      rw [List.mem_filter] at hj
      rw [h0] at hj; exact absurd hj.2 (by simp)
    rw [Function.update_noteq this]

theorem Remove_of_not_mem [DecidableEq K] [DecidableEq V] {N : Nat} {b : HashTableBucketPage K V}
    {key : K} {value : V} (hmem : (key, value) ∉ b.GetArrayCopy N) :
    b.Remove N key value = (false, b) := by
  unfold Remove
  have : (List.range N).find? (fun i =>
      b.IsReadable i && decide (key = (b.array_ i).1) && decide (value = (b.array_ i).2)) = none := by
    rw [List.find?_eq_none]
    intro i hi hP
    exact hmem ((Insert_any_iff N b key value).1 (List.any_eq_true.2 ⟨i, hi, hP⟩))
  rw [this]

theorem Remove_of_mem [DecidableEq K] [DecidableEq V] {N : Nat} (hN : N ≤ 2048)
    {b : HashTableBucketPage K V} {key : K} {value : V}
    (hmem : (key, value) ∈ b.GetArrayCopy N) :
    (b.Remove N key value).1 = true ∧
      (b.GetArrayCopy N).Perm ((key, value) :: (b.Remove N key value).2.GetArrayCopy N) := by
  unfold Remove
  cases hf : (List.range N).find? (fun i =>
      b.IsReadable i && decide (key = (b.array_ i).1) && decide (value = (b.array_ i).2)) with
  | none =>
    exfalso
    obtain ⟨i, hi, hP⟩ := List.any_eq_true.1 ((Insert_any_iff N b key value).2 hmem)
    exact List.find?_eq_none.1 hf i hi hP
  | some i0 =>
    have hP := List.find?_some hf
    simp only [Bool.and_eq_true, decide_eq_true_eq] at hP
    have hi0 : i0 < N := List.mem_range.1 (List.mem_of_find?_eq_some hf)
    refine ⟨rfl, ?_⟩
    simp only
    have hread : ∀ j ∈ List.range N, (b.RemoveAt i0).IsReadable j =
        (decide (j ≠ i0) && b.IsReadable j) := by
      intro j hj
      exact IsReadable_RemoveAt _ (by omega) (by have := List.mem_range.1 hj; omega)
    have harr : (b.RemoveAt i0).array_ = b.array_ := rfl
    unfold GetArrayCopy
    rw [List.filter_congr hread, harr]
    have key1 := filter_map_perm_add b.array_ (fun j => b.IsReadable j)
      (fun j => decide (j ≠ i0) && b.IsReadable j) i0
      (fun j => by by_cases h : j = i0 <;> simp [h, hP.1.1]) (by simp)
      (List.range N) (List.nodup_range N) (List.mem_range.2 hi0)
    have hkv : b.array_ i0 = (key, value) := Prod.ext hP.1.2.symm hP.2.symm
    rw [hkv] at key1
    exact key1

end HashTableBucketPage
end bustub

/-! ### Directory: writes along a residue class -/

namespace bustub
namespace ExtendibleHashTable
open HashTableDirectoryPage

theorem Size_eq (d : HashTableDirectoryPage) : d.Size = 2 ^ d.global_depth_ := by
  simp [HashTableDirectoryPage.Size, Nat.one_shiftLeft]

@[simp] theorem setClass_global_depth (pid : Int) (v : Nat) (P : Nat → Bool)
    (d : HashTableDirectoryPage) : (setClass pid v P d).global_depth_ = d.global_depth_ := rfl

@[simp] theorem setClass_Size (pid : Int) (v : Nat) (P : Nat → Bool)
    (d : HashTableDirectoryPage) : (setClass pid v P d).Size = d.Size := rfl

theorem setClass_setClass (pid : Int) (v : Nat) (P Q : Nat → Bool) (d : HashTableDirectoryPage) :
    setClass pid v Q (setClass pid v P d) = setClass pid v (fun j => P j || Q j) d := by
  ext j <;> simp only [setClass]
  · by_cases hq : Q j = true <;> by_cases hp : P j = true <;> simp [hp, hq]
  · by_cases hq : Q j = true <;> by_cases hp : P j = true <;> simp [hp, hq]

theorem setClass_congr (pid : Int) (v : Nat) {P Q : Nat → Bool} (h : ∀ j, P j = Q j)
    (d : HashTableDirectoryPage) : setClass pid v P d = setClass pid v Q d := by
  have : P = Q := funext h
  rw [this]

theorem setClass_false (pid : Int) (v : Nat) {P : Nat → Bool} (h : ∀ j, P j = false)
    (d : HashTableDirectoryPage) : setClass pid v P d = d := by
  ext j <;> simp [setClass, h]

theorem setEntry_eq (pid : Int) (idx i v : Nat) (d : HashTableDirectoryPage)
    (hv : d.local_depths_ idx = v) (hle : v ≤ d.global_depth_) (h256 : v < 256) :
    setEntry pid idx i d = some (setClass pid v (fun j => decide (j = i)) d) := by
  have hm : v % 256 = v := Nat.mod_eq_of_lt h256
  simp only [setEntry, HashTableDirectoryPage.SetLocalDepth, HashTableDirectoryPage.SetBucketPageId,
    HashTableDirectoryPage.GetLocalDepth, hv, hm, if_pos hle]
  congr 1
  ext j <;> simp only [setClass]
  · by_cases h : j = i
    · subst h; simp
    · simp [h, Function.update_noteq h]
  · by_cases h : j = i
    · subst h; simp
    · simp [h, Function.update_noteq h]

theorem mod_class_gap {m j s : Nat} (hlt : j < s) (hmod : j % m = s % m) : j + m ≤ s := by
  have h1 : m ∣ s - j := (Nat.modEq_iff_dvd' hlt.le).1 hmod
  have h2 : 0 < s - j := Nat.sub_pos_of_lt hlt
  have := Nat.le_of_dvd h2 h1
  omega

theorem class_down_step {m s : Nat} (hm : m ≤ s) (j : Nat) :
    (j ≤ s ∧ j % m = s % m) ↔ (j = s ∨ (j ≤ s - m ∧ j % m = (s - m) % m)) := by
  have hsm : (s - m) % m = s % m := by
    conv_rhs => rw [← Nat.sub_add_cancel hm, Nat.add_mod_right]
  rw [hsm]
  constructor
  · rintro ⟨h1, h2⟩
    by_cases he : j = s
    · exact Or.inl he
    · right
      have := mod_class_gap (lt_of_le_of_ne h1 he) h2
      exact ⟨by omega, h2⟩
  · rintro (h | ⟨h1, h2⟩)
    · subst h; exact ⟨le_refl _, rfl⟩
    · exact ⟨by omega, h2⟩

theorem class_up_step {m s size : Nat} (hs : s < size) (j : Nat) :
    (s ≤ j ∧ j < size ∧ j % m = s % m) ↔
      (j = s ∨ (s + m ≤ j ∧ j < size ∧ j % m = (s + m) % m)) := by
  rw [Nat.add_mod_right]
  constructor
  · rintro ⟨h1, h2, h3⟩
    by_cases he : j = s
    · exact Or.inl he
    · right
      have := mod_class_gap (lt_of_le_of_ne h1 (Ne.symm he)) h3.symm
      exact ⟨this, h2, h3⟩
  · rintro (h | ⟨h1, h2, h3⟩)
    · subst h; exact ⟨le_refl _, hs, rfl⟩
    · exact ⟨by omega, h2, h3⟩

theorem loopDown_eq (pid : Int) (idx diff v : Nat) (hdiff : 0 < diff) (h256 : v < 256) :
    ∀ (fuel s : Nat) (d : HashTableDirectoryPage), s + 2 ≤ fuel → d.local_depths_ idx = v →
      v ≤ d.global_depth_ →
      loopDown pid idx diff fuel (s : Int) d =
        some (setClass pid v (fun j => decide (j ≤ s ∧ j % diff = s % diff)) d) := by
  intro fuel
  induction fuel with
  | zero => intro s d h; omega
  | succ fuel ih =>
    intro s d hf hv hle
    rw [loopDown, if_pos (Int.natCast_nonneg s), Int.toNat_natCast, setEntry_eq pid idx s v d hv hle h256,
      Option.some_bind]
    by_cases hs : diff ≤ s
    · have hcast : (s : Int) - (diff : Int) = ((s - diff : Nat) : Int) := by
        rw [Nat.cast_sub hs]
      have hv1 : (setClass pid v (fun j => decide (j = s)) d).local_depths_ idx = v := by
        simp only [setClass]; split <;> simp [hv]
      rw [hcast, ih (s - diff) _ (by omega) hv1 (by simpa using hle), setClass_setClass]
      congr 1
      apply setClass_congr
      intro j
      rw [← Bool.decide_or, decide_eq_decide]
      exact (class_down_step hs j).symm
    · have hneg : ¬ (0 : Int) ≤ (s : Int) - (diff : Int) := by omega
      obtain ⟨f', rfl⟩ : ∃ f', fuel = f' + 1 := ⟨fuel - 1, by omega⟩
      rw [loopDown, if_neg hneg]
      congr 1
      apply setClass_congr
      intro j
      have hs' : s < diff := by omega
      by_cases h1 : j = s
      · subst h1; simp
      · have : ¬ (j ≤ s ∧ j % diff = s % diff) := by
          rintro ⟨h2, h3⟩
          rw [Nat.mod_eq_of_lt (by omega), Nat.mod_eq_of_lt hs'] at h3
          exact h1 h3
        simp [h1, this]

theorem loopUp_eq (pid : Int) (idx diff v : Nat) (hdiff : 0 < diff) (h256 : v < 256) :
    ∀ (fuel s : Nat) (d : HashTableDirectoryPage), d.Size - s + 1 ≤ fuel →
      d.local_depths_ idx = v → v ≤ d.global_depth_ →
      loopUp pid idx diff fuel s d =
        some (setClass pid v (fun j => decide (s ≤ j ∧ j < d.Size ∧ j % diff = s % diff)) d) := by
  intro fuel
  induction fuel with
  | zero => intro s d h; omega
  | succ fuel ih =>
    intro s d hf hv hle
    rw [loopUp]
    by_cases hs : s < d.Size
    · rw [if_pos hs, setEntry_eq pid idx s v d hv hle h256, Option.some_bind]
      have hv1 : (setClass pid v (fun j => decide (j = s)) d).local_depths_ idx = v := by
        simp only [setClass]; split <;> simp [hv]
      rw [ih (s + diff) _ (by simp only [setClass_Size]; omega) hv1 (by simpa using hle),
        setClass_setClass]
      congr 1
      apply setClass_congr
      intro j
      simp only [setClass_Size]
      rw [← Bool.decide_or, decide_eq_decide]
      exact (class_up_step (m := diff) hs j).symm
    · rw [if_neg hs]
      congr 1
      symm
      apply setClass_false
      intro j
      simp only [decide_eq_false_iff_not]
      omega

theorem setStride_eq (pid : Int) (idx s diff v : Nat) (d : HashTableDirectoryPage)
    (hdiff : 0 < diff) (h256 : v < 256) (hs : s < d.Size) (hv : d.local_depths_ idx = v)
    (hle : v ≤ d.global_depth_) :
    setStride pid idx s diff d =
      some (setClass pid v (fun j => decide (j < d.Size ∧ j % diff = s % diff)) d) := by
  unfold setStride
  rw [loopDown_eq pid idx diff v hdiff h256 (s + 2) s d (le_refl _) hv hle,
    Option.some_bind]
  have hv1 : (setClass pid v (fun j => decide (j ≤ s ∧ j % diff = s % diff)) d).local_depths_ idx
      = v := by
    simp only [setClass]; split <;> simp [hv]
  rw [loopUp_eq pid idx diff v hdiff h256 _ s _ (by simp only [setClass_Size]; omega) hv1
    (by simpa using hle), setClass_setClass]
  congr 1
  apply setClass_congr
  intro j
  simp only [setClass_Size]
  rw [← Bool.decide_or, decide_eq_decide]
  constructor
  · rintro (⟨h1, h2⟩ | ⟨_, h2, h3⟩)
    · exact ⟨by omega, h2⟩
    · exact ⟨h2, h3⟩
  · rintro ⟨h1, h2⟩
    by_cases h : j ≤ s
    · exact Or.inl ⟨h, h2⟩
    · exact Or.inr ⟨by omega, h1, h2⟩

end ExtendibleHashTable
end bustub

/-! ### Directory growth: the two loops over the upper half -/

namespace bustub
namespace ExtendibleHashTable
open HashTableDirectoryPage

theorem mod_two_pow_eq_iff (a b n : Nat) :
    a % 2 ^ n = b % 2 ^ n ↔ ∀ i, i < n → a.testBit i = b.testBit i := by
  constructor
  · intro h i hi
    have h1 := Nat.testBit_mod_two_pow a n i
    have h2 := Nat.testBit_mod_two_pow b n i
    rw [h] at h1
    rw [h1] at h2
    simpa [hi] using h2
  · intro h
    apply Nat.eq_of_testBit_eq
    intro i
    rw [Nat.testBit_mod_two_pow, Nat.testBit_mod_two_pow]
    by_cases hi : i < n
    · simp [hi, h i hi]
    · simp [hi]

theorem xor_pow_mod_low (idx L : Nat) : (idx ^^^ 2 ^ L) % 2 ^ L = idx % 2 ^ L := by
  rw [mod_two_pow_eq_iff]
  intro i hi
  rw [Nat.testBit_xor, Nat.testBit_two_pow]
  have : ¬ L = i := by omega
  simp [this]

theorem xor_pow_mod_succ_ne (idx L : Nat) : (idx ^^^ 2 ^ L) % 2 ^ (L + 1) ≠ idx % 2 ^ (L + 1) := by
  intro h
  rw [mod_two_pow_eq_iff] at h
  have := h L (Nat.lt_succ_self L)
  rw [Nat.testBit_xor, Nat.testBit_two_pow] at this
  simp at this

theorem xor_pow_lt {idx L g : Nat} (hidx : idx < 2 ^ g) (hL : L < g) : idx ^^^ 2 ^ L < 2 ^ g :=
  Nat.xor_lt_two_pow hidx (Nat.pow_lt_pow_right (by norm_num) hL)

theorem mod_succ_cases {j idx L : Nat} (h : j % 2 ^ L = idx % 2 ^ L) :
    j % 2 ^ (L + 1) = idx % 2 ^ (L + 1) ∨ j % 2 ^ (L + 1) = (idx ^^^ 2 ^ L) % 2 ^ (L + 1) := by
  rw [mod_two_pow_eq_iff] at h
  by_cases hb : j.testBit L = idx.testBit L
  · left
    rw [mod_two_pow_eq_iff]
    intro i hi
    by_cases hiL : i = L
    · subst hiL; exact hb
    · exact h i (by omega)
  · right
    rw [mod_two_pow_eq_iff]
    intro i hi
    rw [Nat.testBit_xor, Nat.testBit_two_pow]
    by_cases hiL : i = L
    · subst hiL
      cases h1 : j.testBit i <;> cases h2 : idx.testBit i <;> simp_all
    · have : ¬ L = i := fun e => hiL e.symm
      simp [this, h i (by omega)]

theorem mod_of_mod_succ {a b n : Nat} (h : a % 2 ^ (n + 1) = b % 2 ^ (n + 1)) :
    a % 2 ^ n = b % 2 ^ n := by
  rw [mod_two_pow_eq_iff] at h ⊢
  intro i hi
  exact h i (by omega)

theorem mod_of_mod_le {a b n m : Nat} (hnm : n ≤ m) (h : a % 2 ^ m = b % 2 ^ m) :
    a % 2 ^ n = b % 2 ^ n := by
  rw [mod_two_pow_eq_iff] at h ⊢
  intro i hi
  exact h i (by omega)

theorem invalidate_fold (v : Int) (l : List Nat) (d : HashTableDirectoryPage) :
    l.foldl (fun d i => d.SetBucketPageId i v) d =
      { d with bucket_page_ids_ := fun j => if j ∈ l then v else d.bucket_page_ids_ j } := by
  induction l generalizing d with
  | nil => simp
  | cons x xs ih =>
    rw [List.foldl_cons, ih]
    ext j <;> simp only [SetBucketPageId]
    by_cases h1 : j ∈ xs
    · simp [h1]
    · by_cases h2 : j = x
      · subst h2; simp [h1]
      · simp [h1, h2, Function.update_noteq h2]

theorem invalidateUpperHalf_eq (d : HashTableDirectoryPage) :
    invalidateUpperHalf d =
      { d with bucket_page_ids_ := fun j =>
          if d.Size / 2 ≤ j ∧ j < d.Size then INVALID_PAGE_ID else d.bucket_page_ids_ j } := by
  unfold invalidateUpperHalf
  rw [invalidate_fold]
  have : ∀ j, j ∈ List.range' (d.Size / 2) (d.Size - d.Size / 2) ↔ d.Size / 2 ≤ j ∧ j < d.Size := by
    intro j
    rw [List.mem_range'_1]; omega
  simp only [this]

theorem mirror_fold (h : Nat) :
    ∀ (l : List Nat) (d : HashTableDirectoryPage), l.Nodup → (∀ j ∈ l, h ≤ j ∧ j - h < h) →
      (∀ j, j < h → d.local_depths_ j ≤ d.global_depth_ ∧ d.local_depths_ j < 256) →
      l.foldlM (mirrorStep h) d = some (mirrorClosed h l d) := by
  intro l
  induction l with
  | nil =>
    intro d _ _ _
    simp only [List.foldlM_nil, mirrorClosed]
    congr 1
  | cons x xs ih =>
    intro d hnd hrange hld
    rw [List.nodup_cons] at hnd
    have hx := hrange x (List.mem_cons_self _ _)
    have hxs : ∀ j ∈ xs, h ≤ j ∧ j - h < h := fun j hj => hrange j (List.mem_cons_of_mem _ hj)
    rw [List.foldlM_cons]
    by_cases hinv : d.bucket_page_ids_ x = INVALID_PAGE_ID
    · have hl := hld (x - h) hx.2
      have hm : d.local_depths_ (x - h) % 256 = d.local_depths_ (x - h) := Nat.mod_eq_of_lt hl.2
      have hstep : mirrorStep h d x = some
          { d with
            bucket_page_ids_ := Function.update d.bucket_page_ids_ x (d.bucket_page_ids_ (x - h)),
            local_depths_ := Function.update d.local_depths_ x (d.local_depths_ (x - h)) } := by
        simp only [mirrorStep, GetBucketPageId, hinv, if_true, SetLocalDepth, SetBucketPageId,
          GetLocalDepth, hm, if_pos hl.1]
      rw [hstep]
      simp only [bind, Option.bind]
      rw [ih _ hnd.2 hxs]
      · congr 1
        ext j <;> simp only [mirrorClosed]
        · by_cases hjx : j = x
          · subst hjx
            simp [hnd.1, hinv]
          · by_cases hj : j ∈ xs
            · have hjh : j - h ≠ x := by have := hxs j hj; omega
              simp [hj, hjx, Function.update_noteq hjx, Function.update_noteq hjh]
            · simp [hj, hjx, Function.update_noteq hjx]
        · by_cases hjx : j = x
          · subst hjx
            simp [hnd.1, hinv]
          · by_cases hj : j ∈ xs
            · have hjh : j - h ≠ x := by have := hxs j hj; omega
              simp [hj, hjx, Function.update_noteq hjx, Function.update_noteq hjh]
            · simp [hj, hjx, Function.update_noteq hjx]
      · intro j hj
        have hjx : j ≠ x := by omega
        simpa [Function.update_noteq hjx] using hld j hj
    · have hstep : mirrorStep h d x = some d := by
        simp only [mirrorStep, GetBucketPageId, hinv, if_false]
      rw [hstep]
      simp only [bind, Option.bind]
      rw [ih _ hnd.2 hxs hld]
      congr 1
      ext j <;> simp only [mirrorClosed]
      · by_cases hjx : j = x
        · subst hjx; simp [hinv]
        · simp [hjx]
      · by_cases hjx : j = x
        · subst hjx; simp [hinv]
        · simp [hjx]

theorem mirrorUpperHalf_eq (d : HashTableDirectoryPage)
    (hld : ∀ j, j < d.Size / 2 → d.local_depths_ j ≤ d.global_depth_ ∧ d.local_depths_ j < 256)
    (hpos : 0 < d.global_depth_) :
    mirrorUpperHalf d =
      some (mirrorClosed (d.Size / 2) (List.range' (d.Size / 2) (d.Size - d.Size / 2)) d) := by
  have hsz : ∀ (l : List Nat) (d' : HashTableDirectoryPage), d'.global_depth_ = d.global_depth_ →
      l.foldlM (fun d i =>
        if d.GetBucketPageId i = INVALID_PAGE_ID then
          (d.SetBucketPageId i (d.GetBucketPageId (i - d.Size / 2))).SetLocalDepth i
            ((d.SetBucketPageId i (d.GetBucketPageId (i - d.Size / 2))).GetLocalDepth
              (i - d.Size / 2))
        else some d) d' = l.foldlM (mirrorStep (d.Size / 2)) d' := by
    intro l
    induction l with
    | nil => intro d' _; rfl
    | cons x xs ih =>
      intro d' hg
      have hS : d'.Size = d.Size := by simp [HashTableDirectoryPage.Size, hg]
      rw [List.foldlM_cons, List.foldlM_cons]
      have : (if d'.GetBucketPageId x = INVALID_PAGE_ID then
          (d'.SetBucketPageId x (d'.GetBucketPageId (x - d'.Size / 2))).SetLocalDepth x
            ((d'.SetBucketPageId x (d'.GetBucketPageId (x - d'.Size / 2))).GetLocalDepth
              (x - d'.Size / 2))
        else some d') = mirrorStep (d.Size / 2) d' x := by
        simp only [mirrorStep, hS]
      rw [this]
      cases hstep : mirrorStep (d.Size / 2) d' x with
      | none => rfl
      | some d'' =>
        simp only [bind, Option.bind]
        apply ih
        rw [← hg]
        simp only [mirrorStep] at hstep
        split at hstep
        · simp only [SetLocalDepth, SetBucketPageId] at hstep
          split at hstep
          · cases hstep; rfl
          · cases hstep
        · cases hstep; rfl
  unfold mirrorUpperHalf
  rw [hsz _ d rfl]
  apply mirror_fold
  · exact List.nodup_range' _ _
  · intro j hj
    rw [List.mem_range'_1] at hj
    obtain ⟨g, hg⟩ : ∃ g, d.global_depth_ = g + 1 := ⟨d.global_depth_ - 1, by omega⟩
    have : d.Size = 2 * 2 ^ g := by rw [Size_eq, hg, pow_succ]; ring
    omega
  · exact hld

end ExtendibleHashTable
end bustub

/-! ### SplitInsert: closed form of the directory update -/

namespace bustub
namespace ExtendibleHashTable
open HashTableDirectoryPage

theorem splitStart_ld_idx (d0 : HashTableDirectoryPage) (idx : Nat) (Q : Int) (g : Nat) :
    (splitStart d0 idx Q g).local_depths_ idx = d0.local_depths_ idx + 1 := by
  simp only [splitStart, Function.update_apply]
  split <;> simp

theorem splitDirectory_noGrow (d0 : HashTableDirectoryPage) (idx : Nat) (P Q : Int)
    (hidx : idx < 2 ^ d0.global_depth_) (hlt : d0.local_depths_ idx < d0.global_depth_)
    (h30 : d0.global_depth_ ≤ 30) :
    splitDirectory d0 idx P Q =
      some (setClass Q (d0.local_depths_ idx + 1)
        (fun j => decide (j < 2 ^ d0.global_depth_ ∧
          j % 2 ^ (d0.local_depths_ idx + 1) =
            (idx ^^^ 2 ^ d0.local_depths_ idx) % 2 ^ (d0.local_depths_ idx + 1)))
        (setClass P (d0.local_depths_ idx + 1)
          (fun j => decide (j < 2 ^ d0.global_depth_ ∧
            j % 2 ^ (d0.local_depths_ idx + 1) = idx % 2 ^ (d0.local_depths_ idx + 1)))
          (splitStart d0 idx Q d0.global_depth_))) := by
  have hne : ¬ d0.local_depths_ idx = d0.global_depth_ := by omega
  have hm : (d0.local_depths_ idx + 1) % 256 = d0.local_depths_ idx + 1 := by omega
  have himg : idx ^^^ 2 ^ d0.local_depths_ idx < 2 ^ d0.global_depth_ := xor_pow_lt hidx hlt
  unfold splitDirectory
  simp only [GetLocalDepth, HashTableDirectoryPage.GetGlobalDepth, hne, decide_False, Bool.false_eq_true, if_false,
    IncrLocalDepth, if_pos hlt, Option.some_bind, GetSplitImageIndex, Function.update_same, hm,
    Nat.add_sub_cancel, Nat.one_shiftLeft, SetLocalDepth, if_pos (Nat.succ_le_of_lt hlt),
    SetBucketPageId]
  show ((setStride P idx idx (2 ^ (splitStart d0 idx Q d0.global_depth_).local_depths_ idx)
      (splitStart d0 idx Q d0.global_depth_)).bind fun a =>
      (setStride Q idx (idx ^^^ 2 ^ d0.local_depths_ idx)
        (2 ^ (splitStart d0 idx Q d0.global_depth_).local_depths_ idx) a).bind fun a => some a) = _
  rw [splitStart_ld_idx]
  have hS : (splitStart d0 idx Q d0.global_depth_).Size = 2 ^ d0.global_depth_ := Size_eq _
  have h1 := setStride_eq P idx idx (2 ^ (d0.local_depths_ idx + 1)) (d0.local_depths_ idx + 1)
    (splitStart d0 idx Q d0.global_depth_)
    (by positivity) (by omega) (by rw [hS]; exact hidx) (splitStart_ld_idx _ _ _ _)
    (Nat.succ_le_of_lt hlt)
  rw [h1, Option.some_bind]
  have h2 := setStride_eq Q idx (idx ^^^ 2 ^ d0.local_depths_ idx)
    (2 ^ (d0.local_depths_ idx + 1)) (d0.local_depths_ idx + 1)
    (setClass P (d0.local_depths_ idx + 1)
            (fun j =>
              decide
                (j < (splitStart d0 idx Q d0.global_depth_).Size ∧
                  j % 2 ^ (d0.local_depths_ idx + 1) = idx % 2 ^ (d0.local_depths_ idx + 1)))
            (splitStart d0 idx Q d0.global_depth_))
    (by positivity) (by omega) (by rw [setClass_Size, hS]; exact himg)
    (by simp only [setClass]; split <;> simp [splitStart_ld_idx])
    (Nat.succ_le_of_lt hlt)
  rw [h2, Option.some_bind]
  simp only [setClass_Size, hS]

theorem two_pow_succ_half (g : Nat) : 2 ^ (g + 1) / 2 = 2 ^ g := by
  rw [pow_succ]; omega

theorem splitDirectory_grow (d0 : HashTableDirectoryPage) (idx : Nat) (P Q : Int)
    (hidx : idx < 2 ^ d0.global_depth_) (heq : d0.local_depths_ idx = d0.global_depth_)
    (h30 : d0.global_depth_ ≤ 30)
    (hld : ∀ j, j < 2 ^ d0.global_depth_ → d0.local_depths_ j ≤ d0.global_depth_) :
    splitDirectory d0 idx P Q = some (splitGrown d0 idx P Q) := by
  have hm : (d0.local_depths_ idx + 1) % 256 = d0.local_depths_ idx + 1 := by omega
  have hm32 : (d0.global_depth_ + 1) % 2 ^ 32 = d0.global_depth_ + 1 := by
    apply Nat.mod_eq_of_lt
    have : (2 : Nat) ^ 32 = 4294967296 := by norm_num
    omega
  have himg : idx ^^^ 2 ^ d0.local_depths_ idx < 2 ^ (d0.global_depth_ + 1) :=
    xor_pow_lt (lt_of_lt_of_le hidx (Nat.pow_le_pow_right (by norm_num) (by omega))) (by omega)
  have hdec : decide (d0.local_depths_ idx = d0.global_depth_) = true := decide_eq_true heq
  have hlt : d0.local_depths_ idx < d0.global_depth_ + 1 := by omega
  have hle : d0.local_depths_ idx + 1 ≤ d0.global_depth_ + 1 := by omega
  unfold splitDirectory
  simp only [GetLocalDepth, HashTableDirectoryPage.GetGlobalDepth, hdec, if_true,
    IncrGlobalDepth, hm32, IncrLocalDepth, if_pos hlt, Option.some_bind,
    GetSplitImageIndex, Function.update_same, hm,
    Nat.add_sub_cancel, Nat.one_shiftLeft, SetLocalDepth, if_pos hle, SetBucketPageId]
  show ((setStride P idx idx (2 ^ (splitStart d0 idx Q (d0.global_depth_ + 1)).local_depths_ idx)
      (invalidateUpperHalf (splitStart d0 idx Q (d0.global_depth_ + 1)))).bind fun a =>
      (setStride Q idx (idx ^^^ 2 ^ d0.local_depths_ idx)
        (2 ^ (splitStart d0 idx Q (d0.global_depth_ + 1)).local_depths_ idx) a).bind fun a =>
        mirrorUpperHalf a) = _
  rw [splitStart_ld_idx, invalidateUpperHalf_eq]
  have hS : (splitStart d0 idx Q (d0.global_depth_ + 1)).Size = 2 ^ (d0.global_depth_ + 1) :=
    Size_eq _
  rw [hS, two_pow_succ_half]
  show ((setStride P idx idx (2 ^ (d0.local_depths_ idx + 1)) (splitInval d0 idx Q)).bind fun a =>
      (setStride Q idx (idx ^^^ 2 ^ d0.local_depths_ idx) (2 ^ (d0.local_depths_ idx + 1)) a).bind
        fun a => mirrorUpperHalf a) = _
  have hSI : (splitInval d0 idx Q).Size = 2 ^ (d0.global_depth_ + 1) := Size_eq _
  have hldI : (splitInval d0 idx Q).local_depths_ idx = d0.local_depths_ idx + 1 :=
    splitStart_ld_idx d0 idx Q (d0.global_depth_ + 1)
  have h1 := setStride_eq P idx idx (2 ^ (d0.local_depths_ idx + 1)) (d0.local_depths_ idx + 1)
    (splitInval d0 idx Q) (by positivity) (by omega)
    (by rw [hSI]; exact lt_of_lt_of_le hidx (Nat.pow_le_pow_right (by norm_num) (by omega)))
    hldI hle
  rw [h1, Option.some_bind, hSI]
  have h2 := setStride_eq Q idx (idx ^^^ 2 ^ d0.local_depths_ idx)
    (2 ^ (d0.local_depths_ idx + 1)) (d0.local_depths_ idx + 1)
    (setClass P (d0.local_depths_ idx + 1)
      (fun j => decide (j < 2 ^ (d0.global_depth_ + 1) ∧
        j % 2 ^ (d0.local_depths_ idx + 1) = idx % 2 ^ (d0.local_depths_ idx + 1)))
      (splitInval d0 idx Q))
    (by positivity) (by omega) (by rw [setClass_Size, hSI]; exact himg)
    (by simp only [setClass]; split <;> simp [hldI])
    hle
  rw [h2, Option.some_bind, setClass_Size, hSI]
  have h3 := mirrorUpperHalf_eq (setClass Q (d0.local_depths_ idx + 1)
    (fun j => decide (j < 2 ^ (d0.global_depth_ + 1) ∧
      j % 2 ^ (d0.local_depths_ idx + 1) =
        (idx ^^^ 2 ^ d0.local_depths_ idx) % 2 ^ (d0.local_depths_ idx + 1)))
    (setClass P (d0.local_depths_ idx + 1)
      (fun j => decide (j < 2 ^ (d0.global_depth_ + 1) ∧
        j % 2 ^ (d0.local_depths_ idx + 1) = idx % 2 ^ (d0.local_depths_ idx + 1)))
      (splitInval d0 idx Q))) (by
      rw [setClass_Size, setClass_Size, hSI, two_pow_succ_half]
      intro j hj
      have hj0 := hld j hj
      have : (setClass Q (d0.local_depths_ idx + 1)
          (fun j => decide (j < 2 ^ (d0.global_depth_ + 1) ∧
            j % 2 ^ (d0.local_depths_ idx + 1) =
              (idx ^^^ 2 ^ d0.local_depths_ idx) % 2 ^ (d0.local_depths_ idx + 1)))
          (setClass P (d0.local_depths_ idx + 1)
            (fun j => decide (j < 2 ^ (d0.global_depth_ + 1) ∧
              j % 2 ^ (d0.local_depths_ idx + 1) = idx % 2 ^ (d0.local_depths_ idx + 1)))
            (splitInval d0 idx Q))).local_depths_ j ≤ d0.global_depth_ + 1 := by
        simp only [setClass, splitInval, splitStart, Function.update_apply]
        split_ifs <;> omega
      exact ⟨this, by omega⟩)
    (by show 0 < d0.global_depth_ + 1; omega)
  rw [h3, setClass_Size, setClass_Size, hSI, two_pow_succ_half]
  have : 2 ^ (d0.global_depth_ + 1) - 2 ^ d0.global_depth_ = 2 ^ d0.global_depth_ := by
    rw [pow_succ]; omega
  rw [this]
  rfl

end ExtendibleHashTable
end bustub

/-! ### SplitInsert: the directory after a split -/

namespace bustub
namespace ExtendibleHashTable
open HashTableDirectoryPage

theorem setClass_bp (pid : Int) (v : Nat) (P : Nat → Bool) (d : HashTableDirectoryPage) (j : Nat) :
    (setClass pid v P d).bucket_page_ids_ j = if P j then pid else d.bucket_page_ids_ j := rfl

theorem setClass_ld (pid : Int) (v : Nat) (P : Nat → Bool) (d : HashTableDirectoryPage) (j : Nat) :
    (setClass pid v P d).local_depths_ j = if P j then v else d.local_depths_ j := rfl

theorem splitStart_bp_of_ne (d0 : HashTableDirectoryPage) (idx : Nat) (Q : Int) (g : Nat) {j : Nat}
    (h : j ≠ idx ^^^ 2 ^ d0.local_depths_ idx) :
    (splitStart d0 idx Q g).bucket_page_ids_ j = d0.bucket_page_ids_ j := by
  simp only [splitStart, Function.update_noteq h]

theorem splitStart_ld_of_ne (d0 : HashTableDirectoryPage) (idx : Nat) (Q : Int) (g : Nat) {j : Nat}
    (h : j ≠ idx ^^^ 2 ^ d0.local_depths_ idx) (h' : j ≠ idx) :
    (splitStart d0 idx Q g).local_depths_ j = d0.local_depths_ j := by
  simp only [splitStart, Function.update_noteq h, Function.update_noteq h']

theorem splitDirectory_spec_noGrow (d0 : HashTableDirectoryPage) (idx : Nat) (P Q : Int)
    (hidx : idx < 2 ^ d0.global_depth_) (hlt : d0.local_depths_ idx < d0.global_depth_)
    (h30 : d0.global_depth_ ≤ 30) :
    ∃ d1, splitDirectory d0 idx P Q = some d1 ∧ SplitSpec d0 d1 idx P Q ∧
      d1.page_id_ = d0.page_id_ := by
  refine ⟨_, splitDirectory_noGrow d0 idx P Q hidx hlt h30, ?_, rfl⟩
  have hne : ¬ d0.local_depths_ idx = d0.global_depth_ := by omega
  refine ⟨?_, ?_, ?_⟩
  · simp only [setClass_global_depth, if_neg hne]; rfl
  · intro j hj hmod
    have hj' : j < 2 ^ d0.global_depth_ := hj
    rw [setClass_ld, setClass_ld, setClass_bp, setClass_bp]
    by_cases h0 : j % 2 ^ (d0.local_depths_ idx + 1) = idx % 2 ^ (d0.local_depths_ idx + 1)
    · have h1 : ¬ j % 2 ^ (d0.local_depths_ idx + 1) =
          (idx ^^^ 2 ^ d0.local_depths_ idx) % 2 ^ (d0.local_depths_ idx + 1) := by
        rw [h0]; exact fun e => xor_pow_mod_succ_ne _ _ e.symm
      have hC0 := decide_eq_true (show j < 2 ^ d0.global_depth_ ∧ _ from ⟨hj', h0⟩)
      have hC1 := decide_eq_false (show ¬ (j < 2 ^ d0.global_depth_ ∧ _) from fun h => h1 h.2)
      rw [if_pos h0]
      simp only [hC0, hC1, if_true, Bool.false_eq_true, if_false, and_self]
    · have h1 : j % 2 ^ (d0.local_depths_ idx + 1) =
          (idx ^^^ 2 ^ d0.local_depths_ idx) % 2 ^ (d0.local_depths_ idx + 1) := by
        rcases mod_succ_cases hmod with h | h
        · exact absurd h h0
        · exact h
      have hC1 := decide_eq_true (show j < 2 ^ d0.global_depth_ ∧ _ from ⟨hj', h1⟩)
      rw [if_neg h0]
      simp only [hC1, if_true, and_self]
  · intro j hj hmod
    have hj' : j < 2 ^ d0.global_depth_ := hj
    rw [setClass_ld, setClass_ld, setClass_bp, setClass_bp]
    have h0 : ¬ j % 2 ^ (d0.local_depths_ idx + 1) = idx % 2 ^ (d0.local_depths_ idx + 1) :=
      fun e => hmod (mod_of_mod_succ e)
    have h1 : ¬ j % 2 ^ (d0.local_depths_ idx + 1) =
        (idx ^^^ 2 ^ d0.local_depths_ idx) % 2 ^ (d0.local_depths_ idx + 1) :=
      fun e => hmod ((mod_of_mod_succ e).trans (xor_pow_mod_low _ _))
    have h2 : j ≠ idx := fun e => hmod (by rw [e])
    have h3 : j ≠ idx ^^^ 2 ^ d0.local_depths_ idx := fun e => hmod (by rw [e, xor_pow_mod_low])
    simp only [h0, h1, and_false, decide_False, Bool.false_eq_true, if_false,
      splitStart_bp_of_ne _ _ _ _ h3, splitStart_ld_of_ne _ _ _ _ h3 h2, Nat.mod_eq_of_lt hj',
      and_self]

theorem mirrorClosed_bp (h : Nat) (l : List Nat) (d : HashTableDirectoryPage) (j : Nat) :
    (mirrorClosed h l d).bucket_page_ids_ j =
      if j ∈ l ∧ d.bucket_page_ids_ j = INVALID_PAGE_ID then d.bucket_page_ids_ (j - h)
      else d.bucket_page_ids_ j := rfl

theorem mirrorClosed_ld (h : Nat) (l : List Nat) (d : HashTableDirectoryPage) (j : Nat) :
    (mirrorClosed h l d).local_depths_ j =
      if j ∈ l ∧ d.bucket_page_ids_ j = INVALID_PAGE_ID then d.local_depths_ (j - h)
      else d.local_depths_ j := rfl

theorem splitInval_bp (d0 : HashTableDirectoryPage) (idx : Nat) (Q : Int) (j : Nat) :
    (splitInval d0 idx Q).bucket_page_ids_ j =
      if 2 ^ d0.global_depth_ ≤ j ∧ j < 2 ^ (d0.global_depth_ + 1) then INVALID_PAGE_ID
      else (splitStart d0 idx Q (d0.global_depth_ + 1)).bucket_page_ids_ j := rfl

theorem splitInval_ld (d0 : HashTableDirectoryPage) (idx : Nat) (Q : Int) (j : Nat) :
    (splitInval d0 idx Q).local_depths_ j =
      (splitStart d0 idx Q (d0.global_depth_ + 1)).local_depths_ j := rfl

theorem splitDirectory_spec_grow (d0 : HashTableDirectoryPage) (idx : Nat) (P Q : Int)
    (hidx : idx < 2 ^ d0.global_depth_) (heq : d0.local_depths_ idx = d0.global_depth_)
    (h30 : d0.global_depth_ ≤ 30)
    (hld : ∀ j, j < 2 ^ d0.global_depth_ → d0.local_depths_ j ≤ d0.global_depth_)
    (hP : P ≠ INVALID_PAGE_ID) (hQ : Q ≠ INVALID_PAGE_ID) :
    ∃ d1, splitDirectory d0 idx P Q = some d1 ∧ SplitSpec d0 d1 idx P Q ∧
      d1.page_id_ = d0.page_id_ := by
  refine ⟨_, splitDirectory_grow d0 idx P Q hidx heq h30 hld, ?_, rfl⟩
  have hgd : (splitGrown d0 idx P Q).global_depth_ = d0.global_depth_ + 1 := rfl
  refine ⟨?_, ?_, ?_⟩
  · rw [hgd, if_pos heq]
  · intro j hj hmod
    rw [hgd] at hj
    simp only [splitGrown]
    by_cases h0 : j % 2 ^ (d0.local_depths_ idx + 1) = idx % 2 ^ (d0.local_depths_ idx + 1)
    · have h1 : ¬ j % 2 ^ (d0.local_depths_ idx + 1) =
          (idx ^^^ 2 ^ d0.local_depths_ idx) % 2 ^ (d0.local_depths_ idx + 1) := by
        rw [h0]; exact fun e => xor_pow_mod_succ_ne _ _ e.symm
      have hC0 := decide_eq_true (show j < 2 ^ (d0.global_depth_ + 1) ∧ _ from ⟨hj, h0⟩)
      have hC1 := decide_eq_false
        (show ¬ (j < 2 ^ (d0.global_depth_ + 1) ∧ _) from fun h => h1 h.2)
      rw [if_pos h0]
      simp only [mirrorClosed_ld, mirrorClosed_bp, setClass_ld, setClass_bp,
        hC0, hC1, if_true, Bool.false_eq_true, if_false, hP, and_false, and_self]
    · have h1 : j % 2 ^ (d0.local_depths_ idx + 1) =
          (idx ^^^ 2 ^ d0.local_depths_ idx) % 2 ^ (d0.local_depths_ idx + 1) := by
        rcases mod_succ_cases hmod with h | h
        · exact absurd h h0
        · exact h
      have hC1 := decide_eq_true (show j < 2 ^ (d0.global_depth_ + 1) ∧ _ from ⟨hj, h1⟩)
      rw [if_neg h0]
      simp only [mirrorClosed_ld, mirrorClosed_bp, setClass_ld, setClass_bp,
        hC1, if_true, hQ, and_false, if_false, and_self]
  · intro j hj hmod
    rw [hgd] at hj
    have hne_of : ∀ k, k % 2 ^ d0.local_depths_ idx ≠ idx % 2 ^ d0.local_depths_ idx →
        (¬ k % 2 ^ (d0.local_depths_ idx + 1) = idx % 2 ^ (d0.local_depths_ idx + 1)) ∧
        (¬ k % 2 ^ (d0.local_depths_ idx + 1) =
          (idx ^^^ 2 ^ d0.local_depths_ idx) % 2 ^ (d0.local_depths_ idx + 1)) ∧
        k ≠ idx ∧ k ≠ idx ^^^ 2 ^ d0.local_depths_ idx := by
      intro k hk
      refine ⟨fun e => hk (mod_of_mod_succ e),
        fun e => hk ((mod_of_mod_succ e).trans (xor_pow_mod_low _ _)),
        fun e => hk (by rw [e]), fun e => hk (by rw [e, xor_pow_mod_low])⟩
    obtain ⟨h0, h1, h2, h3⟩ := hne_of j hmod
    simp only [splitGrown]
    rw [mirrorClosed_ld, mirrorClosed_bp]
    by_cases hlow : j < 2 ^ d0.global_depth_
    · have hnl : ¬ (j ∈ List.range' (2 ^ d0.global_depth_) (2 ^ d0.global_depth_)) := by
        rw [List.mem_range'_1]; omega
      have hnu : ¬ (2 ^ d0.global_depth_ ≤ j ∧ j < 2 ^ (d0.global_depth_ + 1)) := by omega
      simp only [hnl, false_and, if_false, setClass_ld, setClass_bp, h0, h1, and_false,
        decide_False, Bool.false_eq_true, splitInval_bp, splitInval_ld, hnu,
        splitStart_bp_of_ne _ _ _ _ h3, splitStart_ld_of_ne _ _ _ _ h3 h2, Nat.mod_eq_of_lt hlow,
        and_self]
    · have hl : j ∈ List.range' (2 ^ d0.global_depth_) (2 ^ d0.global_depth_) := by
        rw [List.mem_range'_1]; rw [pow_succ] at hj; omega
      have hu : 2 ^ d0.global_depth_ ≤ j ∧ j < 2 ^ (d0.global_depth_ + 1) := ⟨by omega, hj⟩
      have hjm : j % 2 ^ d0.global_depth_ = j - 2 ^ d0.global_depth_ := by
        rw [pow_succ] at hj
        rw [Nat.mod_eq_sub_mod (by omega), Nat.mod_eq_of_lt (by omega)]
      have hmod' : (j - 2 ^ d0.global_depth_) % 2 ^ d0.local_depths_ idx ≠
          idx % 2 ^ d0.local_depths_ idx := by
        rw [← hjm, heq, Nat.mod_mod]; rw [heq] at hmod; exact hmod
      obtain ⟨k0, k1, k2, k3⟩ := hne_of _ hmod'
      have hnu' : ¬ (2 ^ d0.global_depth_ ≤ j - 2 ^ d0.global_depth_ ∧
          j - 2 ^ d0.global_depth_ < 2 ^ (d0.global_depth_ + 1)) := by
        rw [pow_succ] at hj; omega
      have hbp : (setClass Q (d0.local_depths_ idx + 1)
          (fun j => decide (j < 2 ^ (d0.global_depth_ + 1) ∧
            j % 2 ^ (d0.local_depths_ idx + 1) =
              (idx ^^^ 2 ^ d0.local_depths_ idx) % 2 ^ (d0.local_depths_ idx + 1)))
          (setClass P (d0.local_depths_ idx + 1)
            (fun j => decide (j < 2 ^ (d0.global_depth_ + 1) ∧
              j % 2 ^ (d0.local_depths_ idx + 1) = idx % 2 ^ (d0.local_depths_ idx + 1)))
            (splitInval d0 idx Q))).bucket_page_ids_ j = INVALID_PAGE_ID := by
        simp only [setClass_bp, h0, h1, and_false, decide_False, Bool.false_eq_true, if_false,
          splitInval_bp, hu, and_self, if_true]
      rw [if_pos ⟨hl, hbp⟩, if_pos ⟨hl, hbp⟩]
      simp only [setClass_ld, setClass_bp, k0, k1, and_false,
        decide_False, Bool.false_eq_true, if_false, splitInval_bp, splitInval_ld, hnu',
        splitStart_bp_of_ne _ _ _ _ k3, splitStart_ld_of_ne _ _ _ _ k3 k2, hjm, and_self]

theorem splitDirectory_spec (maxD : Nat) (next : Int) (d0 : HashTableDirectoryPage) (idx : Nat)
    (Q : Int) (hinv : DirInv maxD next d0) (h30 : maxD ≤ 30)
    (hidx : idx < 2 ^ d0.global_depth_) (hQ : 0 ≤ Q) :
    ∃ d1, splitDirectory d0 idx (d0.bucket_page_ids_ idx) Q = some d1 ∧
      SplitSpec d0 d1 idx (d0.bucket_page_ids_ idx) Q ∧ d1.page_id_ = d0.page_id_ := by
  have hg30 : d0.global_depth_ ≤ 30 := le_trans hinv.gd_le h30
  by_cases heq : d0.local_depths_ idx = d0.global_depth_
  · apply splitDirectory_spec_grow d0 idx _ Q hidx heq hg30 hinv.ld_le
    · have := (hinv.pid_range idx hidx).1
      simp only [INVALID_PAGE_ID]; omega
    · simp only [INVALID_PAGE_ID]; omega
  · have := hinv.ld_le idx hidx
    exact splitDirectory_spec_noGrow d0 idx _ Q hidx (by omega) hg30

end ExtendibleHashTable
end bustub

/-! ### SplitInsert keeps the directory invariant -/

namespace bustub
namespace ExtendibleHashTable
open HashTableDirectoryPage

theorem mod_mod_two_pow {a g : Nat} (j : Nat) (h : a ≤ g) : (j % 2 ^ g) % 2 ^ a = j % 2 ^ a :=
  Nat.mod_mod_of_dvd j (pow_dvd_pow 2 h)

/-- Facts about an index outside the split bucket, used for every clause. -/
theorem SplitSpec.outside_facts {maxD : Nat} {next : Int} {d0 d1 : HashTableDirectoryPage}
    {idx : Nat} (hinv : DirInv maxD next d0) (hidx : idx < 2 ^ d0.global_depth_)
    (hs : SplitSpec d0 d1 idx (d0.bucket_page_ids_ idx) next) {j : Nat}
    (hj : j < 2 ^ d1.global_depth_)
    (hout : j % 2 ^ d0.local_depths_ idx ≠ idx % 2 ^ d0.local_depths_ idx) :
    j % 2 ^ d0.global_depth_ < 2 ^ d0.global_depth_ ∧
    d1.local_depths_ j = d0.local_depths_ (j % 2 ^ d0.global_depth_) ∧
    d1.bucket_page_ids_ j = d0.bucket_page_ids_ (j % 2 ^ d0.global_depth_) ∧
    d1.bucket_page_ids_ j ≠ d0.bucket_page_ids_ idx ∧ d1.bucket_page_ids_ j ≠ next ∧
    d0.local_depths_ (j % 2 ^ d0.global_depth_) ≤ d0.global_depth_ ∧
    (j % 2 ^ d0.global_depth_) % 2 ^ d0.local_depths_ (j % 2 ^ d0.global_depth_) ≠
      idx % 2 ^ d0.local_depths_ (j % 2 ^ d0.global_depth_) := by
  have hj0 : j % 2 ^ d0.global_depth_ < 2 ^ d0.global_depth_ := Nat.mod_lt _ (by positivity)
  obtain ⟨h1, h2⟩ := hs.outside j hj hout
  have hL := hinv.ld_le idx hidx
  have hne : d0.bucket_page_ids_ (j % 2 ^ d0.global_depth_) ≠ d0.bucket_page_ids_ idx := by
    intro e
    have := (hinv.same idx _ hidx hj0).1 e.symm
    rw [mod_mod_two_pow j hL] at this
    exact hout this.symm
  refine ⟨hj0, h1, h2, by rw [h2]; exact hne, ?_, hinv.ld_le _ hj0, ?_⟩
  · rw [h2]; have := (hinv.pid_range _ hj0).2; omega
  · intro e
    exact hne ((hinv.same _ idx hj0 hidx).2 e)

theorem SplitSpec.dirInv {maxD : Nat} {next : Int} {d0 d1 : HashTableDirectoryPage}
    {idx : Nat} (hinv : DirInv maxD next d0) (hidx : idx < 2 ^ d0.global_depth_)
    (hL : d0.local_depths_ idx < maxD)
    (hs : SplitSpec d0 d1 idx (d0.bucket_page_ids_ idx) next) :
    DirInv maxD (next + 1) d1 := by
  have hLg := hinv.ld_le idx hidx
  have hgd := hs.gd
  have hg01 : d0.global_depth_ ≤ d1.global_depth_ := by rw [hgd]; split <;> omega
  have hL1 : d0.local_depths_ idx + 1 ≤ d1.global_depth_ := by rw [hgd]; split <;> omega
  have hPQ : d0.bucket_page_ids_ idx ≠ next := by
    have := (hinv.pid_range idx hidx).2; omega
  have hnext : 0 ≤ next := by
    have := hinv.pid_range idx hidx; omega
  constructor
  · rw [hgd]; split
    · omega
    · exact hinv.gd_le
  · intro j hj
    by_cases hin : j % 2 ^ d0.local_depths_ idx = idx % 2 ^ d0.local_depths_ idx
    · rw [(hs.inside j hj hin).1]; exact hL1
    · obtain ⟨_, h1, _, _, _, h5, _⟩ := hs.outside_facts hinv hidx hj hin
      rw [h1]; omega
  · intro i j hi hj
    by_cases hin : i % 2 ^ d0.local_depths_ idx = idx % 2 ^ d0.local_depths_ idx
    · obtain ⟨hli, hbi⟩ := hs.inside i hi hin
      rw [hli]
      by_cases hjn : j % 2 ^ d0.local_depths_ idx = idx % 2 ^ d0.local_depths_ idx
      · obtain ⟨_, hbj⟩ := hs.inside j hj hjn
        rw [hbi, hbj]
        by_cases ci : i % 2 ^ (d0.local_depths_ idx + 1) = idx % 2 ^ (d0.local_depths_ idx + 1)
        · by_cases cj : j % 2 ^ (d0.local_depths_ idx + 1) = idx % 2 ^ (d0.local_depths_ idx + 1)
          · simp [ci, cj]
          · rw [if_pos ci, if_neg cj]
            constructor
            · intro e; exact absurd e hPQ
            · intro e; exact absurd (e ▸ ci : j % _ = _) cj
        · by_cases cj : j % 2 ^ (d0.local_depths_ idx + 1) = idx % 2 ^ (d0.local_depths_ idx + 1)
          · rw [if_neg ci, if_pos cj]
            constructor
            · intro e; exact absurd e.symm hPQ
            · intro e; exact absurd (e ▸ cj : i % _ = _) ci
          · rw [if_neg ci, if_neg cj]
            have e1 := (mod_succ_cases hin).resolve_left ci
            have e2 := (mod_succ_cases hjn).resolve_left cj
            simp [e1, e2]
      · obtain ⟨_, _, _, h3, h4, _, _⟩ := hs.outside_facts hinv hidx hj hjn
        constructor
        · intro e
          rw [hbi] at e
          split at e
          · exact absurd e.symm h3
          · exact absurd e.symm h4
        · intro e
          exact absurd ((mod_of_mod_succ e).symm.trans hin) hjn
    · obtain ⟨hi0, hli, hbi, h3, h4, h5, h6⟩ := hs.outside_facts hinv hidx hi hin
      rw [hli]
      by_cases hjn : j % 2 ^ d0.local_depths_ idx = idx % 2 ^ d0.local_depths_ idx
      · obtain ⟨_, hbj⟩ := hs.inside j hj hjn
        constructor
        · intro e
          rw [hbj] at e
          split at e
          · exact absurd e h3
          · exact absurd e h4
        · intro e
          exfalso
          by_cases ha : d0.local_depths_ (i % 2 ^ d0.global_depth_) ≤ d0.local_depths_ idx
          · apply h6
            rw [mod_mod_two_pow i h5, e]
            exact mod_of_mod_le ha hjn
          · apply hin
            have := mod_of_mod_le (show d0.local_depths_ idx ≤ _ by omega) e
            rw [this, hjn]
      · obtain ⟨hj0, hlj, hbj, _, _, _, _⟩ := hs.outside_facts hinv hidx hj hjn
        rw [hbi, hbj, hinv.same _ _ hi0 hj0, mod_mod_two_pow i h5, mod_mod_two_pow j h5]
  · intro i j hi hj e
    by_cases hin : i % 2 ^ d0.local_depths_ idx = idx % 2 ^ d0.local_depths_ idx
    · obtain ⟨hli, hbi⟩ := hs.inside i hi hin
      by_cases hjn : j % 2 ^ d0.local_depths_ idx = idx % 2 ^ d0.local_depths_ idx
      · rw [hli, (hs.inside j hj hjn).1]
      · obtain ⟨_, _, _, h3, h4, _, _⟩ := hs.outside_facts hinv hidx hj hjn
        rw [hbi] at e
        split at e
        · exact absurd e.symm h3
        · exact absurd e.symm h4
    · obtain ⟨hi0, hli, hbi, h3, h4, h5, h6⟩ := hs.outside_facts hinv hidx hi hin
      by_cases hjn : j % 2 ^ d0.local_depths_ idx = idx % 2 ^ d0.local_depths_ idx
      · obtain ⟨_, hbj⟩ := hs.inside j hj hjn
        rw [hbj] at e
        split at e
        · exact absurd e h3
        · exact absurd e h4
      · obtain ⟨hj0, hlj, hbj, _, _, _, _⟩ := hs.outside_facts hinv hidx hj hjn
        rw [hli, hlj]
        rw [hbi, hbj] at e
        exact hinv.ld_eq _ _ hi0 hj0 e
  · intro j hj
    by_cases hin : j % 2 ^ d0.local_depths_ idx = idx % 2 ^ d0.local_depths_ idx
    · rw [(hs.inside j hj hin).2]
      have := hinv.pid_range idx hidx
      split <;> omega
    · obtain ⟨hj0, _, hbj, _, _, _, _⟩ := hs.outside_facts hinv hidx hj hin
      rw [hbj]
      have := hinv.pid_range _ hj0
      omega

end ExtendibleHashTable
end bustub

/-! ### Buckets filled from the front -/

namespace bustub
namespace HashTableBucketPage
variable {K V : Type}

theorem find?_range_first (p : Nat → Bool) :
    ∀ (N m : Nat), m < N → (∀ j, j < m → p j = false) → p m = true →
      (List.range N).find? p = some m := by
  intro N
  induction N with
  | zero => intro m h; omega
  | succ N ih =>
    intro m hm hlt hpm
    rw [List.range_succ, List.find?_append]
    by_cases h : m < N
    · rw [ih m h hlt hpm]; rfl
    · have hmN : m = N := by omega
      subst hmN
      have : (List.range m).find? p = none := by
        rw [List.find?_eq_none]
        intro j hj
        simp [hlt j (List.mem_range.1 hj)]
      rw [this]
      simp [hpm]

theorem filter_range_of_compact {N m : Nat} {r : Nat → Bool} (hm : m ≤ N)
    (h : ∀ i, i < N → r i = decide (i < m)) : (List.range N).filter r = List.range m := by
  induction N with
  | zero =>
    have : m = 0 := by omega
    subst this; rfl
  | succ N ih =>
    rw [List.range_succ, List.filter_append]
    by_cases hmN : m ≤ N
    · rw [ih hmN (fun i hi => h i (by omega))]
      have : r N = false := by rw [h N (by omega)]; simp; omega
      simp [this]
    · have hmeq : m = N + 1 := by omega
      subst hmeq
      have h1 : (List.range N).filter r = List.range N := by
        rw [List.filter_eq_self]
        intro i hi
        rw [h i (by have := List.mem_range.1 hi; omega)]
        simp; have := List.mem_range.1 hi; omega
      have h2 : r N = true := by rw [h N (by omega)]; simp
      rw [h1, List.range_succ]
      simp [h2]

theorem GetArrayCopy_of_compact {N m : Nat} {b : HashTableBucketPage K V} (hm : m ≤ N)
    (h : b.Compact N m) : b.GetArrayCopy N = (List.range m).map b.array_ := by
  unfold GetArrayCopy
  rw [filter_range_of_compact hm h]

theorem Compact_Reset (N : Nat) (b : HashTableBucketPage K V) : b.Reset.Compact N 0 := by
  intro i _
  simp

theorem Compact_zeroed [Inhabited K] [Inhabited V] (N : Nat) :
    (zeroed : HashTableBucketPage K V).Compact N 0 := by
  intro i _
  simp

theorem Insert_of_compact [DecidableEq K] [DecidableEq V] {N : Nat} (hN : N ≤ 2048)
    {b : HashTableBucketPage K V} {m : Nat} (hc : b.Compact N m) (hm : m < N)
    {key : K} {value : V} (hmem : (key, value) ∉ b.GetArrayCopy N) :
    (b.Insert N key value).1 = true ∧ (b.Insert N key value).2.Compact N (m + 1) ∧
      (b.Insert N key value).2.GetArrayCopy N = b.GetArrayCopy N ++ [(key, value)] := by
  have hfind : (List.range N).find? (fun i => !b.IsReadable i) = some m := by
    apply find?_range_first _ N m hm
    · intro j hj
      simp [hc j (by omega), hj]
    · simp [hc m hm]
  have hIns : b.Insert N key value =
      (true, SetReadable (SetOccupied
        { b with array_ := Function.update b.array_ m (key, value) } m) m) := by
    unfold Insert
    rw [if_neg (fun h => hmem ((Insert_any_iff N b key value).1 h)), hfind]
  have hcomp : (b.Insert N key value).2.Compact N (m + 1) := by
    rw [hIns]
    intro i hi
    rw [IsReadable_SetReadable _ (by omega) (by omega)]
    have : (SetOccupied { b with array_ := Function.update b.array_ m (key, value) } m).IsReadable i
        = b.IsReadable i := rfl
    rw [this, hc i hi]
    by_cases h1 : i = m
    · subst h1; simp
    · by_cases h2 : i < m
      · have : i < m + 1 := by omega
        simp [h1, h2, this]
      · have : ¬ i < m + 1 := by omega
        simp [h1, h2, this]
  refine ⟨by rw [hIns], hcomp, ?_⟩
  rw [GetArrayCopy_of_compact (by omega) hcomp, GetArrayCopy_of_compact (by omega) hc, hIns,
    List.range_succ, List.map_append]
  have harr : (SetReadable (SetOccupied
      { b with array_ := Function.update b.array_ m (key, value) } m) m).array_ =
      Function.update b.array_ m (key, value) := rfl
  simp only [harr, List.map_cons, List.map_nil, Function.update_same]
  congr 1
  apply List.map_congr_left
  intro j hj
  have : j ≠ m := by have := List.mem_range.1 hj; omega
  rw [Function.update_noteq this]

end HashTableBucketPage
end bustub

/-! ### SplitInsert: redistribution of the pairs -/

namespace bustub
namespace ExtendibleHashTable
open HashTableDirectoryPage HashTableBucketPage
variable {K V : Type} [DecidableEq K] [DecidableEq V]

omit [DecidableEq K] [DecidableEq V] in
theorem IsFull_false_of_length_lt {N : Nat} {b : HashTableBucketPage K V}
    (h : (b.GetArrayCopy N).length < N) : b.IsFull N = false := by
  cases hf : b.IsFull N with
  | false => rfl
  | true =>
    have := length_GetArrayCopy_of_IsFull hf
    omega

theorem rehash_cons (cfg : HashTableConfig K) (d1 : HashTableDirectoryPage) (idx : Nat)
    (P Q : Int) (kv : K × V) (l : List (K × V)) (pg : Int → HashTableBucketPage K V) :
    rehash cfg d1 idx P Q (kv :: l) pg =
      (rehashStep cfg d1 idx P Q pg kv).bind (rehash cfg d1 idx P Q l) := rfl

theorem rehash_spec (cfg : HashTableConfig K) (hN : cfg.BUCKET_ARRAY_SIZE ≤ 2048)
    (d1 : HashTableDirectoryPage) (idx : Nat) (P Q : Int) (hPQ : P ≠ Q) (c : K × V → Bool) :
    ∀ (l : List (K × V)) (pg : Int → HashTableBucketPage K V) (mP mQ : Nat),
      (∀ kv ∈ l, d1.GetBucketPageId (Hash cfg kv.1 &&& d1.GetLocalDepthMask idx) =
        if c kv then P else Q) →
      l.Nodup →
      (∀ kv ∈ l, kv ∉ (pg P).GetArrayCopy cfg.BUCKET_ARRAY_SIZE ∧
        kv ∉ (pg Q).GetArrayCopy cfg.BUCKET_ARRAY_SIZE) →
      (pg P).Compact cfg.BUCKET_ARRAY_SIZE mP → (pg Q).Compact cfg.BUCKET_ARRAY_SIZE mQ →
      mP + l.length ≤ cfg.BUCKET_ARRAY_SIZE →
      mQ + l.length ≤ cfg.BUCKET_ARRAY_SIZE →
      ∃ pg', rehash cfg d1 idx P Q l pg = some pg' ∧
        (∀ id, id ≠ P → id ≠ Q → pg' id = pg id) ∧
        (pg' P).GetArrayCopy cfg.BUCKET_ARRAY_SIZE =
          (pg P).GetArrayCopy cfg.BUCKET_ARRAY_SIZE ++ l.filter c ∧
        (pg' Q).GetArrayCopy cfg.BUCKET_ARRAY_SIZE =
          (pg Q).GetArrayCopy cfg.BUCKET_ARRAY_SIZE ++ l.filter (fun kv => !c kv) := by
  intro l
  induction l with
  | nil =>
    intro pg mP mQ _ _ _ _ _ _ _
    exact ⟨pg, rfl, fun _ _ _ => rfl, by simp, by simp⟩
  | cons kv l ih =>
    intro pg mP mQ hc hnd hnot hcP hcQ hlenP hlenQ
    rw [List.nodup_cons] at hnd
    have hckv := hc kv (List.mem_cons_self _ _)
    have hnkv := hnot kv (List.mem_cons_self _ _)
    simp only [List.length_cons] at hlenP hlenQ
    rw [rehash_cons]
    by_cases hcv : c kv = true
    · rw [hcv, if_pos rfl] at hckv
      obtain ⟨hr1, hr2, hr3⟩ := Insert_of_compact hN hcP (by omega) hnkv.1
      simp only [rehashStep, hckv, true_or, if_true, hr1, Option.some_bind]
      set pg1 := Function.update pg P ((pg P).Insert cfg.BUCKET_ARRAY_SIZE kv.1 kv.2).2 with hpg1
      have hP1 : pg1 P = ((pg P).Insert cfg.BUCKET_ARRAY_SIZE kv.1 kv.2).2 := by
        rw [hpg1, Function.update_same]
      have hQ1 : pg1 Q = pg Q := by rw [hpg1, Function.update_noteq (Ne.symm hPQ)]
      obtain ⟨pg', h1, h2, h3, h4⟩ := ih pg1 (mP + 1) mQ
        (fun kv' h => hc kv' (List.mem_cons_of_mem _ h)) hnd.2
        (by
          intro kv' hkv'
          have := hnot kv' (List.mem_cons_of_mem _ hkv')
          refine ⟨?_, by rw [hQ1]; exact this.2⟩
          rw [hP1, hr3]
          intro hmem
          rcases List.mem_append.1 hmem with h | h
          · exact this.1 h
          · rw [List.mem_singleton.1 h] at hkv'; exact hnd.1 hkv')
        (by rw [hP1]; exact hr2) (by rw [hQ1]; exact hcQ) (by omega) (by omega)
      refine ⟨pg', h1, ?_, ?_, ?_⟩
      · intro id hP hQ
        rw [h2 id hP hQ, hpg1, Function.update_noteq hP]
      · rw [List.filter_cons, if_pos hcv, h3, hP1, hr3]
        simp
      · rw [List.filter_cons, if_neg (by simp [hcv]), h4, hQ1]
    · have hcv' : c kv = false := by simpa using hcv
      rw [hcv'] at hckv
      simp only [Bool.false_eq_true, if_false] at hckv
      obtain ⟨hr1, hr2, hr3⟩ := Insert_of_compact hN hcQ (by omega) hnkv.2
      simp only [rehashStep, hckv, or_true, if_true, if_neg (Ne.symm hPQ), hr1, Option.some_bind]
      set pg1 := Function.update pg Q ((pg Q).Insert cfg.BUCKET_ARRAY_SIZE kv.1 kv.2).2 with hpg1
      have hQ1 : pg1 Q = ((pg Q).Insert cfg.BUCKET_ARRAY_SIZE kv.1 kv.2).2 := by
        rw [hpg1, Function.update_same]
      have hP1 : pg1 P = pg P := by rw [hpg1, Function.update_noteq hPQ]
      obtain ⟨pg', h1, h2, h3, h4⟩ := ih pg1 mP (mQ + 1)
        (fun kv' h => hc kv' (List.mem_cons_of_mem _ h)) hnd.2
        (by
          intro kv' hkv'
          have := hnot kv' (List.mem_cons_of_mem _ hkv')
          refine ⟨by rw [hP1]; exact this.1, ?_⟩
          rw [hQ1, hr3]
          intro hmem
          rcases List.mem_append.1 hmem with h | h
          · exact this.2 h
          · rw [List.mem_singleton.1 h] at hkv'; exact hnd.1 hkv')
        (by rw [hP1]; exact hcP) (by rw [hQ1]; exact hr2) (by omega) (by omega)
      refine ⟨pg', h1, ?_, ?_, ?_⟩
      · intro id hP hQ
        rw [h2 id hP hQ, hpg1, Function.update_noteq hQ]
      · rw [List.filter_cons, if_neg (by simp [hcv']), h3, hP1]
      · rw [List.filter_cons, if_pos (by simp [hcv']), h4, hQ1, hr3]
        simp

end ExtendibleHashTable
end bustub

/-! ### Lookup through the directory -/

namespace bustub
namespace ExtendibleHashTable
open HashTableDirectoryPage HashTableBucketPage
variable {K V : Type} [DecidableEq K] [DecidableEq V] [Inhabited K] [Inhabited V]

omit [DecidableEq K] [DecidableEq V] in
theorem FetchDirectoryPage_of_created {t : ExtendibleHashTable K V}
    (h : t.directory_page_id_ ≠ INVALID_PAGE_ID) : t.FetchDirectoryPage = t := by
  unfold FetchDirectoryPage
  rw [if_neg h]

omit [DecidableEq K] [DecidableEq V] [Inhabited K] [Inhabited V] in
theorem KeyToDirectoryIndex_eq (cfg : HashTableConfig K) (key : K) (d : HashTableDirectoryPage) :
    KeyToDirectoryIndex cfg key d = Hash cfg key % 2 ^ d.global_depth_ := by
  simp only [KeyToDirectoryIndex, GetGlobalDepthMask, HashTableDirectoryPage.GetGlobalDepth,
    Nat.one_shiftLeft, Nat.and_pow_two_sub_one_eq_mod]

omit [DecidableEq K] [DecidableEq V] [Inhabited K] [Inhabited V] in
theorem KeyToDirectoryIndex_lt (cfg : HashTableConfig K) (key : K) (d : HashTableDirectoryPage) :
    KeyToDirectoryIndex cfg key d < 2 ^ d.global_depth_ := by
  rw [KeyToDirectoryIndex_eq]
  exact Nat.mod_lt _ (by positivity)

omit [DecidableEq V] in
theorem lookup_eq (cfg : HashTableConfig K) {t : ExtendibleHashTable K V}
    (h : t.directory_page_id_ ≠ INVALID_PAGE_ID) (key : K) :
    lookup cfg t key =
      (((t.bucket_pages (KeyToPageId cfg key t.dir_page)).GetArrayCopy cfg.BUCKET_ARRAY_SIZE).filter
        (fun kv => decide (key = kv.1))).map Prod.snd := by
  simp only [lookup, ExtendibleHashTable.GetValue, FetchDirectoryPage_of_created h,
    GetValue_snd, List.nil_append]

theorem SplitInsert_eq (cfg : HashTableConfig K)
    (retry : ExtendibleHashTable K V → Option (Bool × ExtendibleHashTable K V))
    (t : ExtendibleHashTable K V) (key : K) (value : V)
    (h : t.directory_page_id_ ≠ INVALID_PAGE_ID) :
    SplitInsert cfg retry t key value =
      if cfg.MAX_BUCKET_DEPTH ≤ t.dir_page.local_depths_ (KeyToDirectoryIndex cfg key t.dir_page)
      then some (false, t)
      else
        (splitDirectory t.dir_page (KeyToDirectoryIndex cfg key t.dir_page)
          (t.dir_page.bucket_page_ids_ (KeyToDirectoryIndex cfg key t.dir_page))
          t.next_page_id_).bind fun d1 =>
        (rehash cfg d1 (KeyToDirectoryIndex cfg key t.dir_page)
          (t.dir_page.bucket_page_ids_ (KeyToDirectoryIndex cfg key t.dir_page)) t.next_page_id_
          ((t.bucket_pages (t.dir_page.bucket_page_ids_
            (KeyToDirectoryIndex cfg key t.dir_page))).GetArrayCopy cfg.BUCKET_ARRAY_SIZE)
          (Function.update (Function.update t.bucket_pages
            (t.dir_page.bucket_page_ids_ (KeyToDirectoryIndex cfg key t.dir_page))
            (t.bucket_pages (t.dir_page.bucket_page_ids_
              (KeyToDirectoryIndex cfg key t.dir_page))).Reset)
            t.next_page_id_ HashTableBucketPage.zeroed)).bind fun pages =>
        retry { t with dir_page := d1, bucket_pages := pages,
                       next_page_id_ := t.next_page_id_ + 1 } := by
  unfold SplitInsert splitDirectory
  simp only [FetchDirectoryPage_of_created h, KeyToPageId, GetBucketPageId, GetLocalDepth,
    Option.bind_assoc]

end ExtendibleHashTable
end bustub

/-! ### One round of SplitInsert -/

namespace bustub
namespace ExtendibleHashTable
open HashTableDirectoryPage HashTableBucketPage
variable {K V : Type} [DecidableEq K] [DecidableEq V] [Inhabited K] [Inhabited V]

omit [DecidableEq K] [DecidableEq V] [Inhabited K] [Inhabited V] in
theorem GetArrayCopy_Reset (N : Nat) (b : HashTableBucketPage K V) :
    b.Reset.GetArrayCopy N = [] := by
  simp [GetArrayCopy, List.filter_eq_nil_iff]

omit [DecidableEq K] [DecidableEq V] in
theorem GetArrayCopy_zeroed (N : Nat) :
    (HashTableBucketPage.zeroed : HashTableBucketPage K V).GetArrayCopy N = [] := by
  simp [GetArrayCopy, List.filter_eq_nil_iff]

omit [DecidableEq V] [Inhabited K] [Inhabited V] in
/-- Filtering by a key commutes with a filter that depends on the key only. -/
theorem filter_key_filter (key : K) (c : K × V → Bool) (l : List (K × V))
    (h : ∀ kv ∈ l, kv.1 = key → c kv = true) :
    (l.filter c).filter (fun kv => decide (key = kv.1)) =
      l.filter (fun kv => decide (key = kv.1)) := by
  rw [List.filter_filter]
  apply List.filter_congr
  intro kv hkv
  by_cases hk : key = kv.1
  · simp [hk, h kv hkv hk.symm]
  · simp [hk]

theorem SplitInsert_round (cfg : HashTableConfig K) (hN : cfg.BUCKET_ARRAY_SIZE ≤ 2048)
    (h30 : cfg.MAX_BUCKET_DEPTH ≤ 30)
    (retry : ExtendibleHashTable K V → Option (Bool × ExtendibleHashTable K V))
    (t : ExtendibleHashTable K V) (hinv : HTInv cfg t) (key : K) (value : V)
    (hL : t.dir_page.local_depths_ (KeyToDirectoryIndex cfg key t.dir_page) <
      cfg.MAX_BUCKET_DEPTH) :
    ∃ t', SplitInsert cfg retry t key value = retry t' ∧ HTInv cfg t' ∧
      (∀ k, lookup cfg t' k = lookup cfg t k) ∧
      t'.dir_page.local_depths_ (KeyToDirectoryIndex cfg key t'.dir_page) =
        t.dir_page.local_depths_ (KeyToDirectoryIndex cfg key t.dir_page) + 1 := by
  obtain ⟨hcreated, hdir, hkeys, hnodup⟩ := hinv
  have hidx := KeyToDirectoryIndex_lt cfg key t.dir_page
  generalize hidxdef : KeyToDirectoryIndex cfg key t.dir_page = idx at hidx hL
  have hrange := hdir.pid_range idx hidx
  have hQ : 0 ≤ t.next_page_id_ := by omega
  have hPQ : t.dir_page.bucket_page_ids_ idx ≠ t.next_page_id_ := by omega
  obtain ⟨d1, hsd, hs, _⟩ := splitDirectory_spec cfg.MAX_BUCKET_DEPTH t.next_page_id_ t.dir_page
    idx t.next_page_id_ hdir h30 hidx hQ
  have hdir1 := hs.dirInv hdir hidx hL
  have hLg := hdir.ld_le idx hidx
  have hg01 : t.dir_page.global_depth_ ≤ d1.global_depth_ := by rw [hs.gd]; split <;> omega
  have hL1 : t.dir_page.local_depths_ idx + 1 ≤ d1.global_depth_ := by rw [hs.gd]; split <;> omega
  have hidx1 : idx < 2 ^ d1.global_depth_ :=
    lt_of_lt_of_le hidx (Nat.pow_le_pow_right (by norm_num) hg01)
  have hld1 : d1.local_depths_ idx = t.dir_page.local_depths_ idx + 1 :=
    (hs.inside idx hidx1 rfl).1
  set P := t.dir_page.bucket_page_ids_ idx with hP
  set Q := t.next_page_id_ with hQdef
  set L := t.dir_page.local_depths_ idx with hLdef
  set origin := (t.bucket_pages P).GetArrayCopy cfg.BUCKET_ARRAY_SIZE with horigin
  set pages0 := Function.update (Function.update t.bucket_pages P (t.bucket_pages P).Reset)
    Q HashTableBucketPage.zeroed with hpages0
  have hP0 : (pages0 P).GetArrayCopy cfg.BUCKET_ARRAY_SIZE = [] := by
    rw [hpages0, Function.update_noteq hPQ, Function.update_same, GetArrayCopy_Reset]
  have hQ0 : (pages0 Q).GetArrayCopy cfg.BUCKET_ARRAY_SIZE = [] := by
    rw [hpages0, Function.update_same, GetArrayCopy_zeroed]
  have horiginkeys : ∀ kv ∈ origin, Hash cfg kv.1 % 2 ^ L = idx % 2 ^ L := hkeys idx hidx
  let c : K × V → Bool := fun kv => decide (Hash cfg kv.1 % 2 ^ (L + 1) = idx % 2 ^ (L + 1))
  have hc : ∀ kv ∈ origin, d1.GetBucketPageId (Hash cfg kv.1 &&& d1.GetLocalDepthMask idx) =
      if c kv then P else Q := by
    intro kv hkv
    have hmask : Hash cfg kv.1 &&& d1.GetLocalDepthMask idx = Hash cfg kv.1 % 2 ^ (L + 1) := by
      simp only [GetLocalDepthMask, hld1, Nat.one_shiftLeft, Nat.and_pow_two_sub_one_eq_mod]
    rw [hmask]
    have htlt : Hash cfg kv.1 % 2 ^ (L + 1) < 2 ^ d1.global_depth_ :=
      lt_of_lt_of_le (Nat.mod_lt _ (by positivity)) (Nat.pow_le_pow_right (by norm_num) hL1)
    have hin : (Hash cfg kv.1 % 2 ^ (L + 1)) % 2 ^ L = idx % 2 ^ L := by
      rw [mod_mod_two_pow _ (Nat.le_succ L)]; exact horiginkeys kv hkv
    have := (hs.inside _ htlt hin).2
    simp only [GetBucketPageId, this, Nat.mod_mod, c]
    by_cases h : Hash cfg kv.1 % 2 ^ (L + 1) = idx % 2 ^ (L + 1) <;> simp [h]
  have hcP0 : (pages0 P).Compact cfg.BUCKET_ARRAY_SIZE 0 := by
    rw [hpages0, Function.update_noteq hPQ, Function.update_same]; exact Compact_Reset _ _
  have hcQ0 : (pages0 Q).Compact cfg.BUCKET_ARRAY_SIZE 0 := by
    rw [hpages0, Function.update_same]; exact Compact_zeroed _
  obtain ⟨pg', hre, hother, hpPeq, hpQeq⟩ := rehash_spec cfg hN d1 idx P Q hPQ c origin pages0
    0 0 hc (hnodup idx hidx) (by intro kv _; rw [hP0, hQ0]; simp) hcP0 hcQ0
    (by simpa using length_GetArrayCopy_le _ _)
    (by simpa using length_GetArrayCopy_le _ _)
  rw [hP0, List.nil_append] at hpPeq
  rw [hQ0, List.nil_append] at hpQeq
  have hpP := List.Perm.of_eq hpPeq
  have hpQ := List.Perm.of_eq hpQeq
  -- the bucket found at every index of the new directory
  have hout : ∀ i, i < 2 ^ d1.global_depth_ → i % 2 ^ L ≠ idx % 2 ^ L →
      pg' (d1.bucket_page_ids_ i) =
        t.bucket_pages (t.dir_page.bucket_page_ids_ (i % 2 ^ t.dir_page.global_depth_)) := by
    intro i hi hni
    obtain ⟨_, _, h2, h3, h4, _, _⟩ := hs.outside_facts hdir hidx hi hni
    rw [hother _ h3 h4, hpages0, Function.update_noteq h4, Function.update_noteq h3, h2]
  refine ⟨{ t with dir_page := d1, bucket_pages := pg', next_page_id_ := Q + 1 }, ?_, ?_, ?_, ?_⟩
  · rw [SplitInsert_eq cfg retry t key value hcreated, hidxdef, if_neg (by omega), hsd,
      Option.some_bind, hre, Option.some_bind]
  · refine ⟨hcreated, hdir1, ?_, ?_⟩
    · intro i hi kv hkv
      simp only at hi hkv ⊢
      by_cases hin : i % 2 ^ L = idx % 2 ^ L
      · obtain ⟨hli, hbi⟩ := hs.inside i hi hin
        rw [hli]
        rw [hbi] at hkv
        by_cases hci : i % 2 ^ (L + 1) = idx % 2 ^ (L + 1)
        · rw [if_pos hci] at hkv
          have := (List.mem_filter.1 (hpP.subset hkv)).2
          simp only [c, decide_eq_true_eq] at this
          rw [this, hci]
        · rw [if_neg hci] at hkv
          have hm := List.mem_filter.1 (hpQ.subset hkv)
          have h1 : ¬ Hash cfg kv.1 % 2 ^ (L + 1) = idx % 2 ^ (L + 1) := by
            simpa [c] using hm.2
          have e1 := (mod_succ_cases (horiginkeys kv hm.1)).resolve_left h1
          have e2 := (mod_succ_cases hin).resolve_left hci
          rw [e1, e2]
      · obtain ⟨hi0, h1, _, _, _, h5, _⟩ := hs.outside_facts hdir hidx hi hin
        rw [hout i hi hin] at hkv
        rw [h1]
        have := hkeys _ hi0 kv hkv
        rw [this, mod_mod_two_pow i h5]
    · intro i hi
      simp only at hi ⊢
      by_cases hin : i % 2 ^ L = idx % 2 ^ L
      · obtain ⟨hli, hbi⟩ := hs.inside i hi hin
        rw [hbi]
        split
        · exact hpP.nodup_iff.2 ((hnodup idx hidx).filter _)
        · exact hpQ.nodup_iff.2 ((hnodup idx hidx).filter _)
      · obtain ⟨hi0, _, _, _, _, _, _⟩ := hs.outside_facts hdir hidx hi hin
        rw [hout i hi hin]
        exact hnodup _ hi0
  · intro k
    rw [lookup_eq cfg (t := { t with dir_page := d1, bucket_pages := pg', next_page_id_ := Q + 1 })
      hcreated k, lookup_eq cfg hcreated k]
    simp only [KeyToPageId, GetBucketPageId, KeyToDirectoryIndex_eq]
    have hk1 : Hash cfg k % 2 ^ d1.global_depth_ < 2 ^ d1.global_depth_ :=
      Nat.mod_lt _ (by positivity)
    have hk0 : Hash cfg k % 2 ^ t.dir_page.global_depth_ < 2 ^ t.dir_page.global_depth_ :=
      Nat.mod_lt _ (by positivity)
    by_cases hin : (Hash cfg k % 2 ^ d1.global_depth_) % 2 ^ L = idx % 2 ^ L
    · have hin' : Hash cfg k % 2 ^ L = idx % 2 ^ L := by
        rw [← hin, mod_mod_two_pow _ (by omega)]
      have hold : t.dir_page.bucket_page_ids_ (Hash cfg k % 2 ^ t.dir_page.global_depth_) = P := by
        rw [hP]
        apply ((hdir.same idx _ hidx hk0).2 _).symm
        rw [mod_mod_two_pow _ hLg]; exact hin'.symm
      rw [hold, (hs.inside _ hk1 hin).2, mod_mod_two_pow _ hL1]
      by_cases hck : Hash cfg k % 2 ^ (L + 1) = idx % 2 ^ (L + 1)
      · rw [if_pos hck, hpPeq]
        rw [filter_key_filter]
        intro kv _ hkv
        simp only [c, decide_eq_true_eq, hkv, hck]
      · rw [if_neg hck, hpQeq]
        rw [filter_key_filter]
        intro kv _ hkv
        simp only [c, hkv, hck, decide_False, Bool.not_false]
    · rw [hout _ hk1 hin, mod_mod_two_pow _ hg01]
  · simp only [KeyToDirectoryIndex_eq]
    have hk1 : Hash cfg key % 2 ^ d1.global_depth_ < 2 ^ d1.global_depth_ :=
      Nat.mod_lt _ (by positivity)
    have e : idx = Hash cfg key % 2 ^ t.dir_page.global_depth_ := by
      rw [← hidxdef, KeyToDirectoryIndex_eq]
    have e2 : idx % 2 ^ L = Hash cfg key % 2 ^ L :=
      (congrArg (fun x => x % 2 ^ L) e).trans (mod_mod_two_pow _ hLg)
    have hin : (Hash cfg key % 2 ^ d1.global_depth_) % 2 ^ L = idx % 2 ^ L := by
      rw [mod_mod_two_pow _ (by omega), e2]
    exact (hs.inside _ hk1 hin).1

end ExtendibleHashTable
end bustub

/-! ### Insert -/

namespace bustub
namespace ExtendibleHashTable
open HashTableDirectoryPage HashTableBucketPage
variable {K V : Type} [DecidableEq K] [DecidableEq V] [Inhabited K] [Inhabited V]

omit [DecidableEq V] in
theorem mem_lookup_iff (cfg : HashTableConfig K) {t : ExtendibleHashTable K V}
    (h : t.directory_page_id_ ≠ INVALID_PAGE_ID) (key : K) (value : V) :
    value ∈ lookup cfg t key ↔
      (key, value) ∈ (t.bucket_pages (KeyToPageId cfg key t.dir_page)).GetArrayCopy
        cfg.BUCKET_ARRAY_SIZE := by
  rw [lookup_eq cfg h]
  simp only [List.mem_map, List.mem_filter, decide_eq_true_eq]
  constructor
  · rintro ⟨⟨k, v⟩, ⟨hm, hk⟩, hv⟩
    simp only at hk hv
    subst hk; subst hv; exact hm
  · intro hm
    exact ⟨(key, value), ⟨hm, rfl⟩, rfl⟩

theorem Insert_inPlace (cfg : HashTableConfig K) (hN : cfg.BUCKET_ARRAY_SIZE ≤ 2048)
    (t : ExtendibleHashTable K V) (hinv : HTInv cfg t) (key : K) (value : V)
    (hfull : (t.bucket_pages (KeyToPageId cfg key t.dir_page)).IsFull cfg.BUCKET_ARRAY_SIZE
      = false) :
    InsertPost cfg t key value
      ((t.bucket_pages (KeyToPageId cfg key t.dir_page)).Insert cfg.BUCKET_ARRAY_SIZE key value).1
      { t with bucket_pages := (Function.update t.bucket_pages (KeyToPageId cfg key t.dir_page)
          ((t.bucket_pages (KeyToPageId cfg key t.dir_page)).Insert
            cfg.BUCKET_ARRAY_SIZE key value).2) } := by
  obtain ⟨hcreated, hdir, hkeys, hnodup⟩ := hinv
  have hidx := KeyToDirectoryIndex_lt cfg key t.dir_page
  have hpid : KeyToPageId cfg key t.dir_page =
      t.dir_page.bucket_page_ids_ (KeyToDirectoryIndex cfg key t.dir_page) := rfl
  by_cases hmem : (key, value) ∈
      (t.bucket_pages (KeyToPageId cfg key t.dir_page)).GetArrayCopy cfg.BUCKET_ARRAY_SIZE
  · rw [Insert_of_mem hmem]
    simp only [Function.update_eq_self]
    exact ⟨⟨hcreated, hdir, hkeys, hnodup⟩, fun _ => rfl, fun h => Bool.noConfusion h,
      fun _ k => rfl⟩
  · obtain ⟨hr1, hr2⟩ := Insert_of_not_mem hN hmem hfull
    rw [hr1]
    set id := KeyToPageId cfg key t.dir_page with hid
    set b' := ((t.bucket_pages id).Insert cfg.BUCKET_ARRAY_SIZE key value).2 with hb'
    have hcreated' : ({ t with bucket_pages := Function.update t.bucket_pages id b' } :
        ExtendibleHashTable K V).directory_page_id_ ≠ INVALID_PAGE_ID := hcreated
    refine ⟨⟨hcreated, hdir, ?_, ?_⟩, ?_, ?_, fun h => Bool.noConfusion h⟩
    · intro i hi kv hkv
      simp only at hi hkv ⊢
      by_cases hbi : t.dir_page.bucket_page_ids_ i = id
      · rw [hbi, Function.update_same] at hkv
        rcases List.mem_cons.1 (hr2.subset hkv) with h | h
        · rw [h]
          simp only
          have := (hdir.same i _ hi hidx).1 (hbi.trans hpid)
          rw [this, KeyToDirectoryIndex_eq, mod_mod_two_pow _ (hdir.ld_le i hi)]
        · exact hkeys i hi kv (by rw [hbi]; exact h)
      · rw [Function.update_noteq hbi] at hkv
        exact hkeys i hi kv hkv
    · intro i hi
      simp only at hi ⊢
      by_cases hbi : t.dir_page.bucket_page_ids_ i = id
      · rw [hbi, Function.update_same]
        refine hr2.nodup_iff.2 (List.nodup_cons.2 ⟨hmem, ?_⟩)
        have := hnodup i hi
        rw [hbi] at this; exact this
      · rw [Function.update_noteq hbi]
        exact hnodup i hi
    · intro hv
      exact absurd ((mem_lookup_iff cfg hcreated key value).1 hv) hmem
    · intro _
      refine ⟨?_, ?_⟩
      · rw [lookup_eq cfg hcreated' key, lookup_eq cfg hcreated key]
        simp only [← hid, Function.update_same]
        refine ((hr2.filter _).map _).trans (List.Perm.of_eq ?_)
        simp [List.filter_cons]
      · intro k hk
        rw [lookup_eq cfg hcreated' k, lookup_eq cfg hcreated k]
        simp only
        by_cases hbk : KeyToPageId cfg k t.dir_page = id
        · rw [hbk, Function.update_same]
          refine ((hr2.filter _).map _).trans (List.Perm.of_eq ?_)
          simp [List.filter_cons, hk]
        · rw [Function.update_noteq hbk]

theorem InsertFuel_spec (cfg : HashTableConfig K) (hN : cfg.BUCKET_ARRAY_SIZE ≤ 2048)
    (h30 : cfg.MAX_BUCKET_DEPTH ≤ 30) (key : K) (value : V) :
    ∀ (fuel : Nat) (t : ExtendibleHashTable K V), HTInv cfg t →
      cfg.MAX_BUCKET_DEPTH + 1 ≤
        fuel + t.dir_page.local_depths_ (KeyToDirectoryIndex cfg key t.dir_page) →
      ∃ r t', InsertFuel cfg fuel t key value = some (r, t') ∧ InsertPost cfg t key value r t' := by
  intro fuel
  induction fuel with
  | zero =>
    intro t hinv hf
    have h1 := hinv.dir.ld_le _ (KeyToDirectoryIndex_lt cfg key t.dir_page)
    have h2 := hinv.dir.gd_le
    omega
  | succ fuel ih =>
    intro t hinv hf
    rw [InsertFuel]
    simp only [FetchDirectoryPage_of_created hinv.created]
    cases hfull : ((t.bucket_pages (KeyToPageId cfg key t.dir_page)).IsFull
        cfg.BUCKET_ARRAY_SIZE) with
    | false =>
      simp only [Bool.not_false, if_true]
      exact ⟨_, _, rfl, Insert_inPlace cfg hN t hinv key value hfull⟩
    | true =>
      simp only [Bool.not_true, Bool.false_eq_true, if_false]
      by_cases hL : t.dir_page.local_depths_ (KeyToDirectoryIndex cfg key t.dir_page) <
          cfg.MAX_BUCKET_DEPTH
      · obtain ⟨t1, h1, hinv1, hperm1, hld1⟩ := SplitInsert_round cfg hN h30
          (fun t => InsertFuel cfg fuel t key value) t hinv key value hL
        rw [h1]
        obtain ⟨r, t', h2, hinv', hdup, htrue, hfalse⟩ := ih t1 hinv1 (by rw [hld1]; omega)
        refine ⟨r, t', h2, hinv', ?_, ?_, ?_⟩
        · intro hv
          exact hdup (by rw [hperm1 key]; exact hv)
        · intro hr
          obtain ⟨a, b⟩ := htrue hr
          rw [hperm1 key] at a
          exact ⟨a, fun k hk => by rw [← hperm1 k]; exact b k hk⟩
        · intro hr k
          exact (hfalse hr k).trans (hperm1 k)
      · rw [SplitInsert_eq cfg _ t key value hinv.created, if_pos (by omega)]
        exact ⟨false, t, rfl, hinv, fun _ => rfl, fun h => Bool.noConfusion h,
          fun _ k => rfl⟩

theorem Insert_spec (cfg : HashTableConfig K) (hN : cfg.BUCKET_ARRAY_SIZE ≤ 2048)
    (h30 : cfg.MAX_BUCKET_DEPTH ≤ 30) (t : ExtendibleHashTable K V) (hinv : HTInv cfg t)
    (key : K) (value : V) :
    ∃ r t', Insert cfg t key value = some (r, t') ∧ InsertPost cfg t key value r t' :=
  InsertFuel_spec cfg hN h30 key value _ t hinv (by omega)

end ExtendibleHashTable
end bustub

/-! ### Merge: the directory -/

namespace bustub
namespace ExtendibleHashTable
open HashTableDirectoryPage HashTableBucketPage
variable {K V : Type} [DecidableEq K] [DecidableEq V] [Inhabited K] [Inhabited V]

theorem CanShrink_iff (d : HashTableDirectoryPage) :
    d.CanShrink = true ↔ ∀ i, i < 2 ^ d.global_depth_ → d.local_depths_ i < d.global_depth_ := by
  simp only [CanShrink, List.all_eq_true, List.mem_range, Size_eq, Bool.not_eq_true',
    decide_eq_false_iff_not, not_le]

/-- The split image of an index has a local depth that is at least as large. -/
theorem DirInv.image_ld_ge {maxD : Nat} {next : Int} {d : HashTableDirectoryPage}
    (hinv : DirInv maxD next d) {idx : Nat} (hidx : idx < 2 ^ d.global_depth_)
    (hpos : 0 < d.local_depths_ idx) :
    idx ^^^ 2 ^ (d.local_depths_ idx - 1) < 2 ^ d.global_depth_ ∧
      d.local_depths_ idx ≤ d.local_depths_ (idx ^^^ 2 ^ (d.local_depths_ idx - 1)) := by
  have hLg := hinv.ld_le idx hidx
  have himg : idx ^^^ 2 ^ (d.local_depths_ idx - 1) < 2 ^ d.global_depth_ :=
    xor_pow_lt hidx (by omega)
  refine ⟨himg, ?_⟩
  by_contra hlt
  have hlt' : d.local_depths_ (idx ^^^ 2 ^ (d.local_depths_ idx - 1)) ≤ d.local_depths_ idx - 1 := by
    omega
  have h1 := mod_of_mod_le hlt' (xor_pow_mod_low idx (d.local_depths_ idx - 1))
  have h2 := (hinv.same _ idx himg hidx).2 h1
  have h3 := hinv.ld_eq _ idx himg hidx h2
  omega

/-- The directory statements of `Merge` before the shrink test, in closed form. -/
theorem mergeStride_eq {maxD : Nat} {next : Int} {d : HashTableDirectoryPage}
    (hinv : DirInv maxD next d) (h30 : maxD ≤ 30) {idx : Nat} (hidx : idx < 2 ^ d.global_depth_)
    (hpos : 0 < d.local_depths_ idx) (Qi : Int) :
    setStride Qi idx idx (1 <<< (d.DecrLocalDepth idx).GetLocalDepth idx) (d.DecrLocalDepth idx) =
      some (setClass Qi (d.local_depths_ idx - 1)
        (fun j => decide (j < 2 ^ d.global_depth_ ∧
          j % 2 ^ (d.local_depths_ idx - 1) = idx % 2 ^ (d.local_depths_ idx - 1)))
        (d.DecrLocalDepth idx)) := by
  have hLg := hinv.ld_le idx hidx
  have hg := hinv.gd_le
  have hdec : (d.DecrLocalDepth idx).local_depths_ idx = d.local_depths_ idx - 1 := by
    simp only [DecrLocalDepth, Function.update_same]
    omega
  have hS : (d.DecrLocalDepth idx).Size = 2 ^ d.global_depth_ := Size_eq _
  have := setStride_eq Qi idx idx (2 ^ (d.local_depths_ idx - 1)) (d.local_depths_ idx - 1)
    (d.DecrLocalDepth idx) (by positivity) (by omega) (by rw [hS]; exact hidx) hdec
    (by show _ ≤ d.global_depth_; omega)
  rw [hS] at this
  simp only [GetLocalDepth, hdec, Nat.one_shiftLeft]
  exact this

theorem merge_dirInv {maxD : Nat} {next : Int} {d : HashTableDirectoryPage}
    (hinv : DirInv maxD next d) {idx : Nat} (hidx : idx < 2 ^ d.global_depth_)
    (hpos : 0 < d.local_depths_ idx) :
    DirInv maxD next (setClass (d.bucket_page_ids_ (idx ^^^ 2 ^ (d.local_depths_ idx - 1)))
      (d.local_depths_ idx - 1)
      (fun j => decide (j < 2 ^ d.global_depth_ ∧
        j % 2 ^ (d.local_depths_ idx - 1) = idx % 2 ^ (d.local_depths_ idx - 1)))
      (d.DecrLocalDepth idx)) := by
  obtain ⟨himg, hLimg⟩ := hinv.image_ld_ge hidx hpos
  have hLg := hinv.ld_le idx hidx
  set L := d.local_depths_ idx with hL
  set img := idx ^^^ 2 ^ (L - 1) with himgdef
  set Qi := d.bucket_page_ids_ img with hQi
  have himgmod : img % 2 ^ (L - 1) = idx % 2 ^ (L - 1) := xor_pow_mod_low idx (L - 1)
  -- pointwise description of the merged directory
  have hin : ∀ j, j < 2 ^ d.global_depth_ → j % 2 ^ (L - 1) = idx % 2 ^ (L - 1) →
      (setClass Qi (L - 1) (fun j => decide (j < 2 ^ d.global_depth_ ∧
        j % 2 ^ (L - 1) = idx % 2 ^ (L - 1))) (d.DecrLocalDepth idx)).local_depths_ j = L - 1 ∧
      (setClass Qi (L - 1) (fun j => decide (j < 2 ^ d.global_depth_ ∧
        j % 2 ^ (L - 1) = idx % 2 ^ (L - 1))) (d.DecrLocalDepth idx)).bucket_page_ids_ j = Qi := by
    intro j hj hm
    have := decide_eq_true (show j < 2 ^ d.global_depth_ ∧ _ from ⟨hj, hm⟩)
    simp only [setClass_ld, setClass_bp, this, if_true, and_self]
  have hout : ∀ j, j < 2 ^ d.global_depth_ → j % 2 ^ (L - 1) ≠ idx % 2 ^ (L - 1) →
      (setClass Qi (L - 1) (fun j => decide (j < 2 ^ d.global_depth_ ∧
        j % 2 ^ (L - 1) = idx % 2 ^ (L - 1))) (d.DecrLocalDepth idx)).local_depths_ j =
          d.local_depths_ j ∧
      (setClass Qi (L - 1) (fun j => decide (j < 2 ^ d.global_depth_ ∧
        j % 2 ^ (L - 1) = idx % 2 ^ (L - 1))) (d.DecrLocalDepth idx)).bucket_page_ids_ j =
          d.bucket_page_ids_ j ∧ d.bucket_page_ids_ j ≠ Qi ∧
      (∀ k, k < 2 ^ d.global_depth_ → k % 2 ^ (L - 1) = idx % 2 ^ (L - 1) →
        j % 2 ^ d.local_depths_ j ≠ k % 2 ^ d.local_depths_ j) := by
    intro j hj hm
    have hc := decide_eq_false (show ¬ (j < 2 ^ d.global_depth_ ∧
      j % 2 ^ (L - 1) = idx % 2 ^ (L - 1)) from fun h => hm h.2)
    have hji : j ≠ idx := fun e => hm (by rw [e])
    refine ⟨?_, ?_, ?_, ?_⟩
    · simp only [setClass_ld, hc, Bool.false_eq_true, if_false, DecrLocalDepth,
        Function.update_noteq hji]
    · simp only [setClass_bp, hc, Bool.false_eq_true, if_false, DecrLocalDepth]
    · intro e
      have h1 := (hinv.same img j himg hj).1 e.symm
      have h2 := mod_of_mod_le (show L - 1 ≤ d.local_depths_ img by omega) h1
      exact hm (h2.symm.trans himgmod)
    · intro k hk hkm e
      by_cases ha : L - 1 ≤ d.local_depths_ j
      · exact hm ((mod_of_mod_le ha e).trans hkm)
      · have h1 : j % 2 ^ d.local_depths_ j = idx % 2 ^ d.local_depths_ j :=
          e.trans (mod_of_mod_le (by omega) hkm)
        have h2 := (hinv.same j idx hj hidx).2 h1
        have h3 := hinv.ld_eq j idx hj hidx h2
        omega
  constructor
  · exact hinv.gd_le
  · intro j hj
    have hj' : j < 2 ^ d.global_depth_ := hj
    by_cases hm : j % 2 ^ (L - 1) = idx % 2 ^ (L - 1)
    · rw [(hin j hj' hm).1]; show _ ≤ d.global_depth_; omega
    · rw [(hout j hj' hm).1]; exact hinv.ld_le j hj'
  · intro i j hi hj
    have hi' : i < 2 ^ d.global_depth_ := hi
    have hj' : j < 2 ^ d.global_depth_ := hj
    by_cases hmi : i % 2 ^ (L - 1) = idx % 2 ^ (L - 1)
    · rw [(hin i hi' hmi).1, (hin i hi' hmi).2]
      by_cases hmj : j % 2 ^ (L - 1) = idx % 2 ^ (L - 1)
      · rw [(hin j hj' hmj).2]
        simp [hmi, hmj]
      · obtain ⟨_, h2, h3, _⟩ := hout j hj' hmj
        rw [h2]
        constructor
        · intro e; exact absurd e.symm h3
        · intro e; exact absurd (e.symm.trans hmi) hmj
    · obtain ⟨h1, h2, h3, h4⟩ := hout i hi' hmi
      rw [h1, h2]
      by_cases hmj : j % 2 ^ (L - 1) = idx % 2 ^ (L - 1)
      · rw [(hin j hj' hmj).2]
        constructor
        · intro e; exact absurd e h3
        · intro e; exact absurd e (h4 j hj' hmj)
      · rw [(hout j hj' hmj).2.1]
        exact hinv.same i j hi' hj'
  · intro i j hi hj e
    have hi' : i < 2 ^ d.global_depth_ := hi
    have hj' : j < 2 ^ d.global_depth_ := hj
    by_cases hmi : i % 2 ^ (L - 1) = idx % 2 ^ (L - 1)
    · by_cases hmj : j % 2 ^ (L - 1) = idx % 2 ^ (L - 1)
      · rw [(hin i hi' hmi).1, (hin j hj' hmj).1]
      · rw [(hin i hi' hmi).2, (hout j hj' hmj).2.1] at e
        exact absurd e.symm (hout j hj' hmj).2.2.1
    · by_cases hmj : j % 2 ^ (L - 1) = idx % 2 ^ (L - 1)
      · rw [(hin j hj' hmj).2, (hout i hi' hmi).2.1] at e
        exact absurd e (hout i hi' hmi).2.2.1
      · rw [(hout i hi' hmi).2.1, (hout j hj' hmj).2.1] at e
        rw [(hout i hi' hmi).1, (hout j hj' hmj).1]
        exact hinv.ld_eq i j hi' hj' e
  · intro j hj
    have hj' : j < 2 ^ d.global_depth_ := hj
    by_cases hm : j % 2 ^ (L - 1) = idx % 2 ^ (L - 1)
    · rw [(hin j hj' hm).2]; exact hinv.pid_range img himg
    · rw [(hout j hj' hm).2.1]; exact hinv.pid_range j hj'

end ExtendibleHashTable
end bustub

/-! ### Merge and Remove -/

namespace bustub
namespace ExtendibleHashTable
open HashTableDirectoryPage HashTableBucketPage
variable {K V : Type} [DecidableEq K] [DecidableEq V] [Inhabited K] [Inhabited V]

theorem DirInv.shrink {maxD : Nat} {next : Int} {d : HashTableDirectoryPage}
    (hinv : DirInv maxD next d) (h30 : maxD ≤ 30) (hs : d.CanShrink = true) :
    d.DecrGlobalDepth.global_depth_ = d.global_depth_ - 1 ∧ 0 < d.global_depth_ ∧
      DirInv maxD next d.DecrGlobalDepth := by
  rw [CanShrink_iff] at hs
  have hpos : 0 < d.global_depth_ := by
    have := hs 0 (by positivity)
    omega
  have hg := hinv.gd_le
  have hgd : d.DecrGlobalDepth.global_depth_ = d.global_depth_ - 1 := by
    simp only [DecrGlobalDepth]
    have : (2 : Nat) ^ 32 = 4294967296 := by norm_num
    omega
  have hsub : ∀ i, i < 2 ^ d.DecrGlobalDepth.global_depth_ → i < 2 ^ d.global_depth_ := by
    intro i hi
    rw [hgd] at hi
    exact lt_of_lt_of_le hi (Nat.pow_le_pow_right (by norm_num) (by omega))
  refine ⟨hgd, hpos, ?_, ?_, ?_, ?_, ?_⟩
  · rw [hgd]; omega
  · intro i hi
    have := hs i (hsub i hi)
    rw [hgd]
    show d.local_depths_ i ≤ _
    omega
  · intro i j hi hj
    exact hinv.same i j (hsub i hi) (hsub j hj)
  · intro i j hi hj
    exact hinv.ld_eq i j (hsub i hi) (hsub j hj)
  · intro i hi
    exact hinv.pid_range i (hsub i hi)

omit [DecidableEq K] [DecidableEq V] [Inhabited K] [Inhabited V] in
theorem HTInv.shrink_table {cfg : HashTableConfig K} {t : ExtendibleHashTable K V}
    (hinv : HTInv cfg t) (h30 : cfg.MAX_BUCKET_DEPTH ≤ 30) (hs : t.dir_page.CanShrink = true) :
    HTInv cfg { t with dir_page := t.dir_page.DecrGlobalDepth } := by
  obtain ⟨hgd, hpos, hdir⟩ := hinv.dir.shrink h30 hs
  have hsub : ∀ i, i < 2 ^ t.dir_page.DecrGlobalDepth.global_depth_ →
      i < 2 ^ t.dir_page.global_depth_ := by
    intro i hi
    rw [hgd] at hi
    exact lt_of_lt_of_le hi (Nat.pow_le_pow_right (by norm_num) (by omega))
  exact ⟨hinv.created, hdir, fun i hi => hinv.keys i (hsub i hi),
    fun i hi => hinv.nodup i (hsub i hi)⟩

omit [DecidableEq K] [DecidableEq V] in
theorem Merge_spec (cfg : HashTableConfig K) (h30 : cfg.MAX_BUCKET_DEPTH ≤ 30)
    (t : ExtendibleHashTable K V) (hinv : HTInv cfg t) (idx : Nat)
    (hidx : idx < 2 ^ t.dir_page.global_depth_) :
    ∃ t', Merge t idx = some t' ∧ HTInv cfg t' := by
  unfold Merge
  simp only [FetchDirectoryPage_of_created hinv.created, GetLocalDepth]
  by_cases hL0 : t.dir_page.local_depths_ idx = 0
  · rw [if_pos hL0]
    exact ⟨t, rfl, hinv⟩
  · rw [if_neg hL0]
    have hpos : 0 < t.dir_page.local_depths_ idx := Nat.pos_of_ne_zero hL0
    have hstride := mergeStride_eq hinv.dir h30 hidx hpos
      (t.dir_page.GetBucketPageId (t.dir_page.GetSplitImageIndex idx))
    simp only [GetLocalDepth] at hstride
    rw [hstride, Option.some_bind]
    obtain ⟨himg, hLimg⟩ := hinv.dir.image_ld_ge hidx hpos
    have hdirM := merge_dirInv hinv.dir hidx hpos
    have himgeq : t.dir_page.GetSplitImageIndex idx =
        idx ^^^ 2 ^ (t.dir_page.local_depths_ idx - 1) := by
      simp only [GetSplitImageIndex, Nat.one_shiftLeft]
    rw [himgeq]
    simp only [GetBucketPageId]
    set L := t.dir_page.local_depths_ idx with hL
    set img := idx ^^^ 2 ^ (L - 1) with himgdef
    set Qi := t.dir_page.bucket_page_ids_ img with hQi
    set dM := setClass Qi (L - 1) (fun j => decide (j < 2 ^ t.dir_page.global_depth_ ∧
        j % 2 ^ (L - 1) = idx % 2 ^ (L - 1))) (t.dir_page.DecrLocalDepth idx) with hdM
    have hinvM : HTInv cfg { t with dir_page := dM } := by
      refine ⟨hinv.created, hdirM, ?_, ?_⟩
      · intro i hi kv hkv
        have hi' : i < 2 ^ t.dir_page.global_depth_ := hi
        simp only at hkv ⊢
        by_cases hm : i % 2 ^ (L - 1) = idx % 2 ^ (L - 1)
        · have hc := decide_eq_true (show i < 2 ^ t.dir_page.global_depth_ ∧ _ from ⟨hi', hm⟩)
          simp only [hdM, setClass_ld, setClass_bp, hc, if_true] at hkv ⊢
          have h1 := hinv.keys img himg kv hkv
          have h2 := mod_of_mod_le (show L - 1 ≤ t.dir_page.local_depths_ img by omega) h1
          rw [h2, xor_pow_mod_low, hm]
        · have hc := decide_eq_false (show ¬ (i < 2 ^ t.dir_page.global_depth_ ∧
            i % 2 ^ (L - 1) = idx % 2 ^ (L - 1)) from fun h => hm h.2)
          have hji : i ≠ idx := fun e => hm (by rw [e])
          simp only [hdM, setClass_ld, setClass_bp, hc, Bool.false_eq_true, if_false,
            DecrLocalDepth, Function.update_noteq hji] at hkv ⊢
          exact hinv.keys i hi' kv hkv
      · intro i hi
        have hi' : i < 2 ^ t.dir_page.global_depth_ := hi
        simp only
        by_cases hm : i % 2 ^ (L - 1) = idx % 2 ^ (L - 1)
        · have hc := decide_eq_true (show i < 2 ^ t.dir_page.global_depth_ ∧ _ from ⟨hi', hm⟩)
          simp only [hdM, setClass_bp, hc, if_true]
          exact hinv.nodup img himg
        · have hc := decide_eq_false (show ¬ (i < 2 ^ t.dir_page.global_depth_ ∧
            i % 2 ^ (L - 1) = idx % 2 ^ (L - 1)) from fun h => hm h.2)
          simp only [hdM, setClass_bp, hc, Bool.false_eq_true, if_false, DecrLocalDepth]
          exact hinv.nodup i hi'
    by_cases hs : dM.CanShrink = true
    · rw [if_pos hs]
      exact ⟨_, rfl, hinvM.shrink_table h30 hs⟩
    · rw [if_neg hs]
      exact ⟨_, rfl, hinvM⟩

theorem Remove_spec (cfg : HashTableConfig K) (hN : cfg.BUCKET_ARRAY_SIZE ≤ 2048)
    (h30 : cfg.MAX_BUCKET_DEPTH ≤ 30)
    (t : ExtendibleHashTable K V) (hinv : HTInv cfg t) (key : K) (value : V) :
    ∃ r t', Remove cfg t key value = some (r, t') ∧ HTInv cfg t' := by
  unfold Remove
  simp only [FetchDirectoryPage_of_created hinv.created]
  set id := KeyToPageId cfg key t.dir_page with hid
  set res := (t.bucket_pages id).Remove cfg.BUCKET_ARRAY_SIZE key value with hres
  have hsub : ∀ kv ∈ res.2.GetArrayCopy cfg.BUCKET_ARRAY_SIZE,
      kv ∈ (t.bucket_pages id).GetArrayCopy cfg.BUCKET_ARRAY_SIZE := by
    intro kv hkv
    by_cases hmem : (key, value) ∈ (t.bucket_pages id).GetArrayCopy cfg.BUCKET_ARRAY_SIZE
    · exact (Remove_of_mem hN hmem).2.symm.subset (List.mem_cons_of_mem _ hkv)
    · rw [hres, Remove_of_not_mem hmem] at hkv; exact hkv
  have hnd : ((t.bucket_pages id).GetArrayCopy cfg.BUCKET_ARRAY_SIZE).Nodup →
      (res.2.GetArrayCopy cfg.BUCKET_ARRAY_SIZE).Nodup := by
    intro h
    by_cases hmem : (key, value) ∈ (t.bucket_pages id).GetArrayCopy cfg.BUCKET_ARRAY_SIZE
    · exact (List.nodup_cons.1 ((Remove_of_mem hN hmem).2.nodup_iff.1 h)).2
    · rw [hres, Remove_of_not_mem hmem]; exact h
  have hinv1 : HTInv cfg { t with bucket_pages := Function.update t.bucket_pages id res.2 } := by
    refine ⟨hinv.created, hinv.dir, ?_, ?_⟩
    · intro i hi kv hkv
      simp only at hi hkv ⊢
      by_cases hbi : t.dir_page.bucket_page_ids_ i = id
      · rw [hbi, Function.update_same] at hkv
        exact hinv.keys i hi kv (by rw [hbi]; exact hsub kv hkv)
      · rw [Function.update_noteq hbi] at hkv
        exact hinv.keys i hi kv hkv
    · intro i hi
      simp only at hi ⊢
      by_cases hbi : t.dir_page.bucket_page_ids_ i = id
      · rw [hbi, Function.update_same]
        apply hnd
        have := hinv.nodup i hi
        rw [hbi] at this; exact this
      · rw [Function.update_noteq hbi]
        exact hinv.nodup i hi
  by_cases he : res.2.IsEmpty cfg.BUCKET_ARRAY_SIZE = true
  · rw [if_pos he]
    obtain ⟨t', h1, h2⟩ := Merge_spec cfg h30 _ hinv1 (KeyToDirectoryIndex cfg key t.dir_page)
      (KeyToDirectoryIndex_lt cfg key t.dir_page)
    rw [h1]
    exact ⟨res.1, t', rfl, h2⟩
  · rw [if_neg he]
    exact ⟨res.1, _, rfl, hinv1⟩

omit [DecidableEq K] [DecidableEq V] in
theorem HTInv_init (cfg : HashTableConfig K) :
    HTInv cfg (init : ExtendibleHashTable K V).FetchDirectoryPage := by
  have hgd : (init : ExtendibleHashTable K V).FetchDirectoryPage.dir_page.global_depth_ = 0 := rfl
  have hi0 : ∀ i, i < 2 ^ (init : ExtendibleHashTable K V).FetchDirectoryPage.dir_page.global_depth_
      → i = 0 := by
    intro i hi; rw [hgd] at hi; omega
  refine ⟨by show (0 : Int) ≠ -1; decide, ⟨Nat.zero_le _, ?_, ?_, ?_, ?_⟩, ?_, ?_⟩
  · intro i hi; rw [hi0 i hi]; exact Nat.zero_le _
  · intro i j hi hj; rw [hi0 i hi, hi0 j hj]; simp
  · intro i j hi hj _; rw [hi0 i hi, hi0 j hj]
  · intro i hi; rw [hi0 i hi]
    show (0 : Int) ≤ 0 + 1 ∧ (0 : Int) + 1 < 0 + 2
    decide
  · intro i hi kv hkv
    rw [hi0 i hi] at hkv
    have : ((init : ExtendibleHashTable K V).FetchDirectoryPage.bucket_pages
        ((init : ExtendibleHashTable K V).FetchDirectoryPage.dir_page.bucket_page_ids_ 0)).GetArrayCopy
        cfg.BUCKET_ARRAY_SIZE = [] := GetArrayCopy_zeroed _
    rw [this] at hkv
    cases hkv
  · intro i hi
    rw [hi0 i hi]
    have : ((init : ExtendibleHashTable K V).FetchDirectoryPage.bucket_pages
        ((init : ExtendibleHashTable K V).FetchDirectoryPage.dir_page.bucket_page_ids_ 0)).GetArrayCopy
        cfg.BUCKET_ARRAY_SIZE = [] := GetArrayCopy_zeroed _
    rw [this]
    exact List.nodup_nil

end ExtendibleHashTable
end bustub

/-! ### Reachable states of the hash table -/

namespace bustub
namespace ExtendibleHashTable
open HashTableDirectoryPage HashTableBucketPage
variable {K V : Type} [DecidableEq K] [DecidableEq V] [Inhabited K] [Inhabited V]

omit [DecidableEq K] [DecidableEq V] in
theorem FetchDirectoryPage_idem {cfg : HashTableConfig K} {t : ExtendibleHashTable K V}
    (h : HTInv cfg t.FetchDirectoryPage) :
    t.FetchDirectoryPage.FetchDirectoryPage = t.FetchDirectoryPage :=
  FetchDirectoryPage_of_created h.created

theorem Insert_FetchDirectoryPage {cfg : HashTableConfig K} {t : ExtendibleHashTable K V}
    (h : HTInv cfg t.FetchDirectoryPage) (key : K) (value : V) :
    Insert cfg t.FetchDirectoryPage key value = Insert cfg t key value := by
  unfold Insert
  rw [InsertFuel, InsertFuel]
  simp only [FetchDirectoryPage_idem h]

theorem Remove_FetchDirectoryPage {cfg : HashTableConfig K} {t : ExtendibleHashTable K V}
    (h : HTInv cfg t.FetchDirectoryPage) (key : K) (value : V) :
    Remove cfg t.FetchDirectoryPage key value = Remove cfg t key value := by
  unfold Remove
  simp only [FetchDirectoryPage_idem h]

omit [DecidableEq V] in
theorem lookup_FetchDirectoryPage {cfg : HashTableConfig K} {t : ExtendibleHashTable K V}
    (h : HTInv cfg t.FetchDirectoryPage) (key : K) :
    lookup cfg t.FetchDirectoryPage key = lookup cfg t key := by
  unfold lookup ExtendibleHashTable.GetValue
  simp only [FetchDirectoryPage_idem h]

theorem applyOp_spec (cfg : HashTableConfig K) (hN : cfg.BUCKET_ARRAY_SIZE ≤ 2048)
    (h30 : cfg.MAX_BUCKET_DEPTH ≤ 30) (t : ExtendibleHashTable K V)
    (h : HTInv cfg t.FetchDirectoryPage) (op : HashOp K V) :
    ∃ r t', applyOp cfg t op = some (r, t') ∧ HTInv cfg t' := by
  cases op with
  | insert key value =>
    obtain ⟨r, t', h1, h2, _⟩ := Insert_spec cfg hN h30 _ h key value
    exact ⟨r, t', by rw [applyOp, ← Insert_FetchDirectoryPage h]; exact h1, h2⟩
  | remove key value =>
    obtain ⟨r, t', h1, h2⟩ := Remove_spec cfg hN h30 _ h key value
    exact ⟨r, t', by rw [applyOp, ← Remove_FetchDirectoryPage h]; exact h1, h2⟩

theorem runOps_spec (cfg : HashTableConfig K) (hN : cfg.BUCKET_ARRAY_SIZE ≤ 2048)
    (h30 : cfg.MAX_BUCKET_DEPTH ≤ 30) :
    ∀ (ops : List (HashOp K V)) (t : ExtendibleHashTable K V), HTInv cfg t.FetchDirectoryPage →
      ∃ t', runOps cfg ops t = some t' ∧ HTInv cfg t'.FetchDirectoryPage := by
  intro ops
  induction ops with
  | nil => intro t h; exact ⟨t, rfl, h⟩
  | cons op ops ih =>
    intro t h
    obtain ⟨r, t1, h1, h2⟩ := applyOp_spec cfg hN h30 t h op
    have h3 : HTInv cfg t1.FetchDirectoryPage := by
      rw [FetchDirectoryPage_of_created h2.created]; exact h2
    obtain ⟨t', h4, h5⟩ := ih t1 h3
    exact ⟨t', by rw [runOps, h1, Option.some_bind]; exact h4, h5⟩

theorem reachable_inv (cfg : HashTableConfig K) (hN : cfg.BUCKET_ARRAY_SIZE ≤ 2048)
    (h30 : cfg.MAX_BUCKET_DEPTH ≤ 30) (ops : List (HashOp K V)) :
    ∃ t, runOps cfg ops (init : ExtendibleHashTable K V) = some t ∧
      HTInv cfg t.FetchDirectoryPage :=
  runOps_spec cfg hN h30 ops init (HTInv_init cfg)

theorem DirInv.integrity1 {maxD : Nat} {next : Int} {d : HashTableDirectoryPage}
    (h : DirInv maxD next d) : d.integrity1 := by
  intro i hi
  rw [Size_eq] at hi
  exact h.ld_le i hi

theorem DirInv.integrity3 {maxD : Nat} {next : Int} {d : HashTableDirectoryPage}
    (h : DirInv maxD next d) : d.integrity3 := by
  intro i j hi hj e
  rw [Size_eq] at hi hj
  exact h.ld_eq i j hi hj e

theorem DirInv.integrity2 {maxD : Nat} {next : Int} {d : HashTableDirectoryPage}
    (h : DirInv maxD next d) : d.integrity2 := by
  intro i hi
  rw [Size_eq] at hi
  have hL := h.ld_le i hi
  unfold pointerCount
  rw [Size_eq]
  have hcongr : (List.range (2 ^ d.global_depth_)).countP
      (fun j => d.bucket_page_ids_ j == d.bucket_page_ids_ i) =
      (List.range (2 ^ d.global_depth_)).countP
        (fun j => decide (j ≡ i [MOD 2 ^ d.local_depths_ i])) := by
    apply List.countP_congr
    intro j hj
    have hj' := List.mem_range.1 hj
    simp only [beq_iff_eq, decide_eq_true_eq]
    rw [eq_comm, h.same i j hi hj', eq_comm]
    rfl
  rw [hcongr]
  have := Nat.count_modEq_card (b := 2 ^ d.global_depth_) (r := 2 ^ d.local_depths_ i)
    (by positivity) i
  rw [Nat.count] at this
  rw [this]
  have hdvd : 2 ^ d.local_depths_ i ∣ 2 ^ d.global_depth_ := pow_dvd_pow 2 hL
  have hmod : 2 ^ d.global_depth_ % 2 ^ d.local_depths_ i = 0 := Nat.mod_eq_zero_of_dvd hdvd
  rw [hmod, if_neg (Nat.not_lt_zero _), Nat.add_zero, Nat.pow_div hL (by norm_num)]

theorem lookup_count_eq_one (cfg : HashTableConfig K) {t : ExtendibleHashTable K V}
    (hinv : HTInv cfg t) (key : K) (value : V) (hv : value ∈ lookup cfg t key) :
    (lookup cfg t key).count value = 1 := by
  apply List.count_eq_one_of_mem _ hv
  rw [lookup_eq cfg hinv.created]
  have hnd := hinv.nodup _ (KeyToDirectoryIndex_lt cfg key t.dir_page)
  refine List.Nodup.map_on ?_ (hnd.filter _)
  intro x hx y hy hxy
  have h1 := (List.mem_filter.1 hx).2
  have h2 := (List.mem_filter.1 hy).2
  simp only [decide_eq_true_eq] at h1 h2
  exact Prod.ext (h1.symm.trans h2) hxy

end ExtendibleHashTable
end bustub

/-! ### LRU-K replacer: node store -/

namespace bustub
namespace LRUKReplacer

theorem lookupNode_eq_some_iff {l : List (Int × LRUKNode)} (h : (l.map Prod.fst).Nodup) (f : Int)
    (n : LRUKNode) : lookupNode l f = some n ↔ (f, n) ∈ l := by
  unfold lookupNode
  induction l with
  | nil => simp
  | cons e l ih =>
    rw [List.map_cons, List.nodup_cons] at h
    rw [List.find?_cons]
    by_cases he : e.1 = f
    · have : (e.1 == f) = true := by simp [he]
      rw [this]
      simp only [Option.map_some', Option.some.injEq, List.mem_cons]
      constructor
      · intro h1; left; exact Prod.ext he.symm h1.symm
      · rintro (h1 | h1)
        · rw [← h1]
        · exfalso
          apply h.1
          rw [he]
          exact List.mem_map.2 ⟨(f, n), h1, rfl⟩
    · have : (e.1 == f) = false := by simp [he]
      rw [this]
      simp only [List.mem_cons]
      rw [ih h.2]
      constructor
      · intro h1; exact Or.inr h1
      · rintro (h1 | h1)
        · exfalso; apply he; rw [← h1]
        · exact h1

theorem lookupNode_eq_none_iff (l : List (Int × LRUKNode)) (f : Int) :
    lookupNode l f = none ↔ ∀ e ∈ l, e.1 ≠ f := by
  unfold lookupNode
  rw [Option.map_eq_none', List.find?_eq_none]
  simp

theorem lookupNode_eraseNode (l : List (Int × LRUKNode)) (f g : Int) :
    lookupNode (eraseNode l f) g = if g = f then none else lookupNode l g := by
  unfold lookupNode eraseNode
  induction l with
  | nil => simp
  | cons e l ih =>
    rw [List.filter_cons]
    by_cases he : e.1 = f
    · have h1 : (!(e.1 == f)) = false := by simp [he]
      rw [h1]
      simp only [Bool.false_eq_true, if_false]
      rw [ih, List.find?_cons]
      by_cases hg : g = f
      · simp [hg]
      · have : (e.1 == g) = false := by
          simp only [beq_eq_false_iff_ne, ne_eq]; rw [he]; exact fun e => hg e.symm
        simp [hg, this]
    · have h1 : (!(e.1 == f)) = true := by simp [he]
      rw [h1]
      simp only [if_true]
      rw [List.find?_cons, List.find?_cons]
      by_cases heg : e.1 = g
      · have : (e.1 == g) = true := by simp [heg]
        have hg : ¬ g = f := by rw [← heg]; exact he
        simp [this, hg]
      · have : (e.1 == g) = false := by simp [heg]
        simp only [this]
        exact ih

theorem lookupNode_setNode (l : List (Int × LRUKNode)) (f g : Int) (n : LRUKNode) :
    lookupNode (setNode l f n) g =
      if g = f then (lookupNode l f).map (fun _ => n) else lookupNode l g := by
  unfold lookupNode setNode
  induction l with
  | nil => simp
  | cons e l ih =>
    rw [List.map_cons, List.find?_cons, List.find?_cons]
    by_cases he : e.1 = f
    · have h1 : (e.1 == f) = true := by simp [he]
      simp only [h1, if_true]
      by_cases hg : g = f
      · subst hg
        simp [h1, he]
      · have h2 : (e.1 == g) = false := by
          simp only [beq_eq_false_iff_ne, ne_eq]; rw [he]; exact fun e => hg e.symm
        simp only [h2, if_neg hg]
        rw [ih, if_neg hg]
        simp [List.find?_cons, h2]
    · have h1 : (e.1 == f) = false := by simp [he]
      simp only [h1, Bool.false_eq_true, if_false]
      by_cases heg : e.1 = g
      · have h2 : (e.1 == g) = true := by simp [heg]
        have hg : ¬ g = f := by rw [← heg]; exact he
        simp [h2, hg]
      · have h2 : (e.1 == g) = false := by simp [heg]
        simp only [h2]
        rw [ih]
        by_cases hg : g = f
        · subst hg
          simp [List.find?_cons, h1]
        · simp [hg, List.find?_cons, h2]

theorem lookupNode_append_absent (l : List (Int × LRUKNode)) (f g : Int) (n : LRUKNode)
    (h : lookupNode l f = none) :
    lookupNode (l ++ [(f, n)]) g = if g = f then some n else lookupNode l g := by
  unfold lookupNode at h ⊢
  simp only [List.find?_append]
  by_cases hg : g = f
  · subst hg
    rw [Option.map_eq_none'] at h
    simp [h]
  · rw [if_neg hg]
    cases hfind : List.find? (fun e => e.1 == g) l with
    | some e => simp
    | none =>
      have : ((f : Int) == g) = false := by
        simp only [beq_eq_false_iff_ne, ne_eq]; exact fun e => hg e.symm
      simp [List.find?_cons, this]

theorem keys_eraseNode (l : List (Int × LRUKNode)) (f : Int) (h : (l.map Prod.fst).Nodup) :
    ((eraseNode l f).map Prod.fst).Nodup :=
  ((List.filter_sublist _).map Prod.fst).nodup h

theorem keys_setNode (l : List (Int × LRUKNode)) (f : Int) (n : LRUKNode) :
    (setNode l f n).map Prod.fst = l.map Prod.fst := by
  unfold setNode
  simp only [List.map_map]
  apply List.map_congr_left
  intro e _
  simp only [Function.comp]
  split <;> rfl

theorem find_RecordAccess (r : LRUKReplacer) (f g : Int) :
    (r.RecordAccess f).find g = if g = f then some (r.accessed f) else r.find g := by
  unfold RecordAccess accessed find
  simp only
  cases hf : lookupNode r.node_store_ f with
  | none =>
    simp only [Option.isNone_none, if_true]
    rw [lookupNode_setNode, lookupNode_append_absent _ _ _ _ hf,
      lookupNode_append_absent _ _ _ _ hf]
    by_cases hg : g = f
    · simp [hg]
    · simp [hg]
  | some n =>
    simp only [Option.isNone_some, Bool.false_eq_true, if_false]
    rw [lookupNode_setNode, hf]
    by_cases hg : g = f
    · simp [hg]
    · simp [hg]

theorem scan_eq (r : LRUKReplacer) (sel : LRUKNode → Bool) :
    r.scan sel = r.node_store_.foldl (scanStep r.current_timestamp_ sel) (0, 1) := rfl

theorem scan_fold (cur : Nat) (sel : LRUKNode → Bool) :
    ∀ (l : List (Int × LRUKNode)) (acc : Nat × Int),
      acc.1 ≤ (l.foldl (scanStep cur sel) acc).1 ∧
      (l.foldl (scanStep cur sel) acc = acc ∨
        ∃ e ∈ l, e.1 = (l.foldl (scanStep cur sel) acc).2 ∧ sel e.2 = true ∧
          e.2.is_evictable_ = true ∧ (l.foldl (scanStep cur sel) acc).1 = cur - e.2.get_front) ∧
      (∀ e ∈ l, sel e.2 = true → e.2.is_evictable_ = true →
        cur - e.2.get_front ≤ (l.foldl (scanStep cur sel) acc).1) := by
  intro l
  induction l with
  | nil => intro acc; simp
  | cons x xs ih =>
    intro acc
    rw [List.foldl_cons]
    obtain ⟨h1, h2, h3⟩ := ih (scanStep cur sel acc x)
    have hstep : acc.1 ≤ (scanStep cur sel acc x).1 ∧
        (scanStep cur sel acc x = acc ∨
          (x.1 = (scanStep cur sel acc x).2 ∧ sel x.2 = true ∧ x.2.is_evictable_ = true ∧
            (scanStep cur sel acc x).1 = cur - x.2.get_front)) ∧
        (sel x.2 = true → x.2.is_evictable_ = true →
          cur - x.2.get_front ≤ (scanStep cur sel acc x).1) := by
      unfold scanStep
      by_cases hc : (sel x.2 && x.2.is_evictable && decide (acc.1 < cur - x.2.get_front)) = true
      · rw [if_pos hc]
        simp only [Bool.and_eq_true, decide_eq_true_eq, LRUKNode.is_evictable] at hc
        refine ⟨?_, Or.inr ⟨rfl, hc.1.1, hc.1.2, rfl⟩, fun _ _ => ?_⟩
        · exact Nat.le_of_lt hc.2
        · exact Nat.le_refl _
      · rw [if_neg hc]
        refine ⟨le_refl _, Or.inl rfl, ?_⟩
        intro hs he
        simp only [Bool.and_eq_true, decide_eq_true_eq, LRUKNode.is_evictable, hs, he,
          true_and] at hc
        omega
    refine ⟨le_trans hstep.1 h1, ?_, ?_⟩
    · rcases h2 with h2 | ⟨e, he, h2⟩
      · rw [h2]
        rcases hstep.2.1 with h4 | h4
        · exact Or.inl h4
        · exact Or.inr ⟨x, List.mem_cons_self _ _, h4⟩
      · exact Or.inr ⟨e, List.mem_cons_of_mem _ he, h2⟩
    · intro e he hs hev
      rcases List.mem_cons.1 he with h | h
      · rw [h]; exact le_trans (hstep.2.2 (h ▸ hs) (h ▸ hev)) h1
      · exact h3 e h hs hev

theorem push_hist (n : LRUKNode) (k ts cur : Nat) (hk : 0 < k)
    (hold : ∀ t ∈ n.history_, t < cur) (hts : ts < cur) :
    ((n.setk k).push ts).history_ ≠ [] ∧ ((n.setk k).push ts).history_.length ≤ k ∧
      ∀ t ∈ ((n.setk k).push ts).history_, t < cur := by
  simp only [LRUKNode.push, LRUKNode.setk]
  have hmem : ∀ t ∈ n.history_ ++ [ts], t < cur := by
    intro t ht
    rcases List.mem_append.1 ht with h | h
    · exact hold t h
    · rw [List.mem_singleton.1 h]; exact hts
  by_cases hc : n.history_.length + 1 ≤ k
  · rw [if_pos hc]
    exact ⟨by simp, by simpa using hc, hmem⟩
  · rw [if_neg hc]
    refine ⟨?_, ?_, fun t ht => hmem t (List.mem_of_mem_drop ht)⟩
    · intro h
      have := congrArg List.length h
      simp at this
      omega
    · simp; omega

end LRUKReplacer
end bustub

/-! ### LRU-K replacer: operations -/

namespace bustub
open LRUKReplacer

/-- The history clause of `ReplInv`, read through `find`. -/
theorem ReplInv.hist_find {r : LRUKReplacer} (h : ReplInv r) {f : Int} {n : LRUKNode}
    (hf : r.find f = some n) :
    n.history_ ≠ [] ∧ n.history_.length ≤ r.k_ ∧ ∀ ts ∈ n.history_, ts < r.current_timestamp_ :=
  h.hist (f, n) ((lookupNode_eq_some_iff h.keys_nodup f n).1 hf)

theorem ReplInv.of_find {r' : LRUKReplacer} (hk : 0 < r'.k_)
    (hn : (r'.node_store_.map Prod.fst).Nodup)
    (hh : ∀ f n, r'.find f = some n →
      n.history_ ≠ [] ∧ n.history_.length ≤ r'.k_ ∧ ∀ ts ∈ n.history_, ts < r'.current_timestamp_) :
    ReplInv r' :=
  ⟨hk, hn, fun e he => hh e.1 e.2 ((lookupNode_eq_some_iff hn e.1 e.2).2 he)⟩

theorem ReplInv.RecordAccess {r : LRUKReplacer} (h : ReplInv r) (f : Int) :
    ReplInv (r.RecordAccess f) := by
  have hk : (r.RecordAccess f).k_ = r.k_ := rfl
  have hcur : (r.RecordAccess f).current_timestamp_ = r.current_timestamp_ + 1 := rfl
  have hkeys : ((r.RecordAccess f).node_store_.map Prod.fst).Nodup := by
    unfold LRUKReplacer.RecordAccess
    simp only
    rw [keys_setNode]
    cases hf : lookupNode r.node_store_ f with
    | some n => simpa using h.keys_nodup
    | none =>
      simp only [Option.isNone_none, if_true, List.map_append, List.map_cons, List.map_nil]
      rw [List.nodup_append]
      refine ⟨h.keys_nodup, by simp, ?_⟩
      intro a ha hb
      rw [List.mem_singleton] at hb
      subst hb
      obtain ⟨e, he, rfl⟩ := List.mem_map.1 ha
      exact (lookupNode_eq_none_iff r.node_store_ e.1).1 hf e he rfl
  refine ReplInv.of_find (by rw [hk]; exact h.kpos) hkeys ?_
  intro g n hg
  rw [find_RecordAccess] at hg
  rw [hk, hcur]
  by_cases hgf : g = f
  · rw [if_pos hgf] at hg
    cases hg
    unfold accessed
    cases hf : r.find f with
    | none =>
      exact push_hist _ _ _ _ h.kpos (by simp [LRUKNode.fresh]) (Nat.lt_succ_self _)
    | some m =>
      obtain ⟨_, _, h3⟩ := h.hist_find hf
      exact push_hist _ _ _ _ h.kpos (fun t ht => Nat.lt_succ_of_lt (h3 t ht))
        (Nat.lt_succ_self _)
  · rw [if_neg hgf] at hg
    obtain ⟨h1, h2, h3⟩ := h.hist_find hg
    exact ⟨h1, h2, fun t ht => Nat.lt_succ_of_lt (h3 t ht)⟩

/-- Replacing the node of a tracked frame by one with the same history keeps
the invariant, whatever happens to `replacer_size_`. -/
theorem ReplInv.setNode_same {r : LRUKReplacer} (h : ReplInv r) (size : Nat) {f : Int}
    {n m : LRUKNode} (hf : r.find f = some n) (hm : m.history_ = n.history_) :
    ReplInv { r with replacer_size_ := size, node_store_ := setNode r.node_store_ f m } ∧
      ∀ g, LRUKReplacer.find
        { r with replacer_size_ := size, node_store_ := setNode r.node_store_ f m } g =
          if g = f then some m else r.find g := by
  have hfind : ∀ g, LRUKReplacer.find
      { r with replacer_size_ := size, node_store_ := setNode r.node_store_ f m } g =
        if g = f then some m else r.find g := by
    intro g
    show lookupNode (setNode r.node_store_ f m) g = _
    rw [lookupNode_setNode]
    have : lookupNode r.node_store_ f = some n := hf
    rw [this]
    simp only [Option.map_some']
    rfl
  refine ⟨ReplInv.of_find h.kpos ?_ ?_, hfind⟩
  · show ((setNode r.node_store_ f m).map Prod.fst).Nodup
    rw [keys_setNode]; exact h.keys_nodup
  · intro g x hg
    rw [hfind] at hg
    show x.history_ ≠ [] ∧ x.history_.length ≤ r.k_ ∧ ∀ ts ∈ x.history_, ts < r.current_timestamp_
    by_cases hgf : g = f
    · rw [if_pos hgf] at hg
      cases hg
      rw [hm]
      exact h.hist_find hf
    · rw [if_neg hgf] at hg
      exact h.hist_find hg

theorem LRUKReplacer.SetEvictable_spec {r : LRUKReplacer} (h : ReplInv r) {f : Int}
    {n : LRUKNode} (hf : r.find f = some n) (b : Bool) :
    ∃ r', r.SetEvictable f b = some r' ∧ ReplInv r' ∧
      ∀ g, r'.find g = if g = f then some (n.set_evictab b) else r.find g := by
  unfold LRUKReplacer.SetEvictable
  rw [hf]
  exact ⟨_, rfl, ReplInv.setNode_same h _ hf rfl⟩

theorem ReplInv.eraseNode_same {r : LRUKReplacer} (h : ReplInv r) (size : Nat) (f : Int) :
    ReplInv { r with replacer_size_ := size, node_store_ := eraseNode r.node_store_ f } ∧
      ∀ g, LRUKReplacer.find
        { r with replacer_size_ := size, node_store_ := eraseNode r.node_store_ f } g =
          if g = f then none else r.find g := by
  have hfind : ∀ g, LRUKReplacer.find
      { r with replacer_size_ := size, node_store_ := eraseNode r.node_store_ f } g =
        if g = f then none else r.find g := by
    intro g
    show lookupNode (eraseNode r.node_store_ f) g = _
    rw [lookupNode_eraseNode]
    rfl
  refine ⟨ReplInv.of_find h.kpos ?_ ?_, hfind⟩
  · exact keys_eraseNode _ _ h.keys_nodup
  · intro g x hg
    rw [hfind] at hg
    show x.history_ ≠ [] ∧ x.history_.length ≤ r.k_ ∧ ∀ ts ∈ x.history_, ts < r.current_timestamp_
    by_cases hgf : g = f
    · rw [if_pos hgf] at hg; cases hg
    · rw [if_neg hgf] at hg
      exact h.hist_find hg

theorem LRUKReplacer.Remove_node_spec {r : LRUKReplacer} (h : ReplInv r) {f : Int} {n : LRUKNode}
    (hf : r.find f = some n) :
    ∃ r', r.Remove f = some r' ∧ ReplInv r' ∧
      ∀ g, r'.find g = if g = f then none else r.find g := by
  unfold LRUKReplacer.Remove
  rw [hf]
  exact ⟨_, rfl, ReplInv.eraseNode_same h _ f⟩

theorem LRUKReplacer.Evict_spec {r : LRUKReplacer} (h : ReplInv r) :
    (r.Evict.1 = none → r.Evict.2 = r ∧ ∀ f n, r.find f = some n → n.is_evictable_ = false) ∧
    (∀ f, r.Evict.1 = some f → (∃ n, r.find f = some n ∧ n.is_evictable_ = true) ∧
      ReplInv r.Evict.2 ∧ ∀ g, r.Evict.2.find g = if g = f then none else r.find g) := by
  have hsome : ∀ (sel : LRUKNode → Bool), (r.scan sel).1 ≠ 0 →
      ∃ n, r.find (r.scan sel).2 = some n ∧ n.is_evictable_ = true := by
    intro sel hne
    rw [scan_eq] at hne ⊢
    obtain ⟨_, h2, _⟩ := scan_fold r.current_timestamp_ sel r.node_store_ (0, 1)
    rcases h2 with h2 | ⟨e, he, h3, _, h5, _⟩
    · rw [h2] at hne; exact absurd rfl hne
    · refine ⟨e.2, ?_, h5⟩
      rw [← h3]
      exact (lookupNode_eq_some_iff h.keys_nodup e.1 e.2).2 he
  have hnone : ∀ (sel : LRUKNode → Bool), (r.scan sel).1 = 0 →
      ∀ f n, r.find f = some n → sel n = true → n.is_evictable_ = false := by
    intro sel h0 f n hf hs
    rw [scan_eq] at h0
    obtain ⟨_, _, h3⟩ := scan_fold r.current_timestamp_ sel r.node_store_ (0, 1)
    have hmem := (lookupNode_eq_some_iff h.keys_nodup f n).1 hf
    by_contra hev
    have hev' : n.is_evictable_ = true := by simpa using hev
    have := h3 (f, n) hmem hs hev'
    rw [h0] at this
    obtain ⟨h1, _, h4⟩ := h.hist_find hf
    have hfront : n.get_front < r.current_timestamp_ := by
      unfold LRUKNode.get_front
      cases hh : n.history_ with
      | nil => exact absurd hh h1
      | cons t ts => exact h4 t (by rw [hh]; exact List.mem_cons_self _ _)
    simp only at this
    omega
  unfold LRUKReplacer.Evict
  simp only
  by_cases h1 : (r.scan (fun n => decide (n.get_history_size < r.k_))).1 ≠ 0
  · rw [if_pos h1]
    refine ⟨fun hc => Option.noConfusion hc, ?_⟩
    intro f hf
    simp only [Option.some.injEq] at hf
    subst hf
    exact ⟨hsome _ h1, ReplInv.eraseNode_same h _ _⟩
  · rw [if_neg h1]
    by_cases h2 : (r.scan (fun n => decide (n.get_history_size = r.k_))).1 ≠ 0
    · rw [if_pos h2]
      refine ⟨fun hc => Option.noConfusion hc, ?_⟩
      intro f hf
      simp only [Option.some.injEq] at hf
      subst hf
      exact ⟨hsome _ h2, ReplInv.eraseNode_same h _ _⟩
    · rw [if_neg h2]
      refine ⟨fun _ => ⟨rfl, ?_⟩, fun f hc => Option.noConfusion hc⟩
      intro f n hf
      obtain ⟨_, hlen, _⟩ := h.hist_find hf
      by_cases hlt : n.history_.length < r.k_
      · exact hnone _ (by simpa using h1) f n hf (by simpa [LRUKNode.get_history_size] using hlt)
      · exact hnone _ (by simpa using h2) f n hf
          (by simp only [LRUKNode.get_history_size, decide_eq_true_eq]; omega)

end bustub

/-! ### Buffer pool: frame acquisition -/

namespace bustub
open LRUKReplacer
namespace BufferPoolManager
variable {D : Type} [Inhabited D]

omit [Inhabited D] in
theorem acquireFrame_none_iff {s : BufferPoolManager D} (h : BPMInv s) :
    acquireFrame s = none ↔
      (s.free_list_ = [] ∧ ∀ f n, s.replacer_.find f = some n → n.is_evictable_ = false) := by
  obtain ⟨hnone, hsome⟩ := Evict_spec h.repl
  unfold acquireFrame
  cases hfl : s.free_list_ with
  | cons fra rest => simp
  | nil =>
    simp only [true_and]
    cases hev : s.replacer_.Evict with
    | mk o r =>
      cases o with
      | none =>
        simp only [true_iff]
        exact (hnone (by rw [hev])).2
      | some fra =>
        refine ⟨fun hc => Option.noConfusion hc, ?_⟩
        intro hall
        exfalso
        obtain ⟨⟨n, hn, he⟩, _⟩ := hsome fra (by rw [hev])
        rw [hall fra n hn] at he
        cases he

omit [Inhabited D] in
theorem acquireFrame_spec {s s1 : BufferPoolManager D} {fra : Int} (h : BPMInv s)
    (ha : acquireFrame s = some (fra, s1)) :
    AcqInv s1 fra ∧ s1.pages_ = s.pages_ ∧ s1.pool_size_ = s.pool_size_ ∧
      s1.next_page_id_ = s.next_page_id_ ∧
      (∀ p f, s1.page_table_ p = some f → s.page_table_ p = some f) ∧
      (∀ p f, s.page_table_ p = some f → f ≠ fra → s1.page_table_ p = some f) ∧
      (∀ f, f ≠ fra → f ∉ s.free_list_ → f ∉ s1.free_list_) ∧
      (∀ f, f ≠ fra → f ∉ s1.free_list_ → f ∉ s.free_list_) := by
  unfold acquireFrame at ha
  cases hfl : s.free_list_ with
  | cons f0 rest =>
    rw [hfl] at ha
    simp only [Option.some.injEq, Prod.mk.injEq] at ha
    obtain ⟨rfl, rfl⟩ := ha
    have hnd := h.free_nodup
    rw [hfl, List.nodup_cons] at hnd
    have hmem : f0 ∈ s.free_list_ := by rw [hfl]; exact List.mem_cons_self _ _
    refine ⟨⟨h.repl, hnd.2, ?_, h.free_range f0 hmem, hnd.1, ?_, ?_, ?_, ?_, h.evictable,
      h.pin_nonneg⟩, rfl, rfl, rfl, fun _ _ hp => hp, fun _ _ hp _ => hp, ?_, ?_⟩
    · intro f hf
      exact h.free_range f (by rw [hfl]; exact List.mem_cons_of_mem _ hf)
    · cases hfind : s.replacer_.find f0 with
      | none => rfl
      | some n =>
        have := (h.tracked f0).1 (by rw [hfind]; rfl)
        exact absurd hmem this.2.2
    · intro p hp
      exact (h.table p f0 hp).2.2.2 hmem
    · intro p f hp
      obtain ⟨a, b, c, d⟩ := h.table p f hp
      exact ⟨a, b, c, fun hm => d (by rw [hfl]; exact List.mem_cons_of_mem _ hm)⟩
    · intro f hf
      rw [h.tracked f, hfl]
      simp only [List.mem_cons, not_or]
      constructor
      · rintro ⟨a, b, _, c⟩; exact ⟨a, b, c⟩
      · rintro ⟨a, b, c⟩; exact ⟨a, b, hf, c⟩
    · intro f _ hf
      exact fun hm => hf (List.mem_cons_of_mem _ hm)
    · intro f hf hm hc
      rw [List.mem_cons] at hc
      rcases hc with hc | hc
      · exact hf hc
      · exact hm hc
  | nil =>
    rw [hfl] at ha
    simp only at ha
    obtain ⟨_, hsome⟩ := Evict_spec h.repl
    cases hev : s.replacer_.Evict with
    | mk o r =>
      rw [hev] at ha
      cases o with
      | none => simp at ha
      | some f0 =>
        simp only [Option.some.injEq, Prod.mk.injEq] at ha
        obtain ⟨rfl, rfl⟩ := ha
        obtain ⟨⟨n, hn, hne⟩, hrinv, hfind⟩ := hsome f0 (by rw [hev])
        rw [hev] at hrinv hfind
        simp only at hrinv hfind
        have htr := (h.tracked f0).1 (by rw [hn]; rfl)
        obtain ⟨hpin, hmap⟩ := h.evictable f0 n hn hne
        have hfree : ∀ f : Int, f ∉ ([] : List Int) := fun f hf => by cases hf
        refine ⟨⟨hrinv, List.nodup_nil, fun f hf => absurd hf (hfree f), ⟨htr.1, htr.2.1⟩,
          hfree f0, ?_, ?_, ?_, ?_, ?_, h.pin_nonneg⟩, rfl, rfl, rfl, ?_, ?_,
          fun f _ _ => hfree f, fun f _ _ => hfree f⟩
        · simp only [hfind, if_true]
        · intro p hp
          simp only [tableErase, Function.update_apply] at hp
          split at hp
          · cases hp
          · rename_i hpq
            exact hpq (h.table p f0 hp).2.2.1.symm
        · intro p f hp
          simp only [tableErase, Function.update_apply] at hp
          split at hp
          · cases hp
          · obtain ⟨a, b, c, _⟩ := h.table p f hp
            exact ⟨a, b, c, hfree f⟩
        · intro f hf
          simp only [hfind, if_neg hf]
          rw [h.tracked f, hfl]
        · intro f m hm hme
          simp only [hfind] at hm
          split at hm
          · cases hm
          · rename_i hff
            obtain ⟨a, b⟩ := h.evictable f m hm hme
            refine ⟨a, ?_⟩
            simp only [tableErase, Function.update_apply]
            rw [if_neg, b]
            intro e
            rw [e, hmap] at b
            exact hff (Option.some.inj b).symm
        · intro p f hp
          simp only [tableErase, Function.update_apply] at hp
          split at hp
          · cases hp
          · exact hp
        · intro p f hp hf
          simp only [tableErase, Function.update_apply]
          rw [if_neg, hp]
          intro e
          rw [e, hmap] at hp
          exact hf (Option.some.inj hp).symm

omit [Inhabited D] in
theorem tableInsert_apply (t : Int → Option Int) (pid fra p : Int) :
    tableInsert t pid fra p = if p = pid ∧ t pid = none then some fra else t p := by
  unfold tableInsert
  cases h : t pid with
  | some f => simp
  | none =>
    simp only [Function.update_apply, and_true]

omit [Inhabited D] in
theorem install_spec {s1 : BufferPoolManager D} {fra : Int} (h : AcqInv s1 fra)
    (pid next : Int) (data : D) :
    ∃ r, (s1.replacer_.RecordAccess fra).SetEvictable fra false = some r ∧
      BPMInv (install s1 fra r pid next data) ∧
      ∃ n, r.find fra = some n ∧ n.is_evictable_ = false := by
  have hra := ReplInv.RecordAccess h.repl fra
  have hfa : (s1.replacer_.RecordAccess fra).find fra = some (s1.replacer_.accessed fra) := by
    rw [find_RecordAccess, if_pos rfl]
  obtain ⟨r, hr, hrinv, hfind⟩ := SetEvictable_spec hra hfa false
  refine ⟨r, hr, ?_, ⟨_, by rw [hfind, if_pos rfl], rfl⟩⟩
  have hfind' : ∀ g, g ≠ fra → r.find g = s1.replacer_.find g := by
    intro g hg
    rw [hfind, if_neg hg, find_RecordAccess, if_neg hg]
  refine ⟨hrinv, h.free_nodup, h.free_range, ?_, ?_, ?_, ?_⟩
  · intro p f hp
    simp only [install, tableInsert_apply] at hp ⊢
    split at hp
    · rename_i hc
      cases hp
      rw [Function.update_same]
      exact ⟨h.fra_range.1, h.fra_range.2, hc.1.symm, h.fra_free⟩
    · have hf : f ≠ fra := fun e => h.fra_unmapped p (e ▸ hp)
      rw [Function.update_noteq hf]
      exact h.table p f hp
  · intro f
    show (r.find f).isSome = true ↔ _
    by_cases hf : f = fra
    · subst hf
      rw [hfind, if_pos rfl]
      simp only [Option.isSome_some, true_iff]
      exact ⟨h.fra_range.1, h.fra_range.2, h.fra_free⟩
    · rw [hfind' f hf]
      exact h.tracked f hf
  · intro f n hn hne
    have hn' : r.find f = some n := hn
    by_cases hf : f = fra
    · subst hf
      rw [hfind, if_pos rfl] at hn'
      cases hn'
      cases hne
    · rw [hfind' f hf] at hn'
      obtain ⟨a, b⟩ := h.evictable f n hn' hne
      simp only [install, Function.update_noteq hf, tableInsert_apply]
      refine ⟨a, ?_⟩
      rw [if_neg, b]
      rintro ⟨e1, e2⟩
      rw [← e1, b] at e2
      cases e2
  · intro f
    simp only [install, Function.update_apply]
    split
    · exact Int.one_nonneg
    · exact h.pin_nonneg f

end BufferPoolManager
end bustub

/-! ### Buffer pool: results of the operations by cases -/

namespace bustub
open LRUKReplacer
namespace BufferPoolManager
variable {D : Type} [Inhabited D]

theorem NewPage_eq (s : BufferPoolManager D) :
    NewPage s = match acquireFrame s with
      | none => some (none, s)
      | some (fra, s1) =>
        ((s1.replacer_.RecordAccess fra).SetEvictable fra false).map fun r =>
          (some (s1.next_page_id_, fra),
            install s1 fra r s1.next_page_id_ (s1.next_page_id_ + 1) default) := rfl

omit [Inhabited D] in
theorem FetchPage_unmapped_eq (s : BufferPoolManager D) (p : Int)
    (hp : s.page_table_ p = none) :
    FetchPage s p = match acquireFrame s with
      | none => some (none, s)
      | some (fra, s1) =>
        ((s1.replacer_.RecordAccess fra).SetEvictable fra false).map fun r =>
          (some fra, install s1 fra r p s1.next_page_id_ (s1.disk p)) := by
  unfold FetchPage
  rw [hp]
  rfl

/-- The result of `NewPage` and of `FetchPage` on an unmapped page, by cases on
the frame acquisition. -/
theorem NewPage_cases {s : BufferPoolManager D} (h : BPMInv s) :
    (acquireFrame s = none ∧ NewPage s = some (none, s)) ∨
    ∃ fra s1 r, acquireFrame s = some (fra, s1) ∧
      (s1.replacer_.RecordAccess fra).SetEvictable fra false = some r ∧
      NewPage s = some (some (s.next_page_id_, fra),
        install s1 fra r s.next_page_id_ (s.next_page_id_ + 1) default) := by
  rw [NewPage_eq]
  cases ha : acquireFrame s with
  | none => exact Or.inl ⟨rfl, rfl⟩
  | some x =>
    obtain ⟨fra, s1⟩ := x
    obtain ⟨hacq, _, _, hnext, _⟩ := acquireFrame_spec h ha
    obtain ⟨r, hr, _⟩ := install_spec hacq 0 0 (default : D)
    refine Or.inr ⟨fra, s1, r, rfl, hr, ?_⟩
    simp only [hr, Option.map_some', hnext]

omit [Inhabited D] in
theorem FetchPage_unmapped_cases {s : BufferPoolManager D} (h : BPMInv s) (p : Int)
    (hp : s.page_table_ p = none) :
    (acquireFrame s = none ∧ FetchPage s p = some (none, s)) ∨
    ∃ fra s1 r, acquireFrame s = some (fra, s1) ∧
      (s1.replacer_.RecordAccess fra).SetEvictable fra false = some r ∧
      FetchPage s p = some (some fra, install s1 fra r p s.next_page_id_ (s1.disk p)) := by
  rw [FetchPage_unmapped_eq s p hp]
  cases ha : acquireFrame s with
  | none => exact Or.inl ⟨rfl, rfl⟩
  | some x =>
    obtain ⟨fra, s1⟩ := x
    obtain ⟨hacq, _, _, hnext, _⟩ := acquireFrame_spec h ha
    obtain ⟨r, hr, _⟩ := install_spec hacq 0 0 (s1.disk p)
    refine Or.inr ⟨fra, s1, r, rfl, hr, ?_⟩
    simp only [hr, Option.map_some', hnext]

omit [Inhabited D] in
theorem find_of_mapped {s : BufferPoolManager D} (h : BPMInv s) {p fra : Int}
    (hp : s.page_table_ p = some fra) : ∃ n, s.replacer_.find fra = some n := by
  obtain ⟨a, b, _, d⟩ := h.table p fra hp
  have := (h.tracked fra).2 ⟨a, b, d⟩
  cases hf : s.replacer_.find fra with
  | none => rw [hf] at this; cases this
  | some n => exact ⟨n, rfl⟩

omit [Inhabited D] in
theorem FetchPage_mapped {s : BufferPoolManager D} (h : BPMInv s) {p fra : Int}
    (hp : s.page_table_ p = some fra) :
    ∃ r, ReplInv r ∧
      (∀ g, r.find g = if g = fra then some ((s.replacer_.accessed fra).set_evictab false)
        else s.replacer_.find g) ∧
      FetchPage s p = some (some fra, { s with
        replacer_ := r,
        pages_ := Function.update s.pages_ fra
          { s.pages_ fra with pin_count_ := (s.pages_ fra).pin_count_ + 1 } }) := by
  have hra := ReplInv.RecordAccess h.repl fra
  have hfa : (s.replacer_.RecordAccess fra).find fra = some (s.replacer_.accessed fra) := by
    rw [find_RecordAccess, if_pos rfl]
  obtain ⟨r, hr, hrinv, hfind⟩ := SetEvictable_spec hra hfa false
  refine ⟨r, hrinv, ?_, ?_⟩
  · intro g
    rw [hfind, find_RecordAccess]
    by_cases hg : g = fra
    · rw [if_pos hg, if_pos hg]
    · rw [if_neg hg, if_neg hg, if_neg hg]
  · unfold FetchPage
    rw [hp]
    simp only [hr, Option.map_some']

omit [Inhabited D] in
theorem UnpinPage_mapped {s : BufferPoolManager D} (h : BPMInv s) {p fra : Int} (d : Bool)
    (hp : s.page_table_ p = some fra) (hne : ¬ (p = INVALID_PAGE_ID ∨ (s.pages_ fra).pin_count_ = 0)) :
    ∃ r, ReplInv r ∧
      (∀ g, r.find g = if g = fra ∧ (s.pages_ fra).pin_count_ - 1 = 0
        then (s.replacer_.find fra).map (fun n => n.set_evictab true) else s.replacer_.find g) ∧
      UnpinPage s p d = some (true, { s with
        replacer_ := r,
        pages_ := Function.update s.pages_ fra
          { s.pages_ fra with pin_count_ := (s.pages_ fra).pin_count_ - 1,
                              is_dirty_ := (s.pages_ fra).is_dirty_ || d } }) := by
  obtain ⟨n, hn⟩ := find_of_mapped h hp
  unfold UnpinPage
  rw [hp]
  simp only [if_neg hne]
  by_cases hz : (s.pages_ fra).pin_count_ - 1 = 0
  · obtain ⟨r, hr, hrinv, hfind⟩ := SetEvictable_spec h.repl hn true
    refine ⟨r, hrinv, ?_, ?_⟩
    · intro g
      rw [hfind]
      by_cases hg : g = fra
      · rw [if_pos hg, if_pos ⟨hg, hz⟩, hn]; rfl
      · rw [if_neg hg, if_neg (fun hc => hg hc.1)]
    · simp only [if_pos hz, hr, Option.map_some']
  · refine ⟨s.replacer_, h.repl, ?_, ?_⟩
    · intro g
      rw [if_neg (fun hc => hz hc.2)]
    · simp only [if_neg hz, Option.map_some']

omit [Inhabited D] in
theorem UnpinPage_cases {s : BufferPoolManager D} (h : BPMInv s) (p : Int) (d : Bool) :
    UnpinPage s p d = some (false, s) ∨
    ∃ fra r, s.page_table_ p = some fra ∧ (s.pages_ fra).pin_count_ ≠ 0 ∧ ReplInv r ∧
      (∀ g, r.find g = if g = fra ∧ (s.pages_ fra).pin_count_ - 1 = 0
        then (s.replacer_.find fra).map (fun n => n.set_evictab true) else s.replacer_.find g) ∧
      UnpinPage s p d = some (true, { s with
        replacer_ := r,
        pages_ := Function.update s.pages_ fra
          { s.pages_ fra with pin_count_ := (s.pages_ fra).pin_count_ - 1,
                              is_dirty_ := (s.pages_ fra).is_dirty_ || d } }) := by
  cases hp : s.page_table_ p with
  | none => left; unfold UnpinPage; rw [hp]
  | some fra =>
    by_cases hne : p = INVALID_PAGE_ID ∨ (s.pages_ fra).pin_count_ = 0
    · left; unfold UnpinPage; rw [hp]; simp only [if_pos hne]
    · right
      obtain ⟨r, h1, h2, h3⟩ := UnpinPage_mapped h d hp hne
      exact ⟨fra, r, rfl, fun hc => hne (Or.inr hc), h1, h2, h3⟩

theorem DeletePage_cases {s : BufferPoolManager D} (h : BPMInv s) (p : Int) :
    (∃ b, DeletePage s p = some (b, s)) ∨
    ∃ fra r, s.page_table_ p = some fra ∧ (s.pages_ fra).pin_count_ = 0 ∧ ReplInv r ∧
      (∀ g, r.find g = if g = fra then none else s.replacer_.find g) ∧
      DeletePage s p = some (true, { s with
        free_list_ := s.free_list_ ++ [fra],
        replacer_ := r,
        page_table_ := tableErase s.page_table_ p,
        pages_ := Function.update s.pages_ fra (s.pages_ fra).ResetMemory }) := by
  unfold DeletePage
  by_cases hi : p = INVALID_PAGE_ID
  · left; exact ⟨true, by rw [if_pos hi]⟩
  · rw [if_neg hi]
    cases hp : s.page_table_ p with
    | none => left; exact ⟨true, rfl⟩
    | some fra =>
      simp only
      by_cases hpin : 0 < (s.pages_ fra).pin_count_
      · left; exact ⟨false, by rw [if_pos hpin]⟩
      · right
        rw [if_neg hpin]
        obtain ⟨n, hn⟩ := find_of_mapped h hp
        obtain ⟨r, hr, hrinv, hfind⟩ := Remove_node_spec h.repl hn
        refine ⟨fra, r, rfl, ?_, hrinv, hfind, ?_⟩
        · have := h.pin_nonneg fra
          omega
        · simp only [hr, Option.map_some']

end BufferPoolManager
end bustub

/-! ### Buffer pool: the invariant is preserved -/

namespace bustub
open LRUKReplacer
namespace BufferPoolManager
variable {D : Type} [Inhabited D]

theorem BPMInv_new (pool_size k : Nat) (hk : 0 < k) (disk : Int → D) :
    BPMInv (new pool_size k disk) := by
  have hmem : ∀ f : Int, f ∈ List.map Int.ofNat (List.range pool_size) ↔
      (0 ≤ f ∧ f < pool_size) := by
    intro f
    simp only [List.mem_map, List.mem_range]
    constructor
    · rintro ⟨i, hi, rfl⟩
      exact ⟨Int.ofNat_nonneg i, Int.ofNat_lt.2 hi⟩
    · rintro ⟨h0, h1⟩
      refine ⟨f.toNat, ?_, Int.toNat_of_nonneg h0⟩
      have := Int.toNat_of_nonneg h0
      omega
  refine ⟨⟨hk, List.nodup_nil, fun e he => by cases he⟩, ?_, ?_, ?_, ?_, ?_, ?_⟩
  · exact (List.nodup_range pool_size).map (fun a b hab => Int.ofNat.inj hab)
  · intro f hf
    exact (hmem f).1 hf
  · intro p f hp
    cases hp
  · intro f
    constructor
    · intro hc
      cases hc
    · rintro ⟨h0, h1, h2⟩
      exact absurd ((hmem f).2 ⟨h0, h1⟩) h2
  · intro f n hn
    cases hn
  · intro f
    exact le_refl _

theorem NewPage_inv {s : BufferPoolManager D} (h : BPMInv s) :
    ∃ res s', NewPage s = some (res, s') ∧ BPMInv s' := by
  rcases NewPage_cases h with ⟨_, hn⟩ | ⟨fra, s1, r, ha, hr, hn⟩
  · exact ⟨_, _, hn, h⟩
  · obtain ⟨hacq, _⟩ := acquireFrame_spec h ha
    obtain ⟨r', hr', hinv, _⟩ := install_spec hacq s.next_page_id_ (s.next_page_id_ + 1)
      (default : D)
    rw [hr] at hr'
    cases hr'
    exact ⟨_, _, hn, hinv⟩

omit [Inhabited D] in
theorem FetchPage_inv {s : BufferPoolManager D} (h : BPMInv s) (p : Int) :
    ∃ res s', FetchPage s p = some (res, s') ∧ BPMInv s' := by
  cases hp : s.page_table_ p with
  | none =>
    rcases FetchPage_unmapped_cases h p hp with ⟨_, hn⟩ | ⟨fra, s1, r, ha, hr, hn⟩
    · exact ⟨_, _, hn, h⟩
    · obtain ⟨hacq, _⟩ := acquireFrame_spec h ha
      obtain ⟨r', hr', hinv, _⟩ := install_spec hacq p s.next_page_id_ (s1.disk p)
      rw [hr] at hr'
      cases hr'
      exact ⟨_, _, hn, hinv⟩
  | some fra =>
    obtain ⟨r, hrinv, hfind, hn⟩ := FetchPage_mapped h hp
    refine ⟨_, _, hn, ?_⟩
    obtain ⟨a, b, c, d⟩ := h.table p fra hp
    refine ⟨hrinv, h.free_nodup, h.free_range, ?_, ?_, ?_, ?_⟩
    · intro q f hq
      obtain ⟨a', b', c', d'⟩ := h.table q f hq
      refine ⟨a', b', ?_, d'⟩
      simp only [Function.update_apply]
      split
      · rename_i e; rw [← e]; exact c'
      · exact c'
    · intro f
      show (r.find f).isSome = true ↔ _
      rw [hfind]
      by_cases hf : f = fra
      · rw [if_pos hf, hf]
        simp only [Option.isSome_some, true_iff]
        exact ⟨a, b, d⟩
      · rw [if_neg hf]
        exact h.tracked f
    · intro f n hn' hne
      have hn2 : r.find f = some n := hn'
      rw [hfind] at hn2
      by_cases hf : f = fra
      · rw [if_pos hf] at hn2
        cases hn2
        cases hne
      · rw [if_neg hf] at hn2
        simp only [Function.update_noteq hf]
        exact h.evictable f n hn2 hne
    · intro f
      simp only [Function.update_apply]
      split
      · have := h.pin_nonneg fra
        show 0 ≤ (s.pages_ fra).pin_count_ + 1
        omega
      · exact h.pin_nonneg f

omit [Inhabited D] in
theorem UnpinPage_inv {s : BufferPoolManager D} (h : BPMInv s) (p : Int) (d : Bool) :
    ∃ res s', UnpinPage s p d = some (res, s') ∧ BPMInv s' := by
  rcases UnpinPage_cases h p d with hn | ⟨fra, r, hp, hpin, hrinv, hfind, hn⟩
  · exact ⟨_, _, hn, h⟩
  · refine ⟨_, _, hn, ?_⟩
    obtain ⟨a, b, c, d'⟩ := h.table p fra hp
    obtain ⟨n0, hn0⟩ := find_of_mapped h hp
    refine ⟨hrinv, h.free_nodup, h.free_range, ?_, ?_, ?_, ?_⟩
    · intro q f hq
      obtain ⟨a', b', c', d''⟩ := h.table q f hq
      refine ⟨a', b', ?_, d''⟩
      simp only [Function.update_apply]
      split
      · rename_i e; rw [← e]; exact c'
      · exact c'
    · intro f
      show (r.find f).isSome = true ↔ _
      rw [hfind]
      split
      · rename_i hc
        rw [hn0, hc.1]
        simp only [Option.map_some', Option.isSome_some, true_iff]
        exact ⟨a, b, d'⟩
      · exact h.tracked f
    · intro f n hn' hne
      have hn2 : r.find f = some n := hn'
      rw [hfind] at hn2
      by_cases hf : f = fra
      · subst hf
        simp only [Function.update_same]
        by_cases hz : (s.pages_ f).pin_count_ - 1 = 0
        · exact ⟨hz, by rw [c]; exact hp⟩
        · rw [if_neg (fun hc => hz hc.2)] at hn2
          exact absurd (h.evictable f n hn2 hne).1 hpin
      · rw [if_neg (fun hc => hf hc.1)] at hn2
        simp only [Function.update_noteq hf]
        exact h.evictable f n hn2 hne
    · intro f
      simp only [Function.update_apply]
      split
      · have := h.pin_nonneg fra
        show 0 ≤ (s.pages_ fra).pin_count_ - 1
        omega
      · exact h.pin_nonneg f

omit [Inhabited D] in
theorem FlushPage_inv {s : BufferPoolManager D} (h : BPMInv s) (p : Int) :
    BPMInv (FlushPage s p).2 := by
  unfold FlushPage
  cases hp : s.page_table_ p with
  | none => exact h
  | some fra =>
    simp only
    split
    · exact h
    · refine ⟨h.repl, h.free_nodup, h.free_range, ?_, h.tracked, ?_, ?_⟩
      · intro q f hq
        obtain ⟨a', b', c', d''⟩ := h.table q f hq
        refine ⟨a', b', ?_, d''⟩
        simp only [Function.update_apply]
        split
        · rename_i e; rw [← e]; exact c'
        · exact c'
      · intro f n hn hne
        obtain ⟨x, y⟩ := h.evictable f n hn hne
        simp only [Function.update_apply]
        split
        · rename_i e; rw [← e]; exact ⟨x, y⟩
        · exact ⟨x, y⟩
      · intro f
        simp only [Function.update_apply]
        split
        · exact h.pin_nonneg fra
        · exact h.pin_nonneg f

theorem DeletePage_inv {s : BufferPoolManager D} (h : BPMInv s) (p : Int) :
    ∃ res s', DeletePage s p = some (res, s') ∧ BPMInv s' := by
  rcases DeletePage_cases h p with ⟨b, hn⟩ | ⟨fra, r, hp, hpin, hrinv, hfind, hn⟩
  · exact ⟨_, _, hn, h⟩
  · refine ⟨_, _, hn, ?_⟩
    obtain ⟨a, b, c, d⟩ := h.table p fra hp
    refine ⟨hrinv, ?_, ?_, ?_, ?_, ?_, ?_⟩
    · show (s.free_list_ ++ [fra]).Nodup
      rw [List.nodup_append]
      refine ⟨h.free_nodup, List.nodup_singleton _, ?_⟩
      intro x hx hx'
      rw [List.mem_singleton] at hx'
      exact d (hx' ▸ hx)
    · intro f hf
      have hf' : f ∈ s.free_list_ ++ [fra] := hf
      rw [List.mem_append, List.mem_singleton] at hf'
      rcases hf' with hf' | hf'
      · exact h.free_range f hf'
      · rw [hf']; exact ⟨a, b⟩
    · intro q f hq
      simp only [tableErase, Function.update_apply] at hq
      split at hq
      · cases hq
      · rename_i hqp
        obtain ⟨a', b', c', d'⟩ := h.table q f hq
        have hf : f ≠ fra := by
          intro e
          rw [e, c] at c'
          exact hqp c'.symm
        refine ⟨a', b', ?_, ?_⟩
        · simp only [Function.update_noteq hf]
          exact c'
        · show f ∉ s.free_list_ ++ [fra]
          rw [List.mem_append, List.mem_singleton]
          rintro (x | x)
          · exact d' x
          · exact hf x
    · intro f
      show (r.find f).isSome = true ↔ (_ ∧ _ ∧ f ∉ s.free_list_ ++ [fra])
      rw [hfind, List.mem_append, List.mem_singleton]
      by_cases hf : f = fra
      · rw [if_pos hf]
        simp only [Option.isSome_none, Bool.false_eq_true, false_iff, not_and, not_not]
        intro _ _
        exact Or.inr hf
      · rw [if_neg hf, h.tracked f]
        simp only [hf, or_false]
    · intro f n hn' hne
      have hn2 : r.find f = some n := hn'
      rw [hfind] at hn2
      by_cases hf : f = fra
      · rw [if_pos hf] at hn2
        cases hn2
      · rw [if_neg hf] at hn2
        obtain ⟨x, y⟩ := h.evictable f n hn2 hne
        simp only [Function.update_noteq hf, tableErase, Function.update_apply]
        refine ⟨x, ?_⟩
        rw [if_neg, y]
        intro e
        rw [e, hp] at y
        exact hf (Option.some.inj y).symm
    · intro f
      simp only [Function.update_apply]
      split
      · exact h.pin_nonneg fra
      · exact h.pin_nonneg f

theorem applyOp_inv {s : BufferPoolManager D} (h : BPMInv s) (op : BPMOp) :
    ∃ s', applyOp s op = some s' ∧ BPMInv s' := by
  cases op with
  | newPage =>
    obtain ⟨res, s', h1, h2⟩ := NewPage_inv h
    exact ⟨s', by simp only [applyOp, h1, Option.map_some'], h2⟩
  | fetchPage p =>
    obtain ⟨res, s', h1, h2⟩ := FetchPage_inv h p
    exact ⟨s', by simp only [applyOp, h1, Option.map_some'], h2⟩
  | unpinPage p d =>
    obtain ⟨res, s', h1, h2⟩ := UnpinPage_inv h p d
    exact ⟨s', by simp only [applyOp, h1, Option.map_some'], h2⟩
  | flushPage p => exact ⟨_, rfl, FlushPage_inv h p⟩
  | deletePage p =>
    obtain ⟨res, s', h1, h2⟩ := DeletePage_inv h p
    exact ⟨s', by simp only [applyOp, h1, Option.map_some'], h2⟩

theorem runOps_inv (ops : List BPMOp) {s : BufferPoolManager D} (h : BPMInv s) :
    ∃ s', runOps ops s = some s' ∧ BPMInv s' := by
  induction ops generalizing s with
  | nil => exact ⟨s, rfl, h⟩
  | cons op ops ih =>
    obtain ⟨s1, h1, hinv1⟩ := applyOp_inv h op
    obtain ⟨s2, h2, hinv2⟩ := ih hinv1
    exact ⟨s2, by simp only [runOps, h1, Option.some_bind, h2], hinv2⟩

end BufferPoolManager
end bustub

/-! ### Buffer pool: fetches of allocated pages -/

namespace bustub
open LRUKReplacer
namespace BufferPoolManager
variable {D : Type} [Inhabited D]

omit [Inhabited D] in
theorem install_alloc {s s1 : BufferPoolManager D} {fra : Int} (h : BPMInv s) (ha : AllocInv s)
    (hacq : acquireFrame s = some (fra, s1)) (r : LRUKReplacer) (pid next : Int) (data : D)
    (hpid : s.page_table_ pid = none) (hlt : pid < next) (hle : s.next_page_id_ ≤ next) :
    AllocInv (install s1 fra r pid next data) := by
  obtain ⟨_, _, hpool, _, hsub, hkeep, _, hfree⟩ := acquireFrame_spec h hacq
  have hnone : s1.page_table_ pid = none := by
    cases hc : s1.page_table_ pid with
    | none => rfl
    | some f => rw [hsub pid f hc] at hpid; cases hpid
  constructor
  · intro q f hq
    simp only [install, tableInsert_apply] at hq ⊢
    split at hq
    · rename_i hc; rw [hc.1]; exact hlt
    · exact lt_of_lt_of_le (ha.below q f (hsub q f hq)) hle
  · intro f h0 h1 h2
    simp only [install, tableInsert_apply]
    by_cases hf : f = fra
    · exact ⟨pid, by rw [if_pos ⟨rfl, hnone⟩, hf]⟩
    · obtain ⟨p, hp⟩ := ha.mapped f h0 (hpool ▸ h1) (hfree f hf h2)
      refine ⟨p, ?_⟩
      rw [if_neg, hkeep p f hp hf]
      rintro ⟨e, _⟩
      rw [e, hpid] at hp
      cases hp

theorem applyOp_alloc {s s' : BufferPoolManager D} (h : BPMInv s) (ha : AllocInv s)
    (op : BPMOp) (hok : fetchAllocated s op = true) (hs : applyOp s op = some s') :
    AllocInv s' := by
  cases op with
  | newPage =>
    have hpid : s.page_table_ s.next_page_id_ = none := by
      cases hc : s.page_table_ s.next_page_id_ with
      | none => rfl
      | some f => exact absurd (ha.below _ f hc) (lt_irrefl _)
    rcases NewPage_cases h with ⟨_, hn⟩ | ⟨fra, s1, r, hacq, hr, hn⟩
    · simp only [applyOp, hn, Option.map_some', Option.some.injEq] at hs
      exact hs ▸ ha
    · simp only [applyOp, hn, Option.map_some', Option.some.injEq] at hs
      rw [← hs]
      exact install_alloc h ha hacq r _ _ _ hpid (by omega) (by omega)
  | fetchPage p =>
    have hlt : p < s.next_page_id_ := of_decide_eq_true hok
    cases hp : s.page_table_ p with
    | none =>
      rcases FetchPage_unmapped_cases h p hp with ⟨_, hn⟩ | ⟨fra, s1, r, hacq, hr, hn⟩
      · simp only [applyOp, hn, Option.map_some', Option.some.injEq] at hs
        exact hs ▸ ha
      · simp only [applyOp, hn, Option.map_some', Option.some.injEq] at hs
        rw [← hs]
        exact install_alloc h ha hacq r _ _ _ hp hlt (le_refl _)
    | some fra =>
      obtain ⟨r, _, _, hn⟩ := FetchPage_mapped h hp
      simp only [applyOp, hn, Option.map_some', Option.some.injEq] at hs
      rw [← hs]
      exact ⟨ha.below, ha.mapped⟩
  | unpinPage p d =>
    rcases UnpinPage_cases h p d with hn | ⟨fra, r, _, _, _, _, hn⟩
    · simp only [applyOp, hn, Option.map_some', Option.some.injEq] at hs
      exact hs ▸ ha
    · simp only [applyOp, hn, Option.map_some', Option.some.injEq] at hs
      rw [← hs]
      exact ⟨ha.below, ha.mapped⟩
  | flushPage p =>
    simp only [applyOp, Option.some.injEq] at hs
    rw [← hs]
    unfold FlushPage
    cases hp : s.page_table_ p with
    | none => exact ha
    | some fra =>
      simp only
      split
      · exact ha
      · exact ⟨ha.below, ha.mapped⟩
  | deletePage p =>
    rcases DeletePage_cases h p with ⟨b, hn⟩ | ⟨fra, r, hp, _, _, _, hn⟩
    · simp only [applyOp, hn, Option.map_some', Option.some.injEq] at hs
      exact hs ▸ ha
    · simp only [applyOp, hn, Option.map_some', Option.some.injEq] at hs
      rw [← hs]
      constructor
      · intro q f hq
        simp only [tableErase, Function.update_apply] at hq
        split at hq
        · cases hq
        · exact ha.below q f hq
      · intro f h0 h1 h2
        have h2' : f ∉ s.free_list_ ++ [fra] := h2
        rw [List.mem_append, List.mem_singleton, not_or] at h2'
        obtain ⟨q, hq⟩ := ha.mapped f h0 h1 h2'.1
        refine ⟨q, ?_⟩
        simp only [tableErase, Function.update_apply]
        rw [if_neg, hq]
        intro e
        rw [e, hp] at hq
        exact h2'.2 (Option.some.inj hq).symm

theorem AllocInv_new (pool_size k : Nat) (disk : Int → D) :
    AllocInv (new pool_size k disk) := by
  constructor
  · intro p f hp
    cases hp
  · intro f h0 h1 h2
    exfalso
    apply h2
    show f ∈ List.map Int.ofNat (List.range pool_size)
    rw [List.mem_map]
    refine ⟨f.toNat, ?_, Int.toNat_of_nonneg h0⟩
    rw [List.mem_range]
    have := Int.toNat_of_nonneg h0
    have h1' : f < (pool_size : Int) := h1
    omega

theorem runOps_alloc (ops : List BPMOp) {s s' : BufferPoolManager D} (h : BPMInv s)
    (ha : AllocInv s) (hok : fetchesAllocated ops s = true) (hs : runOps ops s = some s') :
    AllocInv s' := by
  induction ops generalizing s with
  | nil =>
    simp only [runOps, Option.some.injEq] at hs
    exact hs ▸ ha
  | cons op ops ih =>
    obtain ⟨s1, h1, hinv1⟩ := applyOp_inv h op
    simp only [fetchesAllocated, h1, Bool.and_eq_true] at hok
    simp only [runOps, h1, Option.some_bind] at hs
    exact ih hinv1 (applyOp_alloc h ha op hok.1 h1) hok.2 hs

end BufferPoolManager
end bustub

/-! ### Buffer pool: content of a page -/

namespace bustub
open LRUKReplacer
namespace BufferPoolManager
variable {D : Type} [Inhabited D]

omit [Inhabited D] in
theorem acquireFrame_disk {s s1 : BufferPoolManager D} {fra : Int} (h : BPMInv s)
    (ha : acquireFrame s = some (fra, s1)) :
    (fra ∈ s.free_list_ ∧ s1.page_table_ = s.page_table_ ∧ s1.disk = s.disk) ∨
    (s.free_list_ = [] ∧ s.page_table_ (s.pages_ fra).page_id_ = some fra ∧
      s1.page_table_ = tableErase s.page_table_ (s.pages_ fra).page_id_ ∧
      s1.disk = if (s.pages_ fra).is_dirty_ then
          Function.update s.disk (s.pages_ fra).page_id_ (s.pages_ fra).data_
        else s.disk) := by
  unfold acquireFrame at ha
  cases hfl : s.free_list_ with
  | cons f0 rest =>
    rw [hfl] at ha
    simp only [Option.some.injEq, Prod.mk.injEq] at ha
    obtain ⟨rfl, rfl⟩ := ha
    exact Or.inl ⟨List.mem_cons_self _ _, rfl, rfl⟩
  | nil =>
    rw [hfl] at ha
    simp only at ha
    obtain ⟨_, hsome⟩ := Evict_spec h.repl
    cases hev : s.replacer_.Evict with
    | mk o r =>
      rw [hev] at ha
      cases o with
      | none => simp at ha
      | some f0 =>
        simp only [Option.some.injEq, Prod.mk.injEq] at ha
        obtain ⟨rfl, rfl⟩ := ha
        obtain ⟨⟨n, hn, hne⟩, _⟩ := hsome f0 (by rw [hev])
        exact Or.inr ⟨rfl, (h.evictable f0 n hn hne).2, rfl, rfl⟩

omit [Inhabited D] in
theorem install_stored {s s1 : BufferPoolManager D} {fra : Int} (h : BPMInv s)
    (hacq : acquireFrame s = some (fra, s1)) {p : Int} {b : D} (hst : Stored p b s)
    (r : LRUKReplacer) (pid next : Int) (data : D) (hpid : pid ≠ p)
    (hle : s.next_page_id_ ≤ next) :
    Stored p b (install s1 fra r pid next data) := by
  obtain ⟨_, hpages, _⟩ := acquireFrame_spec h hacq
  obtain ⟨hlt, hst⟩ := hst
  refine ⟨lt_of_lt_of_le hlt hle, ?_⟩
  have htab : (install s1 fra r pid next data).page_table_ p = s1.page_table_ p := by
    simp only [install, tableInsert_apply]
    rw [if_neg (fun hc => hpid hc.1.symm)]
  rw [htab]
  show match s1.page_table_ p with
    | some f => (Function.update s1.pages_ fra _ f).data_ = b ∧
        ((Function.update s1.pages_ fra _ f).is_dirty_ = true ∨ s1.disk p = b)
    | none => s1.disk p = b
  rw [hpages]
  rcases acquireFrame_disk h hacq with ⟨hmem, ht, hd⟩ | ⟨_, hq, ht, hd⟩
  · rw [ht, hd]
    cases hp : s.page_table_ p with
    | none => rw [hp] at hst; exact hst
    | some f =>
      rw [hp] at hst
      have hf : f ≠ fra := fun e => (h.table p f hp).2.2.2 (e ▸ hmem)
      simp only [Function.update_noteq hf]
      exact hst
  · rw [ht]
    cases hp : s.page_table_ p with
    | none =>
      rw [hp] at hst
      have hqp : p ≠ (s.pages_ fra).page_id_ := by
        intro e
        rw [← e, hp] at hq
        cases hq
      simp only [tableErase, Function.update_noteq hqp, hp]
      rw [hd]
      split
      · rw [Function.update_noteq hqp]; exact hst
      · exact hst
    | some f =>
      rw [hp] at hst
      by_cases hf : f = fra
      · subst hf
        have hqp : (s.pages_ f).page_id_ = p := (h.table p f hp).2.2.1
        have e : tableErase s.page_table_ (s.pages_ f).page_id_ p = none := by
          rw [hqp]
          exact Function.update_same _ _ _
        rw [e]
        show s1.disk p = b
        rw [hd, hqp]
        by_cases hdirty : (s.pages_ f).is_dirty_ = true
        · rw [if_pos hdirty, Function.update_same]; exact hst.1
        · rw [if_neg hdirty]
          rcases hst.2 with hd' | hdisk
          · exact absurd hd' hdirty
          · exact hdisk
      · have hqp : p ≠ (s.pages_ fra).page_id_ := by
          intro e
          rw [← e, hp] at hq
          exact hf (Option.some.inj hq)
        simp only [tableErase, Function.update_noteq hqp, hp, Function.update_noteq hf]
        rw [hd]
        split
        · rw [Function.update_noteq hqp]; exact hst
        · exact hst

end BufferPoolManager
end bustub

/-! ### Buffer pool: content of a page across operations -/

namespace bustub
open LRUKReplacer
namespace BufferPoolManager
variable {D : Type} [Inhabited D]

theorem applyOp_next_le {s s' : BufferPoolManager D} (h : BPMInv s) (op : BPMOp)
    (hs : applyOp s op = some s') : s.next_page_id_ ≤ s'.next_page_id_ := by
  cases op with
  | newPage =>
    rcases NewPage_cases h with ⟨_, hn⟩ | ⟨fra, s1, r, hacq, hr, hn⟩
    · simp only [applyOp, hn, Option.map_some', Option.some.injEq] at hs
      rw [← hs]
    · simp only [applyOp, hn, Option.map_some', Option.some.injEq] at hs
      rw [← hs]
      show s.next_page_id_ ≤ s.next_page_id_ + 1
      omega
  | fetchPage p =>
    cases hp : s.page_table_ p with
    | none =>
      rcases FetchPage_unmapped_cases h p hp with ⟨_, hn⟩ | ⟨fra, s1, r, hacq, hr, hn⟩
      · simp only [applyOp, hn, Option.map_some', Option.some.injEq] at hs
        rw [← hs]
      · simp only [applyOp, hn, Option.map_some', Option.some.injEq] at hs
        rw [← hs]
        exact le_refl _
    | some fra =>
      obtain ⟨r, _, _, hn⟩ := FetchPage_mapped h hp
      simp only [applyOp, hn, Option.map_some', Option.some.injEq] at hs
      rw [← hs]
  | unpinPage p d =>
    rcases UnpinPage_cases h p d with hn | ⟨fra, r, _, _, _, _, hn⟩
    · simp only [applyOp, hn, Option.map_some', Option.some.injEq] at hs
      rw [← hs]
    · simp only [applyOp, hn, Option.map_some', Option.some.injEq] at hs
      rw [← hs]
  | flushPage p =>
    simp only [applyOp, Option.some.injEq] at hs
    rw [← hs]
    unfold FlushPage
    cases hp : s.page_table_ p with
    | none => exact le_refl _
    | some fra =>
      simp only
      split
      · exact le_refl _
      · exact le_refl _
  | deletePage p =>
    rcases DeletePage_cases h p with ⟨b, hn⟩ | ⟨fra, r, hp, _, _, _, hn⟩
    · simp only [applyOp, hn, Option.map_some', Option.some.injEq] at hs
      rw [← hs]
    · simp only [applyOp, hn, Option.map_some', Option.some.injEq] at hs
      rw [← hs]

theorem runOps_next_le (ops : List BPMOp) {s s' : BufferPoolManager D} (h : BPMInv s)
    (hs : runOps ops s = some s') : s.next_page_id_ ≤ s'.next_page_id_ := by
  induction ops generalizing s with
  | nil =>
    simp only [runOps, Option.some.injEq] at hs
    rw [← hs]
  | cons op ops ih =>
    obtain ⟨s1, h1, hinv1⟩ := applyOp_inv h op
    simp only [runOps, h1, Option.some_bind] at hs
    exact le_trans (applyOp_next_le h op h1) (ih hinv1 hs)

theorem applyOp_pool_size {s s' : BufferPoolManager D} (h : BPMInv s) (op : BPMOp)
    (hs : applyOp s op = some s') : s'.pool_size_ = s.pool_size_ := by
  cases op with
  | newPage =>
    rcases NewPage_cases h with ⟨_, hn⟩ | ⟨fra, s1, r, hacq, hr, hn⟩
    · simp only [applyOp, hn, Option.map_some', Option.some.injEq] at hs
      rw [← hs]
    · simp only [applyOp, hn, Option.map_some', Option.some.injEq] at hs
      rw [← hs]
      exact (acquireFrame_spec h hacq).2.2.1
  | fetchPage p =>
    cases hp : s.page_table_ p with
    | none =>
      rcases FetchPage_unmapped_cases h p hp with ⟨_, hn⟩ | ⟨fra, s1, r, hacq, hr, hn⟩
      · simp only [applyOp, hn, Option.map_some', Option.some.injEq] at hs
        rw [← hs]
      · simp only [applyOp, hn, Option.map_some', Option.some.injEq] at hs
        rw [← hs]
        exact (acquireFrame_spec h hacq).2.2.1
    | some fra =>
      obtain ⟨r, _, _, hn⟩ := FetchPage_mapped h hp
      simp only [applyOp, hn, Option.map_some', Option.some.injEq] at hs
      rw [← hs]
  | unpinPage p d =>
    rcases UnpinPage_cases h p d with hn | ⟨fra, r, _, _, _, _, hn⟩
    · simp only [applyOp, hn, Option.map_some', Option.some.injEq] at hs
      rw [← hs]
    · simp only [applyOp, hn, Option.map_some', Option.some.injEq] at hs
      rw [← hs]
  | flushPage p =>
    simp only [applyOp, Option.some.injEq] at hs
    rw [← hs]
    unfold FlushPage
    cases hp : s.page_table_ p with
    | none => rfl
    | some fra =>
      simp only
      split
      · rfl
      · rfl
  | deletePage p =>
    rcases DeletePage_cases h p with ⟨b, hn⟩ | ⟨fra, r, hp, _, _, _, hn⟩
    · simp only [applyOp, hn, Option.map_some', Option.some.injEq] at hs
      rw [← hs]
    · simp only [applyOp, hn, Option.map_some', Option.some.injEq] at hs
      rw [← hs]

theorem runOps_pool_size (ops : List BPMOp) {s s' : BufferPoolManager D} (h : BPMInv s)
    (hs : runOps ops s = some s') : s'.pool_size_ = s.pool_size_ := by
  induction ops generalizing s with
  | nil =>
    simp only [runOps, Option.some.injEq] at hs
    rw [← hs]
  | cons op ops ih =>
    obtain ⟨s1, h1, hinv1⟩ := applyOp_inv h op
    simp only [runOps, h1, Option.some_bind] at hs
    rw [ih hinv1 hs]
    exact applyOp_pool_size h op h1

omit [Inhabited D] in
theorem BPMInv_writeFrame {s : BufferPoolManager D} (h : BPMInv s) (fra : Int) (b : D) :
    BPMInv (writeFrame s fra b) := by
  refine ⟨h.repl, h.free_nodup, h.free_range, ?_, h.tracked, ?_, ?_⟩
  · intro q f hq
    obtain ⟨a', b', c', d''⟩ := h.table q f hq
    refine ⟨a', b', ?_, d''⟩
    simp only [writeFrame, Function.update_apply]
    split
    · rename_i e; rw [← e]; exact c'
    · exact c'
  · intro f n hn hne
    obtain ⟨x, y⟩ := h.evictable f n hn hne
    simp only [writeFrame, Function.update_apply]
    split
    · rename_i e; rw [← e]; exact ⟨x, y⟩
    · exact ⟨x, y⟩
  · intro f
    simp only [writeFrame, Function.update_apply]
    split
    · exact h.pin_nonneg fra
    · exact h.pin_nonneg f

omit [Inhabited D] in
/-- The frames keep data and dirtiness of page `p` when only pin counts change
and dirty flags are raised. -/
theorem Stored_of_pages {s s' : BufferPoolManager D} {p : Int} {b : D} (hst : Stored p b s)
    (hnext : s'.next_page_id_ = s.next_page_id_) (htab : s'.page_table_ = s.page_table_)
    (hdisk : s'.disk = s.disk)
    (hdata : ∀ f, (s'.pages_ f).data_ = (s.pages_ f).data_)
    (hdirty : ∀ f, (s.pages_ f).is_dirty_ = true → (s'.pages_ f).is_dirty_ = true) :
    Stored p b s' := by
  obtain ⟨hlt, hst⟩ := hst
  refine ⟨hnext ▸ hlt, ?_⟩
  rw [htab, hdisk]
  cases hp : s.page_table_ p with
  | none => rw [hp] at hst; exact hst
  | some f =>
    rw [hp] at hst
    show (s'.pages_ f).data_ = b ∧ ((s'.pages_ f).is_dirty_ = true ∨ s.disk p = b)
    rw [hdata]
    exact ⟨hst.1, hst.2.imp (hdirty f) id⟩

theorem applyOp_stored {s s' : BufferPoolManager D} (h : BPMInv s) {p : Int} {b : D}
    (hst : Stored p b s) (op : BPMOp) (hop : onOtherPage p op = true)
    (hs : applyOp s op = some s') : Stored p b s' := by
  cases op with
  | newPage =>
    rcases NewPage_cases h with ⟨_, hn⟩ | ⟨fra, s1, r, hacq, hr, hn⟩
    · simp only [applyOp, hn, Option.map_some', Option.some.injEq] at hs
      exact hs ▸ hst
    · simp only [applyOp, hn, Option.map_some', Option.some.injEq] at hs
      rw [← hs]
      exact install_stored h hacq hst r _ _ _ (ne_of_gt hst.1) (by omega)
  | fetchPage q =>
    have hq : q ≠ p := by simpa [onOtherPage] using hop
    cases hp : s.page_table_ q with
    | none =>
      rcases FetchPage_unmapped_cases h q hp with ⟨_, hn⟩ | ⟨fra, s1, r, hacq, hr, hn⟩
      · simp only [applyOp, hn, Option.map_some', Option.some.injEq] at hs
        exact hs ▸ hst
      · simp only [applyOp, hn, Option.map_some', Option.some.injEq] at hs
        rw [← hs]
        exact install_stored h hacq hst r _ _ _ hq (le_refl _)
    | some fra =>
      obtain ⟨r, _, _, hn⟩ := FetchPage_mapped h hp
      simp only [applyOp, hn, Option.map_some', Option.some.injEq] at hs
      rw [← hs]
      refine Stored_of_pages hst rfl rfl rfl ?_ ?_
      · intro f
        simp only [Function.update_apply]
        split
        · rename_i e; rw [e]
        · rfl
      · intro f hf
        simp only [Function.update_apply]
        split
        · rename_i e; rw [← e]; exact hf
        · exact hf
  | unpinPage q d =>
    rcases UnpinPage_cases h q d with hn | ⟨fra, r, _, _, _, _, hn⟩
    · simp only [applyOp, hn, Option.map_some', Option.some.injEq] at hs
      exact hs ▸ hst
    · simp only [applyOp, hn, Option.map_some', Option.some.injEq] at hs
      rw [← hs]
      refine Stored_of_pages hst rfl rfl rfl ?_ ?_
      · intro f
        simp only [Function.update_apply]
        split
        · rename_i e; rw [e]
        · rfl
      · intro f hf
        simp only [Function.update_apply]
        split
        · rename_i e
          rw [e] at hf
          show ((s.pages_ fra).is_dirty_ || d) = true
          rw [hf]; rfl
        · exact hf
  | flushPage q => cases hop
  | deletePage q => cases hop

theorem runOps_stored (ops : List BPMOp) {s : BufferPoolManager D} (h : BPMInv s) {p : Int}
    {b : D} (hst : Stored p b s) (hops : ∀ op ∈ ops, onOtherPage p op = true) :
    ∃ s', runOps ops s = some s' ∧ BPMInv s' ∧ Stored p b s' := by
  induction ops generalizing s with
  | nil => exact ⟨s, rfl, h, hst⟩
  | cons op ops ih =>
    obtain ⟨s1, h1, hinv1⟩ := applyOp_inv h op
    have hst1 := applyOp_stored h hst op (hops op (List.mem_cons_self _ _)) h1
    obtain ⟨s2, h2, hinv2, hst2⟩ := ih hinv1 hst1
      (fun o ho => hops o (List.mem_cons_of_mem _ ho))
    exact ⟨s2, by simp only [runOps, h1, Option.some_bind, h2], hinv2, hst2⟩

omit [Inhabited D] in
/-- A successful `FetchPage` of a stored page returns a frame with its data. -/
theorem FetchPage_stored {s s' : BufferPoolManager D} (h : BPMInv s) {p : Int} {b : D}
    (hst : Stored p b s) {fra : Int} (hf : FetchPage s p = some (some fra, s')) :
    (s'.pages_ fra).data_ = b := by
  obtain ⟨_, hst⟩ := hst
  cases hp : s.page_table_ p with
  | none =>
    rw [hp] at hst
    rcases FetchPage_unmapped_cases h p hp with ⟨_, hn⟩ | ⟨f0, s1, r, hacq, hr, hn⟩
    · rw [hn] at hf
      cases hf
    · rw [hn] at hf
      simp only [Option.some.injEq, Prod.mk.injEq] at hf
      obtain ⟨rfl, rfl⟩ := hf
      simp only [install, Function.update_same]
      rcases acquireFrame_disk h hacq with ⟨_, _, hd⟩ | ⟨_, hq, _, hd⟩
      · rw [hd]; exact hst
      · have hqp : p ≠ (s.pages_ f0).page_id_ := by
          intro e
          rw [← e, hp] at hq
          cases hq
        rw [hd]
        split
        · rw [Function.update_noteq hqp]; exact hst
        · exact hst
  | some f =>
    rw [hp] at hst
    obtain ⟨r, _, _, hn⟩ := FetchPage_mapped h hp
    rw [hn] at hf
    simp only [Option.some.injEq, Prod.mk.injEq] at hf
    obtain ⟨rfl, rfl⟩ := hf
    simp only [Function.update_same]
    exact hst.1

end BufferPoolManager
end bustub

/-! ### Buffer pool: NewPage and FetchPage results -/

namespace bustub
open LRUKReplacer
namespace BufferPoolManager
variable {D : Type} [Inhabited D]

/-- What a successful `NewPage` leaves, in terms of the frame acquisition. -/
theorem NewPage_some {s s' : BufferPoolManager D} (h : BPMInv s) {pid fra : Int}
    (hn : NewPage s = some (some (pid, fra), s')) :
    ∃ s1 r, acquireFrame s = some (fra, s1) ∧ pid = s.next_page_id_ ∧
      s' = install s1 fra r s.next_page_id_ (s.next_page_id_ + 1) default ∧
      (∃ n, r.find fra = some n ∧ n.is_evictable_ = false) ∧ BPMInv s' := by
  rcases NewPage_cases h with ⟨_, hn'⟩ | ⟨f0, s1, r, hacq, hr, hn'⟩
  · rw [hn'] at hn
    cases hn
  · rw [hn'] at hn
    simp only [Option.some.injEq, Prod.mk.injEq] at hn
    obtain ⟨⟨rfl, rfl⟩, rfl⟩ := hn
    obtain ⟨hacq', _⟩ := acquireFrame_spec h hacq
    obtain ⟨r', hr', hinv, hne⟩ := install_spec hacq' s.next_page_id_ (s.next_page_id_ + 1)
      (default : D)
    rw [hr] at hr'
    cases hr'
    exact ⟨s1, r, hacq, rfl, rfl, hne, hinv⟩

theorem NewPage_none_iff {s : BufferPoolManager D} (h : BPMInv s) :
    (∃ s', NewPage s = some (none, s')) ↔ acquireFrame s = none := by
  rcases NewPage_cases h with ⟨ha, hn⟩ | ⟨f0, s1, r, hacq, hr, hn⟩
  · exact ⟨fun _ => ha, fun _ => ⟨s, hn⟩⟩
  · rw [hn, hacq]
    constructor
    · rintro ⟨s', hs'⟩
      cases hs'
    · intro hc
      cases hc

omit [Inhabited D] in
theorem FetchPage_none_iff {s : BufferPoolManager D} (h : BPMInv s) (p : Int)
    (hp : s.page_table_ p = none) :
    (∃ s', FetchPage s p = some (none, s')) ↔ acquireFrame s = none := by
  rcases FetchPage_unmapped_cases h p hp with ⟨ha, hn⟩ | ⟨f0, s1, r, hacq, hr, hn⟩
  · exact ⟨fun _ => ha, fun _ => ⟨s, hn⟩⟩
  · rw [hn, hacq]
    constructor
    · rintro ⟨s', hs'⟩
      cases hs'
    · intro hc
      cases hc

theorem NewPage_none_state {s s' : BufferPoolManager D} (h : BPMInv s)
    (hn : NewPage s = some (none, s')) : s' = s := by
  rcases NewPage_cases h with ⟨ha, hn'⟩ | ⟨f0, s1, r, hacq, hr, hn'⟩
  · rw [hn'] at hn
    simp only [Option.some.injEq, Prod.mk.injEq, true_and] at hn
    exact hn.symm
  · rw [hn'] at hn
    cases hn

omit [Inhabited D] in
theorem FetchPage_none_state {s s' : BufferPoolManager D} (h : BPMInv s) (p : Int)
    (hn : FetchPage s p = some (none, s')) : s' = s := by
  cases hp : s.page_table_ p with
  | none =>
    rcases FetchPage_unmapped_cases h p hp with ⟨ha, hn'⟩ | ⟨f0, s1, r, hacq, hr, hn'⟩
    · rw [hn'] at hn
      simp only [Option.some.injEq, Prod.mk.injEq, true_and] at hn
      exact hn.symm
    · rw [hn'] at hn
      cases hn
  | some fra =>
    obtain ⟨r, _, _, hn'⟩ := FetchPage_mapped h hp
    rw [hn'] at hn
    cases hn

omit [Inhabited D] in
theorem Stored_of_dirty {s : BufferPoolManager D} {p f : Int} {b : D}
    (hlt : p < s.next_page_id_) (hp : s.page_table_ p = some f)
    (hdata : (s.pages_ f).data_ = b) (hdirty : (s.pages_ f).is_dirty_ = true) :
    Stored p b s := by
  refine ⟨hlt, ?_⟩
  rw [hp]
  exact ⟨hdata, Or.inl hdirty⟩

/-- After `NewPage` returned the unmapped id `p`, a write of `b` and
`UnpinPage(p, true)`, the page is stored. -/
theorem Stored_start {s s1 : BufferPoolManager D} (h : BPMInv s) (h0 : 0 ≤ s.next_page_id_)
    (hfresh : s.page_table_ s.next_page_id_ = none) {p fra : Int}
    (hn : NewPage s = some (some (p, fra), s1)) (b : D) :
    ∃ s3, UnpinPage (writeFrame s1 fra b) p true = some (true, s3) ∧ BPMInv s3 ∧
      Stored p b s3 := by
  obtain ⟨s0, r, hacq, rfl, rfl, _, hinv1⟩ := NewPage_some h hn
  obtain ⟨_, _, _, _, hsub, _⟩ := acquireFrame_spec h hacq
  have hnone : s0.page_table_ s.next_page_id_ = none := by
    cases hc : s0.page_table_ s.next_page_id_ with
    | none => rfl
    | some f => rw [hsub _ f hc] at hfresh; cases hfresh
  have hinv2 := BPMInv_writeFrame hinv1 fra b
  have hp2 : (writeFrame (install s0 fra r s.next_page_id_ (s.next_page_id_ + 1) default)
      fra b).page_table_ s.next_page_id_ = some fra := by
    show tableInsert s0.page_table_ s.next_page_id_ fra s.next_page_id_ = some fra
    rw [tableInsert_apply, if_pos ⟨rfl, hnone⟩]
  have hpg : (writeFrame (install s0 fra r s.next_page_id_ (s.next_page_id_ + 1) default)
      fra b).pages_ fra =
      { page_id_ := s.next_page_id_, pin_count_ := 1, is_dirty_ := false, data_ := b } := by
    simp only [writeFrame, install, Function.update_same]
  have hne : ¬ (s.next_page_id_ = INVALID_PAGE_ID ∨
      ((writeFrame (install s0 fra r s.next_page_id_ (s.next_page_id_ + 1) default)
        fra b).pages_ fra).pin_count_ = 0) := by
    rw [hpg]
    rintro (hc | hc)
    · have : s.next_page_id_ = -1 := hc
      omega
    · exact absurd hc (by show (1 : Int) ≠ 0; decide)
  obtain ⟨r', hr', _, hun⟩ := UnpinPage_mapped hinv2 true hp2 hne
  obtain ⟨res, s3, hun', hinv3⟩ := UnpinPage_inv hinv2 s.next_page_id_ true
  rw [hun] at hun'
  simp only [Option.some.injEq, Prod.mk.injEq] at hun'
  obtain ⟨_, hs3⟩ := hun'
  refine ⟨_, hun, hs3 ▸ hinv3, ?_⟩
  refine Stored_of_dirty ?_ hp2 ?_ ?_
  · show s.next_page_id_ < s.next_page_id_ + 1
    omega
  · simp only [Function.update_same, hpg]
  · simp only [Function.update_same, hpg, Bool.or_true]

end BufferPoolManager
end bustub

/-! ### Buffer pool: pin counts and page table -/

namespace bustub
open LRUKReplacer
namespace BufferPoolManager
variable {D : Type} [Inhabited D]

/-- C6: after every sequence of `NewPage`, `FetchPage`, `UnpinPage`, `FlushPage`
and `DeletePage` calls from the initial state (replacer with `k ≥ 1`) the calls
all return, every frame has `pin_count ≥ 0`, a frame with `pin_count > 0` is not
evictable in the replacer, and `Evict` does not return a pinned frame. -/
theorem pin_count_invariant (pool_size k : Nat) (hk : 0 < k) (disk : Int → D)
    (ops : List BPMOp) :
    ∃ s, runOps ops (new pool_size k disk) = some s ∧
      (∀ f, 0 ≤ (s.pages_ f).pin_count_) ∧
      (∀ f n, 0 < (s.pages_ f).pin_count_ → s.replacer_.find f = some n →
        n.is_evictable_ = false) ∧
      (∀ f, s.replacer_.Evict.1 = some f → (s.pages_ f).pin_count_ = 0) := by
  obtain ⟨s, hs, hinv⟩ := runOps_inv ops (BPMInv_new pool_size k hk disk)
  refine ⟨s, hs, hinv.pin_nonneg, ?_, ?_⟩
  · intro f n hpin hn
    cases he : n.is_evictable_ with
    | false => rfl
    | true =>
      have := (hinv.evictable f n hn he).1
      omega
  · intro f hf
    obtain ⟨⟨n, hn, he⟩, _⟩ := (Evict_spec hinv.repl).2 f hf
    exact (hinv.evictable f n hn he).1

theorem pin_count_invariant_witness :
    0 < 2 ∧ ∃ s, runOps [BPMOp.newPage, BPMOp.fetchPage 0, BPMOp.unpinPage 0 true,
        BPMOp.newPage, BPMOp.newPage, BPMOp.deletePage 1]
        (new 2 2 exampleDisk) = some s ∧
      (∀ f, 0 ≤ (s.pages_ f).pin_count_) ∧
      (∀ f n, 0 < (s.pages_ f).pin_count_ → s.replacer_.find f = some n →
        n.is_evictable_ = false) ∧
      (∀ f, s.replacer_.Evict.1 = some f → (s.pages_ f).pin_count_ = 0) :=
  ⟨by decide, pin_count_invariant 2 2 (by decide) exampleDisk _⟩

/-- C7, as stated, fails: after `FetchPage(0)` of the never allocated id 0 and a
`NewPage` that hands out id 0, frame 1 of a pool of two frames is outside the
free list and no page-table entry has it as target. -/
theorem unallocated_fetch_leaves_unmapped_frame :
    ∃ s, runOps [BPMOp.fetchPage 0, BPMOp.newPage] (new 2 2 exampleDisk) = some s ∧
      (1 : Int) ∉ s.free_list_ ∧ (0 : Int) ≤ 1 ∧ (1 : Int) < s.pool_size_ ∧
      ∀ p, s.page_table_ p ≠ some 1 := by
  refine ⟨_, rfl, ?_, ?_, ?_, ?_⟩
  · decide
  · decide
  · decide
  · intro p
    show tableInsert (tableInsert (fun _ => none) 0 0) 0 1 p ≠ some 1
    have h1 : ∀ q : Int, tableInsert (fun _ => none) 0 0 q = if q = 0 then some 0 else none := by
      intro q
      rw [tableInsert_apply]
      simp only [and_true]
    rw [tableInsert_apply, h1, h1]
    simp only [eq_self_iff_true, if_true, reduceCtorEq, and_false, if_false]
    split
    · exact fun hc => absurd (Option.some.inj hc) (by decide)
    · exact fun hc => Option.noConfusion hc

/-- C7, amended: after every sequence of calls from the initial state every
page-table entry `p -> f` has `pages[f].page_id = p` and no frame is both in
the free list and the target of an entry; when every `FetchPage` of the
sequence asks for a page id below the allocation counter, every frame outside
the free list is the target of exactly one entry. -/
theorem page_table_invariant (pool_size k : Nat) (hk : 0 < k) (disk : Int → D)
    (ops : List BPMOp) :
    ∃ s, runOps ops (new pool_size k disk) = some s ∧
      (∀ p f, s.page_table_ p = some f → (s.pages_ f).page_id_ = p) ∧
      (∀ p f, s.page_table_ p = some f → f ∉ s.free_list_) ∧
      (fetchesAllocated ops (new pool_size k disk) = true →
        ∀ f : Int, 0 ≤ f → f < pool_size → f ∉ s.free_list_ →
          ∃! p, s.page_table_ p = some f) := by
  have hinit := BPMInv_new pool_size k hk disk
  obtain ⟨s, hs, hinv⟩ := runOps_inv ops hinit
  refine ⟨s, hs, fun p f hp => (hinv.table p f hp).2.2.1,
    fun p f hp => (hinv.table p f hp).2.2.2, ?_⟩
  intro hok f h0 h1 hfree
  have halloc := runOps_alloc ops hinit (AllocInv_new pool_size k disk) hok hs
  have hpool : s.pool_size_ = pool_size := runOps_pool_size ops hinit hs
  obtain ⟨p, hp⟩ := halloc.mapped f h0 (hpool ▸ h1) hfree
  refine ⟨p, hp, ?_⟩
  intro q hq
  rw [← (hinv.table q f hq).2.2.1, ← (hinv.table p f hp).2.2.1]

theorem page_table_invariant_witness :
    0 < 2 ∧ ∃ s, runOps [BPMOp.newPage, BPMOp.unpinPage 0 false, BPMOp.fetchPage 0,
        BPMOp.newPage] (new 2 2 exampleDisk) = some s ∧
      (∀ p f, s.page_table_ p = some f → (s.pages_ f).page_id_ = p) ∧
      (∀ p f, s.page_table_ p = some f → f ∉ s.free_list_) ∧
      (fetchesAllocated [BPMOp.newPage, BPMOp.unpinPage 0 false, BPMOp.fetchPage 0,
          BPMOp.newPage] (new 2 2 exampleDisk) = true →
        ∀ f : Int, 0 ≤ f → f < (2 : Nat) → f ∉ s.free_list_ →
          ∃! p, s.page_table_ p = some f) :=
  ⟨by decide, page_table_invariant 2 2 (by decide) exampleDisk _⟩

end BufferPoolManager
end bustub

/-! ### Buffer pool: NewPage, FetchPage and the disk -/

namespace bustub
open LRUKReplacer
namespace BufferPoolManager
variable {D : Type} [Inhabited D]

/-- C8: in every state reached from the initial state (replacer with `k ≥ 1`),
`NewPage` returns, it returns null exactly when the free list is empty and the
replacer holds no evictable frame, and then the whole state is unchanged; the
same holds for `FetchPage` of an unmapped page. -/
theorem NewPage_null_iff (pool_size k : Nat) (hk : 0 < k) (disk : Int → D)
    (ops : List BPMOp) :
    ∃ s, runOps ops (new pool_size k disk) = some s ∧
      ((∃ s', NewPage s = some (none, s')) ↔
        (s.free_list_ = [] ∧ ∀ f n, s.replacer_.find f = some n → n.is_evictable_ = false)) ∧
      (∃ res s', NewPage s = some (res, s')) ∧
      (∀ s', NewPage s = some (none, s') → s' = s) ∧
      (∀ p, s.page_table_ p = none →
        ((∃ s', FetchPage s p = some (none, s')) ↔
          (s.free_list_ = [] ∧
            ∀ f n, s.replacer_.find f = some n → n.is_evictable_ = false)) ∧
        (∃ res s', FetchPage s p = some (res, s')) ∧
        (∀ s', FetchPage s p = some (none, s') → s' = s)) := by
  obtain ⟨s, hs, hinv⟩ := runOps_inv ops (BPMInv_new pool_size k hk disk)
  refine ⟨s, hs, ?_, ?_, ?_, ?_⟩
  · rw [NewPage_none_iff hinv, acquireFrame_none_iff hinv]
  · obtain ⟨res, s', h1, _⟩ := NewPage_inv hinv
    exact ⟨res, s', h1⟩
  · intro s' hn
    exact NewPage_none_state hinv hn
  · intro p hp
    refine ⟨?_, ?_, ?_⟩
    · rw [FetchPage_none_iff hinv p hp, acquireFrame_none_iff hinv]
    · obtain ⟨res, s', h1, _⟩ := FetchPage_inv hinv p
      exact ⟨res, s', h1⟩
    · intro s' hn
      exact FetchPage_none_state hinv p hn

theorem NewPage_null_iff_witness :
    0 < 2 ∧ ∃ s, runOps [BPMOp.newPage, BPMOp.newPage] (new 2 2 exampleDisk) = some s ∧
      ((∃ s', NewPage s = some (none, s')) ↔
        (s.free_list_ = [] ∧ ∀ f n, s.replacer_.find f = some n → n.is_evictable_ = false)) ∧
      (∃ res s', NewPage s = some (res, s')) ∧
      (∀ s', NewPage s = some (none, s') → s' = s) ∧
      (∀ p, s.page_table_ p = none →
        ((∃ s', FetchPage s p = some (none, s')) ↔
          (s.free_list_ = [] ∧
            ∀ f n, s.replacer_.find f = some n → n.is_evictable_ = false)) ∧
        (∃ res s', FetchPage s p = some (res, s')) ∧
        (∀ s', FetchPage s p = some (none, s') → s' = s)) :=
  ⟨by decide, NewPage_null_iff 2 2 (by decide) exampleDisk _⟩

/-- C9, as stated, fails: after `FetchPage(0)` of the never allocated id 0,
`NewPage` succeeds with id 0 in frame 1, and the page table still maps id 0 to
frame 0. -/
theorem NewPage_keeps_stale_mapping :
    ∃ s s', runOps [BPMOp.fetchPage 0] (new 2 2 exampleDisk) = some s ∧
      NewPage s = some (some (0, 1), s') ∧ s'.page_table_ 0 ≠ some 1 := by
  refine ⟨_, _, rfl, rfl, ?_⟩
  decide

/-- C9, amended: when `NewPage` succeeds in a state reached from the initial
state, the returned id is the allocation counter, which the call increments, so
every later `NewPage` returns a larger id; the returned frame has zeroed data,
`pin_count = 1`, `is_dirty = false` and is non-evictable in the replacer; the
page table maps the new id to the frame provided the id was not mapped already;
and when the frame came from an eviction, a dirty victim was written to disk
under its previous page id and that id, unless it is the new one, is unmapped. -/
theorem NewPage_success (pool_size k : Nat) (hk : 0 < k) (disk : Int → D)
    (ops : List BPMOp) :
    ∃ s, runOps ops (new pool_size k disk) = some s ∧
      ∀ pid fra s', NewPage s = some (some (pid, fra), s') →
        pid = s.next_page_id_ ∧ s'.next_page_id_ = pid + 1 ∧
        (∀ later s2 pid2 fra2 s3, runOps later s' = some s2 →
          NewPage s2 = some (some (pid2, fra2), s3) → pid < pid2) ∧
        s'.pages_ fra =
          { page_id_ := pid, pin_count_ := 1, is_dirty_ := false, data_ := default } ∧
        (∃ n, s'.replacer_.find fra = some n ∧ n.is_evictable_ = false) ∧
        (s.page_table_ pid = none → s'.page_table_ pid = some fra) ∧
        (s.free_list_ = [] →
          ((s.pages_ fra).is_dirty_ = true →
            s'.disk (s.pages_ fra).page_id_ = (s.pages_ fra).data_) ∧
          ((s.pages_ fra).page_id_ ≠ pid → s'.page_table_ (s.pages_ fra).page_id_ = none)) := by
  obtain ⟨s, hs, hinv⟩ := runOps_inv ops (BPMInv_new pool_size k hk disk)
  refine ⟨s, hs, ?_⟩
  intro pid fra s' hn
  obtain ⟨s1, r, hacq, rfl, rfl, hne, hinv'⟩ := NewPage_some hinv hn
  obtain ⟨_, _, _, _, hsub, _⟩ := acquireFrame_spec hinv hacq
  refine ⟨rfl, rfl, ?_, ?_, hne, ?_, ?_⟩
  · intro later s2 pid2 fra2 s3 hl hn2
    have hle := runOps_next_le later hinv' hl
    have hinv2 : BPMInv s2 := by
      obtain ⟨x, hx, hxi⟩ := runOps_inv later hinv'
      rw [hl] at hx
      cases hx
      exact hxi
    obtain ⟨_, _, _, hp2, _⟩ := NewPage_some hinv2 hn2
    rw [hp2]
    have : s.next_page_id_ + 1 ≤ s2.next_page_id_ := hle
    omega
  · simp only [install, Function.update_same]
  · intro hfresh
    have hnone : s1.page_table_ s.next_page_id_ = none := by
      cases hc : s1.page_table_ s.next_page_id_ with
      | none => rfl
      | some f => rw [hsub _ f hc] at hfresh; cases hfresh
    show tableInsert s1.page_table_ s.next_page_id_ fra s.next_page_id_ = some fra
    rw [tableInsert_apply, if_pos ⟨rfl, hnone⟩]
  · intro hfl
    rcases acquireFrame_disk hinv hacq with ⟨hmem, _, _⟩ | ⟨_, hq, ht, hd⟩
    · rw [hfl] at hmem
      cases hmem
    · constructor
      · intro hdirty
        show s1.disk _ = _
        rw [hd, if_pos hdirty, Function.update_same]
      · intro hqp
        simp only [install, tableInsert_apply]
        rw [if_neg (fun hc => hqp hc.1), ht]
        exact Function.update_same _ _ _

theorem NewPage_success_witness :
    0 < 2 ∧ ∃ s, runOps [BPMOp.newPage, BPMOp.unpinPage 0 true]
        (new 1 2 exampleDisk) = some s ∧
      ∀ pid fra s', NewPage s = some (some (pid, fra), s') →
        pid = s.next_page_id_ ∧ s'.next_page_id_ = pid + 1 ∧
        (∀ later s2 pid2 fra2 s3, runOps later s' = some s2 →
          NewPage s2 = some (some (pid2, fra2), s3) → pid < pid2) ∧
        s'.pages_ fra =
          { page_id_ := pid, pin_count_ := 1, is_dirty_ := false, data_ := default } ∧
        (∃ n, s'.replacer_.find fra = some n ∧ n.is_evictable_ = false) ∧
        (s.page_table_ pid = none → s'.page_table_ pid = some fra) ∧
        (s.free_list_ = [] →
          ((s.pages_ fra).is_dirty_ = true →
            s'.disk (s.pages_ fra).page_id_ = (s.pages_ fra).data_) ∧
          ((s.pages_ fra).page_id_ ≠ pid → s'.page_table_ (s.pages_ fra).page_id_ = none)) :=
  ⟨by decide, NewPage_success 1 2 (by decide) exampleDisk _⟩

/-- C10, as stated, fails: after `FetchPage(0)` of the never allocated id 0,
`NewPage` creates page 0 in frame 1; 7 is written there and the page released
with `UnpinPage(0, true)`; `FetchPage(0)` then succeeds with frame 0, whose
data is not 7. -/
theorem fetch_misses_written_data :
    ∃ s s1 s3 s5, runOps [BPMOp.fetchPage 0] (new 2 2 exampleDisk) = some s ∧
      NewPage s = some (some (0, 1), s1) ∧
      UnpinPage (writeFrame s1 1 7) 0 true = some (true, s3) ∧
      FetchPage s3 0 = some (some 0, s5) ∧ (s5.pages_ 0).data_ ≠ 7 := by
  refine ⟨_, _, _, _, rfl, rfl, rfl, rfl, ?_⟩
  decide

/-- C10, amended: in a state reached from the initial state, when `NewPage`
creates page `p` whose id was not mapped already, `b` is written to its frame
and the page is released with `UnpinPage(p, true)` (which succeeds), then after
every further sequence of `NewPage`, `FetchPage` and `UnpinPage` calls on other
pages a successful `FetchPage(p)` returns a frame with data `b`. -/
theorem fetch_returns_written (pool_size k : Nat) (hk : 0 < k) (disk : Int → D)
    (ops : List BPMOp) (b : D) :
    ∃ s, runOps ops (new pool_size k disk) = some s ∧
      ∀ p fra s1, s.page_table_ s.next_page_id_ = none →
        NewPage s = some (some (p, fra), s1) →
        ∃ s3, UnpinPage (writeFrame s1 fra b) p true = some (true, s3) ∧
          ∀ later, (∀ op ∈ later, onOtherPage p op = true) →
            ∃ s4, runOps later s3 = some s4 ∧
              ∀ fra' s5, FetchPage s4 p = some (some fra', s5) →
                (s5.pages_ fra').data_ = b := by
  have hinit := BPMInv_new pool_size k hk disk
  obtain ⟨s, hs, hinv⟩ := runOps_inv ops hinit
  refine ⟨s, hs, ?_⟩
  intro p fra s1 hfresh hn
  have h0 : 0 ≤ s.next_page_id_ := runOps_next_le ops hinit hs
  obtain ⟨s3, hun, hinv3, hst3⟩ := Stored_start hinv h0 hfresh hn b
  refine ⟨s3, hun, ?_⟩
  intro later hlater
  obtain ⟨s4, h4, hinv4, hst4⟩ := runOps_stored later hinv3 hst3 hlater
  exact ⟨s4, h4, fun fra' s5 hf => FetchPage_stored hinv4 hst4 hf⟩

theorem fetch_returns_written_witness :
    0 < 2 ∧ ∃ s, runOps [BPMOp.newPage, BPMOp.unpinPage 0 false]
        (new 1 2 exampleDisk) = some s ∧
      ∀ p fra s1, s.page_table_ s.next_page_id_ = none →
        NewPage s = some (some (p, fra), s1) →
        ∃ s3, UnpinPage (writeFrame s1 fra 7) p true = some (true, s3) ∧
          ∀ later, (∀ op ∈ later, onOtherPage p op = true) →
            ∃ s4, runOps later s3 = some s4 ∧
              ∀ fra' s5, FetchPage s4 p = some (some fra', s5) →
                (s5.pages_ fra').data_ = 7 :=
  ⟨by decide, fetch_returns_written 1 2 (by decide) exampleDisk _ 7⟩

/-- The round trip of C10 on a pool of one frame: page 0 is written, released
dirty, evicted by `NewPage`, and fetched back from disk. -/
theorem fetch_round_trip_example :
    ∃ s1 s3 s4 s5, NewPage (new 1 2 exampleDisk) = some (some (0, 0), s1) ∧
      UnpinPage (writeFrame s1 0 7) 0 true = some (true, s3) ∧
      runOps [BPMOp.newPage, BPMOp.unpinPage 1 false] s3 = some s4 ∧
      s4.page_table_ 0 = none ∧
      FetchPage s4 0 = some (some 0, s5) ∧ (s5.pages_ 0).data_ = 7 := by
  refine ⟨_, _, _, _, rfl, rfl, rfl, ?_, rfl, ?_⟩
  · decide
  · decide

end BufferPoolManager
end bustub

/-! ### Hash table: integrity, duplicates and Merge -/

namespace bustub
namespace ExtendibleHashTable
variable {K V : Type} [DecidableEq K] [DecidableEq V] [Inhabited K] [Inhabited V]

/-- C1: evaluation at the failing input.  With buckets of one slot and the
identity hash, the inserts of (1,10) and (3,30) leave `GetValue(3) = [30]`; the
call `Remove(0,0)` then finds the bucket of key 0 empty and merges it into a
deeper bucket, after which `GetValue(3)` is empty although (3,30) was never
removed. -/
theorem Merge_drops_present_pair :
    (runOps exampleConfig [HashOp.insert 1 10, HashOp.insert 3 30]
        (init : ExtendibleHashTable Nat Nat)).map (fun t => lookup exampleConfig t 3)
      = some [30] ∧
    (runOps exampleConfig [HashOp.insert 1 10, HashOp.insert 3 30, HashOp.remove 0 0]
        (init : ExtendibleHashTable Nat Nat)).map (fun t => lookup exampleConfig t 3)
      = some [] := by
  constructor
  · decide
  · decide

/-- C2: after every sequence of `Insert` and `Remove` calls on an empty table
every call has returned and the directory satisfies conditions (2) and (3) of
`VerifyIntegrity`: every bucket page id below `2^global_depth` occurs
`2^(global_depth - local_depth)` times, and indices with the same bucket page id
carry the same local depth. -/
theorem directory_integrity (cfg : HashTableConfig K) (hN : cfg.BUCKET_ARRAY_SIZE ≤ 2048)
    (h30 : cfg.MAX_BUCKET_DEPTH ≤ 30) (ops : List (HashOp K V)) :
    ∃ t, runOps cfg ops (init : ExtendibleHashTable K V) = some t ∧
      t.FetchDirectoryPage.dir_page.integrity2 ∧
      t.FetchDirectoryPage.dir_page.integrity3 := by
  obtain ⟨t, ht, hinv⟩ := reachable_inv cfg hN h30 ops
  exact ⟨t, ht, hinv.dir.integrity2, hinv.dir.integrity3⟩

theorem directory_integrity_witness :
    exampleConfig.BUCKET_ARRAY_SIZE ≤ 2048 ∧ exampleConfig.MAX_BUCKET_DEPTH ≤ 30 ∧
    ∃ t, runOps exampleConfig [HashOp.insert 1 10, HashOp.insert 3 30, HashOp.remove 0 0]
        (init : ExtendibleHashTable Nat Nat) = some t ∧
      t.FetchDirectoryPage.dir_page.integrity2 ∧
      t.FetchDirectoryPage.dir_page.integrity3 :=
  ⟨by decide, by decide, directory_integrity exampleConfig (by decide) (by decide) _⟩

/-- C3: after every sequence of `Insert` and `Remove` calls on an empty table
`local_depth[i] <= global_depth` holds for every `i < 2^global_depth`, and no
call aborts: every further `Insert` or `Remove` returns, so the assertions of
`SetLocalDepth` and `IncrLocalDepth` do not fire in `SplitInsert` or `Merge`. -/
theorem local_depth_le_global_depth (cfg : HashTableConfig K)
    (hN : cfg.BUCKET_ARRAY_SIZE ≤ 2048) (h30 : cfg.MAX_BUCKET_DEPTH ≤ 30)
    (ops : List (HashOp K V)) :
    ∃ t, runOps cfg ops (init : ExtendibleHashTable K V) = some t ∧
      t.FetchDirectoryPage.dir_page.integrity1 ∧
      ∀ op, ∃ r t', applyOp cfg t op = some (r, t') := by
  obtain ⟨t, ht, hinv⟩ := reachable_inv cfg hN h30 ops
  refine ⟨t, ht, hinv.dir.integrity1, ?_⟩
  intro op
  obtain ⟨r, t', h1, _⟩ := applyOp_spec cfg hN h30 t hinv op
  exact ⟨r, t', h1⟩

theorem local_depth_le_global_depth_witness :
    exampleConfig.BUCKET_ARRAY_SIZE ≤ 2048 ∧ exampleConfig.MAX_BUCKET_DEPTH ≤ 30 ∧
    ∃ t, runOps exampleConfig [HashOp.insert 1 10, HashOp.insert 3 30, HashOp.remove 3 30,
        HashOp.remove 1 10] (init : ExtendibleHashTable Nat Nat) = some t ∧
      t.FetchDirectoryPage.dir_page.integrity1 ∧
      ∀ op, ∃ r t', applyOp exampleConfig t op = some (r, t') :=
  ⟨by decide, by decide, local_depth_le_global_depth exampleConfig (by decide) (by decide) _⟩

/-- C4: in every state reached by `Insert` and `Remove` calls on an empty table,
when `(key, value)` is present, `Insert(key, value)` returns false and
`GetValue(key)` is the same list as before, in which `value` occurs exactly
once; the target bucket may be full or not. -/
theorem duplicate_insert_rejected (cfg : HashTableConfig K)
    (hN : cfg.BUCKET_ARRAY_SIZE ≤ 2048) (h30 : cfg.MAX_BUCKET_DEPTH ≤ 30)
    (ops : List (HashOp K V)) (key : K) (value : V) :
    ∃ t, runOps cfg ops (init : ExtendibleHashTable K V) = some t ∧
      (value ∈ lookup cfg t key →
        ∃ t', Insert cfg t key value = some (false, t') ∧
          lookup cfg t' key = lookup cfg t key ∧
          (lookup cfg t' key).count value = 1) := by
  obtain ⟨t, ht, hinv⟩ := reachable_inv cfg hN h30 ops
  refine ⟨t, ht, ?_⟩
  intro hmem
  rw [← lookup_FetchDirectoryPage hinv] at hmem
  obtain ⟨r, t', h1, hinv', hdup, _, hsame⟩ := Insert_spec cfg hN h30 _ hinv key value
  have hr : r = false := hdup hmem
  subst hr
  rw [Insert_FetchDirectoryPage hinv] at h1
  have hl : lookup cfg t' key = lookup cfg t key := by
    rw [hsame rfl key, lookup_FetchDirectoryPage hinv]
  refine ⟨t', h1, hl, ?_⟩
  apply lookup_count_eq_one cfg hinv'
  rw [hsame rfl key]
  exact hmem

theorem duplicate_insert_rejected_witness :
    exampleConfig.BUCKET_ARRAY_SIZE ≤ 2048 ∧ exampleConfig.MAX_BUCKET_DEPTH ≤ 30 ∧
    ∃ t, runOps exampleConfig [HashOp.insert 1 10]
        (init : ExtendibleHashTable Nat Nat) = some t ∧
      (10 ∈ lookup exampleConfig t 1 →
        ∃ t', Insert exampleConfig t 1 10 = some (false, t') ∧
          lookup exampleConfig t' 1 = lookup exampleConfig t 1 ∧
          (lookup exampleConfig t' 1).count 10 = 1) :=
  ⟨by decide, by decide,
    duplicate_insert_rejected exampleConfig (by decide) (by decide) _ 1 10⟩

/-- C5: evaluation at the failing input.  In the state after the inserts of
(1,10) and (3,30), with `GetValue(3) = [30]`, the pair (0,0) is absent;
`Insert(0,0)` and then `Remove(0,0)` both return true, and afterwards
`GetValue(3)` is empty. -/
theorem insert_remove_changes_other_key :
    (runOps exampleConfig [HashOp.insert 1 10, HashOp.insert 3 30]
        (init : ExtendibleHashTable Nat Nat)).map (fun t => lookup exampleConfig t 0)
      = some [] ∧
    ((runOps exampleConfig [HashOp.insert 1 10, HashOp.insert 3 30]
        (init : ExtendibleHashTable Nat Nat)).bind
      fun t => (Insert exampleConfig t 0 0).map Prod.fst) = some true ∧
    ((runOps exampleConfig [HashOp.insert 1 10, HashOp.insert 3 30,
        HashOp.insert 0 0] (init : ExtendibleHashTable Nat Nat)).bind
      fun t => (Remove exampleConfig t 0 0).map Prod.fst) = some true ∧
    (runOps exampleConfig [HashOp.insert 1 10, HashOp.insert 3 30,
        HashOp.insert 0 0] (init : ExtendibleHashTable Nat Nat)).map
      (fun t => lookup exampleConfig t 3) = some [30] ∧
    (runOps exampleConfig [HashOp.insert 1 10, HashOp.insert 3 30,
        HashOp.insert 0 0, HashOp.remove 0 0]
        (init : ExtendibleHashTable Nat Nat)).map (fun t => lookup exampleConfig t 3)
      = some [] := by
  refine ⟨?_, ?_, ?_, ?_, ?_⟩
  · decide
  · decide
  · decide
  · decide
  · decide

end ExtendibleHashTable
end bustub

/-! ### LRU-K replacer: counting the evictable nodes -/

namespace bustub
namespace LRUKReplacer

theorem countEvictable_le (l : List (Int × LRUKNode)) : countEvictable l ≤ l.length :=
  List.length_filter_le _ _

theorem countEvictable_cons (e : Int × LRUKNode) (l : List (Int × LRUKNode)) :
    countEvictable (e :: l) = (if e.2.is_evictable_ = true then 1 else 0) + countEvictable l := by
  unfold countEvictable
  rw [List.filter_cons]
  by_cases h : e.2.is_evictable_ = true
  · simp only [h, if_true, List.length_cons]; omega
  · simp only [h, if_false, Bool.false_eq_true]; omega

theorem eraseNode_absent (l : List (Int × LRUKNode)) (f : Int) (h : ∀ e ∈ l, e.1 ≠ f) :
    eraseNode l f = l := by
  unfold eraseNode
  rw [List.filter_eq_self]
  intro e he
  simp only [Bool.not_eq_true', beq_eq_false_iff_ne, ne_eq]
  exact h e he

theorem setNode_absent (l : List (Int × LRUKNode)) (f : Int) (m : LRUKNode)
    (h : ∀ e ∈ l, e.1 ≠ f) : setNode l f m = l := by
  unfold setNode
  conv_rhs => rw [← List.map_id l]
  apply List.map_congr_left
  intro e he
  have : (e.1 == f) = false := by
    simp only [beq_eq_false_iff_ne, ne_eq]; exact h e he
  simp only [this, Bool.false_eq_true, if_false, id]

theorem countEvictable_eraseNode {l : List (Int × LRUKNode)} (hn : (l.map Prod.fst).Nodup)
    {f : Int} {n : LRUKNode} (hf : lookupNode l f = some n) :
    countEvictable (eraseNode l f) + (if n.is_evictable_ = true then 1 else 0) =
      countEvictable l := by
  induction l with
  | nil => simp [lookupNode] at hf
  | cons e l ih =>
    rw [List.map_cons, List.nodup_cons] at hn
    have hmem := (lookupNode_eq_some_iff (by rw [List.map_cons, List.nodup_cons]; exact hn) f n).1 hf
    by_cases he : e.1 = f
    · have hen : e = (f, n) := by
        rcases List.mem_cons.1 hmem with h | h
        · exact h.symm
        · exfalso; apply hn.1; rw [he]; exact List.mem_map.2 ⟨(f, n), h, rfl⟩
      have habs : ∀ x ∈ l, x.1 ≠ f := by
        intro x hx hxf
        apply hn.1
        rw [he, ← hxf]
        exact List.mem_map.2 ⟨x, hx, rfl⟩
      have h1 : eraseNode (e :: l) f = l := by
        have : eraseNode (e :: l) f = eraseNode l f := by
          unfold eraseNode
          rw [List.filter_cons]
          simp [he]
        rw [this, eraseNode_absent l f habs]
      rw [h1, countEvictable_cons, hen]
      simp only
      omega
    · have hmem' : (f, n) ∈ l := by
        rcases List.mem_cons.1 hmem with h | h
        · exfalso; apply he; rw [← h]
        · exact h
      have hf' := (lookupNode_eq_some_iff hn.2 f n).2 hmem'
      have h1 : eraseNode (e :: l) f = e :: eraseNode l f := by
        unfold eraseNode
        rw [List.filter_cons]
        simp [he]
      rw [h1, countEvictable_cons, countEvictable_cons]
      have := ih hn.2 hf'
      omega

theorem countEvictable_setNode {l : List (Int × LRUKNode)} (hn : (l.map Prod.fst).Nodup)
    {f : Int} {n : LRUKNode} (hf : lookupNode l f = some n) (m : LRUKNode) :
    countEvictable (setNode l f m) + (if n.is_evictable_ = true then 1 else 0) =
      countEvictable l + (if m.is_evictable_ = true then 1 else 0) := by
  induction l with
  | nil => simp [lookupNode] at hf
  | cons e l ih =>
    rw [List.map_cons, List.nodup_cons] at hn
    have hmem := (lookupNode_eq_some_iff (by rw [List.map_cons, List.nodup_cons]; exact hn) f n).1 hf
    by_cases he : e.1 = f
    · have hen : e = (f, n) := by
        rcases List.mem_cons.1 hmem with h | h
        · exact h.symm
        · exfalso; apply hn.1; rw [he]; exact List.mem_map.2 ⟨(f, n), h, rfl⟩
      have habs : ∀ x ∈ l, x.1 ≠ f := by
        intro x hx hxf
        apply hn.1
        rw [he, ← hxf]
        exact List.mem_map.2 ⟨x, hx, rfl⟩
      have h1 : setNode (e :: l) f m = (e.1, m) :: l := by
        have : setNode (e :: l) f m = (e.1, m) :: setNode l f m := by
          unfold setNode
          rw [List.map_cons]
          simp [he]
        rw [this, setNode_absent l f m habs]
      rw [h1, countEvictable_cons, countEvictable_cons, hen]
      simp only
      omega
    · have hmem' : (f, n) ∈ l := by
        rcases List.mem_cons.1 hmem with h | h
        · exfalso; apply he; rw [← h]
        · exact h
      have hf' := (lookupNode_eq_some_iff hn.2 f n).2 hmem'
      have h1 : setNode (e :: l) f m = e :: setNode l f m := by
        unfold setNode
        rw [List.map_cons]
        simp [he]
      rw [h1, countEvictable_cons, countEvictable_cons]
      have := ih hn.2 hf' 
      omega

theorem length_setNode (l : List (Int × LRUKNode)) (f : Int) (m : LRUKNode) :
    (setNode l f m).length = l.length := by
  unfold setNode
  exact List.length_map _ _

theorem length_eraseNode_le (l : List (Int × LRUKNode)) (f : Int) :
    (eraseNode l f).length ≤ l.length :=
  List.length_filter_le _ _

theorem decr64_of_pos {x : Nat} (h1 : 0 < x) (h2 : x < 2 ^ 64) : decr64 x = x - 1 := by
  unfold decr64
  have : x + (2 ^ 64 - 1) = (x - 1) + 2 ^ 64 := by omega
  rw [this, Nat.add_mod_right, Nat.mod_eq_of_lt (by omega)]

theorem incr64_of_lt {x : Nat} (h : x + 1 < 2 ^ 64) : incr64 x = x + 1 := by
  unfold incr64
  exact Nat.mod_eq_of_lt h

end LRUKReplacer
end bustub

/-! ### LRU-K replacer: the size counter across calls -/

namespace bustub
namespace LRUKReplacer

theorem Evict_some_state {r : LRUKReplacer} {f : Int} (h : r.Evict.1 = some f) :
    r.Evict.2 = { r with node_store_ := eraseNode r.node_store_ f,
                         replacer_size_ := decr64 r.replacer_size_ } := by
  unfold Evict at h ⊢
  simp only at h ⊢
  by_cases h1 : (r.scan (fun n => decide (n.get_history_size < r.k_))).1 ≠ 0
  · rw [if_pos h1] at h ⊢
    simp only [Option.some.injEq] at h
    rw [h]
  · rw [if_neg h1] at h ⊢
    by_cases h2 : (r.scan (fun n => decide (n.get_history_size = r.k_))).1 ≠ 0
    · rw [if_pos h2] at h ⊢
      simp only [Option.some.injEq] at h
      rw [h]
    · rw [if_neg h2] at h
      cases h

theorem SetEvictable_state {r r' : LRUKReplacer} {f : Int} {b : Bool}
    (h : r.SetEvictable f b = some r') :
    ∃ n, r.find f = some n ∧
      r' = { r with
        replacer_size_ :=
          (if (!b && n.is_evictable_) = true then
            decr64 (if (b && !n.is_evictable_) = true then incr64 r.replacer_size_
              else r.replacer_size_)
          else (if (b && !n.is_evictable_) = true then incr64 r.replacer_size_
              else r.replacer_size_)),
        node_store_ := setNode r.node_store_ f (n.set_evictab b) } := by
  unfold SetEvictable at h
  cases hf : r.find f with
  | none => rw [hf] at h; cases h
  | some n =>
    rw [hf] at h
    simp only [Option.some.injEq] at h
    exact ⟨n, rfl, h.symm⟩

theorem Remove_state {r r' : LRUKReplacer} {f : Int} (h : r.Remove f = some r') :
    ∃ n, r.find f = some n ∧
      r' = { r with
        replacer_size_ := (if n.is_evictable_ = true then decr64 r.replacer_size_
          else r.replacer_size_),
        node_store_ := eraseNode r.node_store_ f } := by
  unfold Remove at h
  cases hf : r.find f with
  | none => rw [hf] at h; cases h
  | some n =>
    rw [hf] at h
    simp only [Option.some.injEq] at h
    exact ⟨n, rfl, h.symm⟩

theorem countEvictable_append (l₁ l₂ : List (Int × LRUKNode)) :
    countEvictable (l₁ ++ l₂) = countEvictable l₁ + countEvictable l₂ := by
  unfold countEvictable
  rw [List.filter_append, List.length_append]

theorem RecordAccess_count {r : LRUKReplacer} (hn : (r.node_store_.map Prod.fst).Nodup)
    (f : Int) :
    (r.RecordAccess f).evictableCount = r.evictableCount ∧
      (r.RecordAccess f).replacer_size_ = r.replacer_size_ ∧
      (r.RecordAccess f).node_store_.length ≤ r.node_store_.length + 1 := by
  unfold RecordAccess evictableCount
  simp only
  cases hf : lookupNode r.node_store_ f with
  | none =>
    simp only [Option.isNone_none, if_true]
    have habs := (lookupNode_eq_none_iff r.node_store_ f).1 hf
    have hl : lookupNode (r.node_store_ ++ [(f, LRUKNode.fresh)]) f = some LRUKNode.fresh := by
      rw [lookupNode_append_absent _ _ _ _ hf]
      simp
    have hnd : ((r.node_store_ ++ [(f, LRUKNode.fresh)]).map Prod.fst).Nodup := by
      rw [List.map_append, List.nodup_append]
      refine ⟨hn, List.nodup_singleton _, ?_⟩
      intro x hx hx'
      simp only [List.map_cons, List.map_nil, List.mem_singleton] at hx'
      obtain ⟨e, he, rfl⟩ := List.mem_map.1 hx
      exact habs e he hx'
    rw [hl]
    have := countEvictable_setNode hnd hl
      ((LRUKNode.fresh.setk r.k_).push r.current_timestamp_)
    refine ⟨?_, trivial, ?_⟩
    · rw [countEvictable_append] at this
      have h1 : countEvictable [(f, LRUKNode.fresh)] = 0 := rfl
      have h2 : ((LRUKNode.fresh.setk r.k_).push r.current_timestamp_).is_evictable_ = false :=
        rfl
      have h3 : LRUKNode.fresh.is_evictable_ = false := rfl
      simp only [Option.getD_some] at this ⊢
      rw [h1, h2, h3] at this
      simpa using this
    · rw [length_setNode, List.length_append]
      simp
  | some n =>
    simp only [Option.isNone_some, Bool.false_eq_true, if_false, hf, Option.getD_some]
    have := countEvictable_setNode hn hf ((n.setk r.k_).push r.current_timestamp_)
    have h2 : ((n.setk r.k_).push r.current_timestamp_).is_evictable_ = n.is_evictable_ := rfl
    rw [h2] at this
    refine ⟨by omega, trivial, ?_⟩
    rw [length_setNode]
    omega

theorem SizeInv_RecordAccess {r : LRUKReplacer} (h : ReplInv r) (hs : SizeInv r) (f : Int) :
    SizeInv (r.RecordAccess f) := by
  obtain ⟨h1, h2, _⟩ := RecordAccess_count h.keys_nodup f
  unfold SizeInv
  rw [h1, h2]
  exact hs

theorem SizeInv_SetEvictable {r r' : LRUKReplacer} (h : ReplInv r) (hs : SizeInv r)
    (hcnt : r.evictableCount < 2 ^ 64) {f : Int} {b : Bool}
    (hinc : b = true → r.node_store_.length < 2 ^ 64)
    (hr : r.SetEvictable f b = some r') :
    SizeInv r' ∧ r'.node_store_.length = r.node_store_.length := by
  obtain ⟨n, hf, rfl⟩ := SetEvictable_state hr
  have hlen := hinc
  have hc := countEvictable_setNode h.keys_nodup hf (n.set_evictab b)
  have hle := countEvictable_le (setNode r.node_store_ f (n.set_evictab b))
  rw [length_setNode] at hle
  have hle0 := countEvictable_le r.node_store_
  have hb : (n.set_evictab b).is_evictable_ = b := rfl
  rw [hb] at hc
  unfold SizeInv evictableCount at hs ⊢
  unfold evictableCount at hcnt
  refine ⟨?_, length_setNode _ _ _⟩
  simp only
  cases b with
  | true =>
    have hlen' := hlen rfl
    cases he : n.is_evictable_ with
    | true =>
      rw [he] at hc
      simp only [Bool.not_true, Bool.and_false, Bool.false_eq_true, if_false, Bool.false_and]
      simp only [if_true] at hc
      omega
    | false =>
      rw [he] at hc
      simp only [Bool.not_true, Bool.not_false, Bool.and_true, if_true, Bool.false_and,
        Bool.false_eq_true, if_false]
      simp only [if_true, Bool.false_eq_true, if_false] at hc
      rw [incr64_of_lt (by omega)]
      omega
  | false =>
    cases he : n.is_evictable_ with
    | true =>
      rw [he] at hc
      simp only [Bool.not_false, Bool.and_true, if_true, Bool.false_and, Bool.false_eq_true,
        if_false, Bool.true_and]
      simp only [if_true, Bool.false_eq_true, if_false] at hc
      rw [decr64_of_pos (by omega) (by omega)]
      omega
    | false =>
      rw [he] at hc
      simp only [Bool.not_false, Bool.and_false, Bool.false_eq_true, if_false, Bool.false_and,
        Bool.and_true]
      simp only [Bool.false_eq_true, if_false] at hc
      omega

theorem SizeInv_Remove {r r' : LRUKReplacer} (h : ReplInv r) (hs : SizeInv r)
    (hcnt : r.evictableCount < 2 ^ 64) {f : Int} (hr : r.Remove f = some r') :
    SizeInv r' ∧ r'.node_store_.length ≤ r.node_store_.length ∧
      ∃ n, r.find f = some n ∧
        r'.replacer_size_ + (if n.is_evictable_ = true then 1 else 0) = r.replacer_size_ := by
  obtain ⟨n, hf, rfl⟩ := Remove_state hr
  have hc := countEvictable_eraseNode h.keys_nodup hf
  have hle0 := countEvictable_le r.node_store_
  unfold SizeInv evictableCount at hs ⊢
  unfold evictableCount at hcnt
  simp only
  cases he : n.is_evictable_ with
  | true =>
    rw [he] at hc
    simp only [if_true] at hc ⊢
    rw [decr64_of_pos (by omega) (by omega)]
    exact ⟨by omega, length_eraseNode_le _ _, n, hf, by rw [he]; simp only [if_true]; omega⟩
  | false =>
    rw [he] at hc
    simp only [Bool.false_eq_true, if_false] at hc ⊢
    exact ⟨by omega, length_eraseNode_le _ _, n, hf, by rw [he]; simp⟩

theorem SizeInv_Evict {r : LRUKReplacer} (h : ReplInv r) (hs : SizeInv r)
    (hcnt : r.evictableCount < 2 ^ 64) :
    SizeInv r.Evict.2 ∧ r.Evict.2.node_store_.length ≤ r.node_store_.length ∧
      (∀ f, r.Evict.1 = some f → r.Evict.2.replacer_size_ + 1 = r.replacer_size_) := by
  cases hev : r.Evict.1 with
  | none =>
    have := ((Evict_spec h).1 hev).1
    rw [this]
    exact ⟨hs, le_refl _, fun f hc => Option.noConfusion hc⟩
  | some f =>
    obtain ⟨⟨n, hf, hne⟩, _⟩ := (Evict_spec h).2 f hev
    rw [Evict_some_state hev]
    have hc := countEvictable_eraseNode h.keys_nodup hf
    have hle0 := countEvictable_le r.node_store_
    rw [hne] at hc
    simp only [if_true] at hc
    unfold SizeInv evictableCount at hs ⊢
    unfold evictableCount at hcnt
    simp only
    rw [decr64_of_pos (by omega) (by omega)]
    refine ⟨by omega, length_eraseNode_le _ _, ?_⟩
    intro g _
    omega

end LRUKReplacer
namespace LRUKReplacer

theorem ReplReach_new (k : Nat) (hk : 0 < k) : ReplReach (LRUKReplacer.new k) 0 :=
  ⟨⟨hk, List.nodup_nil, fun e he => by cases he⟩, rfl, le_refl _⟩

theorem applyCall_reach {r r' : LRUKReplacer} {n : Nat} (h : ReplReach r n) (hn : n < 2 ^ 64)
    (c : ReplacerCall) (hc : applyCall r c = some r') : ReplReach r' (n + 1) := by
  have hlen : r.node_store_.length < 2 ^ 64 := lt_of_le_of_lt h.len hn
  have hcnt : r.evictableCount < 2 ^ 64 := lt_of_le_of_lt (countEvictable_le _) hlen
  cases c with
  | recordAccess f =>
    simp only [applyCall, Option.some.injEq] at hc
    rw [← hc]
    refine ⟨ReplInv.RecordAccess h.inv f, SizeInv_RecordAccess h.inv h.size f, ?_⟩
    have := (RecordAccess_count h.inv.keys_nodup f).2.2
    have := h.len
    omega
  | setEvictable f b =>
    simp only [applyCall] at hc
    obtain ⟨n0, hf, _⟩ := SetEvictable_state hc
    obtain ⟨r2, hr2, hinv2, _⟩ := SetEvictable_spec h.inv hf b
    rw [hc] at hr2
    cases hr2
    obtain ⟨h1, h2⟩ := SizeInv_SetEvictable h.inv h.size hcnt (fun _ => hlen) hc
    exact ⟨hinv2, h1, by rw [h2]; have := h.len; omega⟩
  | evict =>
    simp only [applyCall, Option.some.injEq] at hc
    rw [← hc]
    obtain ⟨h1, h2, _⟩ := SizeInv_Evict h.inv h.size hcnt
    refine ⟨?_, h1, by have := h.len; omega⟩
    cases hev : r.Evict.1 with
    | none => rw [((Evict_spec h.inv).1 hev).1]; exact h.inv
    | some f => exact ((Evict_spec h.inv).2 f hev).2.1
  | remove f =>
    simp only [applyCall] at hc
    obtain ⟨n0, hf, _⟩ := Remove_state hc
    obtain ⟨r2, hr2, hinv2, _⟩ := Remove_node_spec h.inv hf
    rw [hc] at hr2
    cases hr2
    obtain ⟨h1, h2, _⟩ := SizeInv_Remove h.inv h.size hcnt hc
    exact ⟨hinv2, h1, by have := h.len; omega⟩

theorem runCalls_reach (cs : List ReplacerCall) {r r' : LRUKReplacer} {n : Nat}
    (h : ReplReach r n) (hn : n + cs.length ≤ 2 ^ 64) (hc : runCalls cs r = some r') :
    ReplReach r' (n + cs.length) := by
  induction cs generalizing r n with
  | nil =>
    simp only [runCalls, Option.some.injEq] at hc
    rw [← hc]
    exact h
  | cons c cs ih =>
    simp only [runCalls] at hc
    cases h1 : applyCall r c with
    | none => rw [h1] at hc; cases hc
    | some r1 =>
      rw [h1, Option.some_bind] at hc
      simp only [List.length_cons] at hn ⊢
      have := ih (applyCall_reach h (by omega) c h1) (by omega) hc
      rw [show n + (cs.length + 1) = n + 1 + cs.length by omega]
      exact this

theorem applyCall_inv {r r' : LRUKReplacer} (h : ReplInv r) (c : ReplacerCall)
    (hc : applyCall r c = some r') : ReplInv r' := by
  cases c with
  | recordAccess f =>
    simp only [applyCall, Option.some.injEq] at hc
    rw [← hc]
    exact ReplInv.RecordAccess h f
  | setEvictable f b =>
    simp only [applyCall] at hc
    obtain ⟨n0, hf, _⟩ := SetEvictable_state hc
    obtain ⟨r2, hr2, hinv2, _⟩ := SetEvictable_spec h hf b
    rw [hc] at hr2
    cases hr2
    exact hinv2
  | evict =>
    simp only [applyCall, Option.some.injEq] at hc
    rw [← hc]
    cases hev : r.Evict.1 with
    | none => rw [((Evict_spec h).1 hev).1]; exact h
    | some f => exact ((Evict_spec h).2 f hev).2.1
  | remove f =>
    simp only [applyCall] at hc
    obtain ⟨n0, hf, _⟩ := Remove_state hc
    obtain ⟨r2, hr2, hinv2, _⟩ := Remove_node_spec h hf
    rw [hc] at hr2
    cases hr2
    exact hinv2

theorem runCalls_inv (cs : List ReplacerCall) {r r' : LRUKReplacer} (h : ReplInv r)
    (hc : runCalls cs r = some r') : ReplInv r' := by
  induction cs generalizing r with
  | nil =>
    simp only [runCalls, Option.some.injEq] at hc
    rw [← hc]
    exact h
  | cons c cs ih =>
    simp only [runCalls] at hc
    cases h1 : applyCall r c with
    | none => rw [h1] at hc; cases hc
    | some r1 =>
      rw [h1, Option.some_bind] at hc
      exact ih (applyCall_inv h c h1) hc

theorem ReplInv_new (k : Nat) (hk : 0 < k) : ReplInv (LRUKReplacer.new k) :=
  ⟨hk, List.nodup_nil, fun e he => by cases he⟩

theorem reachable_replacer {k : Nat} (hk : 0 < k) {cs : List ReplacerCall}
    (hlen : cs.length < 2 ^ 64) {r : LRUKReplacer}
    (hc : runCalls cs (LRUKReplacer.new k) = some r) :
    ReplInv r ∧ SizeInv r ∧ r.node_store_.length < 2 ^ 64 := by
  have := runCalls_reach cs (ReplReach_new k hk) (by omega) hc
  exact ⟨this.inv, this.size, by have := this.len; omega⟩

end LRUKReplacer
end bustub

/-! ### LRU-K replacer: the order of eviction -/

namespace bustub
namespace LRUKReplacer

theorem front_lt_current {r : LRUKReplacer} (h : ReplInv r) {e : Int × LRUKNode}
    (he : e ∈ r.node_store_) : e.2.get_front < r.current_timestamp_ := by
  obtain ⟨h1, _, h3⟩ := h.hist e he
  unfold LRUKNode.get_front
  cases hh : e.2.history_ with
  | nil => exact absurd hh h1
  | cons t ts => exact h3 t (by rw [hh]; exact List.mem_cons_self _ _)

/-- A pass of `Evict` over a store with a selected evictable node ends on such a
node with the smallest front timestamp. -/
theorem scan_pick {r : LRUKReplacer} (h : ReplInv r) (sel : LRUKNode → Bool)
    (hex : ∃ e ∈ r.node_store_, e.2.is_evictable_ = true ∧ sel e.2 = true) :
    (r.scan sel).1 ≠ 0 ∧
      ∃ e ∈ r.node_store_, e.1 = (r.scan sel).2 ∧ e.2.is_evictable_ = true ∧ sel e.2 = true ∧
        ∀ e' ∈ r.node_store_, e'.2.is_evictable_ = true → sel e'.2 = true →
          e.2.get_front ≤ e'.2.get_front := by
  rw [scan_eq]
  obtain ⟨_, h2, h3⟩ := scan_fold r.current_timestamp_ sel r.node_store_ (0, 1)
  obtain ⟨e0, he0, hev0, hs0⟩ := hex
  have hpos : (List.foldl (scanStep r.current_timestamp_ sel) (0, 1) r.node_store_).1 ≠ 0 := by
    have := h3 e0 he0 hs0 hev0
    have := front_lt_current h he0
    omega
  refine ⟨hpos, ?_⟩
  rcases h2 with h2 | ⟨e, he, h4, h5, h6, h7⟩
  · rw [h2] at hpos
    exact absurd rfl hpos
  · refine ⟨e, he, h4, h6, h5, ?_⟩
    intro e' he' hev' hs'
    have := h3 e' he' hs' hev'
    have := front_lt_current h he'
    have := front_lt_current h he
    omega

theorem scan_zero (r : LRUKReplacer) (sel : LRUKNode → Bool)
    (hno : ∀ e ∈ r.node_store_, e.2.is_evictable_ = true → sel e.2 = false) :
    (r.scan sel).1 = 0 := by
  rw [scan_eq]
  obtain ⟨_, h2, _⟩ := scan_fold r.current_timestamp_ sel r.node_store_ (0, 1)
  rcases h2 with h2 | ⟨e, he, _, h5, h6, _⟩
  · rw [h2]
  · rw [hno e he h6] at h5
    cases h5

theorem Evict_of_first {r : LRUKReplacer}
    (h1 : (r.scan (fun n => decide (n.get_history_size < r.k_))).1 ≠ 0) :
    r.Evict.1 = some (r.scan (fun n => decide (n.get_history_size < r.k_))).2 := by
  unfold Evict
  simp only
  rw [if_pos h1]

theorem Evict_of_second {r : LRUKReplacer}
    (h1 : (r.scan (fun n => decide (n.get_history_size < r.k_))).1 = 0)
    (h2 : (r.scan (fun n => decide (n.get_history_size = r.k_))).1 ≠ 0) :
    r.Evict.1 = some (r.scan (fun n => decide (n.get_history_size = r.k_))).2 := by
  unfold Evict
  simp only
  rw [if_neg (not_not.2 h1), if_pos h2]

/-- C16: in every replacer state reached by calls from the initial state
(`K ≥ 1`) in which an evictable tracked frame has fewer than `K` recorded
accesses, `Evict` returns such a frame, and its first-access timestamp is the
smallest among the evictable frames with fewer than `K` accesses. -/
theorem Evict_prefers_fewer_than_k (k : Nat) (hk : 0 < k) (cs : List ReplacerCall)
    (r : LRUKReplacer) (hr : runCalls cs (LRUKReplacer.new k) = some r)
    (hex : ∃ e ∈ r.node_store_, e.2.is_evictable_ = true ∧ e.2.get_history_size < r.k_) :
    ∃ e ∈ r.node_store_, r.Evict.1 = some e.1 ∧ e.2.is_evictable_ = true ∧
      e.2.get_history_size < r.k_ ∧
      ∀ e' ∈ r.node_store_, e'.2.is_evictable_ = true → e'.2.get_history_size < r.k_ →
        e.2.get_front ≤ e'.2.get_front := by
  have hinv := runCalls_inv cs (ReplInv_new k hk) hr
  obtain ⟨e0, he0, hev0, hs0⟩ := hex
  obtain ⟨hpos, e, he, h1, h2, h3, h4⟩ :=
    scan_pick hinv (fun n => decide (n.get_history_size < r.k_))
      ⟨e0, he0, hev0, decide_eq_true hs0⟩
  refine ⟨e, he, ?_, h2, of_decide_eq_true h3, ?_⟩
  · rw [Evict_of_first hpos, h1]
  · intro e' he' hev' hs'
    exact h4 e' he' hev' (decide_eq_true hs')

theorem Evict_prefers_fewer_than_k_witness :
    0 < 2 ∧
    runCalls exampleCalls (LRUKReplacer.new 2) = some exampleReplacer ∧
    (∃ e ∈ exampleReplacer.node_store_, e.2.is_evictable_ = true ∧
      e.2.get_history_size < exampleReplacer.k_) ∧
    exampleReplacer.Evict.1 = some 1 ∧
    ∃ e ∈ exampleReplacer.node_store_, exampleReplacer.Evict.1 = some e.1 ∧
      e.2.is_evictable_ = true ∧ e.2.get_history_size < exampleReplacer.k_ ∧
      ∀ e' ∈ exampleReplacer.node_store_, e'.2.is_evictable_ = true →
        e'.2.get_history_size < exampleReplacer.k_ → e.2.get_front ≤ e'.2.get_front :=
  ⟨by decide, by decide, by decide, by decide,
    Evict_prefers_fewer_than_k 2 (by decide) exampleCalls exampleReplacer (by decide) (by decide)⟩

/-- C17: in every replacer state reached by calls from the initial state
(`K ≥ 1`) in which no evictable tracked frame has fewer than `K` recorded
accesses and one has exactly `K`, `Evict` returns an evictable frame with `K`
accesses whose oldest retained timestamp is the smallest among them. -/
theorem Evict_oldest_kth_access (k : Nat) (hk : 0 < k) (cs : List ReplacerCall)
    (r : LRUKReplacer) (hr : runCalls cs (LRUKReplacer.new k) = some r)
    (hno : ∀ e ∈ r.node_store_, e.2.is_evictable_ = true → ¬ e.2.get_history_size < r.k_)
    (hex : ∃ e ∈ r.node_store_, e.2.is_evictable_ = true ∧ e.2.get_history_size = r.k_) :
    ∃ e ∈ r.node_store_, r.Evict.1 = some e.1 ∧ e.2.is_evictable_ = true ∧
      e.2.get_history_size = r.k_ ∧
      ∀ e' ∈ r.node_store_, e'.2.is_evictable_ = true → e'.2.get_history_size = r.k_ →
        e.2.get_front ≤ e'.2.get_front := by
  have hinv := runCalls_inv cs (ReplInv_new k hk) hr
  obtain ⟨e0, he0, hev0, hs0⟩ := hex
  have hzero := scan_zero r (fun n => decide (n.get_history_size < r.k_))
    (fun e he hev => decide_eq_false (hno e he hev))
  obtain ⟨hpos, e, he, h1, h2, h3, h4⟩ :=
    scan_pick hinv (fun n => decide (n.get_history_size = r.k_))
      ⟨e0, he0, hev0, decide_eq_true hs0⟩
  refine ⟨e, he, ?_, h2, of_decide_eq_true h3, ?_⟩
  · rw [Evict_of_second hzero hpos, h1]
  · intro e' he' hev' hs'
    exact h4 e' he' hev' (decide_eq_true hs')

theorem Evict_oldest_kth_access_witness :
    0 < 1 ∧
    runCalls exampleCallsFull (LRUKReplacer.new 1) = some exampleReplacerFull ∧
    (∀ e ∈ exampleReplacerFull.node_store_, e.2.is_evictable_ = true →
      ¬ e.2.get_history_size < exampleReplacerFull.k_) ∧
    (∃ e ∈ exampleReplacerFull.node_store_, e.2.is_evictable_ = true ∧
      e.2.get_history_size = exampleReplacerFull.k_) ∧
    exampleReplacerFull.Evict.1 = some 2 ∧
    ∃ e ∈ exampleReplacerFull.node_store_, exampleReplacerFull.Evict.1 = some e.1 ∧
      e.2.is_evictable_ = true ∧ e.2.get_history_size = exampleReplacerFull.k_ ∧
      ∀ e' ∈ exampleReplacerFull.node_store_, e'.2.is_evictable_ = true →
        e'.2.get_history_size = exampleReplacerFull.k_ → e.2.get_front ≤ e'.2.get_front :=
  ⟨by decide, by decide, by decide, by decide, by decide,
    Evict_oldest_kth_access 1 (by decide) exampleCallsFull exampleReplacerFull (by decide) (by decide)
      (by decide)⟩

end LRUKReplacer
end bustub

/-! ### LRU-K replacer: Evict, Size and Remove -/

namespace bustub
namespace LRUKReplacer

theorem all_not_evictable_iff {r : LRUKReplacer} (h : ReplInv r) :
    (∀ f n, r.find f = some n → n.is_evictable_ = false) ↔
      ∀ e ∈ r.node_store_, e.2.is_evictable_ = false := by
  constructor
  · intro hall e he
    exact hall e.1 e.2 ((lookupNode_eq_some_iff h.keys_nodup e.1 e.2).2 he)
  · intro hall f n hf
    exact hall (f, n) ((lookupNode_eq_some_iff h.keys_nodup f n).1 hf)

/-- C18: in every replacer state reached by fewer than `2^64` calls from the
initial state (`K ≥ 1`), `Evict` returns false exactly when no tracked frame is
evictable, and then leaves the replacer unchanged; when it returns a frame, the
frame was evictable, its node is removed, the other nodes stay, and `Size()`
has decreased by exactly 1. -/
theorem Evict_result (k : Nat) (hk : 0 < k) (cs : List ReplacerCall)
    (hlen : cs.length < 2 ^ 64) (r : LRUKReplacer)
    (hr : runCalls cs (LRUKReplacer.new k) = some r) :
    (r.Evict.1 = none ↔ ∀ e ∈ r.node_store_, e.2.is_evictable_ = false) ∧
    (r.Evict.1 = none → r.Evict.2 = r) ∧
    (∀ f, r.Evict.1 = some f →
      (∃ n, r.find f = some n ∧ n.is_evictable_ = true) ∧
      r.Evict.2.find f = none ∧
      (∀ g, g ≠ f → r.Evict.2.find g = r.find g) ∧
      r.Evict.2.Size + 1 = r.Size) := by
  obtain ⟨hinv, hsize, hl⟩ := reachable_replacer hk hlen hr
  have hcnt : r.evictableCount < 2 ^ 64 := lt_of_le_of_lt (countEvictable_le _) hl
  obtain ⟨hnone, hsome⟩ := Evict_spec hinv
  refine ⟨⟨?_, ?_⟩, fun h => (hnone h).1, ?_⟩
  · intro h
    exact (all_not_evictable_iff hinv).1 (hnone h).2
  · intro hall
    cases hev : r.Evict.1 with
    | none => rfl
    | some f =>
      obtain ⟨⟨n, hn, he⟩, _⟩ := hsome f hev
      rw [(all_not_evictable_iff hinv).2 hall f n hn] at he
      cases he
  · intro f hf
    obtain ⟨hex, _, hfind⟩ := hsome f hf
    refine ⟨hex, by rw [hfind, if_pos rfl], fun g hg => by rw [hfind, if_neg hg], ?_⟩
    exact (SizeInv_Evict hinv hsize hcnt).2.2 f hf

theorem Evict_result_witness :
    0 < 2 ∧
    exampleCalls.length < 2 ^ 64 ∧
    runCalls exampleCalls (LRUKReplacer.new 2) = some exampleReplacer ∧
    (exampleReplacer.Evict.1 = none ↔
      ∀ e ∈ exampleReplacer.node_store_, e.2.is_evictable_ = false) ∧
    (exampleReplacer.Evict.1 = none → exampleReplacer.Evict.2 = exampleReplacer) ∧
    (∀ f, exampleReplacer.Evict.1 = some f →
      (∃ n, exampleReplacer.find f = some n ∧ n.is_evictable_ = true) ∧
      exampleReplacer.Evict.2.find f = none ∧
      (∀ g, g ≠ f → exampleReplacer.Evict.2.find g = exampleReplacer.find g) ∧
      exampleReplacer.Evict.2.Size + 1 = exampleReplacer.Size) :=
  ⟨by decide, by decide, by decide,
    Evict_result 2 (by decide) exampleCalls (by decide) exampleReplacer (by decide)⟩

/-- C19: after every sequence of fewer than `2^64` `RecordAccess`,
`SetEvictable`, `Evict` and `Remove` calls from the initial state (`K ≥ 1`) in
which `SetEvictable` and `Remove` are called on tracked frames (the run returns
a state), `Size()` is the number of tracked frames whose evictable flag is set;
and the second of two calls `SetEvictable(f, b)` with the same `b` leaves
`Size()` as it is. -/
theorem Size_counts_evictable (k : Nat) (hk : 0 < k) (cs : List ReplacerCall)
    (hlen : cs.length < 2 ^ 64) (r : LRUKReplacer)
    (hr : runCalls cs (LRUKReplacer.new k) = some r) :
    r.Size = r.evictableCount ∧
    ∀ f b r1 r2, r.SetEvictable f b = some r1 → r1.SetEvictable f b = some r2 →
      r2.Size = r1.Size := by
  obtain ⟨hinv, hsize, hl⟩ := reachable_replacer hk hlen hr
  refine ⟨hsize, ?_⟩
  intro f b r1 r2 h1 h2
  obtain ⟨n, hn, _⟩ := SetEvictable_state h1
  obtain ⟨r1', hr1', _, hfind⟩ := SetEvictable_spec hinv hn b
  rw [h1] at hr1'
  cases hr1'
  obtain ⟨m, hm, rfl⟩ := SetEvictable_state h2
  rw [hfind, if_pos rfl] at hm
  cases hm
  show (if (!b && (n.set_evictab b).is_evictable_) = true then _ else _) = _
  have hb : (n.set_evictab b).is_evictable_ = b := rfl
  rw [hb]
  cases b with
  | true => rfl
  | false => rfl

theorem Size_counts_evictable_witness :
    0 < 2 ∧
    exampleCalls.length < 2 ^ 64 ∧
    runCalls exampleCalls (LRUKReplacer.new 2) = some exampleReplacer ∧
    exampleReplacer.Size = 3 ∧
    exampleReplacer.Size = exampleReplacer.evictableCount ∧
    ∀ f b r1 r2, exampleReplacer.SetEvictable f b = some r1 →
      r1.SetEvictable f b = some r2 → r2.Size = r1.Size :=
  ⟨by decide, by decide, by decide, by decide,
    Size_counts_evictable 2 (by decide) exampleCalls (by decide) exampleReplacer (by decide)⟩

/-- C20, as stated, fails: frame 1 is tracked and not evictable after
`RecordAccess(1)`; `Remove(1)` returns normally, the node is gone and `Size()`
is unchanged. -/
theorem Remove_drops_pinned_node :
    ((LRUKReplacer.new 2).RecordAccess 1).find 1 =
      some { history_ := [0], k_ := 2, is_evictable_ := false } ∧
    ∃ r', ((LRUKReplacer.new 2).RecordAccess 1).Remove 1 = some r' ∧
      r'.find 1 = none ∧ r'.node_store_ = [] ∧
      r'.Size = ((LRUKReplacer.new 2).RecordAccess 1).Size := by
  refine ⟨by decide, _, rfl, by decide, by decide, by decide⟩

/-- C20, amended: in every replacer state reached by fewer than `2^64` calls
from the initial state (`K ≥ 1`), `Remove(f)` on a tracked frame returns and
drops the node of `f`, keeping the other nodes; `Size()` decreases by 1 when
the frame was evictable and is unchanged when it was not. -/
theorem Remove_result (k : Nat) (hk : 0 < k) (cs : List ReplacerCall)
    (hlen : cs.length < 2 ^ 64) (r : LRUKReplacer)
    (hr : runCalls cs (LRUKReplacer.new k) = some r) (f : Int) (n : LRUKNode)
    (hf : r.find f = some n) :
    ∃ r', r.Remove f = some r' ∧ r'.find f = none ∧
      (∀ g, g ≠ f → r'.find g = r.find g) ∧
      (n.is_evictable_ = true → r'.Size + 1 = r.Size) ∧
      (n.is_evictable_ = false → r'.Size = r.Size) := by
  obtain ⟨hinv, hsize, hl⟩ := reachable_replacer hk hlen hr
  have hcnt : r.evictableCount < 2 ^ 64 := lt_of_le_of_lt (countEvictable_le _) hl
  obtain ⟨r', hr', _, hfind⟩ := Remove_node_spec hinv hf
  obtain ⟨_, _, m, hm, hsz⟩ := SizeInv_Remove hinv hsize hcnt hr'
  rw [hf] at hm
  cases hm
  refine ⟨r', hr', by rw [hfind, if_pos rfl], fun g hg => by rw [hfind, if_neg hg], ?_, ?_⟩
  · intro he
    rw [he] at hsz
    exact hsz
  · intro he
    rw [he] at hsz
    simpa using hsz

theorem Remove_result_witness :
    0 < 2 ∧
    exampleCalls.length < 2 ^ 64 ∧
    runCalls exampleCalls (LRUKReplacer.new 2) = some exampleReplacer ∧
    exampleReplacer.find 3 = some { history_ := [2, 3], k_ := 2, is_evictable_ := true } ∧
    ∃ r', exampleReplacer.Remove 3 = some r' ∧ r'.find 3 = none ∧
      (∀ g, g ≠ 3 → r'.find g = exampleReplacer.find g) ∧
      (true = true → r'.Size + 1 = exampleReplacer.Size) ∧
      (true = false → r'.Size = exampleReplacer.Size) :=
  ⟨by decide, by decide, by decide, by decide,
    Remove_result 2 (by decide) exampleCalls (by decide) exampleReplacer (by decide) 3
      { history_ := [2, 3], k_ := 2, is_evictable_ := true } (by decide)⟩

end LRUKReplacer
end bustub

/-! ### Buffer pool: the size counter of the replacer -/

namespace bustub
open LRUKReplacer
namespace BufferPoolManager
variable {D : Type} [Inhabited D]

theorem length_le_of_nodup_range (l : List Int) (hn : l.Nodup) (n : Nat)
    (h : ∀ x ∈ l, 0 ≤ x ∧ x < (n : Int)) : l.length ≤ n := by
  have hnd : (l.map Int.toNat).Nodup := by
    apply List.Nodup.map_on _ hn
    intro x hx y hy hxy
    have h1 := Int.toNat_of_nonneg (h x hx).1
    have h2 := Int.toNat_of_nonneg (h y hy).1
    rw [← h1, ← h2, hxy]
  have hsub : l.map Int.toNat ⊆ List.range n := by
    intro a ha
    obtain ⟨x, hx, rfl⟩ := List.mem_map.1 ha
    rw [List.mem_range]
    have := h x hx
    omega
  have := (List.subperm_of_subset hnd hsub).length_le
  rw [List.length_map, List.length_range] at this
  exact this

omit [Inhabited D] in
theorem nodes_le_pool {s : BufferPoolManager D} (h : BPMInv s) :
    s.replacer_.node_store_.length ≤ s.pool_size_ := by
  have := length_le_of_nodup_range (s.replacer_.node_store_.map Prod.fst) h.repl.keys_nodup
    s.pool_size_ (by
      intro x hx
      obtain ⟨e, he, rfl⟩ := List.mem_map.1 hx
      have hf : s.replacer_.find e.1 = some e.2 :=
        (lookupNode_eq_some_iff h.repl.keys_nodup e.1 e.2).2 he
      have := (h.tracked e.1).1 (by rw [hf]; rfl)
      exact ⟨this.1, this.2.1⟩)
  rw [List.length_map] at this
  exact this

omit [Inhabited D] in
theorem FetchPage_mapped_exact {s : BufferPoolManager D} {p fra : Int} {r : LRUKReplacer}
    (hp : s.page_table_ p = some fra)
    (hr : (s.replacer_.RecordAccess fra).SetEvictable fra false = some r) :
    FetchPage s p = some (some fra, { s with
      replacer_ := r,
      pages_ := Function.update s.pages_ fra
        { s.pages_ fra with pin_count_ := (s.pages_ fra).pin_count_ + 1 } }) := by
  unfold FetchPage
  rw [hp]
  simp only [hr, Option.map_some']

omit [Inhabited D] in
theorem UnpinPage_exact {s : BufferPoolManager D} {p fra : Int} {r : LRUKReplacer} (d : Bool)
    (hp : s.page_table_ p = some fra)
    (hne : ¬ (p = INVALID_PAGE_ID ∨ (s.pages_ fra).pin_count_ = 0))
    (hr : (if (s.pages_ fra).pin_count_ - 1 = 0 then s.replacer_.SetEvictable fra true
      else some s.replacer_) = some r) :
    UnpinPage s p d = some (true, { s with
      replacer_ := r,
      pages_ := Function.update s.pages_ fra
        { s.pages_ fra with pin_count_ := (s.pages_ fra).pin_count_ - 1,
                            is_dirty_ := (s.pages_ fra).is_dirty_ || d } }) := by
  unfold UnpinPage
  rw [hp]
  simp only [if_neg hne, hr, Option.map_some']

theorem DeletePage_exact {s : BufferPoolManager D} {p fra : Int} {r : LRUKReplacer}
    (hi : p ≠ INVALID_PAGE_ID) (hp : s.page_table_ p = some fra)
    (hpin : ¬ 0 < (s.pages_ fra).pin_count_) (hr : s.replacer_.Remove fra = some r) :
    DeletePage s p = some (true, { s with
      free_list_ := s.free_list_ ++ [fra],
      replacer_ := r,
      page_table_ := tableErase s.page_table_ p,
      pages_ := Function.update s.pages_ fra (s.pages_ fra).ResetMemory }) := by
  unfold DeletePage
  rw [if_neg hi, hp]
  simp only [if_neg hpin, hr, Option.map_some']

omit [Inhabited D] in
theorem acquireFrame_size {s s1 : BufferPoolManager D} {fra : Int} (h : BPMInv s)
    (hs : SizeInv s.replacer_) (hpool : s.pool_size_ < 2 ^ 64)
    (ha : acquireFrame s = some (fra, s1)) :
    SizeInv s1.replacer_ ∧ s1.replacer_.evictableCount < 2 ^ 64 ∧
      ∀ g, g ≠ fra → s1.replacer_.find g = s.replacer_.find g := by
  have hlen := nodes_le_pool h
  have hcnt : s.replacer_.evictableCount < 2 ^ 64 :=
    lt_of_le_of_lt (countEvictable_le _) (lt_of_le_of_lt hlen hpool)
  unfold acquireFrame at ha
  cases hfl : s.free_list_ with
  | cons f0 rest =>
    rw [hfl] at ha
    simp only [Option.some.injEq, Prod.mk.injEq] at ha
    obtain ⟨rfl, rfl⟩ := ha
    exact ⟨hs, hcnt, fun g _ => rfl⟩
  | nil =>
    rw [hfl] at ha
    simp only at ha
    cases hev : s.replacer_.Evict with
    | mk o r =>
      rw [hev] at ha
      cases o with
      | none => simp at ha
      | some f0 =>
        simp only [Option.some.injEq, Prod.mk.injEq] at ha
        obtain ⟨rfl, rfl⟩ := ha
        have hev1 : s.replacer_.Evict.1 = some f0 := by rw [hev]
        obtain ⟨h1, h2, _⟩ := SizeInv_Evict h.repl hs hcnt
        obtain ⟨_, _, hfind⟩ := (Evict_spec h.repl).2 f0 hev1
        rw [hev] at h1 h2 hfind
        simp only at h1 h2 hfind
        refine ⟨h1, ?_, fun g hg => by rw [hfind, if_neg hg]⟩
        exact lt_of_le_of_lt (countEvictable_le _)
          (lt_of_le_of_lt (le_trans h2 hlen) hpool)

omit [Inhabited D] in
theorem install_size {s1 : BufferPoolManager D} {fra : Int} (h : AcqInv s1 fra)
    (hs : SizeInv s1.replacer_) (hcnt : s1.replacer_.evictableCount < 2 ^ 64)
    {r : LRUKReplacer}
    (hr : (s1.replacer_.RecordAccess fra).SetEvictable fra false = some r) :
    SizeInv r ∧ ∀ g, r.find g =
      if g = fra then some ((s1.replacer_.accessed fra).set_evictab false)
      else s1.replacer_.find g := by
  have hra := ReplInv.RecordAccess h.repl fra
  have hfa : (s1.replacer_.RecordAccess fra).find fra = some (s1.replacer_.accessed fra) := by
    rw [find_RecordAccess, if_pos rfl]
  obtain ⟨r2, hr2, _, hfind⟩ := SetEvictable_spec hra hfa false
  rw [hr] at hr2
  cases hr2
  obtain ⟨hc1, _, _⟩ := RecordAccess_count h.repl.keys_nodup fra
  have hs1 := SizeInv_RecordAccess h.repl hs fra
  refine ⟨(SizeInv_SetEvictable hra hs1 (by rw [hc1]; exact hcnt)
    (fun hc => Bool.noConfusion hc) hr).1, ?_⟩
  intro g
  rw [hfind, find_RecordAccess]
  by_cases hg : g = fra
  · rw [if_pos hg, if_pos hg]
  · rw [if_neg hg, if_neg hg, if_neg hg]

omit [Inhabited D] in
theorem install_sizeInv {s s1 : BufferPoolManager D} {fra : Int} (h : BPMInv s)
    (hz : BPMSizeInv s) (hpool : s.pool_size_ < 2 ^ 64)
    (ha : acquireFrame s = some (fra, s1)) {r : LRUKReplacer}
    (hr : (s1.replacer_.RecordAccess fra).SetEvictable fra false = some r)
    (pid next : Int) (data : D) :
    BPMSizeInv (install s1 fra r pid next data) := by
  obtain ⟨hacq, hpages, _⟩ := acquireFrame_spec h ha
  obtain ⟨hs1, hcnt1, hfind1⟩ := acquireFrame_size h hz.size hpool ha
  obtain ⟨hsr, hfindr⟩ := install_size hacq hs1 hcnt1 hr
  refine ⟨hsr, ?_⟩
  intro g n hn hpin
  have hn' : r.find g = some n := hn
  by_cases hg : g = fra
  · subst hg
    have hp1 : ((install s1 g r pid next data).pages_ g).pin_count_ = 1 := by
      simp only [install, Function.update_same]
    rw [hp1] at hpin
    exact absurd hpin (by decide)
  · rw [hfindr, if_neg hg, hfind1 g hg] at hn'
    have hpg : (install s1 fra r pid next data).pages_ g = s.pages_ g := by
      simp only [install, Function.update_noteq hg, hpages]
    rw [hpg] at hpin
    exact hz.zero g n hn' hpin

theorem applyOp_sizeInv {s s' : BufferPoolManager D} (h : BPMInv s) (hz : BPMSizeInv s)
    (hpool : s.pool_size_ < 2 ^ 64) (op : BPMOp) (hs : applyOp s op = some s') :
    BPMSizeInv s' := by
  have hlen := lt_of_le_of_lt (nodes_le_pool h) hpool
  have hcnt : s.replacer_.evictableCount < 2 ^ 64 :=
    lt_of_le_of_lt (countEvictable_le _) hlen
  cases op with
  | newPage =>
    rcases NewPage_cases h with ⟨_, hn⟩ | ⟨fra, s1, r, hacq, hr, hn⟩
    · simp only [applyOp, hn, Option.map_some', Option.some.injEq] at hs
      exact hs ▸ hz
    · simp only [applyOp, hn, Option.map_some', Option.some.injEq] at hs
      rw [← hs]
      exact install_sizeInv h hz hpool hacq hr _ _ _
  | fetchPage p =>
    cases hp : s.page_table_ p with
    | none =>
      rcases FetchPage_unmapped_cases h p hp with ⟨_, hn⟩ | ⟨fra, s1, r, hacq, hr, hn⟩
      · simp only [applyOp, hn, Option.map_some', Option.some.injEq] at hs
        exact hs ▸ hz
      · simp only [applyOp, hn, Option.map_some', Option.some.injEq] at hs
        rw [← hs]
        exact install_sizeInv h hz hpool hacq hr _ _ _
    | some fra =>
      have hra := ReplInv.RecordAccess h.repl fra
      have hfa : (s.replacer_.RecordAccess fra).find fra = some (s.replacer_.accessed fra) := by
        rw [find_RecordAccess, if_pos rfl]
      obtain ⟨r, hr, _, hfind⟩ := SetEvictable_spec hra hfa false
      have hn := FetchPage_mapped_exact hp hr
      simp only [applyOp, hn, Option.map_some', Option.some.injEq] at hs
      rw [← hs]
      obtain ⟨hc1, _, _⟩ := RecordAccess_count h.repl.keys_nodup fra
      have hs1 := SizeInv_RecordAccess h.repl hz.size fra
      refine ⟨(SizeInv_SetEvictable hra hs1 (by rw [hc1]; exact hcnt)
        (fun hc => Bool.noConfusion hc) hr).1, ?_⟩
      intro g n hn' hpin
      have hn2 : r.find g = some n := hn'
      by_cases hg : g = fra
      · subst hg
        have := h.pin_nonneg g
        simp only [Function.update_same] at hpin
        omega
      · rw [hfind, if_neg hg, find_RecordAccess, if_neg hg] at hn2
        simp only [Function.update_noteq hg] at hpin
        exact hz.zero g n hn2 hpin
  | unpinPage p d =>
    cases hp : s.page_table_ p with
    | none =>
      have hn : UnpinPage s p d = some (false, s) := by unfold UnpinPage; rw [hp]
      simp only [applyOp, hn, Option.map_some', Option.some.injEq] at hs
      exact hs ▸ hz
    | some fra =>
      by_cases hne : p = INVALID_PAGE_ID ∨ (s.pages_ fra).pin_count_ = 0
      · have hn : UnpinPage s p d = some (false, s) := by
          unfold UnpinPage; rw [hp]; simp only [if_pos hne]
        simp only [applyOp, hn, Option.map_some', Option.some.injEq] at hs
        exact hs ▸ hz
      · obtain ⟨n0, hn0⟩ := find_of_mapped h hp
        by_cases hzero : (s.pages_ fra).pin_count_ - 1 = 0
        · obtain ⟨r, hr, _, hfind⟩ := SetEvictable_spec h.repl hn0 true
          have hn := UnpinPage_exact d hp hne (by rw [if_pos hzero]; exact hr)
          simp only [applyOp, hn, Option.map_some', Option.some.injEq] at hs
          rw [← hs]
          refine ⟨(SizeInv_SetEvictable h.repl hz.size hcnt (fun _ => hlen) hr).1, ?_⟩
          intro g n hn' hpin
          have hn2 : r.find g = some n := hn'
          by_cases hg : g = fra
          · rw [hfind, if_pos hg] at hn2
            cases hn2
            rfl
          · rw [hfind, if_neg hg] at hn2
            simp only [Function.update_noteq hg] at hpin
            exact hz.zero g n hn2 hpin
        · have hn := UnpinPage_exact (r := s.replacer_) d hp hne (by rw [if_neg hzero])
          simp only [applyOp, hn, Option.map_some', Option.some.injEq] at hs
          rw [← hs]
          refine ⟨hz.size, ?_⟩
          intro g n hn' hpin
          by_cases hg : g = fra
          · subst hg
            simp only [Function.update_same] at hpin
            exact absurd hpin hzero
          · simp only [Function.update_noteq hg] at hpin
            exact hz.zero g n hn' hpin
  | flushPage p =>
    simp only [applyOp, Option.some.injEq] at hs
    rw [← hs]
    unfold FlushPage
    cases hp : s.page_table_ p with
    | none => exact hz
    | some fra =>
      simp only
      split
      · exact hz
      · refine ⟨hz.size, ?_⟩
        intro g n hn' hpin
        apply hz.zero g n hn'
        simp only [Function.update_apply] at hpin
        split at hpin
        · rename_i e; rw [e]; exact hpin
        · exact hpin
  | deletePage p =>
    rcases DeletePage_cases h p with ⟨b, hn⟩ | ⟨fra, r0, hp, hpin0, _, _, hn0⟩
    · simp only [applyOp, hn, Option.map_some', Option.some.injEq] at hs
      exact hs ▸ hz
    · obtain ⟨n0, hf0⟩ := find_of_mapped h hp
      obtain ⟨r, hr, _, hfind⟩ := Remove_node_spec h.repl hf0
      have hi : p ≠ INVALID_PAGE_ID := by
        intro hi
        have : DeletePage s p = some (true, s) := by unfold DeletePage; rw [if_pos hi]
        rw [this] at hn0
        simp only [Option.some.injEq, Prod.mk.injEq, true_and] at hn0
        have hfl := congrArg BufferPoolManager.free_list_ hn0
        simp only at hfl
        have := congrArg List.length hfl
        simp at this
      have hn := DeletePage_exact hi hp (by omega) hr
      simp only [applyOp, hn, Option.map_some', Option.some.injEq] at hs
      rw [← hs]
      refine ⟨(SizeInv_Remove h.repl hz.size hcnt hr).1, ?_⟩
      intro g n hn' hpin
      have hn2 : r.find g = some n := hn'
      by_cases hg : g = fra
      · rw [hfind, if_pos hg] at hn2
        cases hn2
      · rw [hfind, if_neg hg] at hn2
        simp only [Function.update_noteq hg] at hpin
        exact hz.zero g n hn2 hpin

theorem BPMSizeInv_new (pool_size k : Nat) (disk : Int → D) :
    BPMSizeInv (new pool_size k disk) :=
  ⟨rfl, fun f n hn => by cases hn⟩

theorem runOps_sizeInv (ops : List BPMOp) {s s' : BufferPoolManager D} (h : BPMInv s)
    (hz : BPMSizeInv s) (hpool : s.pool_size_ < 2 ^ 64) (hs : runOps ops s = some s') :
    BPMSizeInv s' := by
  induction ops generalizing s with
  | nil =>
    simp only [runOps, Option.some.injEq] at hs
    exact hs ▸ hz
  | cons op ops ih =>
    obtain ⟨s1, h1, hinv1⟩ := applyOp_inv h op
    simp only [runOps, h1, Option.some_bind] at hs
    have hp1 : s1.pool_size_ < 2 ^ 64 := by
      rw [applyOp_pool_size h op h1]; exact hpool
    exact ih hinv1 (applyOp_sizeInv h hz hpool op h1) hp1 hs

end BufferPoolManager
end bustub

/-! ### Buffer pool: FlushPage -/

namespace bustub
namespace BufferPoolManager
variable {D : Type}

/-- `FlushPage` on a page that is not mapped, or on `INVALID_PAGE_ID`. -/
theorem FlushPage_of_unmapped (s : BufferPoolManager D) (p : Int)
    (h : s.page_table_ p = none ∨ p = INVALID_PAGE_ID) : FlushPage s p = (false, s) := by
  unfold FlushPage
  cases hp : s.page_table_ p with
  | none => rfl
  | some f =>
    rcases h with h | h
    · rw [hp] at h; cases h
    · simp only [if_pos h]

/-- `FlushPage` on a mapped page: everything the call changes and keeps. -/
theorem FlushPage_of_mapped (s : BufferPoolManager D) (p f : Int)
    (hp : s.page_table_ p = some f) (hi : p ≠ INVALID_PAGE_ID) :
    (FlushPage s p).1 = true ∧
    (FlushPage s p).2.disk p = (s.pages_ f).data_ ∧
    (∀ q, q ≠ p → (FlushPage s p).2.disk q = s.disk q) ∧
    ((FlushPage s p).2.pages_ f).is_dirty_ = false ∧
    ((FlushPage s p).2.pages_ f).pin_count_ = (s.pages_ f).pin_count_ ∧
    ((FlushPage s p).2.pages_ f).data_ = (s.pages_ f).data_ ∧
    ((FlushPage s p).2.pages_ f).page_id_ = (s.pages_ f).page_id_ ∧
    (∀ g, g ≠ f → (FlushPage s p).2.pages_ g = s.pages_ g) ∧
    (FlushPage s p).2.page_table_ = s.page_table_ ∧
    (FlushPage s p).2.free_list_ = s.free_list_ ∧
    (FlushPage s p).2.replacer_ = s.replacer_ ∧
    (FlushPage s p).2.next_page_id_ = s.next_page_id_ := by
  unfold FlushPage
  rw [hp]
  simp only [if_neg hi, Function.update_same, true_and, and_true]
  refine ⟨?_, ?_⟩
  · intro q hq
    exact Function.update_noteq hq _ _
  · intro g hg
    exact Function.update_noteq hg _ _

/-- C13, as stated, fails: after `FetchPage(INVALID_PAGE_ID)` the id is mapped,
and `FlushPage(INVALID_PAGE_ID)` returns false and writes nothing. -/
theorem FlushPage_rejects_invalid_page_id :
    ∃ s, runOps [BPMOp.fetchPage INVALID_PAGE_ID] (new 1 2 exampleDisk) = some s ∧
      s.page_table_ INVALID_PAGE_ID = some 0 ∧
      (FlushPage s INVALID_PAGE_ID).1 = false := by
  refine ⟨_, rfl, ?_, ?_⟩
  · decide
  · decide

/-- C13, amended: in every state, `FlushPage(p)` returns false and changes
nothing if `p` is not mapped or is `INVALID_PAGE_ID`; otherwise it returns
true, writes the data of the page's frame to disk under `p` whatever the dirty
flag is, clears the dirty flag, and leaves pin counts, the other frames, the
rest of the disk, the page table, the free list and the replacer unchanged. -/
theorem FlushPage_effect (s : BufferPoolManager D) (p : Int) :
    ((s.page_table_ p = none ∨ p = INVALID_PAGE_ID) → FlushPage s p = (false, s)) ∧
    (∀ f, s.page_table_ p = some f → p ≠ INVALID_PAGE_ID →
      (FlushPage s p).1 = true ∧
      (FlushPage s p).2.disk p = (s.pages_ f).data_ ∧
      (∀ q, q ≠ p → (FlushPage s p).2.disk q = s.disk q) ∧
      ((FlushPage s p).2.pages_ f).is_dirty_ = false ∧
      ((FlushPage s p).2.pages_ f).pin_count_ = (s.pages_ f).pin_count_ ∧
      ((FlushPage s p).2.pages_ f).data_ = (s.pages_ f).data_ ∧
      ((FlushPage s p).2.pages_ f).page_id_ = (s.pages_ f).page_id_ ∧
      (∀ g, g ≠ f → (FlushPage s p).2.pages_ g = s.pages_ g) ∧
      (FlushPage s p).2.page_table_ = s.page_table_ ∧
      (FlushPage s p).2.free_list_ = s.free_list_ ∧
      (FlushPage s p).2.replacer_ = s.replacer_ ∧
      (FlushPage s p).2.next_page_id_ = s.next_page_id_) := by
  constructor
  · intro h
    exact FlushPage_of_unmapped s p h
  · intro f hp hi
    exact FlushPage_of_mapped s p f hp hi

end BufferPoolManager
end bustub

/-! ### Buffer pool: UnpinPage and DeletePage -/

namespace bustub
open LRUKReplacer
namespace BufferPoolManager
variable {D : Type} [Inhabited D]

omit [Inhabited D] in
theorem UnpinPage_false {s : BufferPoolManager D} (p : Int) (d : Bool)
    (h : s.page_table_ p = none ∨ p = INVALID_PAGE_ID ∨
      ∃ f, s.page_table_ p = some f ∧ (s.pages_ f).pin_count_ = 0) :
    UnpinPage s p d = some (false, s) := by
  unfold UnpinPage
  cases hp : s.page_table_ p with
  | none => rfl
  | some f =>
    simp only
    rcases h with h | h | ⟨g, hg, hz⟩
    · rw [hp] at h; cases h
    · rw [if_pos (Or.inl h)]
    · rw [hp] at hg
      cases hg
      rw [if_pos (Or.inr hz)]

/-- C11, as stated, fails: after `FetchPage(INVALID_PAGE_ID)` the id is in the
page table with pin count 1, and `UnpinPage(INVALID_PAGE_ID, false)` returns
false. -/
theorem UnpinPage_rejects_invalid_page_id :
    ∃ s, runOps [BPMOp.fetchPage INVALID_PAGE_ID] (new 1 2 exampleDisk) = some s ∧
      s.page_table_ INVALID_PAGE_ID = some 0 ∧ (s.pages_ 0).pin_count_ = 1 ∧
      (UnpinPage s INVALID_PAGE_ID false).map Prod.fst = some false := by
  refine ⟨_, rfl, ?_, ?_, ?_⟩
  · decide
  · decide
  · decide

/-- C11, amended: in every state reached from the initial state (`k ≥ 1`),
`UnpinPage(p, d)` returns false and changes nothing if `p` is not in the page
table, is `INVALID_PAGE_ID`, or has pin count 0; otherwise it returns true,
decrements the pin count of the page's frame by exactly 1, leaves the frame
evictable exactly when the new pin count is 0, and changes no other frame
(their metadata and replacer nodes), nor the page table, the free list or the
disk. -/
theorem UnpinPage_effect (pool_size k : Nat) (hk : 0 < k) (disk : Int → D)
    (ops : List BPMOp) (p : Int) (d : Bool) :
    ∃ s, runOps ops (new pool_size k disk) = some s ∧
      ((s.page_table_ p = none ∨ p = INVALID_PAGE_ID ∨
          (∃ f, s.page_table_ p = some f ∧ (s.pages_ f).pin_count_ = 0)) →
        UnpinPage s p d = some (false, s)) ∧
      (∀ f, s.page_table_ p = some f → p ≠ INVALID_PAGE_ID →
        (s.pages_ f).pin_count_ ≠ 0 →
        ∃ s', UnpinPage s p d = some (true, s') ∧
          (s'.pages_ f).pin_count_ = (s.pages_ f).pin_count_ - 1 ∧
          (s'.pages_ f).page_id_ = (s.pages_ f).page_id_ ∧
          (s'.pages_ f).data_ = (s.pages_ f).data_ ∧
          (∃ n, s'.replacer_.find f = some n ∧
            (n.is_evictable_ = true ↔ (s'.pages_ f).pin_count_ = 0)) ∧
          (∀ g, g ≠ f → s'.pages_ g = s.pages_ g ∧
            s'.replacer_.find g = s.replacer_.find g) ∧
          s'.page_table_ = s.page_table_ ∧ s'.free_list_ = s.free_list_ ∧
          s'.disk = s.disk ∧ s'.next_page_id_ = s.next_page_id_) := by
  obtain ⟨s, hs, hinv⟩ := runOps_inv ops (BPMInv_new pool_size k hk disk)
  refine ⟨s, hs, UnpinPage_false p d, ?_⟩
  intro f hp hi hpin
  have hne : ¬ (p = INVALID_PAGE_ID ∨ (s.pages_ f).pin_count_ = 0) := by
    rintro (h | h)
    · exact hi h
    · exact hpin h
  obtain ⟨n0, hn0⟩ := find_of_mapped hinv hp
  by_cases hzero : (s.pages_ f).pin_count_ - 1 = 0
  · obtain ⟨r, hr, _, hfind⟩ := SetEvictable_spec hinv.repl hn0 true
    have hn := UnpinPage_exact d hp hne (by rw [if_pos hzero]; exact hr)
    refine ⟨_, hn, ?_, ?_, ?_, ?_, ?_, rfl, rfl, rfl, rfl⟩
    · simp only [Function.update_same]
    · simp only [Function.update_same]
    · simp only [Function.update_same]
    · refine ⟨n0.set_evictab true, ?_, ?_⟩
      · show r.find f = _
        rw [hfind, if_pos rfl]
      · simp only [Function.update_same]
        exact ⟨fun _ => hzero, fun _ => rfl⟩
    · intro g hg
      refine ⟨?_, ?_⟩
      · simp only [Function.update_noteq hg]
      · show r.find g = _
        rw [hfind, if_neg hg]
  · have hn := UnpinPage_exact (r := s.replacer_) d hp hne (by rw [if_neg hzero])
    refine ⟨_, hn, ?_, ?_, ?_, ?_, ?_, rfl, rfl, rfl, rfl⟩
    · simp only [Function.update_same]
    · simp only [Function.update_same]
    · simp only [Function.update_same]
    · refine ⟨n0, hn0, ?_⟩
      simp only [Function.update_same]
      constructor
      · intro he
        exact absurd (hinv.evictable f n0 hn0 he).1 hpin
      · intro hc
        exact absurd hc hzero
    · intro g hg
      refine ⟨?_, rfl⟩
      simp only [Function.update_noteq hg]

theorem UnpinPage_effect_witness :
    0 < 2 ∧ ∃ s, runOps [BPMOp.newPage, BPMOp.fetchPage 0] (new 2 2 exampleDisk) = some s ∧
      ((s.page_table_ 0 = none ∨ (0 : Int) = INVALID_PAGE_ID ∨
          (∃ f, s.page_table_ 0 = some f ∧ (s.pages_ f).pin_count_ = 0)) →
        UnpinPage s 0 true = some (false, s)) ∧
      (∀ f, s.page_table_ 0 = some f → (0 : Int) ≠ INVALID_PAGE_ID →
        (s.pages_ f).pin_count_ ≠ 0 →
        ∃ s', UnpinPage s 0 true = some (true, s') ∧
          (s'.pages_ f).pin_count_ = (s.pages_ f).pin_count_ - 1 ∧
          (s'.pages_ f).page_id_ = (s.pages_ f).page_id_ ∧
          (s'.pages_ f).data_ = (s.pages_ f).data_ ∧
          (∃ n, s'.replacer_.find f = some n ∧
            (n.is_evictable_ = true ↔ (s'.pages_ f).pin_count_ = 0)) ∧
          (∀ g, g ≠ f → s'.pages_ g = s.pages_ g ∧
            s'.replacer_.find g = s.replacer_.find g) ∧
          s'.page_table_ = s.page_table_ ∧ s'.free_list_ = s.free_list_ ∧
          s'.disk = s.disk ∧ s'.next_page_id_ = s.next_page_id_) :=
  ⟨by decide, UnpinPage_effect 2 2 (by decide) exampleDisk _ 0 true⟩

/-- C14, as stated, fails: after `FetchPage(INVALID_PAGE_ID)` the id is mapped
with pin count 1, and `DeletePage(INVALID_PAGE_ID)` returns true. -/
theorem DeletePage_accepts_invalid_page_id :
    ∃ s, runOps [BPMOp.fetchPage INVALID_PAGE_ID] (new 1 2 exampleDisk) = some s ∧
      s.page_table_ INVALID_PAGE_ID = some 0 ∧ 0 < (s.pages_ 0).pin_count_ ∧
      (DeletePage s INVALID_PAGE_ID).map Prod.fst = some true := by
  refine ⟨_, rfl, ?_, ?_, ?_⟩
  · decide
  · decide
  · decide

/-- C14, amended: in every state reached from the initial state (`k ≥ 1`, pool
size below `2^64`), `DeletePage(p)` returns true with no state change if `p` is
not mapped or is `INVALID_PAGE_ID`; returns false with no state change if `p`
is mapped with pin count above 0; otherwise it returns true, appends the frame
of `p` to the free list, removes the frame's replacer node, whereby `Size()`
decreases by 1 and again counts the evictable frames, and removes `p` from the
page table, keeping the other entries. -/
theorem DeletePage_effect (pool_size k : Nat) (hk : 0 < k) (hpool : pool_size < 2 ^ 64)
    (disk : Int → D) (ops : List BPMOp) (p : Int) :
    ∃ s, runOps ops (new pool_size k disk) = some s ∧
      ((s.page_table_ p = none ∨ p = INVALID_PAGE_ID) → DeletePage s p = some (true, s)) ∧
      (∀ f, s.page_table_ p = some f → p ≠ INVALID_PAGE_ID →
        0 < (s.pages_ f).pin_count_ → DeletePage s p = some (false, s)) ∧
      (∀ f, s.page_table_ p = some f → p ≠ INVALID_PAGE_ID →
        ¬ 0 < (s.pages_ f).pin_count_ →
        ∃ s', DeletePage s p = some (true, s') ∧
          s'.free_list_ = s.free_list_ ++ [f] ∧
          s'.replacer_.find f = none ∧
          (∀ g, g ≠ f → s'.replacer_.find g = s.replacer_.find g) ∧
          s'.replacer_.Size + 1 = s.replacer_.Size ∧
          s'.replacer_.Size = s'.replacer_.evictableCount ∧
          s'.page_table_ p = none ∧
          (∀ q, q ≠ p → s'.page_table_ q = s.page_table_ q)) := by
  have hinit := BPMInv_new pool_size k hk disk
  obtain ⟨s, hs, hinv⟩ := runOps_inv ops hinit
  have hz := runOps_sizeInv ops hinit (BPMSizeInv_new pool_size k disk) hpool hs
  have hps : s.pool_size_ < 2 ^ 64 := by
    rw [runOps_pool_size ops hinit hs]; exact hpool
  have hcnt : s.replacer_.evictableCount < 2 ^ 64 :=
    lt_of_le_of_lt (countEvictable_le _) (lt_of_le_of_lt (nodes_le_pool hinv) hps)
  refine ⟨s, hs, ?_, ?_, ?_⟩
  · intro h
    unfold DeletePage
    by_cases hi : p = INVALID_PAGE_ID
    · rw [if_pos hi]
    · rw [if_neg hi]
      rcases h with h | h
      · rw [h]
      · exact absurd h hi
  · intro f hp hi hpin
    unfold DeletePage
    rw [if_neg hi, hp]
    simp only [if_pos hpin]
  · intro f hp hi hpin
    obtain ⟨n0, hf0⟩ := find_of_mapped hinv hp
    obtain ⟨r, hr, _, hfind⟩ := Remove_node_spec hinv.repl hf0
    have hn := DeletePage_exact hi hp hpin hr
    obtain ⟨hsz, _, m, hm, hdec⟩ := SizeInv_Remove hinv.repl hz.size hcnt hr
    rw [hf0] at hm
    cases hm
    have hpin0 : (s.pages_ f).pin_count_ = 0 := by
      have := hinv.pin_nonneg f
      omega
    have hev := hz.zero f n0 hf0 hpin0
    rw [hev] at hdec
    refine ⟨_, hn, rfl, ?_, ?_, hdec, hsz, ?_, ?_⟩
    · show r.find f = none
      rw [hfind, if_pos rfl]
    · intro g hg
      show r.find g = _
      rw [hfind, if_neg hg]
    · exact Function.update_same _ _ _
    · intro q hq
      exact Function.update_noteq hq _ _

theorem DeletePage_effect_witness :
    0 < 2 ∧ 2 < 2 ^ 64 ∧
    ∃ s, runOps [BPMOp.newPage, BPMOp.unpinPage 0 false] (new 2 2 exampleDisk) = some s ∧
      ((s.page_table_ 0 = none ∨ (0 : Int) = INVALID_PAGE_ID) →
        DeletePage s 0 = some (true, s)) ∧
      (∀ f, s.page_table_ 0 = some f → (0 : Int) ≠ INVALID_PAGE_ID →
        0 < (s.pages_ f).pin_count_ → DeletePage s 0 = some (false, s)) ∧
      (∀ f, s.page_table_ 0 = some f → (0 : Int) ≠ INVALID_PAGE_ID →
        ¬ 0 < (s.pages_ f).pin_count_ →
        ∃ s', DeletePage s 0 = some (true, s') ∧
          s'.free_list_ = s.free_list_ ++ [f] ∧
          s'.replacer_.find f = none ∧
          (∀ g, g ≠ f → s'.replacer_.find g = s.replacer_.find g) ∧
          s'.replacer_.Size + 1 = s.replacer_.Size ∧
          s'.replacer_.Size = s'.replacer_.evictableCount ∧
          s'.page_table_ 0 = none ∧
          (∀ q, q ≠ 0 → s'.page_table_ q = s.page_table_ q)) :=
  ⟨by decide, by decide, DeletePage_effect 2 2 (by decide) (by decide) exampleDisk _ 0⟩

end BufferPoolManager
end bustub

/-! ### Buffer pool: dirty flags and FlushAllPages -/

namespace bustub
open LRUKReplacer
namespace BufferPoolManager
variable {D : Type} [Inhabited D]

theorem dirty_step {s s' : BufferPoolManager D} (h : BPMInv s) {p f : Int}
    (hp : s.page_table_ p = some f) (hd : (s.pages_ f).is_dirty_ = true) (op : BPMOp)
    (hop : fetchOrUnpin op = true) (hs : applyOp s op = some s')
    (hm : (s'.page_table_ p).isSome = true) :
    s'.page_table_ p = some f ∧ (s'.pages_ f).is_dirty_ = true := by
  cases op with
  | newPage => cases hop
  | flushPage q => cases hop
  | deletePage q => cases hop
  | fetchPage q =>
    cases hq : s.page_table_ q with
    | none =>
      rcases FetchPage_unmapped_cases h q hq with ⟨_, hn⟩ | ⟨fra, s1, r, hacq, hr, hn⟩
      · simp only [applyOp, hn, Option.map_some', Option.some.injEq] at hs
        rw [← hs]
        exact ⟨hp, hd⟩
      · simp only [applyOp, hn, Option.map_some', Option.some.injEq] at hs
        rw [← hs] at hm ⊢
        obtain ⟨hacq', hpages, _, _, hsub, _⟩ := acquireFrame_spec h hacq
        have hpq : p ≠ q := by
          intro e
          rw [e, hq] at hp
          cases hp
        have htab : (install s1 fra r q s.next_page_id_ (s1.disk q)).page_table_ p =
            s1.page_table_ p := by
          simp only [install, tableInsert_apply]
          rw [if_neg (fun hc => hpq hc.1)]
        rw [htab] at hm ⊢
        cases h1 : s1.page_table_ p with
        | none => rw [h1] at hm; cases hm
        | some g =>
          have hg := hsub p g h1
          rw [hp] at hg
          cases hg
          have hf : f ≠ fra := fun e => hacq'.fra_unmapped p (e ▸ h1)
          refine ⟨rfl, ?_⟩
          simp only [install, Function.update_noteq hf, hpages]
          exact hd
    | some fq =>
      obtain ⟨r, _, _, hn⟩ := FetchPage_mapped h hq
      simp only [applyOp, hn, Option.map_some', Option.some.injEq] at hs
      rw [← hs]
      refine ⟨hp, ?_⟩
      simp only [Function.update_apply]
      split
      · rename_i e; rw [← e]; exact hd
      · exact hd
  | unpinPage q d =>
    rcases UnpinPage_cases h q d with hn | ⟨fra, r, _, _, _, _, hn⟩
    · simp only [applyOp, hn, Option.map_some', Option.some.injEq] at hs
      rw [← hs]
      exact ⟨hp, hd⟩
    · simp only [applyOp, hn, Option.map_some', Option.some.injEq] at hs
      rw [← hs]
      refine ⟨hp, ?_⟩
      simp only [Function.update_apply]
      split
      · rename_i e
        rw [e] at hd
        show ((s.pages_ fra).is_dirty_ || d) = true
        rw [hd]; rfl
      · exact hd

theorem dirty_run (later : List BPMOp) {s : BufferPoolManager D} (h : BPMInv s) {p f : Int}
    (hp : s.page_table_ p = some f) (hd : (s.pages_ f).is_dirty_ = true)
    (hops : ∀ op ∈ later, fetchOrUnpin op = true) :
    ∃ s', runOps later s = some s' ∧
      (staysMapped p later s = true →
        s'.page_table_ p = some f ∧ (s'.pages_ f).is_dirty_ = true) := by
  induction later generalizing s with
  | nil => exact ⟨s, rfl, fun _ => ⟨hp, hd⟩⟩
  | cons op ops ih =>
    obtain ⟨s1, h1, hinv1⟩ := applyOp_inv h op
    by_cases hm : (s1.page_table_ p).isSome = true
    · obtain ⟨hp1, hd1⟩ := dirty_step h hp hd op (hops op (List.mem_cons_self _ _)) h1 hm
      obtain ⟨s2, h2, h3⟩ := ih hinv1 hp1 hd1 (fun o ho => hops o (List.mem_cons_of_mem _ ho))
      refine ⟨s2, by simp only [runOps, h1, Option.some_bind, h2], ?_⟩
      intro hst
      simp only [staysMapped, h1, Bool.and_eq_true] at hst
      exact h3 hst.2
    · obtain ⟨s2, h2, _⟩ := runOps_inv ops hinv1
      refine ⟨s2, by simp only [runOps, h1, Option.some_bind, h2], ?_⟩
      intro hst
      simp only [staysMapped, h1, Bool.and_eq_true] at hst
      exact absurd hst.1 hm

/-- A page that is in the page table, is not `INVALID_PAGE_ID` and is pinned is
unpinned with success: the page stays in its frame and the dirty flag of the
frame becomes the old flag OR `d`. -/
theorem UnpinPage_dirty {s : BufferPoolManager D} (h : BPMInv s) {p f : Int}
    (hp : s.page_table_ p = some f) (hv : p ≠ INVALID_PAGE_ID)
    (hpin : 0 < (s.pages_ f).pin_count_) (d : Bool) :
    ∃ s1, UnpinPage s p d = some (true, s1) ∧ BPMInv s1 ∧
      s1.page_table_ p = some f ∧
      (s1.pages_ f).is_dirty_ = ((s.pages_ f).is_dirty_ || d) := by
  have hne : ¬ (p = INVALID_PAGE_ID ∨ (s.pages_ f).pin_count_ = 0) := by
    rintro (e | e)
    · exact hv e
    · omega
  obtain ⟨r, _, _, hn⟩ := UnpinPage_mapped h d hp hne
  obtain ⟨s1, h1, hinv1⟩ := applyOp_inv h (BPMOp.unpinPage p d)
  simp only [applyOp, hn, Option.map_some', Option.some.injEq] at h1
  refine ⟨_, hn, ?_, hp, ?_⟩
  · rw [h1]
    exact hinv1
  · simp only [Function.update_same]

/-- C12: in every state reached from the initial state (`k ≥ 1`), `UnpinPage(p, d)`
on a page that is in the page table, is not `INVALID_PAGE_ID` and is pinned
returns `true` and sets the dirty flag of the page's frame to the old flag OR
`d`; when that value is `true` the page stays mapped to the frame and dirty
through every further sequence of `FetchPage` and `UnpinPage` calls during
which it is not evicted.  Every successful `UnpinPage(p, d)` leaves the flag at
the old flag OR `d`, so `UnpinPage(p, false)` does not clear it, and every
mapped dirty page stays dirty in the same way. -/
theorem dirty_flag_accumulates (pool_size k : Nat) (hk : 0 < k) (disk : Int → D)
    (ops : List BPMOp) (p : Int) :
    ∃ s, runOps ops (new pool_size k disk) = some s ∧
      (∀ f, s.page_table_ p = some f → p ≠ INVALID_PAGE_ID →
        0 < (s.pages_ f).pin_count_ →
        ∀ d, ∃ s1, UnpinPage s p d = some (true, s1) ∧
          s1.page_table_ p = some f ∧
          (s1.pages_ f).is_dirty_ = ((s.pages_ f).is_dirty_ || d) ∧
          ∀ later, (∀ op ∈ later, fetchOrUnpin op = true) →
            ∃ s2, runOps later s1 = some s2 ∧
              (staysMapped p later s1 = true →
                ((s.pages_ f).is_dirty_ || d) = true →
                s2.page_table_ p = some f ∧ (s2.pages_ f).is_dirty_ = true)) ∧
      (∀ f d s', s.page_table_ p = some f → UnpinPage s p d = some (true, s') →
        (s'.pages_ f).is_dirty_ = ((s.pages_ f).is_dirty_ || d)) ∧
      (∀ f, s.page_table_ p = some f → (s.pages_ f).is_dirty_ = true →
        ∀ later, (∀ op ∈ later, fetchOrUnpin op = true) →
          ∃ s', runOps later s = some s' ∧
            (staysMapped p later s = true →
              s'.page_table_ p = some f ∧ (s'.pages_ f).is_dirty_ = true)) := by
  obtain ⟨s, hs, hinv⟩ := runOps_inv ops (BPMInv_new pool_size k hk disk)
  refine ⟨s, hs, ?_, ?_, ?_⟩
  · intro f hp hv hpin d
    obtain ⟨s1, hu, hinv1, hp1, hd1⟩ := UnpinPage_dirty hinv hp hv hpin d
    refine ⟨s1, hu, hp1, hd1, ?_⟩
    intro later hops
    obtain ⟨s2, h2, _⟩ := runOps_inv later hinv1
    refine ⟨s2, h2, ?_⟩
    intro hst hd
    obtain ⟨s2', h2', h3⟩ := dirty_run later hinv1 hp1 (hd1.trans hd) hops
    rw [h2] at h2'
    cases h2'
    exact h3 hst
  · intro f d s' hp hun
    rcases UnpinPage_cases hinv p d with hn | ⟨fra, r, hp', _, _, _, hn⟩
    · rw [hn] at hun
      cases hun
    · rw [hp] at hp'
      cases hp'
      rw [hn] at hun
      simp only [Option.some.injEq, Prod.mk.injEq, true_and] at hun
      rw [← hun]
      simp only [Function.update_same]
  · intro f hp hd later hops
    exact dirty_run later hinv hp hd hops

theorem dirty_flag_accumulates_witness :
    0 < 2 ∧
      runOps [BPMOp.newPage] (new 2 2 exampleDisk) = some exampleOnePage ∧
      exampleOnePage.page_table_ 0 = some 0 ∧
      (exampleOnePage.pages_ 0).pin_count_ = 1 ∧
      (exampleOnePage.pages_ 0).is_dirty_ = false ∧
      UnpinPage exampleOnePage 0 true = some (true, exampleOnePageDirty) ∧
      (exampleOnePageDirty.pages_ 0).pin_count_ = 0 ∧
      (exampleOnePageDirty.pages_ 0).is_dirty_ = true ∧
      (∃ s1, UnpinPage exampleOnePage 0 false = some (true, s1) ∧
        (s1.pages_ 0).is_dirty_ = false) ∧
      ∃ s2, runOps [BPMOp.fetchPage 0, BPMOp.unpinPage 0 false] exampleOnePageDirty =
          some s2 ∧
        s2.page_table_ 0 = some 0 ∧ (s2.pages_ 0).is_dirty_ = true := by
  obtain ⟨s, hs, h1, _, _⟩ :=
    dirty_flag_accumulates 2 2 (by decide) exampleDisk [BPMOp.newPage] 0
  have he : runOps [BPMOp.newPage] (new 2 2 exampleDisk) = some exampleOnePage := rfl
  have hse : s = exampleOnePage := by
    rw [he] at hs
    exact (Option.some.inj hs).symm
  subst hse
  obtain ⟨s0, hu0, _, hd0, _⟩ := h1 0 (by decide) (by decide) (by decide) false
  obtain ⟨s1, hu, _, hd1, hl⟩ := h1 0 (by decide) (by decide) (by decide) true
  have hue : UnpinPage exampleOnePage 0 true = some (true, exampleOnePageDirty) := rfl
  have hs1 : s1 = exampleOnePageDirty := by
    rw [hue] at hu
    exact (Prod.mk.inj (Option.some.inj hu)).2.symm
  subst hs1
  obtain ⟨s2, hr, h2⟩ :=
    hl [BPMOp.fetchPage 0, BPMOp.unpinPage 0 false] (by decide)
  obtain ⟨hp2, hd2⟩ := h2 (by decide) (by decide)
  exact ⟨by decide, he, by decide, by decide, by decide, hue, by decide,
    hd1.trans (by decide), ⟨s0, hu0, hd0.trans (by decide)⟩, s2, hr, hp2, hd2⟩

omit [Inhabited D] in
/-- With at least one frame, `FlushAllPages` reaches the call of `FlushPage`
holding the latch, and never returns. -/
theorem FlushAllPages_blocks (s : BufferPoolManager D) (h : 0 < s.pool_size_) :
    FlushAllPages s = none := by
  unfold FlushAllPages
  obtain ⟨n, hn⟩ := Nat.exists_eq_succ_of_ne_zero (Nat.pos_iff_ne_zero.1 h)
  rw [hn, List.range_succ_eq_map]
  rfl

/-- C15: evaluation at the failing input.  In a pool of two frames page 0 is
created and released dirty.  `FlushAllPages` takes the latch and calls
`FlushPage`, which waits for the same latch: there is no result.  The loop of
`BufferPoolManagerInstance::FlushAllPgsImp`, entered without the latch,
returns with page 0 written to disk and clean. -/
theorem FlushAllPages_never_returns :
    ∃ s, runOps [BPMOp.newPage, BPMOp.unpinPage 0 true] (new 2 2 exampleDisk) = some s ∧
      (s.pages_ 0).is_dirty_ = true ∧
      (FlushAllPages s).isNone = true ∧
      ∃ s', FlushAllPgsImp s = some s' ∧ (s'.pages_ 0).is_dirty_ = false ∧
        s'.disk 0 = (s.pages_ 0).data_ := by
  refine ⟨_, rfl, ?_, ?_, _, rfl, ?_, ?_⟩
  · decide
  · rfl
  · decide
  · decide

end BufferPoolManager
end bustub

/-! ### Buffer pool: the flush loop without the latch -/

namespace bustub
open LRUKReplacer
namespace BufferPoolManager
variable {D : Type} [Inhabited D]

omit [Inhabited D] in
theorem flushLoop_eq (l : List Nat) (s : BufferPoolManager D) :
    l.foldlM (fun s i =>
        (FlushPageCall false s (s.pages_ (Int.ofNat i)).page_id_).map Prod.snd) s =
      some (l.foldl (fun s i => (FlushPage s (s.pages_ (Int.ofNat i)).page_id_).2) s) := by
  induction l generalizing s with
  | nil => rfl
  | cons i l ih =>
    rw [List.foldlM_cons, List.foldl_cons]
    have : (FlushPageCall false s (s.pages_ (Int.ofNat i)).page_id_).map Prod.snd =
        some (FlushPage s (s.pages_ (Int.ofNat i)).page_id_).2 := rfl
    rw [this]
    exact ih _

omit [Inhabited D] in
theorem flush_step {s0 sn : BufferPoolManager D} (h : BPMInv s0) {n : Nat}
    (hn : FlushedUpTo s0 n sn) :
    FlushedUpTo s0 (n + 1) (FlushPage sn (sn.pages_ (Int.ofNat n)).page_id_).2 := by
  have hq : (sn.pages_ (Int.ofNat n)).page_id_ = (s0.pages_ (Int.ofNat n)).page_id_ :=
    hn.pid _
  have hfalse := FlushPage_of_unmapped sn (sn.pages_ (Int.ofNat n)).page_id_
  have htrue := FlushPage_of_mapped sn (sn.pages_ (Int.ofNat n)).page_id_
  by_cases hc : sn.page_table_ (sn.pages_ (Int.ofNat n)).page_id_ = none ∨
      (sn.pages_ (Int.ofNat n)).page_id_ = INVALID_PAGE_ID
  · rw [hfalse hc]
    refine ⟨hn.table, hn.pool, hn.free, hn.repl, hn.pin, hn.data, hn.pid, ?_⟩
    intro p f hp hi hf
    by_cases hfn : f = Int.ofNat n
    · exfalso
      have hpid := (h.table p f hp).2.2.1
      rw [hfn, ← hq] at hpid
      rw [hpid, hn.table] at hc
      rcases hc with hc | hc
      · rw [hp] at hc; cases hc
      · exact hi hc
    · apply hn.done p f hp hi
      have : f < (n : Int) + 1 := by exact_mod_cast hf
      have hne : f ≠ (n : Int) := hfn
      omega
  · have hc' := not_or.1 hc
    cases hg : sn.page_table_ (sn.pages_ (Int.ofNat n)).page_id_ with
    | none => exact absurd hg hc'.1
    | some g =>
      obtain ⟨_, h2, h3, h4, h5, h6, h7, h8, h9, h10, h11, _⟩ := htrue g hg hc'.2
      have hg0 : s0.page_table_ (s0.pages_ (Int.ofNat n)).page_id_ = some g := by
        rw [← hq, ← hn.table]; exact hg
      refine ⟨h9.trans hn.table, ?_, h10.trans hn.free, h11.trans hn.repl, ?_, ?_, ?_, ?_⟩
      · unfold FlushPage
        rw [hg]
        simp only [if_neg hc'.2]
        exact hn.pool
      · intro f
        by_cases hf : f = g
        · rw [hf, h5]; exact hn.pin g
        · rw [h8 f hf]; exact hn.pin f
      · intro f
        by_cases hf : f = g
        · rw [hf, h6]; exact hn.data g
        · rw [h8 f hf]; exact hn.data f
      · intro f
        by_cases hf : f = g
        · rw [hf, h7]; exact hn.pid g
        · rw [h8 f hf]; exact hn.pid f
      · intro p f hp hi hf
        by_cases hpq : p = (sn.pages_ (Int.ofNat n)).page_id_
        · have hfg : f = g := by
            rw [hpq, hq, hg0] at hp
            exact (Option.some.inj hp).symm
          rw [hfg, hpq]
          exact ⟨h4, by rw [h2]; exact hn.data g⟩
        · have hfn : f ≠ Int.ofNat n := by
            intro e
            have hpid := (h.table p f hp).2.2.1
            rw [e, ← hq] at hpid
            exact hpq hpid.symm
          have hfg : f ≠ g := by
            intro e
            have h1 := (h.table p f hp).2.2.1
            have h2' := (h.table _ g hg0).2.2.1
            rw [e, h2', ← hq] at h1
            exact hpq h1.symm
          have hlt : f < (n : Int) := by
            have : f < (n : Int) + 1 := by exact_mod_cast hf
            have hne : f ≠ (n : Int) := hfn
            omega
          obtain ⟨d1, d2⟩ := hn.done p f hp hi hlt
          rw [h8 f hfg, h3 p hpq]
          exact ⟨d1, d2⟩

omit [Inhabited D] in
theorem flush_range {s0 : BufferPoolManager D} (h : BPMInv s0) (n : Nat) :
    FlushedUpTo s0 n
      ((List.range n).foldl (fun s i => (FlushPage s (s.pages_ (Int.ofNat i)).page_id_).2) s0) := by
  induction n with
  | zero =>
    refine ⟨rfl, rfl, rfl, rfl, fun _ => rfl, fun _ => rfl, fun _ => rfl, ?_⟩
    intro p f hp _ hf
    have := (h.table p f hp).1
    have : f < 0 := by exact_mod_cast hf
    omega
  | succ n ih =>
    rw [List.range_succ, List.foldl_append]
    exact flush_step h ih

omit [Inhabited D] in
/-- The loop of `BufferPoolManagerInstance::FlushAllPgsImp` returns; afterwards
every mapped page other than `INVALID_PAGE_ID` is clean and on disk, and the
pin counts, the page table, the free list and the replacer are as before. -/
theorem FlushAllPgsImp_spec {s : BufferPoolManager D} (h : BPMInv s) :
    ∃ s', FlushAllPgsImp s = some s' ∧
      s'.page_table_ = s.page_table_ ∧ s'.free_list_ = s.free_list_ ∧
      s'.replacer_ = s.replacer_ ∧
      (∀ f, (s'.pages_ f).pin_count_ = (s.pages_ f).pin_count_) ∧
      ∀ p f, s.page_table_ p = some f → p ≠ INVALID_PAGE_ID →
        (s'.pages_ f).is_dirty_ = false ∧ s'.disk p = (s.pages_ f).data_ := by
  have hfl := flush_range h s.pool_size_
  refine ⟨_, flushLoop_eq _ s, hfl.table, hfl.free, hfl.repl, hfl.pin, ?_⟩
  intro p f hp hi
  exact hfl.done p f hp hi (h.table p f hp).2.1

end BufferPoolManager
end bustub

/-! ### Bucket page: readable slots are occupied -/

namespace bustub
namespace HashTableBucketPage
variable {K V : Type}

theorem IsOccupied_eq_testBit (b : HashTableBucketPage K V) (i : Nat) :
    b.IsOccupied i = (b.occupied_ (i / 8 % 256)).testBit (i % 8) := by
  simp only [IsOccupied, Nat.testBit, Nat.and_comm]

theorem testBit_set_byte (x yu y : Nat) (hy : y < 8) :
    ((x ||| (1 <<< yu)) % 256).testBit y = (decide (y = yu) || x.testBit y) := by
  have h256 : (256 : Nat) = 2 ^ 8 := by norm_num
  rw [h256, Nat.testBit_mod_two_pow, Nat.testBit_or, Nat.one_shiftLeft, Nat.testBit_two_pow]
  by_cases h : yu = y
  · simp [hy, h]
  · have h2 : ¬ y = yu := fun e => h e.symm
    simp [hy, h, h2]

theorem testBit_clear_byte (x yu y : Nat) (hy : y < 8) :
    ((x % 256) &&& (255 ^^^ (1 <<< yu))).testBit y = (decide (y ≠ yu) && x.testBit y) := by
  have h256 : (256 : Nat) = 2 ^ 8 := by norm_num
  have h255 : (255 : Nat) = 2 ^ 8 - 1 := by norm_num
  rw [Nat.testBit_and, Nat.testBit_xor, h256, Nat.testBit_mod_two_pow, h255,
    Nat.testBit_two_pow_sub_one, Nat.one_shiftLeft, Nat.testBit_two_pow]
  by_cases h : yu = y
  · simp [hy, h]
  · have h2 : ¬ y = yu := fun e => h e.symm
    simp [hy, h, h2]

theorem BitmapInv_zeroed [Inhabited K] [Inhabited V] :
    BitmapInv (zeroed : HashTableBucketPage K V) := by
  intro d y _ h
  simp [zeroed] at h

theorem BitmapInv_Reset (b : HashTableBucketPage K V) : BitmapInv b.Reset := by
  intro d y _ h
  simp [Reset] at h

theorem BitmapInv_RemoveAt {b : HashTableBucketPage K V} (h : BitmapInv b) (i : Nat) :
    BitmapInv (b.RemoveAt i) := by
  intro d y hy hr
  show (b.occupied_ d).testBit y = true
  apply h d y hy
  simp only [RemoveAt, Function.update_apply] at hr
  split at hr
  · next hd =>
    rw [testBit_clear_byte _ _ _ hy] at hr
    simp only [Bool.and_eq_true] at hr
    rw [hd]; exact hr.2
  · exact hr

theorem BitmapInv_setSlot {b : HashTableBucketPage K V} (h : BitmapInv b) (i : Nat) :
    BitmapInv ((b.SetOccupied i).SetReadable i) := by
  intro d y hy hr
  simp only [SetReadable, SetOccupied, Function.update_apply] at hr ⊢
  split at hr
  · next hd =>
    rw [if_pos hd]
    rw [testBit_set_byte _ _ _ hy] at hr
    rw [testBit_set_byte _ _ _ hy]
    simp only [Bool.or_eq_true, decide_eq_true_eq] at hr ⊢
    rcases hr with hr | hr
    · exact Or.inl hr
    · exact Or.inr (h _ y hy hr)
  · next hd =>
    rw [if_neg hd]
    exact h d y hy hr

theorem BitmapInv_array {b : HashTableBucketPage K V} (h : BitmapInv b) (a : Nat → K × V) :
    BitmapInv { b with array_ := a } := h

theorem BitmapInv_Insert [DecidableEq K] [DecidableEq V] {b : HashTableBucketPage K V}
    (h : BitmapInv b) (N : Nat) (key : K) (value : V) : BitmapInv (b.Insert N key value).2 := by
  unfold Insert
  split
  · exact h
  · split
    · exact BitmapInv_setSlot (BitmapInv_array h _) _
    · exact h

theorem BitmapInv_Remove [DecidableEq K] [DecidableEq V] {b : HashTableBucketPage K V}
    (h : BitmapInv b) (N : Nat) (key : K) (value : V) : BitmapInv (b.Remove N key value).2 := by
  unfold Remove
  split
  · exact BitmapInv_RemoveAt h _
  · exact h

theorem BitmapInv_applyBucketOp [DecidableEq K] [DecidableEq V] {b : HashTableBucketPage K V}
    (h : BitmapInv b) (N : Nat) (op : BucketOp K V) : BitmapInv (applyBucketOp N b op) := by
  cases op with
  | insert key value => exact BitmapInv_Insert h N key value
  | remove key value => exact BitmapInv_Remove h N key value
  | removeAt i => exact BitmapInv_RemoveAt h i
  | setSlot i => exact BitmapInv_setSlot h i
  | reset => exact BitmapInv_Reset b

theorem BitmapInv_runBucketOps [DecidableEq K] [DecidableEq V] (N : Nat)
    (ops : List (BucketOp K V)) {b : HashTableBucketPage K V} (h : BitmapInv b) :
    BitmapInv (runBucketOps N ops b) := by
  induction ops generalizing b with
  | nil => exact h
  | cons op ops ih => exact ih (BitmapInv_applyBucketOp h N op)

/-- C21: on every bucket page reached from a zeroed page by `Insert`, `Remove`,
`RemoveAt`, the pair `SetOccupied`/`SetReadable` as `Insert` issues it, and
`Reset`, a readable slot is occupied; this holds for every slot index, in
particular for every `i < BUCKET_ARRAY_SIZE`. -/
theorem readable_implies_occupied [DecidableEq K] [DecidableEq V] [Inhabited K] [Inhabited V]
    (N : Nat) (ops : List (BucketOp K V)) (i : Nat) :
    (runBucketOps N ops (zeroed : HashTableBucketPage K V)).IsReadable i = true →
      (runBucketOps N ops (zeroed : HashTableBucketPage K V)).IsOccupied i = true := by
  intro hr
  have hinv := BitmapInv_runBucketOps N ops (BitmapInv_zeroed (K := K) (V := V))
  rw [IsReadable_eq_testBit] at hr
  rw [IsOccupied_eq_testBit]
  exact hinv _ _ (Nat.mod_lt _ (by norm_num)) hr

theorem readable_implies_occupied_witness :
    (runBucketOps 3 [BucketOp.insert 1 10, .insert 2 20, .remove 1 10]
        (zeroed : HashTableBucketPage Nat Nat)).IsReadable 1 = true ∧
      (runBucketOps 3 [BucketOp.insert 1 10, .insert 2 20, .remove 1 10]
        (zeroed : HashTableBucketPage Nat Nat)).IsOccupied 1 = true :=
  ⟨by decide, readable_implies_occupied 3 _ 1 (by decide)⟩

theorem IsOccupied_RemoveAt (b : HashTableBucketPage K V) (i j : Nat) :
    (b.RemoveAt i).IsOccupied j = b.IsOccupied j := rfl

/-- C22: for a slot `i < BUCKET_ARRAY_SIZE` (at most 2048 slots, so that the
byte index `i / 8` fits the `uint8_t` it is computed in), `RemoveAt(i)` makes
`IsReadable(i)` false and leaves `IsReadable(j)` for every other slot `j`,
`IsOccupied(j)` for every `j` and the slot array as they were;
`SetReadable(i)` sets bit `i % 8` of byte `i / 8` of `readable_` and changes no
other bit of `readable_`, nothing of `occupied_` and nothing of the slot array,
and `SetOccupied(i)` does the same on `occupied_`. -/
theorem RemoveAt_SetReadable_SetOccupied_frame (N : Nat) (hN : N ≤ 2048)
    (b : HashTableBucketPage K V) (i : Nat) (hi : i < N) :
    ((b.RemoveAt i).IsReadable i = false ∧
      (∀ j, j < N → j ≠ i → (b.RemoveAt i).IsReadable j = b.IsReadable j) ∧
      (∀ j, (b.RemoveAt i).IsOccupied j = b.IsOccupied j) ∧
      (b.RemoveAt i).array_ = b.array_ ∧
      (∀ j, (b.RemoveAt i).KeyAt j = b.KeyAt j ∧ (b.RemoveAt i).ValueAt j = b.ValueAt j)) ∧
    ((∀ d y, y < 8 → ((b.SetReadable i).readable_ d).testBit y =
          (decide (d = i / 8 ∧ y = i % 8) || (b.readable_ d).testBit y)) ∧
      (b.SetReadable i).occupied_ = b.occupied_ ∧ (b.SetReadable i).array_ = b.array_) ∧
    ((∀ d y, y < 8 → ((b.SetOccupied i).occupied_ d).testBit y =
          (decide (d = i / 8 ∧ y = i % 8) || (b.occupied_ d).testBit y)) ∧
      (b.SetOccupied i).readable_ = b.readable_ ∧ (b.SetOccupied i).array_ = b.array_) := by
  have hi8 : i / 8 % 256 = i / 8 := by omega
  refine ⟨⟨?_, ?_, fun j => rfl, rfl, fun j => ⟨rfl, rfl⟩⟩, ⟨?_, rfl, rfl⟩, ⟨?_, rfl, rfl⟩⟩
  · rw [IsReadable_RemoveAt b (by omega) (by omega)]
    simp
  · intro j hj hne
    rw [IsReadable_RemoveAt b (by omega) (by omega)]
    simp [hne]
  · intro d y hy
    simp only [SetReadable, Function.update_apply, hi8]
    by_cases hd : d = i / 8
    · rw [if_pos hd, testBit_set_byte _ _ _ hy, hd]
      simp
    · rw [if_neg hd]
      simp [hd]
  · intro d y hy
    simp only [SetOccupied, Function.update_apply, hi8]
    by_cases hd : d = i / 8
    · rw [if_pos hd, testBit_set_byte _ _ _ hy, hd]
      simp
    · rw [if_neg hd]
      simp [hd]

theorem RemoveAt_SetReadable_SetOccupied_frame_witness :
    (3 : Nat) ≤ 2048 ∧ (1 : Nat) < 3 ∧ (exampleBucket.RemoveAt 1).IsReadable 1 = false :=
  ⟨by decide, by decide,
    (RemoveAt_SetReadable_SetOccupied_frame 3 (by decide) exampleBucket 1 (by decide)).1.1⟩

end HashTableBucketPage
end bustub

/-! ### Lock manager: queues and wounds -/

namespace bustub
namespace LockManager
variable {RID : Type} [DecidableEq RID]
end LockManager
namespace LockSystem
variable {RID : Type} [DecidableEq RID]
end LockSystem
namespace LockManager
variable {RID : Type} [DecidableEq RID]

theorem try_Insert_of_not_mem (txn : Int) (mode : LockMode) (g : Bool) :
    ∀ q : List LockRequest, (∀ e ∈ q, e.txn_id_ ≠ txn) →
      try_Insert txn mode g q = q ++ [{ txn_id_ := txn, lock_mode_ := mode, granted_ := g }]
  | [], _ => rfl
  | e :: rest, h => by
    have he : e.txn_id_ ≠ txn := h e (List.mem_cons_self _ _)
    have ih := try_Insert_of_not_mem txn mode g rest
      (fun a ha => h a (List.mem_cons_of_mem _ ha))
    simp only [try_Insert, if_neg he, ih, List.cons_append]

theorem try_Insert_of_mem (txn : Int) (mode : LockMode) (g : Bool) (e : LockRequest)
    (l2 : List LockRequest) (he : e.txn_id_ = txn) :
    ∀ l1 : List LockRequest, (∀ a ∈ l1, a.txn_id_ ≠ txn) →
      try_Insert txn mode g (l1 ++ e :: l2) =
        l1 ++ { e with granted_ := e.granted_ || g } :: l2
  | [], _ => by simp only [List.nil_append, try_Insert, if_pos he]
  | a :: rest, h => by
    have ha : a.txn_id_ ≠ txn := h a (List.mem_cons_self _ _)
    have ih := try_Insert_of_mem txn mode g e l2 he rest
      (fun b hb => h b (List.mem_cons_of_mem _ hb))
    show try_Insert txn mode g (a :: (rest ++ e :: l2)) = a :: (rest ++ _ :: l2)
    rw [try_Insert, if_neg ha, ih]

theorem split_own (txn : Int) :
    ∀ q : List LockRequest, (∀ e ∈ q, e.txn_id_ ≠ txn) ∨
      ∃ l1 e l2, q = l1 ++ e :: l2 ∧ e.txn_id_ = txn ∧ ∀ a ∈ l1, a.txn_id_ ≠ txn
  | [] => Or.inl (fun _ h => absurd h (List.not_mem_nil _))
  | a :: rest => by
    by_cases ha : a.txn_id_ = txn
    · exact Or.inr ⟨[], a, rest, rfl, ha, fun _ h => absurd h (List.not_mem_nil _)⟩
    · rcases split_own txn rest with h | ⟨l1, e, l2, hq, he, hl⟩
      · left
        intro e he
        rcases List.mem_cons.1 he with h1 | h1
        · rw [h1]; exact ha
        · exact h e h1
      · right
        refine ⟨a :: l1, e, l2, by rw [hq]; rfl, he, ?_⟩
        intro b hb
        rcases List.mem_cons.1 hb with h1 | h1
        · rw [h1]; exact ha
        · exact hl b h1

theorem woundGen_of_ne (both : Bool) (m : Int → Transaction RID) (w : Int) (rid : RID)
    {t : Int} (h : t ≠ w) : woundGen both m w rid t = m t := by
  unfold woundGen woundExclusive woundShared
  cases both <;> simp [Function.update_apply, h]

theorem woundGen_state (both : Bool) (m : Int → Transaction RID) (w : Int) (rid : RID) :
    (woundGen both m w rid w).state_ = .ABORTED := by
  unfold woundGen woundExclusive woundShared
  cases both <;> simp

theorem woundGen_isolation (both : Bool) (m : Int → Transaction RID) (w : Int) (rid : RID)
    (t : Int) : (woundGen both m w rid t).isolation_level_ = (m t).isolation_level_ := by
  unfold woundGen woundExclusive woundShared
  by_cases h : t = w
  · subst h; cases both <;> simp
  · cases both <;> simp [Function.update_apply, h]

theorem woundGen_exclusive (both : Bool) (m : Int → Transaction RID) (w : Int) (rid : RID)
    (t : Int) (r : RID) :
    (woundGen both m w rid t).exclusive_lock_set_ r =
      (if t = w ∧ r = rid then false else (m t).exclusive_lock_set_ r) := by
  unfold woundGen woundExclusive woundShared
  by_cases h : t = w
  · subst h
    by_cases hr : r = rid
    · subst hr; cases both <;> simp
    · cases both <;> simp [Function.update_apply, hr]
  · cases both <;> simp [Function.update_apply, h]

theorem woundGen_shared (both : Bool) (m : Int → Transaction RID) (w : Int) (rid : RID)
    (t : Int) (r : RID) :
    (woundGen both m w rid t).shared_lock_set_ r =
      (if both = true ∧ t = w ∧ r = rid then false else (m t).shared_lock_set_ r) := by
  unfold woundGen woundExclusive woundShared
  by_cases h : t = w
  · subst h
    by_cases hr : r = rid
    · subst hr; cases both <;> simp
    · cases both <;> simp [Function.update_apply, hr]
  · cases both <;> simp [Function.update_apply, h]

theorem woundGen_finished (both : Bool) (m : Int → Transaction RID) (w : Int) (rid : RID)
    (t : Int) (h : (m t).finished) : (woundGen both m w rid t).finished := by
  by_cases ht : t = w
  · subst ht
    exact Or.inl (woundGen_state both m t rid)
  · rw [woundGen_of_ne both m w rid ht]; exact h

end LockManager
end bustub

/-! ### Lock manager: the invariant along the inner loops -/

namespace bustub

theorem QueueRel.txn_ne_of_mem {q : List LockRequest} (h : q.Pairwise QueueRel)
    {a b : LockRequest} (ha : a ∈ q) (hb : b ∈ q) (hab : a ≠ b) : a.txn_id_ ≠ b.txn_id_ := by
  have h2 : q.Pairwise (fun a b => a.txn_id_ ≠ b.txn_id_) := h.imp (fun hr => hr.1)
  exact h2.forall (fun _ _ hxy => fun e => hxy e.symm) ha hb hab

theorem QueueRel.eq_of_txn_eq {q : List LockRequest} (h : q.Pairwise QueueRel)
    {a b : LockRequest} (ha : a ∈ q) (hb : b ∈ q) (hab : a.txn_id_ = b.txn_id_) : a = b := by
  by_contra hne
  exact QueueRel.txn_ne_of_mem h ha hb hne hab

theorem QueueRel.shared_of_granted {q : List LockRequest} (h : q.Pairwise QueueRel)
    {a b : LockRequest} (ha : a ∈ q) (hb : b ∈ q) (hab : a ≠ b)
    (hga : a.granted_ = true) (hgb : b.granted_ = true) :
    a.lock_mode_ = .SHARED ∧ b.lock_mode_ = .SHARED := by
  have h2 : q.Pairwise (fun a b => a.granted_ = true → b.granted_ = true →
      a.lock_mode_ = .SHARED ∧ b.lock_mode_ = .SHARED) := h.imp (fun hr _ hb => hr.2 hb)
  have hs : Symmetric (fun a b : LockRequest => a.granted_ = true → b.granted_ = true →
      a.lock_mode_ = .SHARED ∧ b.lock_mode_ = .SHARED) :=
    fun _ _ hxy hy hx => (hxy hx hy).symm
  exact h2.forall hs ha hb hab hga hgb

namespace LockSystem
variable {RID : Type} [DecidableEq RID]
open LockManager

omit [DecidableEq RID] in
theorem EntryOK.transfer {s s' : LockSystem RID} {rid : RID} {e : LockRequest}
    (h : EntryOK s rid e)
    (hs : (s'.lm.txn_map e.txn_id_).shared_lock_set_ rid =
      (s.lm.txn_map e.txn_id_).shared_lock_set_ rid)
    (hx : (s'.lm.txn_map e.txn_id_).exclusive_lock_set_ rid =
      (s.lm.txn_map e.txn_id_).exclusive_lock_set_ rid)
    (hf : (s.lm.txn_map e.txn_id_).finished → (s'.lm.txn_map e.txn_id_).finished)
    (hb : s.blocked e.txn_id_ = some (callOf e.lock_mode_, rid) →
      (s'.lm.txn_map e.txn_id_).finished ∨
        s'.blocked e.txn_id_ = some (callOf e.lock_mode_, rid)) :
    EntryOK s' rid e := by
  refine ⟨?_, ?_, ?_⟩
  · intro hg hmode
    rw [hs, hx]; exact h.1 hg hmode
  · intro hg hmode
    rw [hs, hx]; exact h.2.1 hg hmode
  · intro hg
    rw [hs, hx]
    obtain ⟨h1, h2, h3⟩ := h.2.2 hg
    refine ⟨h1, h2, ?_⟩
    rcases h3 with h3 | h3
    · exact Or.inl (hf h3)
    · exact hb h3

omit [DecidableEq RID] in
theorem LockInv.of_eq {s s' : LockSystem RID} (h : LockInv s)
    (hq : ∀ r, (s'.lm.lock_table_ r).request_queue_ = (s.lm.lock_table_ r).request_queue_)
    (hm : s'.lm.txn_map = s.lm.txn_map) (hb : s'.blocked = s.blocked) : LockInv s' := by
  refine ⟨?_, ?_, ?_, ?_⟩
  · intro r; rw [hq]; exact h.queue r
  · intro r e he
    rw [hq] at he
    exact (h.entry r e he).transfer (by rw [hm]) (by rw [hm]) (by rw [hm]; exact id)
      (by rw [hb]; exact Or.inr)
  · intro t r ht
    rw [hm] at ht
    rw [hq]; exact h.held t r ht
  · intro t c r hbk hc
    rw [hb] at hbk
    rw [hm]; exact h.parked t c r hbk hc

theorem LockInv.wound {s s' : LockSystem RID} (h : LockInv s) (both : Bool) (rid : RID)
    (done rest : List LockRequest) (e : LockRequest)
    (hq : (s.lm.lock_table_ rid).request_queue_ = done ++ e :: rest)
    (hmode : both = true ∨ e.lock_mode_ = .EXCLUSIVE)
    (hq1 : (s'.lm.lock_table_ rid).request_queue_ = done ++ rest)
    (hq2 : ∀ r, r ≠ rid → s'.lm.lock_table_ r = s.lm.lock_table_ r)
    (hm : s'.lm.txn_map = woundGen both s.lm.txn_map e.txn_id_ rid)
    (hb : s'.blocked = s.blocked) : LockInv s' := by
  have hpw := h.queue rid
  rw [hq] at hpw
  have hemem : e ∈ done ++ e :: rest := by simp
  have hsub : (done ++ rest).Sublist (done ++ e :: rest) :=
    (List.sublist_cons_self e rest).append_left done
  have hne : ∀ a ∈ done ++ rest, a.txn_id_ ≠ e.txn_id_ := by
    intro a ha
    rw [List.pairwise_append] at hpw
    obtain ⟨_, hp2, hp3⟩ := hpw
    rw [List.pairwise_cons] at hp2
    rcases List.mem_append.1 ha with h1 | h1
    · exact (hp3 a h1 e (List.mem_cons_self _ _)).1
    · exact fun heq => (hp2.1 a h1).1 heq.symm
  have hsh : both = false → (s.lm.txn_map e.txn_id_).shared_lock_set_ rid = false := by
    intro hbo
    have hx : e.lock_mode_ = .EXCLUSIVE := by
      rcases hmode with h1 | h1
      · rw [hbo] at h1; cases h1
      · exact h1
    have hok := h.entry rid e (by rw [hq]; exact hemem)
    cases hg : e.granted_ with
    | true => exact (hok.1 hg hx).2
    | false => exact (hok.2.2 hg).1
  refine ⟨?_, ?_, ?_, ?_⟩
  · intro r
    by_cases hr : r = rid
    · rw [hr, hq1]; exact hpw.sublist hsub
    · rw [hq2 r hr]; exact h.queue r
  · intro r a ha
    by_cases hr : r = rid
    · rw [hr, hq1] at ha
      rw [hr]
      have hane := hne a ha
      have hrec : s'.lm.txn_map a.txn_id_ = s.lm.txn_map a.txn_id_ := by
        rw [hm]; exact woundGen_of_ne _ _ _ _ hane
      exact (h.entry rid a (by rw [hq]; exact hsub.subset ha)).transfer (by rw [hrec])
        (by rw [hrec]) (by rw [hrec]; exact id) (by rw [hb]; exact Or.inr)
    · rw [hq2 r hr] at ha
      refine (h.entry r a ha).transfer ?_ ?_ ?_ (by rw [hb]; exact Or.inr)
      · rw [hm, woundGen_shared, if_neg (fun hc => hr hc.2.2)]
      · rw [hm, woundGen_exclusive, if_neg (fun hc => hr hc.2)]
      · rw [hm]; exact woundGen_finished _ _ _ _ _
  · intro t r ht
    rw [hm, woundGen_shared, woundGen_exclusive] at ht
    by_cases hc : t = e.txn_id_ ∧ r = rid
    · exfalso
      rw [if_pos hc] at ht
      rcases ht with ht | ht
      · cases hbo : both with
        | true => rw [if_pos ⟨hbo, hc⟩] at ht; cases ht
        | false =>
          rw [if_neg (by rw [hbo]; simp)] at ht
          rw [hc.1, hc.2, hsh hbo] at ht; cases ht
      · cases ht
    · rw [if_neg (fun hc2 => hc hc2.2), if_neg hc] at ht
      obtain ⟨a, ha, hat, hag⟩ := h.held t r ht
      by_cases hr : r = rid
      · subst hr
        have htw : t ≠ e.txn_id_ := fun e1 => hc ⟨e1, rfl⟩
        rw [hq] at ha
        refine ⟨a, ?_, hat, hag⟩
        rw [hq1]
        rcases List.mem_append.1 ha with h1 | h1
        · exact List.mem_append_left _ h1
        · rcases List.mem_cons.1 h1 with h2 | h2
          · exact absurd (by rw [← hat, h2]) htw
          · exact List.mem_append_right _ h2
      · exact ⟨a, by rw [hq2 r hr]; exact ha, hat, hag⟩
  · intro t c r hbk hcu
    rw [hb] at hbk
    obtain ⟨h1, h2⟩ := h.parked t c r hbk hcu
    rw [hm, woundGen_shared, woundGen_exclusive]
    constructor
    · split
      · rfl
      · exact h1
    · split
      · rfl
      · exact h2

theorem setQueue_setQueue (s : LockSystem RID) (rid : RID) (q1 q2 : LockRequestQueue)
    (m1 m2 : Int → Transaction RID) :
    setQueue (setQueue s rid q1 m1) rid q2 m2 = setQueue s rid q2 m2 := by
  simp [setQueue]

theorem scanGen_inv (W B S : LockRequest → Bool) (both : Bool) (rid : RID) (f : Bool)
    (hW : ∀ e, W e = true → both = true ∨ e.lock_mode_ = .EXCLUSIVE) :
    ∀ (todo done : List LockRequest) (s : LockSystem RID), LockInv s →
      (s.lm.lock_table_ rid).request_queue_ = done ++ todo →
      LockInv (setQueue s rid
        { request_queue_ := done ++ (scanGen W B S both rid todo s.lm.txn_map).2.1,
          upgrading_ := f }
        (scanGen W B S both rid todo s.lm.txn_map).2.2)
  | [], done, s, h, hq => by
    apply h.of_eq
    · intro r
      by_cases hr : r = rid
      · subst hr; simp [setQueue, scanGen, hq]
      · simp [setQueue, Function.update_apply, hr]
    · rfl
    · rfl
  | e :: rest, done, s, h, hq => by
    by_cases hw : W e = true
    · have hs1 : LockInv (setQueue s rid { request_queue_ := done ++ rest, upgrading_ := f }
          (woundGen both s.lm.txn_map e.txn_id_ rid)) := by
        apply h.wound both rid done rest e hq (hW e hw)
        · simp [setQueue]
        · intro r hr; simp [setQueue, Function.update_apply, hr]
        · rfl
        · rfl
      have ih := scanGen_inv W B S both rid f hW rest done _ hs1 (by simp [setQueue])
      rw [setQueue_setQueue] at ih
      simp only [scanGen, if_pos hw]
      exact ih
    · by_cases hb : B e = true
      · simp only [scanGen, if_neg hw, if_pos hb]
        apply h.of_eq
        · intro r
          by_cases hr : r = rid
          · subst hr; simp [setQueue, hq]
          · simp [setQueue, Function.update_apply, hr]
        · rfl
        · rfl
      · by_cases hs : S e = true
        · simp only [scanGen, if_neg hw, if_neg hb, if_pos hs]
          apply h.of_eq
          · intro r
            by_cases hr : r = rid
            · subst hr; simp [setQueue, hq]
            · simp [setQueue, Function.update_apply, hr]
          · rfl
          · rfl
        · have ih := scanGen_inv W B S both rid f hW rest (done ++ [e]) s h (by simp [hq])
          simp only [scanGen, if_neg hw, if_neg hb, if_neg hs]
          simpa using ih

theorem scanGen_shape (W B S : LockRequest → Bool) (both : Bool) (rid : RID) :
    ∀ (todo : List LockRequest) (m : Int → Transaction RID),
      ∃ pre suf, (scanGen W B S both rid todo m).2.1 = pre ++ suf ∧
        (∀ a ∈ pre, W a = false ∧ B a = false ∧ S a = false) ∧
        ((scanGen W B S both rid todo m).1 = none →
          suf = [] ∨ ∃ e rest, suf = e :: rest ∧ S e = true) ∧
        (∀ it, (scanGen W B S both rid todo m).1 = some it →
          B it = true ∧ W it = false ∧ it ∈ todo)
  | [], m => ⟨[], [], rfl, fun _ h => absurd h (List.not_mem_nil _), fun _ => Or.inl rfl,
      fun it h => by simp [scanGen] at h⟩
  | e :: rest, m => by
    by_cases hw : W e = true
    · obtain ⟨pre, suf, h1, h2, h3, h4⟩ :=
        scanGen_shape W B S both rid rest (woundGen both m e.txn_id_ rid)
      simp only [scanGen, if_pos hw]
      exact ⟨pre, suf, h1, h2, h3, fun it hit =>
        ⟨(h4 it hit).1, (h4 it hit).2.1, List.mem_cons_of_mem _ (h4 it hit).2.2⟩⟩
    · by_cases hb : B e = true
      · simp only [scanGen, if_neg hw, if_pos hb]
        refine ⟨[], e :: rest, rfl, fun _ h => absurd h (List.not_mem_nil _), ?_, ?_⟩
        · intro h; cases h
        · intro it hit
          simp only [Option.some.injEq] at hit
          subst hit
          exact ⟨hb, by simpa using hw, List.mem_cons_self _ _⟩
      · by_cases hs : S e = true
        · simp only [scanGen, if_neg hw, if_neg hb, if_pos hs]
          refine ⟨[], e :: rest, rfl, fun _ h => absurd h (List.not_mem_nil _), ?_, ?_⟩
          · intro _; exact Or.inr ⟨e, rest, rfl, hs⟩
          · intro it hit; cases hit
        · obtain ⟨pre, suf, h1, h2, h3, h4⟩ := scanGen_shape W B S both rid rest m
          simp only [scanGen, if_neg hw, if_neg hb, if_neg hs]
          refine ⟨e :: pre, suf, by rw [h1]; rfl, ?_, h3, fun it hit =>
            ⟨(h4 it hit).1, (h4 it hit).2.1, List.mem_cons_of_mem _ (h4 it hit).2.2⟩⟩
          intro a ha
          rcases List.mem_cons.1 ha with h5 | h5
          · rw [h5]; exact ⟨by simpa using hw, by simpa using hb, by simpa using hs⟩
          · exact h2 a h5

theorem scanGen_map_of_ne (W B S : LockRequest → Bool) (both : Bool) (rid : RID) (t : Int) :
    ∀ (todo : List LockRequest) (m : Int → Transaction RID),
      (∀ e ∈ todo, W e = true → e.txn_id_ ≠ t) →
      (scanGen W B S both rid todo m).2.2 t = m t
  | [], m, _ => rfl
  | e :: rest, m, h => by
    have hrest : ∀ a ∈ rest, W a = true → a.txn_id_ ≠ t :=
      fun a ha => h a (List.mem_cons_of_mem _ ha)
    by_cases hw : W e = true
    · simp only [scanGen, if_pos hw]
      rw [scanGen_map_of_ne W B S both rid t rest _ hrest]
      exact woundGen_of_ne _ _ _ _ (fun e1 => h e (List.mem_cons_self _ _) hw e1.symm)
    · by_cases hb : B e = true
      · simp only [scanGen, if_neg hw, if_pos hb]
      · by_cases hs : S e = true
        · simp only [scanGen, if_neg hw, if_neg hb, if_pos hs]
        · simp only [scanGen, if_neg hw, if_neg hb, if_neg hs]
          exact scanGen_map_of_ne W B S both rid t rest m hrest

end LockSystem
end bustub

/-! ### Lock manager: parked and granted requests -/

namespace bustub

theorem callOf_injective {a b : LockMode} (h : callOf a = callOf b) : a = b := by
  cases a <;> cases b <;> first | rfl | cases h

theorem callOf_ne_upgrade (a : LockMode) : callOf a ≠ .upgrade := by
  cases a <;> intro h <;> cases h

theorem LockMode.eq_shared_or (a : LockMode) : a = .SHARED ∨ a = .EXCLUSIVE := by
  cases a
  · exact Or.inl rfl
  · exact Or.inr rfl

namespace LockSystem
variable {RID : Type} [DecidableEq RID]
open LockManager

omit [DecidableEq RID] in
/-- A call returned without a change of the queues and of the lock sets. -/
theorem LockInv.unblock {s s' : LockSystem RID} (h : LockInv s) (T : Int)
    (hq : ∀ r, (s'.lm.lock_table_ r).request_queue_ = (s.lm.lock_table_ r).request_queue_)
    (hm : ∀ t, t ≠ T → s'.lm.txn_map t = s.lm.txn_map t)
    (hsh : (s'.lm.txn_map T).shared_lock_set_ = (s.lm.txn_map T).shared_lock_set_)
    (hex : (s'.lm.txn_map T).exclusive_lock_set_ = (s.lm.txn_map T).exclusive_lock_set_)
    (hf : (s.lm.txn_map T).finished → (s'.lm.txn_map T).finished)
    (hb : s'.blocked = Function.update s.blocked T none)
    (hT : (s'.lm.txn_map T).finished ∨ ∀ (md : LockMode) (r : RID),
      s.blocked T ≠ some (callOf md, r)) : LockInv s' := by
  have hsets : ∀ t r, (s'.lm.txn_map t).shared_lock_set_ r = (s.lm.txn_map t).shared_lock_set_ r ∧
      (s'.lm.txn_map t).exclusive_lock_set_ r = (s.lm.txn_map t).exclusive_lock_set_ r := by
    intro t r
    by_cases ht : t = T
    · subst ht; rw [hsh, hex]; exact ⟨rfl, rfl⟩
    · rw [hm t ht]; exact ⟨rfl, rfl⟩
  refine ⟨?_, ?_, ?_, ?_⟩
  · intro r; rw [hq]; exact h.queue r
  · intro r e he
    rw [hq] at he
    refine (h.entry r e he).transfer (hsets _ _).1 (hsets _ _).2 ?_ ?_
    · by_cases ht : e.txn_id_ = T
      · rw [ht]; exact hf
      · rw [hm _ ht]; exact id
    · intro hbe
      by_cases ht : e.txn_id_ = T
      · rw [ht] at hbe ⊢
        rcases hT with h1 | h1
        · exact Or.inl h1
        · exact absurd hbe (h1 _ _)
      · right
        rw [hb, Function.update_noteq ht]; exact hbe
  · intro t r ht
    rw [(hsets t r).1, (hsets t r).2] at ht
    rw [hq]; exact h.held t r ht
  · intro t c r hbk hc
    rw [hb] at hbk
    by_cases ht : t = T
    · subst ht; rw [Function.update_same] at hbk; cases hbk
    · rw [Function.update_noteq ht] at hbk
      rw [(hsets t r).1, (hsets t r).2]
      exact h.parked t c r hbk hc

/-- The call blocks in `LockShared` or `LockExclusive`: the entry of the
transaction is parked. -/
theorem LockInv.park {s s' : LockSystem RID} (h : LockInv s) (T : Int) (rid : RID)
    (mode : LockMode)
    (hsh0 : (s.lm.txn_map T).shared_lock_set_ rid = false)
    (hex0 : (s.lm.txn_map T).exclusive_lock_set_ rid = false)
    (hbl : s.blocked T = none ∨ s.blocked T = some (callOf mode, rid))
    (hq1 : (s'.lm.lock_table_ rid).request_queue_ =
      try_Insert T mode false (s.lm.lock_table_ rid).request_queue_)
    (hq2 : ∀ r, r ≠ rid → s'.lm.lock_table_ r = s.lm.lock_table_ r)
    (hm : s'.lm.txn_map = s.lm.txn_map)
    (hb : s'.blocked = Function.update s.blocked T (some (callOf mode, rid))) : LockInv s' := by
  have hdec : ∃ extra, (s'.lm.lock_table_ rid).request_queue_ =
      (s.lm.lock_table_ rid).request_queue_ ++ extra ∧
      (extra = [] ∨ (extra = [{ txn_id_ := T, lock_mode_ := mode, granted_ := false }] ∧
        ∀ a ∈ (s.lm.lock_table_ rid).request_queue_, a.txn_id_ ≠ T)) := by
    rcases split_own T (s.lm.lock_table_ rid).request_queue_ with hno | ⟨l1, e, l2, hq, he, hl⟩
    · exact ⟨_, by rw [hq1, try_Insert_of_not_mem T mode false _ hno], Or.inr ⟨rfl, hno⟩⟩
    · refine ⟨[], ?_, Or.inl rfl⟩
      rw [hq1, hq, try_Insert_of_mem T mode false e l2 he l1 hl]
      simp
  obtain ⟨extra, hqe, hextra⟩ := hdec
  have hblk : ∀ (md : LockMode) (r : RID), s.blocked T = some (callOf md, r) →
      s'.blocked T = some (callOf md, r) := by
    intro md r hbT
    rw [hb, Function.update_same]
    rcases hbl with h1 | h1
    · rw [h1] at hbT; cases hbT
    · rw [← h1, hbT]
  have hqsub : ∀ r a, a ∈ (s.lm.lock_table_ r).request_queue_ →
      a ∈ (s'.lm.lock_table_ r).request_queue_ := by
    intro r a ha
    by_cases hr : r = rid
    · subst hr; rw [hqe]; exact List.mem_append_left _ ha
    · rw [hq2 r hr]; exact ha
  have hold : ∀ r a, a ∈ (s.lm.lock_table_ r).request_queue_ → EntryOK s' r a := by
    intro r a ha
    refine (h.entry r a ha).transfer (by rw [hm]) (by rw [hm]) (by rw [hm]; exact id) ?_
    intro hba
    right
    by_cases ht : a.txn_id_ = T
    · rw [ht] at hba ⊢; exact hblk _ _ hba
    · rw [hb, Function.update_noteq ht]; exact hba
  refine ⟨?_, ?_, ?_, ?_⟩
  · intro r
    by_cases hr : r = rid
    · subst hr
      rw [hqe]
      rcases hextra with h1 | ⟨h1, h2⟩
      · rw [h1, List.append_nil]; exact h.queue r
      · rw [h1, List.pairwise_append]
        refine ⟨h.queue r, List.pairwise_singleton _ _, ?_⟩
        intro a ha b hb'
        rw [List.mem_singleton] at hb'
        subst hb'
        exact ⟨h2 a ha, fun hc => by cases hc⟩
    · rw [hq2 r hr]; exact h.queue r
  · intro r a ha
    by_cases hr : r = rid
    · subst hr
      rw [hqe] at ha
      rcases List.mem_append.1 ha with h1 | h1
      · exact hold r a h1
      · rcases hextra with h2 | ⟨h2, _⟩
        · rw [h2] at h1; exact absurd h1 (List.not_mem_nil _)
        · rw [h2, List.mem_singleton] at h1
          subst h1
          unfold EntryOK
          refine ⟨fun hc => (by cases hc), fun hc => (by cases hc), fun _ => ?_⟩
          rw [hm]
          refine ⟨hsh0, hex0, Or.inr ?_⟩
          rw [hb, Function.update_same]
    · rw [hq2 r hr] at ha
      exact hold r a ha
  · intro t r ht
    rw [hm] at ht
    obtain ⟨a, ha, hat, hag⟩ := h.held t r ht
    exact ⟨a, hqsub r a ha, hat, hag⟩
  · intro t c r hbk hc
    rw [hm]
    rw [hb] at hbk
    by_cases ht : t = T
    · subst ht
      rw [Function.update_same] at hbk
      simp only [Option.some.injEq, Prod.mk.injEq] at hbk
      rw [← hbk.2]; exact ⟨hsh0, hex0⟩
    · rw [Function.update_noteq ht] at hbk
      exact h.parked t c r hbk hc

omit [DecidableEq RID] in
/-- The call blocks in `LockUpgrade`: nothing is parked. -/
theorem LockInv.parkUpgrade {s s' : LockSystem RID} (h : LockInv s) (T : Int) (rid : RID)
    (hnf : ¬ (s.lm.txn_map T).finished)
    (hbl : s.blocked T = none ∨ s.blocked T = some (.upgrade, rid))
    (hq : ∀ r, (s'.lm.lock_table_ r).request_queue_ = (s.lm.lock_table_ r).request_queue_)
    (hm : s'.lm.txn_map = s.lm.txn_map)
    (hb : s'.blocked = Function.update s.blocked T (some (.upgrade, rid))) : LockInv s' := by
  have hnb : ∀ (md : LockMode) (r : RID), s.blocked T ≠ some (callOf md, r) := by
    intro md r hc
    rcases hbl with h1 | h1
    · rw [h1] at hc; cases hc
    · rw [h1] at hc
      simp only [Option.some.injEq, Prod.mk.injEq] at hc
      exact callOf_ne_upgrade md hc.1.symm
  refine ⟨?_, ?_, ?_, ?_⟩
  · intro r; rw [hq]; exact h.queue r
  · intro r e he
    rw [hq] at he
    refine (h.entry r e he).transfer (by rw [hm]) (by rw [hm]) (by rw [hm]; exact id) ?_
    intro hbe
    by_cases ht : e.txn_id_ = T
    · rw [ht] at hbe; exact absurd hbe (hnb _ _)
    · right; rw [hb, Function.update_noteq ht]; exact hbe
  · intro t r ht
    rw [hm] at ht
    rw [hq]; exact h.held t r ht
  · intro t c r hbk hc
    rw [hm]
    rw [hb] at hbk
    by_cases ht : t = T
    · subst ht
      rw [Function.update_same] at hbk
      simp only [Option.some.injEq, Prod.mk.injEq] at hbk
      exact absurd hbk.1.symm hc
    · rw [Function.update_noteq ht] at hbk
      exact h.parked t c r hbk hc

omit [DecidableEq RID] in
/-- An entry of a transaction that holds no lock on the RID and is not
finished is the entry its blocked call parked. -/
theorem LockInv.own_entry {s : LockSystem RID} (h : LockInv s) {T : Int} {rid : RID}
    {e : LockRequest} (he : e ∈ (s.lm.lock_table_ rid).request_queue_) (heT : e.txn_id_ = T)
    (hnf : ¬ (s.lm.txn_map T).finished)
    (hsh0 : (s.lm.txn_map T).shared_lock_set_ rid = false)
    (hex0 : (s.lm.txn_map T).exclusive_lock_set_ rid = false) :
    e.granted_ = false ∧ s.blocked T = some (callOf e.lock_mode_, rid) := by
  have hok := h.entry rid e he
  unfold EntryOK at hok
  rw [heT] at hok
  have hg : e.granted_ = false := by
    cases hg : e.granted_ with
    | false => rfl
    | true =>
      exfalso
      rcases LockMode.eq_shared_or e.lock_mode_ with hmd | hmd
      · have := (hok.2.1 hg hmd).1
        rw [hsh0] at this; cases this
      · have := (hok.1 hg hmd).1
        rw [hex0] at this; cases this
  refine ⟨hg, ?_⟩
  rcases (hok.2.2 hg).2.2 with h1 | h1
  · exact absurd h1 hnf
  · exact h1

/-- The lock is granted by `LockShared` or `LockExclusive`. -/
theorem LockInv.grant {s s' : LockSystem RID} (h : LockInv s) (T : Int) (rid : RID)
    (mode : LockMode) (pre suf : List LockRequest)
    (hnf : ¬ (s.lm.txn_map T).finished)
    (hsh0 : (s.lm.txn_map T).shared_lock_set_ rid = false)
    (hex0 : (s.lm.txn_map T).exclusive_lock_set_ rid = false)
    (hbl : s.blocked T = none ∨ s.blocked T = some (callOf mode, rid))
    (hq : (s.lm.lock_table_ rid).request_queue_ = pre ++ suf)
    (hpre : ∀ a ∈ pre, a.txn_id_ ≠ T ∧ a.lock_mode_ = .SHARED ∧ mode = .SHARED)
    (hsuf : suf = [] ∨ ∃ e rest, suf = e :: rest ∧ e.txn_id_ = T)
    (hq1 : (s'.lm.lock_table_ rid).request_queue_ = try_Insert T mode true (pre ++ suf))
    (hq2 : ∀ r, r ≠ rid → s'.lm.lock_table_ r = s.lm.lock_table_ r)
    (hm : ∀ t, t ≠ T → s'.lm.txn_map t = s.lm.txn_map t)
    (hsh : ∀ r, (s'.lm.txn_map T).shared_lock_set_ r =
      if r = rid ∧ mode = .SHARED then true else (s.lm.txn_map T).shared_lock_set_ r)
    (hex : ∀ r, (s'.lm.txn_map T).exclusive_lock_set_ r =
      if r = rid ∧ mode = .EXCLUSIVE then true else (s.lm.txn_map T).exclusive_lock_set_ r)
    (hb : s'.blocked = Function.update s.blocked T none) : LockInv s' := by
  have hpw := h.queue rid
  rw [hq] at hpw
  have hdec : ∃ rest, (s'.lm.lock_table_ rid).request_queue_ =
      pre ++ { txn_id_ := T, lock_mode_ := mode, granted_ := true } :: rest ∧
      (∀ a ∈ rest, a ∈ suf ∧ a.txn_id_ ≠ T) ∧
      (∀ a ∈ suf, a.txn_id_ ≠ T → a ∈ rest) ∧
      (pre ++ { txn_id_ := T, lock_mode_ := mode, granted_ := true } :: rest).Pairwise
        QueueRel := by
    have hnew : ∀ a ∈ pre, QueueRel a { txn_id_ := T, lock_mode_ := mode, granted_ := true } :=
      fun a ha => ⟨(hpre a ha).1, fun _ => ⟨(hpre a ha).2.1, (hpre a ha).2.2⟩⟩
    rcases hsuf with hs | ⟨e, rest, hs, heT⟩
    · refine ⟨[], ?_, fun _ ha => absurd ha (List.not_mem_nil _), ?_, ?_⟩
      · rw [hq1, hs, List.append_nil, try_Insert_of_not_mem T mode true pre
          (fun a ha => (hpre a ha).1)]
      · intro a ha; rw [hs] at ha; exact absurd ha (List.not_mem_nil _)
      · rw [hs, List.append_nil] at hpw
        rw [List.pairwise_append]
        refine ⟨hpw, List.pairwise_singleton _ _, ?_⟩
        intro a ha b hb'
        rw [List.mem_singleton] at hb'
        subst hb'
        exact hnew a ha
    · have hemem : e ∈ (s.lm.lock_table_ rid).request_queue_ := by rw [hq, hs]; simp
      obtain ⟨hg, hbe⟩ := h.own_entry hemem heT hnf hsh0 hex0
      have hmode : e.lock_mode_ = mode := by
        rcases hbl with h1 | h1
        · rw [h1] at hbe; cases hbe
        · rw [h1] at hbe
          simp only [Option.some.injEq, Prod.mk.injEq] at hbe
          exact (callOf_injective hbe.1).symm
      have he' : ({ e with granted_ := e.granted_ || true } : LockRequest) =
          { txn_id_ := T, lock_mode_ := mode, granted_ := true } := by
        rw [← heT, ← hmode]; simp
      rw [hs] at hpw
      rw [List.pairwise_append, List.pairwise_cons] at hpw
      obtain ⟨hp1, ⟨hp2, hp3⟩, hp4⟩ := hpw
      refine ⟨rest, ?_, ?_, ?_, ?_⟩
      · rw [hq1, hs, try_Insert_of_mem T mode true e rest heT pre (fun a ha => (hpre a ha).1),
          he']
      · intro a ha
        refine ⟨by rw [hs]; exact List.mem_cons_of_mem _ ha, ?_⟩
        have := (hp2 a ha).1
        rw [heT] at this
        exact fun hc => this hc.symm
      · intro a ha hne
        rw [hs] at ha
        rcases List.mem_cons.1 ha with h1 | h1
        · rw [h1] at hne; exact absurd heT hne
        · exact h1
      · rw [List.pairwise_append, List.pairwise_cons]
        refine ⟨hp1, ⟨?_, hp3⟩, ?_⟩
        · intro b hb'
          have hr := hp2 b hb'
          exact ⟨by rw [← heT]; exact hr.1, fun hgb => by rw [← hmode]; exact hr.2 hgb⟩
        · intro a ha b hb'
          rcases List.mem_cons.1 hb' with h1 | h1
          · rw [h1]; exact hnew a ha
          · exact hp4 a ha b (List.mem_cons_of_mem _ h1)
  obtain ⟨rest, hq', hrest, hrest2, hpw'⟩ := hdec
  have hnb : ∀ (md : LockMode) (r : RID), r ≠ rid → s.blocked T ≠ some (callOf md, r) := by
    intro md r hr hc
    rcases hbl with h1 | h1
    · rw [h1] at hc; cases hc
    · rw [h1] at hc
      simp only [Option.some.injEq, Prod.mk.injEq] at hc
      exact hr hc.2.symm
  have hother : ∀ r a, a ∈ (s.lm.lock_table_ r).request_queue_ → a.txn_id_ ≠ T →
      EntryOK s' r a := by
    intro r a ha hne
    refine (h.entry r a ha).transfer (by rw [hm _ hne]) (by rw [hm _ hne])
      (by rw [hm _ hne]; exact id) ?_
    intro hba
    right
    rw [hb, Function.update_noteq hne]; exact hba
  refine ⟨?_, ?_, ?_, ?_⟩
  · intro r
    by_cases hr : r = rid
    · rw [hr, hq']; exact hpw'
    · rw [hq2 r hr]; exact h.queue r
  · intro r a ha
    by_cases hr : r = rid
    · subst hr
      rw [hq'] at ha
      rcases List.mem_append.1 ha with h1 | h1
      · exact hother r a (by rw [hq]; exact List.mem_append_left _ h1) (hpre a h1).1
      · rcases List.mem_cons.1 h1 with h2 | h2
        · subst h2
          unfold EntryOK
          refine ⟨?_, ?_, fun hc => (by cases hc)⟩
          · intro _ hmd
            simp only at hmd
            rw [hsh, hex, if_pos ⟨rfl, hmd⟩, if_neg (by rw [hmd]; simp)]
            exact ⟨rfl, hsh0⟩
          · intro _ hmd
            simp only at hmd
            rw [hsh, hex, if_pos ⟨rfl, hmd⟩, if_neg (by rw [hmd]; simp)]
            exact ⟨rfl, hex0⟩
        · exact hother r a (by rw [hq]; exact List.mem_append_right _ (hrest a h2).1)
            (hrest a h2).2
    · rw [hq2 r hr] at ha
      by_cases ht : a.txn_id_ = T
      · refine (h.entry r a ha).transfer ?_ ?_ ?_ ?_
        · rw [ht, hsh, if_neg (fun hc => hr hc.1)]
        · rw [ht, hex, if_neg (fun hc => hr hc.1)]
        · rw [ht]; exact fun hc => absurd hc hnf
        · rw [ht]; exact fun hc => absurd hc (hnb _ _ hr)
      · exact hother r a ha ht
  · intro t r ht
    by_cases hT : t = T
    · subst hT
      by_cases hr : r = rid
      · subst hr
        exact ⟨{ txn_id_ := t, lock_mode_ := mode, granted_ := true }, by rw [hq']; simp,
          rfl, rfl⟩
      · rw [hsh, hex, if_neg (fun hc => hr hc.1), if_neg (fun hc => hr hc.1)] at ht
        obtain ⟨a, ha, hat, hag⟩ := h.held t r ht
        exact ⟨a, by rw [hq2 r hr]; exact ha, hat, hag⟩
    · rw [hm t hT] at ht
      obtain ⟨a, ha, hat, hag⟩ := h.held t r ht
      by_cases hr : r = rid
      · subst hr
        refine ⟨a, ?_, hat, hag⟩
        rw [hq']
        rw [hq] at ha
        rcases List.mem_append.1 ha with h1 | h1
        · exact List.mem_append_left _ h1
        · exact List.mem_append_right _
            (List.mem_cons_of_mem _ (hrest2 a h1 (by rw [hat]; exact hT)))
      · exact ⟨a, by rw [hq2 r hr]; exact ha, hat, hag⟩
  · intro t c r hbk hc
    rw [hb] at hbk
    by_cases ht : t = T
    · subst ht; rw [Function.update_same] at hbk; cases hbk
    · rw [Function.update_noteq ht] at hbk
      rw [hm t ht]
      exact h.parked t c r hbk hc

end LockSystem
end bustub

/-! ### Lock manager: the lock functions by cases -/

namespace bustub
namespace LockManager
variable {RID : Type} [DecidableEq RID]

theorem scanShared_eq (txn : Int) (rid : RID) :
    ∀ (q : List LockRequest) (m : Int → Transaction RID),
      scanShared txn rid q m = scanGen (youngerX txn) (olderX txn) (own txn) false rid q m
  | [], _ => rfl
  | e :: rest, m => by
    simp only [scanShared, scanGen, youngerX, olderX, own, decide_eq_true_eq,
      scanShared_eq txn rid rest, woundGen]
    rfl

theorem scanExclusive_eq (txn : Int) (rid : RID) :
    ∀ (q : List LockRequest) (m : Int → Transaction RID),
      scanExclusive txn rid q m = scanGen (younger txn) (older txn) (own txn) true rid q m
  | [], _ => rfl
  | e :: rest, m => by
    simp only [scanExclusive, scanGen, younger, older, own, decide_eq_true_eq,
      scanExclusive_eq txn rid rest, woundGen]
    rfl

theorem scanUpgrade_eq (txn : Int) (rid : RID) :
    ∀ (q : List LockRequest) (m : Int → Transaction RID),
      scanUpgrade txn rid q m =
        scanGen (younger txn) (older txn) (fun _ => false) true rid q m
  | [], _ => rfl
  | e :: rest, m => by
    simp only [scanUpgrade, scanGen, younger, older, decide_eq_true_eq,
      scanUpgrade_eq txn rid rest, woundGen]
    simp

theorem LockShared_finished (lm : LockManager RID) (txn : Int) (rid : RID)
    (h : (lm.txn_map txn).finished) : LockShared lm txn rid = (.returned false, lm) := by
  unfold LockShared
  exact if_pos h

theorem LockShared_uncommitted (lm : LockManager RID) (txn : Int) (rid : RID)
    (h : ¬ (lm.txn_map txn).finished)
    (hiso : (lm.txn_map txn).isolation_level_ = .READ_UNCOMMITTED) :
    LockShared lm txn rid =
      (.returned false, { lm with txn_map := SetState lm.txn_map txn .ABORTED }) := by
  unfold LockShared
  simp only []
  rw [if_neg (show ¬ ((lm.txn_map txn).state_ = .ABORTED ∨ (lm.txn_map txn).state_ = .COMMITTED) from h), if_pos hiso]

theorem LockShared_shrinking (lm : LockManager RID) (txn : Int) (rid : RID)
    (hiso : (lm.txn_map txn).isolation_level_ = .REPEATABLE_READ)
    (hst : (lm.txn_map txn).state_ = .SHRINKING) :
    LockShared lm txn rid =
      (.returned false, { lm with txn_map := SetState lm.txn_map txn .ABORTED }) := by
  unfold LockShared
  simp only []
  rw [if_neg (by rw [hst]; simp), if_neg (by rw [hiso]; simp), if_pos ⟨hiso, hst⟩]

theorem LockShared_held (lm : LockManager RID) (txn : Int) (rid : RID)
    (h : admitted (lm.txn_map txn))
    (hiso : (lm.txn_map txn).isolation_level_ ≠ .READ_UNCOMMITTED)
    (hs : (lm.txn_map txn).shared_lock_set_ rid = true) :
    LockShared lm txn rid = (.returned true, lm) := by
  unfold LockShared
  simp only []
  rw [if_neg (show ¬ ((lm.txn_map txn).state_ = .ABORTED ∨ (lm.txn_map txn).state_ = .COMMITTED) from h.1), if_neg hiso, if_neg h.2, if_pos hs]

theorem LockShared_wait (lm : LockManager RID) (txn : Int) (rid : RID)
    (h : admitted (lm.txn_map txn))
    (hiso : (lm.txn_map txn).isolation_level_ ≠ .READ_UNCOMMITTED)
    (hs : (lm.txn_map txn).shared_lock_set_ rid = false) (it : LockRequest)
    (hr : (scanShared txn rid (lm.lock_table_ rid).request_queue_ lm.txn_map).1 = some it) :
    LockShared lm txn rid =
      (.waiting it,
        { txn_map := (scanShared txn rid (lm.lock_table_ rid).request_queue_ lm.txn_map).2.2,
          lock_table_ := Function.update lm.lock_table_ rid
            { request_queue_ := try_Insert txn .SHARED false
                (scanShared txn rid (lm.lock_table_ rid).request_queue_ lm.txn_map).2.1,
              upgrading_ := (lm.lock_table_ rid).upgrading_ } }) := by
  unfold LockShared
  simp only []
  rw [if_neg (show ¬ ((lm.txn_map txn).state_ = .ABORTED ∨ (lm.txn_map txn).state_ = .COMMITTED) from h.1), if_neg hiso, if_neg h.2, if_neg (by rw [hs]; simp)]
  simp only [hr]

theorem LockShared_grant (lm : LockManager RID) (txn : Int) (rid : RID)
    (h : admitted (lm.txn_map txn))
    (hiso : (lm.txn_map txn).isolation_level_ ≠ .READ_UNCOMMITTED)
    (hs : (lm.txn_map txn).shared_lock_set_ rid = false)
    (hr : (scanShared txn rid (lm.lock_table_ rid).request_queue_ lm.txn_map).1 = none) :
    LockShared lm txn rid =
      (.returned true,
        { txn_map := Function.update
            (scanShared txn rid (lm.lock_table_ rid).request_queue_ lm.txn_map).2.2 txn
            { (scanShared txn rid (lm.lock_table_ rid).request_queue_ lm.txn_map).2.2 txn with
              state_ := .GROWING,
              shared_lock_set_ := Function.update
                ((scanShared txn rid (lm.lock_table_ rid).request_queue_
                  lm.txn_map).2.2 txn).shared_lock_set_ rid true },
          lock_table_ := Function.update lm.lock_table_ rid
            { request_queue_ := try_Insert txn .SHARED true
                (scanShared txn rid (lm.lock_table_ rid).request_queue_ lm.txn_map).2.1,
              upgrading_ := (lm.lock_table_ rid).upgrading_ } }) := by
  unfold LockShared
  simp only []
  rw [if_neg (show ¬ ((lm.txn_map txn).state_ = .ABORTED ∨ (lm.txn_map txn).state_ = .COMMITTED) from h.1), if_neg hiso, if_neg h.2, if_neg (by rw [hs]; simp)]
  simp only [hr]

theorem LockExclusive_finished (lm : LockManager RID) (txn : Int) (rid : RID)
    (h : (lm.txn_map txn).finished) : LockExclusive lm txn rid = (.returned false, lm) := by
  unfold LockExclusive
  exact if_pos h

theorem LockExclusive_shrinking (lm : LockManager RID) (txn : Int) (rid : RID)
    (hiso : (lm.txn_map txn).isolation_level_ = .REPEATABLE_READ)
    (hst : (lm.txn_map txn).state_ = .SHRINKING) :
    LockExclusive lm txn rid =
      (.returned false, { lm with txn_map := SetState lm.txn_map txn .ABORTED }) := by
  unfold LockExclusive
  simp only []
  rw [if_neg (by rw [hst]; simp), if_pos ⟨hiso, hst⟩]

theorem LockExclusive_held (lm : LockManager RID) (txn : Int) (rid : RID)
    (h : admitted (lm.txn_map txn))
    (hs : (lm.txn_map txn).exclusive_lock_set_ rid = true) :
    LockExclusive lm txn rid = (.returned true, lm) := by
  unfold LockExclusive
  simp only []
  rw [if_neg (show ¬ ((lm.txn_map txn).state_ = .ABORTED ∨ (lm.txn_map txn).state_ = .COMMITTED) from h.1), if_neg h.2, if_pos hs]

theorem LockExclusive_wait (lm : LockManager RID) (txn : Int) (rid : RID)
    (h : admitted (lm.txn_map txn))
    (hs : (lm.txn_map txn).exclusive_lock_set_ rid = false) (it : LockRequest)
    (hr : (scanExclusive txn rid (lm.lock_table_ rid).request_queue_ lm.txn_map).1 = some it) :
    LockExclusive lm txn rid =
      (.waiting it,
        { txn_map := (scanExclusive txn rid (lm.lock_table_ rid).request_queue_ lm.txn_map).2.2,
          lock_table_ := Function.update lm.lock_table_ rid
            { request_queue_ := try_Insert txn .EXCLUSIVE false
                (scanExclusive txn rid (lm.lock_table_ rid).request_queue_ lm.txn_map).2.1,
              upgrading_ := (lm.lock_table_ rid).upgrading_ } }) := by
  unfold LockExclusive
  simp only []
  rw [if_neg (show ¬ ((lm.txn_map txn).state_ = .ABORTED ∨ (lm.txn_map txn).state_ = .COMMITTED) from h.1), if_neg h.2, if_neg (by rw [hs]; simp)]
  simp only [hr]

theorem LockExclusive_grant (lm : LockManager RID) (txn : Int) (rid : RID)
    (h : admitted (lm.txn_map txn))
    (hs : (lm.txn_map txn).exclusive_lock_set_ rid = false)
    (hr : (scanExclusive txn rid (lm.lock_table_ rid).request_queue_ lm.txn_map).1 = none) :
    LockExclusive lm txn rid =
      (.returned true,
        { txn_map := Function.update
            (scanExclusive txn rid (lm.lock_table_ rid).request_queue_ lm.txn_map).2.2 txn
            { (scanExclusive txn rid (lm.lock_table_ rid).request_queue_ lm.txn_map).2.2 txn with
              state_ := .GROWING,
              exclusive_lock_set_ := Function.update
                ((scanExclusive txn rid (lm.lock_table_ rid).request_queue_
                  lm.txn_map).2.2 txn).exclusive_lock_set_ rid true },
          lock_table_ := Function.update lm.lock_table_ rid
            { request_queue_ := try_Insert txn .EXCLUSIVE true
                (scanExclusive txn rid (lm.lock_table_ rid).request_queue_ lm.txn_map).2.1,
              upgrading_ := (lm.lock_table_ rid).upgrading_ } }) := by
  unfold LockExclusive
  simp only []
  rw [if_neg (show ¬ ((lm.txn_map txn).state_ = .ABORTED ∨ (lm.txn_map txn).state_ = .COMMITTED) from h.1), if_neg h.2, if_neg (by rw [hs]; simp)]
  simp only [hr]

theorem LockUpgrade_finished (lm : LockManager RID) (txn : Int) (rid : RID)
    (h : (lm.txn_map txn).finished) : LockUpgrade lm txn rid = (.returned false, lm) := by
  unfold LockUpgrade
  exact if_pos h

theorem LockUpgrade_shrinking (lm : LockManager RID) (txn : Int) (rid : RID)
    (hiso : (lm.txn_map txn).isolation_level_ = .REPEATABLE_READ)
    (hst : (lm.txn_map txn).state_ = .SHRINKING) :
    LockUpgrade lm txn rid =
      (.returned false, { lm with txn_map := SetState lm.txn_map txn .ABORTED }) := by
  unfold LockUpgrade
  simp only []
  rw [if_neg (by rw [hst]; simp), if_pos ⟨hiso, hst⟩]

theorem LockUpgrade_held (lm : LockManager RID) (txn : Int) (rid : RID)
    (h : admitted (lm.txn_map txn))
    (hs : (lm.txn_map txn).exclusive_lock_set_ rid = true) :
    LockUpgrade lm txn rid = (.returned true, lm) := by
  unfold LockUpgrade
  simp only []
  rw [if_neg (show ¬ ((lm.txn_map txn).state_ = .ABORTED ∨ (lm.txn_map txn).state_ = .COMMITTED) from h.1), if_neg h.2, if_pos hs]

theorem LockUpgrade_collision (lm : LockManager RID) (txn : Int) (rid : RID)
    (h : admitted (lm.txn_map txn))
    (hs : (lm.txn_map txn).exclusive_lock_set_ rid = false)
    (hu : (lm.lock_table_ rid).upgrading_ = true) :
    LockUpgrade lm txn rid = (.returned false, lm) := by
  unfold LockUpgrade
  simp only []
  rw [if_neg (show ¬ ((lm.txn_map txn).state_ = .ABORTED ∨ (lm.txn_map txn).state_ = .COMMITTED) from h.1), if_neg h.2, if_neg (by rw [hs]; simp), if_pos hu]

theorem LockUpgrade_wait (lm : LockManager RID) (txn : Int) (rid : RID)
    (h : admitted (lm.txn_map txn))
    (hs : (lm.txn_map txn).exclusive_lock_set_ rid = false)
    (hu : (lm.lock_table_ rid).upgrading_ = false) (it : LockRequest)
    (hr : (scanUpgrade txn rid (lm.lock_table_ rid).request_queue_ lm.txn_map).1 = some it) :
    LockUpgrade lm txn rid =
      (.waiting it,
        { txn_map := (scanUpgrade txn rid (lm.lock_table_ rid).request_queue_ lm.txn_map).2.2,
          lock_table_ := Function.update lm.lock_table_ rid
            { request_queue_ :=
                (scanUpgrade txn rid (lm.lock_table_ rid).request_queue_ lm.txn_map).2.1,
              upgrading_ := true } }) := by
  unfold LockUpgrade
  simp only []
  rw [if_neg (show ¬ ((lm.txn_map txn).state_ = .ABORTED ∨ (lm.txn_map txn).state_ = .COMMITTED) from h.1), if_neg h.2, if_neg (by rw [hs]; simp), if_neg (by rw [hu]; simp)]
  simp only [hr]

theorem LockUpgrade_grant (lm : LockManager RID) (txn : Int) (rid : RID)
    (h : admitted (lm.txn_map txn))
    (hs : (lm.txn_map txn).exclusive_lock_set_ rid = false)
    (hu : (lm.lock_table_ rid).upgrading_ = false)
    (hr : (scanUpgrade txn rid (lm.lock_table_ rid).request_queue_ lm.txn_map).1 = none) :
    LockUpgrade lm txn rid =
      (.returned true,
        { txn_map := Function.update
            (scanUpgrade txn rid (lm.lock_table_ rid).request_queue_ lm.txn_map).2.2 txn
            { (scanUpgrade txn rid (lm.lock_table_ rid).request_queue_ lm.txn_map).2.2 txn with
              shared_lock_set_ := Function.update
                ((scanUpgrade txn rid (lm.lock_table_ rid).request_queue_
                  lm.txn_map).2.2 txn).shared_lock_set_ rid false,
              exclusive_lock_set_ := Function.update
                ((scanUpgrade txn rid (lm.lock_table_ rid).request_queue_
                  lm.txn_map).2.2 txn).exclusive_lock_set_ rid true },
          lock_table_ := Function.update lm.lock_table_ rid
            { request_queue_ := upgradeFront (try_Insert txn .EXCLUSIVE true
                (scanUpgrade txn rid (lm.lock_table_ rid).request_queue_ lm.txn_map).2.1),
              upgrading_ := false } }) := by
  unfold LockUpgrade
  simp only []
  rw [if_neg (show ¬ ((lm.txn_map txn).state_ = .ABORTED ∨ (lm.txn_map txn).state_ = .COMMITTED) from h.1), if_neg h.2, if_neg (by rw [hs]; simp), if_neg (by rw [hu]; simp)]
  simp only [hr]

omit [DecidableEq RID] in
/-- A transaction is finished, or at REPEATABLE_READ in the SHRINKING phase, or
admitted to the loop. -/
theorem admitted_cases (tx : Transaction RID) :
    tx.finished ∨ (tx.isolation_level_ = .REPEATABLE_READ ∧ tx.state_ = .SHRINKING) ∨
      admitted tx := by
  by_cases h1 : tx.finished
  · exact Or.inl h1
  · by_cases h2 : tx.isolation_level_ = .REPEATABLE_READ ∧ tx.state_ = .SHRINKING
    · exact Or.inr (Or.inl h2)
    · exact Or.inr (Or.inr ⟨h1, h2⟩)

theorem eraseOwn_none (txn : Int) :
    ∀ q : List LockRequest, eraseOwn txn q = none ↔ ∀ a ∈ q, a.txn_id_ ≠ txn
  | [] => by simp [eraseOwn]
  | e :: rest => by
    by_cases he : e.txn_id_ = txn
    · simp [eraseOwn, he]
    · simp [eraseOwn, he, eraseOwn_none txn rest]

theorem eraseOwn_some (txn : Int) :
    ∀ (q q' : List LockRequest), eraseOwn txn q = some q' →
      ∃ l1 e l2, q = l1 ++ e :: l2 ∧ e.txn_id_ = txn ∧ (∀ a ∈ l1, a.txn_id_ ≠ txn) ∧
        q' = l1 ++ l2
  | [], q', h => by simp [eraseOwn] at h
  | e :: rest, q', h => by
    by_cases he : e.txn_id_ = txn
    · simp only [eraseOwn, if_pos he, Option.some.injEq] at h
      exact ⟨[], e, rest, rfl, he, fun _ ha => absurd ha (List.not_mem_nil _), h.symm⟩
    · simp only [eraseOwn, if_neg he, Option.map_eq_some'] at h
      obtain ⟨q1, hq1, hq'⟩ := h
      obtain ⟨l1, e1, l2, h1, h2, h3, h4⟩ := eraseOwn_some txn rest q1 hq1
      refine ⟨e :: l1, e1, l2, by rw [h1]; rfl, h2, ?_, by rw [← hq', h4]; rfl⟩
      intro a ha
      rcases List.mem_cons.1 ha with h5 | h5
      · rw [h5]; exact he
      · exact h3 a h5

end LockManager
end bustub

/-! ### Lock manager: upgrades and releases -/

namespace bustub
namespace LockManager

theorem upgrade_queue (T : Int) :
    ∀ q : List LockRequest, q.Pairwise QueueRel → (∀ a ∈ q, a.txn_id_ = T) →
      upgradeFront (try_Insert T .EXCLUSIVE true q) =
        [{ txn_id_ := T, lock_mode_ := .EXCLUSIVE, granted_ := true }]
  | [], _, _ => rfl
  | [a], _, h => by
    have ha : a.txn_id_ = T := h a (List.mem_singleton.2 rfl)
    simp [try_Insert, ha, upgradeFront]
  | a :: b :: rest, hp, h => by
    exfalso
    rw [List.pairwise_cons] at hp
    have h1 := (hp.1 b (List.mem_cons_self _ _)).1
    rw [h a (List.mem_cons_self _ _), h b (List.mem_cons_of_mem _ (List.mem_cons_self _ _))] at h1
    exact h1 rfl

end LockManager
namespace LockSystem
variable {RID : Type} [DecidableEq RID]
open LockManager

/-- The lock is granted by `LockUpgrade`. -/
theorem LockInv.grantUpgrade {s s' : LockSystem RID} (h : LockInv s) (T : Int) (rid : RID)
    (hnf : ¬ (s.lm.txn_map T).finished)
    (hbl : s.blocked T = none ∨ s.blocked T = some (.upgrade, rid))
    (hq1 : (s'.lm.lock_table_ rid).request_queue_ =
      [{ txn_id_ := T, lock_mode_ := .EXCLUSIVE, granted_ := true }])
    (hown : ∀ a ∈ (s.lm.lock_table_ rid).request_queue_, a.txn_id_ = T)
    (hq2 : ∀ r, r ≠ rid → s'.lm.lock_table_ r = s.lm.lock_table_ r)
    (hm : ∀ t, t ≠ T → s'.lm.txn_map t = s.lm.txn_map t)
    (hsh : ∀ r, (s'.lm.txn_map T).shared_lock_set_ r =
      if r = rid then false else (s.lm.txn_map T).shared_lock_set_ r)
    (hex : ∀ r, (s'.lm.txn_map T).exclusive_lock_set_ r =
      if r = rid then true else (s.lm.txn_map T).exclusive_lock_set_ r)
    (hb : s'.blocked = Function.update s.blocked T none) : LockInv s' := by
  have hnb : ∀ (md : LockMode) (r : RID), s.blocked T ≠ some (callOf md, r) := by
    intro md r hc
    rcases hbl with h1 | h1
    · rw [h1] at hc; cases hc
    · rw [h1] at hc
      simp only [Option.some.injEq, Prod.mk.injEq] at hc
      exact callOf_ne_upgrade md hc.1.symm
  have hother : ∀ r a, a ∈ (s.lm.lock_table_ r).request_queue_ → a.txn_id_ ≠ T →
      EntryOK s' r a := by
    intro r a ha hne
    refine (h.entry r a ha).transfer (by rw [hm _ hne]) (by rw [hm _ hne])
      (by rw [hm _ hne]; exact id) ?_
    intro hba
    right
    rw [hb, Function.update_noteq hne]; exact hba
  refine ⟨?_, ?_, ?_, ?_⟩
  · intro r
    by_cases hr : r = rid
    · rw [hr, hq1]; exact List.pairwise_singleton _ _
    · rw [hq2 r hr]; exact h.queue r
  · intro r a ha
    by_cases hr : r = rid
    · subst hr
      rw [hq1, List.mem_singleton] at ha
      subst ha
      unfold EntryOK
      refine ⟨fun _ _ => ?_, fun _ hmd => (by cases hmd), fun hc => (by cases hc)⟩
      show (s'.lm.txn_map T).exclusive_lock_set_ r = true ∧
        (s'.lm.txn_map T).shared_lock_set_ r = false
      rw [hsh, hex, if_pos rfl, if_pos rfl]
      exact ⟨rfl, rfl⟩
    · rw [hq2 r hr] at ha
      by_cases ht : a.txn_id_ = T
      · refine (h.entry r a ha).transfer ?_ ?_ ?_ ?_
        · rw [ht, hsh, if_neg hr]
        · rw [ht, hex, if_neg hr]
        · rw [ht]; exact fun hc => absurd hc hnf
        · rw [ht]; exact fun hc => absurd hc (hnb _ _)
      · exact hother r a ha ht
  · intro t r ht
    by_cases hT : t = T
    · subst hT
      by_cases hr : r = rid
      · subst hr
        exact ⟨{ txn_id_ := t, lock_mode_ := .EXCLUSIVE, granted_ := true },
          by rw [hq1]; simp, rfl, rfl⟩
      · rw [hsh, hex, if_neg hr, if_neg hr] at ht
        obtain ⟨a, ha, hat, hag⟩ := h.held t r ht
        exact ⟨a, by rw [hq2 r hr]; exact ha, hat, hag⟩
    · rw [hm t hT] at ht
      obtain ⟨a, ha, hat, hag⟩ := h.held t r ht
      by_cases hr : r = rid
      · subst hr
        exact absurd (by rw [← hat]; exact hown a ha) hT
      · exact ⟨a, by rw [hq2 r hr]; exact ha, hat, hag⟩
  · intro t c r hbk hc
    rw [hb] at hbk
    by_cases ht : t = T
    · subst ht; rw [Function.update_same] at hbk; cases hbk
    · rw [Function.update_noteq ht] at hbk
      rw [hm t ht]
      exact h.parked t c r hbk hc

/-- The entry of a transaction is taken from a queue and the RID from its lock
sets. -/
theorem LockInv.release {s s' : LockSystem RID} (h : LockInv s) (T : Int) (rid : RID)
    (l1 l2 : List LockRequest) (e : LockRequest)
    (hq : (s.lm.lock_table_ rid).request_queue_ = l1 ++ e :: l2) (heT : e.txn_id_ = T)
    (hq1 : (s'.lm.lock_table_ rid).request_queue_ = l1 ++ l2)
    (hq2 : ∀ r, r ≠ rid → s'.lm.lock_table_ r = s.lm.lock_table_ r)
    (hsh : ∀ t r, (s'.lm.txn_map t).shared_lock_set_ r =
      if t = T ∧ r = rid then false else (s.lm.txn_map t).shared_lock_set_ r)
    (hex : ∀ t r, (s'.lm.txn_map t).exclusive_lock_set_ r =
      if t = T ∧ r = rid then false else (s.lm.txn_map t).exclusive_lock_set_ r)
    (hf : ∀ t, (s.lm.txn_map t).finished → (s'.lm.txn_map t).finished)
    (hb : s'.blocked = s.blocked) : LockInv s' := by
  have hpw := h.queue rid
  rw [hq] at hpw
  have hsub : (l1 ++ l2).Sublist (l1 ++ e :: l2) :=
    (List.sublist_cons_self e l2).append_left l1
  have hne : ∀ a ∈ l1 ++ l2, a.txn_id_ ≠ T := by
    intro a ha
    rw [List.pairwise_append] at hpw
    obtain ⟨_, hp2, hp3⟩ := hpw
    rw [List.pairwise_cons] at hp2
    rw [← heT]
    rcases List.mem_append.1 ha with h1 | h1
    · exact (hp3 a h1 e (List.mem_cons_self _ _)).1
    · exact fun heq => (hp2.1 a h1).1 heq.symm
  refine ⟨?_, ?_, ?_, ?_⟩
  · intro r
    by_cases hr : r = rid
    · rw [hr, hq1]; exact hpw.sublist hsub
    · rw [hq2 r hr]; exact h.queue r
  · intro r a ha
    by_cases hr : r = rid
    · rw [hr, hq1] at ha
      rw [hr]
      have hane := hne a ha
      exact (h.entry rid a (by rw [hq]; exact hsub.subset ha)).transfer
        (by rw [hsh, if_neg (fun hc => hane hc.1)]) (by rw [hex, if_neg (fun hc => hane hc.1)])
        (hf _) (by rw [hb]; exact Or.inr)
    · rw [hq2 r hr] at ha
      exact (h.entry r a ha).transfer (by rw [hsh, if_neg (fun hc => hr hc.2)])
        (by rw [hex, if_neg (fun hc => hr hc.2)]) (hf _) (by rw [hb]; exact Or.inr)
  · intro t r ht
    rw [hsh, hex] at ht
    by_cases hc : t = T ∧ r = rid
    · rw [if_pos hc, if_pos hc] at ht
      rcases ht with ht | ht <;> cases ht
    · rw [if_neg hc, if_neg hc] at ht
      obtain ⟨a, ha, hat, hag⟩ := h.held t r ht
      by_cases hr : r = rid
      · subst hr
        have htw : t ≠ T := fun e1 => hc ⟨e1, rfl⟩
        rw [hq] at ha
        refine ⟨a, ?_, hat, hag⟩
        rw [hq1]
        rcases List.mem_append.1 ha with h1 | h1
        · exact List.mem_append_left _ h1
        · rcases List.mem_cons.1 h1 with h2 | h2
          · exact absurd (by rw [← hat, h2, heT]) htw
          · exact List.mem_append_right _ h2
      · exact ⟨a, by rw [hq2 r hr]; exact ha, hat, hag⟩
  · intro t c r hbk hcu
    rw [hb] at hbk
    obtain ⟨h1, h2⟩ := h.parked t c r hbk hcu
    rw [hsh, hex]
    constructor
    · split
      · rfl
      · exact h1
    · split
      · rfl
      · exact h2

omit [DecidableEq RID] in
/-- Only states of transactions change, and no finished transaction is
revived. -/
theorem LockInv.of_sets {s s' : LockSystem RID} (h : LockInv s)
    (hq : ∀ r, (s'.lm.lock_table_ r).request_queue_ = (s.lm.lock_table_ r).request_queue_)
    (hsh : ∀ t, (s'.lm.txn_map t).shared_lock_set_ = (s.lm.txn_map t).shared_lock_set_)
    (hex : ∀ t, (s'.lm.txn_map t).exclusive_lock_set_ = (s.lm.txn_map t).exclusive_lock_set_)
    (hf : ∀ t, (s.lm.txn_map t).finished → (s'.lm.txn_map t).finished)
    (hb : s'.blocked = s.blocked) : LockInv s' := by
  refine ⟨?_, ?_, ?_, ?_⟩
  · intro r; rw [hq]; exact h.queue r
  · intro r e he
    rw [hq] at he
    exact (h.entry r e he).transfer (by rw [hsh]) (by rw [hex]) (hf _)
      (by rw [hb]; exact Or.inr)
  · intro t r ht
    rw [hsh, hex] at ht
    rw [hq]; exact h.held t r ht
  · intro t c r hbk hc
    rw [hb] at hbk
    rw [hsh, hex]; exact h.parked t c r hbk hc

omit [DecidableEq RID] in
theorem LockInv_start (iso : Int → IsolationLevel) : LockInv (start iso : LockSystem RID) := by
  refine ⟨?_, ?_, ?_, ?_⟩
  · intro r; exact List.Pairwise.nil
  · intro r e he; exact absurd he (List.not_mem_nil _)
  · intro t r ht
    rcases ht with ht | ht <;> cases ht
  · intro t c r hbk _; cases hbk

end LockSystem
end bustub

/-! ### Lock manager: LockShared keeps the invariant -/

namespace bustub
namespace LockManager
variable {RID : Type} [DecidableEq RID]

omit [DecidableEq RID] in
theorem SetState_finished (m : Int → Transaction RID) (T : Int) :
    (SetState m T .ABORTED T).finished := by
  left
  simp [SetState]

omit [DecidableEq RID] in
theorem SetState_of_ne (m : Int → Transaction RID) (T : Int) (st : TransactionState) {t : Int}
    (h : t ≠ T) : SetState m T st t = m t := by
  simp [SetState, Function.update_apply, h]

omit [DecidableEq RID] in
theorem SetState_shared (m : Int → Transaction RID) (T : Int) (st : TransactionState) (t : Int) :
    (SetState m T st t).shared_lock_set_ = (m t).shared_lock_set_ := by
  by_cases h : t = T
  · subst h; simp [SetState]
  · rw [SetState_of_ne m T st h]

omit [DecidableEq RID] in
theorem SetState_exclusive (m : Int → Transaction RID) (T : Int) (st : TransactionState)
    (t : Int) : (SetState m T st t).exclusive_lock_set_ = (m t).exclusive_lock_set_ := by
  by_cases h : t = T
  · subst h; simp [SetState]
  · rw [SetState_of_ne m T st h]

omit [DecidableEq RID] in
theorem SetState_isolation (m : Int → Transaction RID) (T : Int) (st : TransactionState)
    (t : Int) : (SetState m T st t).isolation_level_ = (m t).isolation_level_ := by
  by_cases h : t = T
  · subst h; simp [SetState]
  · rw [SetState_of_ne m T st h]

end LockManager
namespace LockSystem
variable {RID : Type} [DecidableEq RID]
open LockManager

omit [DecidableEq RID] in
/-- A call returns false at one of the tests before the loop, with the
transaction finished. -/
theorem LockInv.reject {s : LockSystem RID} (h : LockInv s) (T : Int) (c : LockCall) (rid : RID)
    (b : Bool) (m : Int → Transaction RID)
    (hm : m = s.lm.txn_map ∨ m = SetState s.lm.txn_map T .ABORTED)
    (hfin : (m T).finished) :
    LockInv (s.afterCall T c rid (.returned b, { s.lm with txn_map := m })) := by
  apply h.unblock T
  · intro r; rfl
  · intro t ht
    rcases hm with h1 | h1
    · subst h1; rfl
    · show m t = _
      rw [h1, SetState_of_ne _ _ _ ht]
  · rcases hm with h1 | h1
    · subst h1; rfl
    · show (m T).shared_lock_set_ = _
      rw [h1, SetState_shared]
  · rcases hm with h1 | h1
    · subst h1; rfl
    · show (m T).exclusive_lock_set_ = _
      rw [h1, SetState_exclusive]
  · intro _; exact hfin
  · rfl
  · exact Or.inl hfin

omit [DecidableEq RID] in
theorem guard_sets {s : LockSystem RID} (h : LockInv s) {T : Int} {rid : RID} (md : LockMode)
    (hg : s.blocked T = some (callOf md, rid) ∨ (s.free T ∧ s.unlocked T rid)) :
    ((s.lm.txn_map T).shared_lock_set_ rid = false ∧
      (s.lm.txn_map T).exclusive_lock_set_ rid = false) ∧
    (s.blocked T = none ∨ s.blocked T = some (callOf md, rid)) := by
  rcases hg with h1 | ⟨h1, h2⟩
  · exact ⟨h.parked T _ rid h1 (callOf_ne_upgrade md), Or.inr h1⟩
  · exact ⟨h2, Or.inl h1⟩

theorem LockInv.lockShared {s : LockSystem RID} (h : LockInv s) (T : Int) (rid : RID)
    (hg : s.blocked T = some (.shared, rid) ∨ (s.free T ∧ s.unlocked T rid)) :
    LockInv (s.afterCall T .shared rid (s.lm.LockShared T rid)) := by
  obtain ⟨⟨hsh0, hex0⟩, hbl⟩ := guard_sets h .SHARED hg
  rcases admitted_cases (s.lm.txn_map T) with hfin | hshr | hadm
  · rw [LockShared_finished _ _ _ hfin]
    exact h.reject T _ rid false _ (Or.inl rfl) hfin
  · rw [LockShared_shrinking _ _ _ hshr.1 hshr.2]
    exact h.reject T _ rid false _ (Or.inr rfl) (SetState_finished _ _)
  · by_cases hiso : (s.lm.txn_map T).isolation_level_ = .READ_UNCOMMITTED
    · rw [LockShared_uncommitted _ _ _ hadm.1 hiso]
      exact h.reject T _ rid false _ (Or.inr rfl) (SetState_finished _ _)
    · have hW : ∀ e, youngerX T e = true → false = true ∨ e.lock_mode_ = .EXCLUSIVE := by
        intro e he
        simp only [youngerX, decide_eq_true_eq] at he
        exact Or.inr he.2
      have h1 := scanGen_inv (youngerX T) (olderX T) (own T) false rid
        (s.lm.lock_table_ rid).upgrading_ hW (s.lm.lock_table_ rid).request_queue_ [] s h rfl
      rw [List.nil_append] at h1
      obtain ⟨pre, suf, hshape, hpre, hsuf, _⟩ := scanGen_shape (youngerX T) (olderX T) (own T)
        false rid (s.lm.lock_table_ rid).request_queue_ s.lm.txn_map
      have hmapT := scanGen_map_of_ne (youngerX T) (olderX T) (own T) false rid T
        (s.lm.lock_table_ rid).request_queue_ s.lm.txn_map (by
          intro e _ he
          simp only [youngerX, decide_eq_true_eq] at he
          exact fun hc => absurd he.1 (by rw [hc]; exact lt_irrefl _))
      cases hr : (scanShared T rid (s.lm.lock_table_ rid).request_queue_ s.lm.txn_map).1 with
      | some it =>
        rw [LockShared_wait _ _ _ hadm hiso hsh0 it hr]
        simp only [scanShared_eq]
        apply h1.park T rid .SHARED
        · show ((scanGen _ _ _ _ _ _ _).2.2 T).shared_lock_set_ rid = false
          rw [hmapT]; exact hsh0
        · show ((scanGen _ _ _ _ _ _ _).2.2 T).exclusive_lock_set_ rid = false
          rw [hmapT]; exact hex0
        · exact hbl
        · simp [afterCall, setQueue]
        · intro r hr'; simp [afterCall, setQueue, Function.update_apply, hr']
        · rfl
        · rfl
      | none =>
        rw [LockShared_grant _ _ _ hadm hiso hsh0 hr]
        simp only [scanShared_eq]
        rw [scanShared_eq] at hr
        apply h1.grant T rid .SHARED pre suf
        · show ¬ ((scanGen _ _ _ _ _ _ _).2.2 T).finished
          rw [hmapT]; exact hadm.1
        · show ((scanGen _ _ _ _ _ _ _).2.2 T).shared_lock_set_ rid = false
          rw [hmapT]; exact hsh0
        · show ((scanGen _ _ _ _ _ _ _).2.2 T).exclusive_lock_set_ rid = false
          rw [hmapT]; exact hex0
        · exact hbl
        · simp [setQueue, hshape]
        · intro a ha
          obtain ⟨ha1, ha2, ha3⟩ := hpre a ha
          simp only [youngerX, olderX, own, decide_eq_false_iff_not, not_and] at ha1 ha2 ha3
          refine ⟨ha3, ?_, rfl⟩
          rcases LockMode.eq_shared_or a.lock_mode_ with hmd | hmd
          · exact hmd
          · exfalso
            rcases lt_trichotomy a.txn_id_ T with hlt | heq | hgt
            · exact ha2 hlt hmd
            · exact ha3 heq
            · exact ha1 hgt hmd
        · rcases hsuf hr with h2 | ⟨e, rest, h2, h3⟩
          · exact Or.inl h2
          · exact Or.inr ⟨e, rest, h2, by simpa [own] using h3⟩
        · simp [afterCall, setQueue, hshape]
        · intro r hr'; simp [afterCall, setQueue, Function.update_apply, hr']
        · intro t ht; simp [afterCall, setQueue, Function.update_apply, ht]
        · intro r
          by_cases hr' : r = rid
          · subst hr'; simp [afterCall, setQueue]
          · simp [afterCall, setQueue, Function.update_apply, hr']
        · intro r
          simp [afterCall, setQueue]
        · rfl

end LockSystem
end bustub

/-! ### Lock manager: reachable states -/

namespace bustub
namespace LockSystem
variable {RID : Type} [DecidableEq RID]
open LockManager

theorem LockInv.lockExclusive {s : LockSystem RID} (h : LockInv s) (T : Int) (rid : RID)
    (hg : s.blocked T = some (.exclusive, rid) ∨ (s.free T ∧ s.unlocked T rid)) :
    LockInv (s.afterCall T .exclusive rid (s.lm.LockExclusive T rid)) := by
  obtain ⟨⟨hsh0, hex0⟩, hbl⟩ := guard_sets h .EXCLUSIVE hg
  rcases admitted_cases (s.lm.txn_map T) with hfin | hshr | hadm
  · rw [LockExclusive_finished _ _ _ hfin]
    exact h.reject T _ rid false _ (Or.inl rfl) hfin
  · rw [LockExclusive_shrinking _ _ _ hshr.1 hshr.2]
    exact h.reject T _ rid false _ (Or.inr rfl) (SetState_finished _ _)
  · have hW : ∀ e, younger T e = true → true = true ∨ e.lock_mode_ = .EXCLUSIVE :=
      fun _ _ => Or.inl rfl
    have h1 := scanGen_inv (younger T) (older T) (own T) true rid
      (s.lm.lock_table_ rid).upgrading_ hW (s.lm.lock_table_ rid).request_queue_ [] s h rfl
    rw [List.nil_append] at h1
    obtain ⟨pre, suf, hshape, hpre, hsuf, _⟩ := scanGen_shape (younger T) (older T) (own T)
      true rid (s.lm.lock_table_ rid).request_queue_ s.lm.txn_map
    have hmapT := scanGen_map_of_ne (younger T) (older T) (own T) true rid T
      (s.lm.lock_table_ rid).request_queue_ s.lm.txn_map (by
        intro e _ he
        simp only [younger, decide_eq_true_eq] at he
        exact fun hc => absurd he (by rw [hc]; exact lt_irrefl _))
    cases hr : (scanExclusive T rid (s.lm.lock_table_ rid).request_queue_ s.lm.txn_map).1 with
    | some it =>
      rw [LockExclusive_wait _ _ _ hadm hex0 it hr]
      simp only [scanExclusive_eq]
      apply h1.park T rid .EXCLUSIVE
      · show ((scanGen _ _ _ _ _ _ _).2.2 T).shared_lock_set_ rid = false
        rw [hmapT]; exact hsh0
      · show ((scanGen _ _ _ _ _ _ _).2.2 T).exclusive_lock_set_ rid = false
        rw [hmapT]; exact hex0
      · exact hbl
      · simp [afterCall, setQueue]
      · intro r hr'; simp [afterCall, setQueue, Function.update_apply, hr']
      · rfl
      · rfl
    | none =>
      rw [LockExclusive_grant _ _ _ hadm hex0 hr]
      simp only [scanExclusive_eq]
      rw [scanExclusive_eq] at hr
      apply h1.grant T rid .EXCLUSIVE pre suf
      · show ¬ ((scanGen _ _ _ _ _ _ _).2.2 T).finished
        rw [hmapT]; exact hadm.1
      · show ((scanGen _ _ _ _ _ _ _).2.2 T).shared_lock_set_ rid = false
        rw [hmapT]; exact hsh0
      · show ((scanGen _ _ _ _ _ _ _).2.2 T).exclusive_lock_set_ rid = false
        rw [hmapT]; exact hex0
      · exact hbl
      · simp [setQueue, hshape]
      · intro a ha
        exfalso
        obtain ⟨ha1, ha2, ha3⟩ := hpre a ha
        simp only [younger, older, own, decide_eq_false_iff_not] at ha1 ha2 ha3
        rcases lt_trichotomy a.txn_id_ T with hlt | heq | hgt
        · exact ha2 hlt
        · exact ha3 heq
        · exact ha1 hgt
      · rcases hsuf hr with h2 | ⟨e, rest, h2, h3⟩
        · exact Or.inl h2
        · exact Or.inr ⟨e, rest, h2, by simpa [own] using h3⟩
      · simp [afterCall, setQueue, hshape]
      · intro r hr'; simp [afterCall, setQueue, Function.update_apply, hr']
      · intro t ht; simp [afterCall, setQueue, Function.update_apply, ht]
      · intro r
        simp [afterCall, setQueue]
      · intro r
        by_cases hr' : r = rid
        · subst hr'; simp [afterCall, setQueue]
        · simp [afterCall, setQueue, Function.update_apply, hr']
      · rfl

omit [DecidableEq RID] in
/-- A call of `LockUpgrade` returns without a change. -/
theorem LockInv.upgradeReturn {s : LockSystem RID} (h : LockInv s) (T : Int) (rid : RID)
    (b : Bool) (hg : s.blocked T = some (.upgrade, rid) ∨ s.free T) :
    LockInv (s.afterCall T .upgrade rid (.returned b, s.lm)) := by
  apply h.unblock T
  · intro r; rfl
  · intro t _; rfl
  · rfl
  · rfl
  · exact id
  · rfl
  · right
    intro md r hc
    rcases hg with h1 | h1
    · rw [h1] at hc
      simp only [Option.some.injEq, Prod.mk.injEq] at hc
      exact callOf_ne_upgrade md hc.1.symm
    · rw [show s.blocked T = none from h1] at hc; cases hc

theorem LockInv.lockUpgrade {s : LockSystem RID} (h : LockInv s) (T : Int) (rid : RID)
    (hg : s.blocked T = some (.upgrade, rid) ∨ s.free T) :
    LockInv (s.afterCall T .upgrade rid (s.lm.LockUpgrade T rid)) := by
  have hbl : s.blocked T = none ∨ s.blocked T = some (.upgrade, rid) := by
    rcases hg with h1 | h1
    · exact Or.inr h1
    · exact Or.inl h1
  rcases admitted_cases (s.lm.txn_map T) with hfin | hshr | hadm
  · rw [LockUpgrade_finished _ _ _ hfin]
    exact h.reject T _ rid false _ (Or.inl rfl) hfin
  · rw [LockUpgrade_shrinking _ _ _ hshr.1 hshr.2]
    exact h.reject T _ rid false _ (Or.inr rfl) (SetState_finished _ _)
  · cases hex0 : (s.lm.txn_map T).exclusive_lock_set_ rid with
    | true =>
      rw [LockUpgrade_held _ _ _ hadm hex0]
      exact h.upgradeReturn T rid true hg
    | false =>
      cases hu : (s.lm.lock_table_ rid).upgrading_ with
      | true =>
        rw [LockUpgrade_collision _ _ _ hadm hex0 hu]
        exact h.upgradeReturn T rid false hg
      | false =>
        have hW : ∀ e, younger T e = true → true = true ∨ e.lock_mode_ = .EXCLUSIVE :=
          fun _ _ => Or.inl rfl
        obtain ⟨pre, suf, hshape, hpre, hsuf, _⟩ := scanGen_shape (younger T) (older T)
          (fun _ => false) true rid (s.lm.lock_table_ rid).request_queue_ s.lm.txn_map
        have hmapT := scanGen_map_of_ne (younger T) (older T) (fun _ => false) true rid T
          (s.lm.lock_table_ rid).request_queue_ s.lm.txn_map (by
            intro e _ he
            simp only [younger, decide_eq_true_eq] at he
            exact fun hc => absurd he (by rw [hc]; exact lt_irrefl _))
        cases hr : (scanUpgrade T rid (s.lm.lock_table_ rid).request_queue_ s.lm.txn_map).1 with
        | some it =>
          have h1 := scanGen_inv (younger T) (older T) (fun _ => false) true rid
            true hW (s.lm.lock_table_ rid).request_queue_ [] s h rfl
          rw [List.nil_append] at h1
          rw [LockUpgrade_wait _ _ _ hadm hex0 hu it hr]
          simp only [scanUpgrade_eq]
          apply h1.parkUpgrade T rid
          · show ¬ ((scanGen _ _ _ _ _ _ _).2.2 T).finished
            rw [hmapT]; exact hadm.1
          · exact hbl
          · intro r; rfl
          · rfl
          · rfl
        | none =>
          have h1 := scanGen_inv (younger T) (older T) (fun _ => false) true rid
            false hW (s.lm.lock_table_ rid).request_queue_ [] s h rfl
          rw [List.nil_append] at h1
          rw [LockUpgrade_grant _ _ _ hadm hex0 hu hr]
          simp only [scanUpgrade_eq]
          rw [scanUpgrade_eq] at hr
          have hsufnil : suf = [] := by
            rcases hsuf hr with h2 | ⟨e, rest, _, h3⟩
            · exact h2
            · cases h3
          have hown : ∀ a ∈ (scanGen (younger T) (older T) (fun _ => false) true rid
              (s.lm.lock_table_ rid).request_queue_ s.lm.txn_map).2.1, a.txn_id_ = T := by
            intro a ha
            rw [hshape, hsufnil, List.append_nil] at ha
            obtain ⟨ha1, ha2, _⟩ := hpre a ha
            simp only [younger, older, decide_eq_false_iff_not] at ha1 ha2
            rcases lt_trichotomy a.txn_id_ T with hlt | heq | hgt
            · exact absurd hlt ha2
            · exact heq
            · exact absurd hgt ha1
          have hpwq := h1.queue rid
          simp only [setQueue, Function.update_same] at hpwq
          apply h1.grantUpgrade T rid
          · show ¬ ((scanGen _ _ _ _ _ _ _).2.2 T).finished
            rw [hmapT]; exact hadm.1
          · exact hbl
          · simp only [afterCall, Function.update_same]
            exact upgrade_queue T _ hpwq hown
          · simpa [setQueue] using hown
          · intro r hr'; simp [afterCall, setQueue, Function.update_apply, hr']
          · intro t ht; simp [afterCall, setQueue, Function.update_apply, ht]
          · intro r
            by_cases hr' : r = rid
            · subst hr'; simp [afterCall, setQueue]
            · simp [afterCall, setQueue, Function.update_apply, hr']
          · intro r
            by_cases hr' : r = rid
            · subst hr'; simp [afterCall, setQueue]
            · simp [afterCall, setQueue, Function.update_apply, hr']
          · rfl

theorem LockInv.unlock {s : LockSystem RID} (h : LockInv s) (T : Int) (rid : RID) :
    LockInv { s with lm := (s.lm.Unlock T rid).2 } := by
  have hmf : ∀ t, ((if (s.lm.txn_map T).isolation_level_ = .REPEATABLE_READ ∧
        (s.lm.txn_map T).state_ = .GROWING then SetState s.lm.txn_map T .SHRINKING
        else s.lm.txn_map) t).shared_lock_set_ = (s.lm.txn_map t).shared_lock_set_ ∧
      ((if (s.lm.txn_map T).isolation_level_ = .REPEATABLE_READ ∧
        (s.lm.txn_map T).state_ = .GROWING then SetState s.lm.txn_map T .SHRINKING
        else s.lm.txn_map) t).exclusive_lock_set_ = (s.lm.txn_map t).exclusive_lock_set_ ∧
      ((s.lm.txn_map t).finished → ((if (s.lm.txn_map T).isolation_level_ = .REPEATABLE_READ ∧
        (s.lm.txn_map T).state_ = .GROWING then SetState s.lm.txn_map T .SHRINKING
        else s.lm.txn_map) t).finished) := by
    intro t
    split
    · next hc =>
      refine ⟨SetState_shared _ _ _ _, SetState_exclusive _ _ _ _, ?_⟩
      intro hfin
      by_cases ht : t = T
      · subst ht
        rcases hfin with h1 | h1 <;> rw [hc.2] at h1 <;> cases h1
      · rw [SetState_of_ne _ _ _ ht]; exact hfin
    · exact ⟨rfl, rfl, id⟩
  unfold Unlock
  simp only []
  cases he : eraseOwn T (s.lm.lock_table_ rid).request_queue_ with
  | none =>
    simp only []
    apply h.of_sets
    · intro r; rfl
    · intro t; exact (hmf t).1
    · intro t; exact (hmf t).2.1
    · intro t; exact (hmf t).2.2
    · rfl
  | some queue =>
    simp only []
    obtain ⟨l1, e, l2, hq, heT, _, hq'⟩ := eraseOwn_some T _ _ he
    apply h.release T rid l1 l2 e hq heT
    · simp [hq']
    · intro r hr'; simp [Function.update_apply, hr']
    · intro t r
      by_cases ht : t = T
      · subst ht
        by_cases hr' : r = rid
        · subst hr'; simp
        · simp [Function.update_apply, hr', (hmf t).1]
      · simp only [Function.update_noteq ht, if_neg (fun hc : t = T ∧ r = rid => ht hc.1)]
        rw [(hmf t).1]
    · intro t r
      by_cases ht : t = T
      · subst ht
        by_cases hr' : r = rid
        · subst hr'; simp
        · simp [Function.update_apply, hr', (hmf t).2.1]
      · simp only [Function.update_noteq ht, if_neg (fun hc : t = T ∧ r = rid => ht hc.1)]
        rw [(hmf t).2.1]
    · intro t hfin
      by_cases ht : t = T
      · subst ht
        have := (hmf t).2.2 hfin
        simp only [Function.update_same]
        exact this
      · simp only [Function.update_noteq ht]
        exact (hmf t).2.2 hfin
    · rfl

theorem applyOp_lockInv {s s' : LockSystem RID} (h : LockInv s) (op : LockOp RID)
    (hs : applyOp s op = some s') : LockInv s' := by
  cases op with
  | lockShared T rid =>
    simp only [applyOp] at hs
    split at hs
    · next hg =>
      simp only [Option.some.injEq] at hs
      rw [← hs]; exact h.lockShared T rid hg
    · cases hs
  | lockExclusive T rid =>
    simp only [applyOp] at hs
    split at hs
    · next hg =>
      simp only [Option.some.injEq] at hs
      rw [← hs]; exact h.lockExclusive T rid hg
    · cases hs
  | lockUpgrade T rid =>
    simp only [applyOp] at hs
    split at hs
    · next hg =>
      simp only [Option.some.injEq] at hs
      rw [← hs]; exact h.lockUpgrade T rid hg
    · cases hs
  | unlock T rid =>
    simp only [applyOp, Option.some.injEq] at hs
    rw [← hs]; exact h.unlock T rid

theorem runOps_lockInv (ops : List (LockOp RID)) :
    ∀ {s s' : LockSystem RID}, LockInv s → runOps ops s = some s' → LockInv s' := by
  induction ops with
  | nil =>
    intro s s' h hs
    simp only [runOps, Option.some.injEq] at hs
    rw [← hs]; exact h
  | cons op ops ih =>
    intro s s' h hs
    simp only [runOps] at hs
    cases h1 : applyOp s op with
    | none => rw [h1] at hs; cases hs
    | some s1 =>
      rw [h1] at hs
      exact ih (applyOp_lockInv h op h1) hs

/-- Every state reached from the start satisfies the invariant. -/
theorem reachable_lockInv (iso : Int → IsolationLevel) (ops : List (LockOp RID))
    {s : LockSystem RID} (hs : runOps ops (start iso) = some s) : LockInv s :=
  runOps_lockInv ops (LockInv_start iso) hs

omit [DecidableEq RID] in
/-- Two transactions do not hold locks on one RID when one of the locks is
exclusive. -/
theorem LockInv.exclusive_alone {s : LockSystem RID} (h : LockInv s) {A B : Int} {rid : RID}
    (hAB : A ≠ B) (hA : (s.lm.txn_map A).exclusive_lock_set_ rid = true) :
    (s.lm.txn_map B).shared_lock_set_ rid = false ∧
      (s.lm.txn_map B).exclusive_lock_set_ rid = false := by
  by_contra hcon
  have hB : (s.lm.txn_map B).shared_lock_set_ rid = true ∨
      (s.lm.txn_map B).exclusive_lock_set_ rid = true := by
    cases h1 : (s.lm.txn_map B).shared_lock_set_ rid with
    | true => exact Or.inl rfl
    | false =>
      cases h2 : (s.lm.txn_map B).exclusive_lock_set_ rid with
      | true => exact Or.inr rfl
      | false => exact absurd ⟨h1, h2⟩ hcon
  obtain ⟨a, ha, hat, hag⟩ := h.held A rid (Or.inr hA)
  obtain ⟨b, hb, hbt, hbg⟩ := h.held B rid hB
  have hab : a ≠ b := fun e => hAB (by rw [← hat, ← hbt, e])
  have hS := (QueueRel.shared_of_granted (h.queue rid) ha hb hab hag hbg).1
  have hok := (h.entry rid a ha).2.1 hag hS
  rw [hat, hA] at hok
  cases hok.2

end LockSystem
end bustub

/-! ### Lock manager: transactions past the GROWING phase -/

namespace bustub
namespace LockManager
variable {RID : Type} [DecidableEq RID]

theorem scanGen_record (W B S : LockRequest → Bool) (both : Bool) (rid : RID) (t : Int) :
    ∀ (q : List LockRequest) (m : Int → Transaction RID),
      ((scanGen W B S both rid q m).2.2 t).isolation_level_ = (m t).isolation_level_ ∧
        (((scanGen W B S both rid q m).2.2 t).state_ = (m t).state_ ∨
          ((scanGen W B S both rid q m).2.2 t).state_ = .ABORTED)
  | [], m => ⟨rfl, Or.inl rfl⟩
  | e :: rest, m => by
    by_cases hw : W e = true
    · simp only [scanGen, if_pos hw]
      obtain ⟨h1, h2⟩ := scanGen_record W B S both rid t rest (woundGen both m e.txn_id_ rid)
      rw [woundGen_isolation] at h1
      refine ⟨h1, ?_⟩
      rcases h2 with h2 | h2
      · by_cases ht : t = e.txn_id_
        · right; rw [h2, ht]; exact woundGen_state _ _ _ _
        · left; rw [h2, woundGen_of_ne _ _ _ _ ht]
      · exact Or.inr h2
    · by_cases hb : B e = true
      · simp [scanGen, hw, hb]
      · by_cases hs : S e = true
        · simp [scanGen, hw, hb, hs]
        · simp only [scanGen, if_neg hw, if_neg hb, if_neg hs]
          exact scanGen_record W B S both rid t rest m

omit [DecidableEq RID] in
theorem shrunk_of_record {a b : Transaction RID} (h : a.shrunk)
    (hi : b.isolation_level_ = a.isolation_level_)
    (hs : b.state_ = a.state_ ∨ b.state_ = .ABORTED) : b.shrunk := by
  refine ⟨by rw [hi]; exact h.1, ?_⟩
  rcases hs with hs | hs
  · rw [hs]; exact h.2
  · exact Or.inr hs

omit [DecidableEq RID] in
theorem shrunk_not_admitted {a : Transaction RID} (h : a.shrunk) : ¬ admitted a := by
  intro hadm
  rcases h.2 with h2 | h2
  · exact hadm.2 ⟨h.1, h2⟩
  · exact hadm.1 (Or.inl h2)

omit [DecidableEq RID] in
theorem SetState_shrunk (m : Int → Transaction RID) (t T : Int) (h : (m T).shrunk) :
    (SetState m t .ABORTED T).shrunk := by
  by_cases ht : T = t
  · subst ht
    exact ⟨by rw [SetState_isolation]; exact h.1, Or.inr (by simp [SetState])⟩
  · rw [SetState_of_ne _ _ _ ht]; exact h

theorem LockShared_shrunk (lm : LockManager RID) (t : Int) (rid : RID) (T : Int)
    (h : (lm.txn_map T).shrunk) : ((LockShared lm t rid).2.txn_map T).shrunk := by
  rcases admitted_cases (lm.txn_map t) with hfin | hshr | hadm
  · rw [LockShared_finished _ _ _ hfin]; exact h
  · rw [LockShared_shrinking _ _ _ hshr.1 hshr.2]; exact SetState_shrunk _ _ _ h
  · have hne : T ≠ t := fun e => shrunk_not_admitted h (e ▸ hadm)
    by_cases hiso : (lm.txn_map t).isolation_level_ = .READ_UNCOMMITTED
    · rw [LockShared_uncommitted _ _ _ hadm.1 hiso]; exact SetState_shrunk _ _ _ h
    · cases hs : (lm.txn_map t).shared_lock_set_ rid with
      | true => rw [LockShared_held _ _ _ hadm hiso hs]; exact h
      | false =>
        have hrec := scanGen_record (youngerX t) (olderX t) (own t) false rid T
          (lm.lock_table_ rid).request_queue_ lm.txn_map
        cases hr : (scanShared t rid (lm.lock_table_ rid).request_queue_ lm.txn_map).1 with
        | some it =>
          rw [LockShared_wait _ _ _ hadm hiso hs it hr]
          simp only [scanShared_eq]
          exact shrunk_of_record h hrec.1 hrec.2
        | none =>
          rw [LockShared_grant _ _ _ hadm hiso hs hr]
          simp only [scanShared_eq, Function.update_noteq hne]
          exact shrunk_of_record h hrec.1 hrec.2

theorem LockExclusive_shrunk (lm : LockManager RID) (t : Int) (rid : RID) (T : Int)
    (h : (lm.txn_map T).shrunk) : ((LockExclusive lm t rid).2.txn_map T).shrunk := by
  rcases admitted_cases (lm.txn_map t) with hfin | hshr | hadm
  · rw [LockExclusive_finished _ _ _ hfin]; exact h
  · rw [LockExclusive_shrinking _ _ _ hshr.1 hshr.2]; exact SetState_shrunk _ _ _ h
  · have hne : T ≠ t := fun e => shrunk_not_admitted h (e ▸ hadm)
    cases hs : (lm.txn_map t).exclusive_lock_set_ rid with
    | true => rw [LockExclusive_held _ _ _ hadm hs]; exact h
    | false =>
      have hrec := scanGen_record (younger t) (older t) (own t) true rid T
        (lm.lock_table_ rid).request_queue_ lm.txn_map
      cases hr : (scanExclusive t rid (lm.lock_table_ rid).request_queue_ lm.txn_map).1 with
      | some it =>
        rw [LockExclusive_wait _ _ _ hadm hs it hr]
        simp only [scanExclusive_eq]
        exact shrunk_of_record h hrec.1 hrec.2
      | none =>
        rw [LockExclusive_grant _ _ _ hadm hs hr]
        simp only [scanExclusive_eq, Function.update_noteq hne]
        exact shrunk_of_record h hrec.1 hrec.2

theorem LockUpgrade_shrunk (lm : LockManager RID) (t : Int) (rid : RID) (T : Int)
    (h : (lm.txn_map T).shrunk) : ((LockUpgrade lm t rid).2.txn_map T).shrunk := by
  rcases admitted_cases (lm.txn_map t) with hfin | hshr | hadm
  · rw [LockUpgrade_finished _ _ _ hfin]; exact h
  · rw [LockUpgrade_shrinking _ _ _ hshr.1 hshr.2]; exact SetState_shrunk _ _ _ h
  · have hne : T ≠ t := fun e => shrunk_not_admitted h (e ▸ hadm)
    cases hs : (lm.txn_map t).exclusive_lock_set_ rid with
    | true => rw [LockUpgrade_held _ _ _ hadm hs]; exact h
    | false =>
      cases hu : (lm.lock_table_ rid).upgrading_ with
      | true => rw [LockUpgrade_collision _ _ _ hadm hs hu]; exact h
      | false =>
        have hrec := scanGen_record (younger t) (older t) (fun _ => false) true rid T
          (lm.lock_table_ rid).request_queue_ lm.txn_map
        cases hr : (scanUpgrade t rid (lm.lock_table_ rid).request_queue_ lm.txn_map).1 with
        | some it =>
          rw [LockUpgrade_wait _ _ _ hadm hs hu it hr]
          simp only [scanUpgrade_eq]
          exact shrunk_of_record h hrec.1 hrec.2
        | none =>
          rw [LockUpgrade_grant _ _ _ hadm hs hu hr]
          simp only [scanUpgrade_eq, Function.update_noteq hne]
          exact shrunk_of_record h hrec.1 hrec.2

/-- The state and the isolation level of every transaction after `Unlock`. -/
theorem Unlock_record (lm : LockManager RID) (t : Int) (rid : RID) (T : Int) :
    ((Unlock lm t rid).2.txn_map T).isolation_level_ = (lm.txn_map T).isolation_level_ ∧
      ((Unlock lm t rid).2.txn_map T).state_ =
        (if T = t ∧ (lm.txn_map t).isolation_level_ = .REPEATABLE_READ ∧
          (lm.txn_map t).state_ = .GROWING then .SHRINKING else (lm.txn_map T).state_) := by
  unfold Unlock
  simp only []
  by_cases hT : T = t
  · subst hT
    by_cases hc : (lm.txn_map T).isolation_level_ = .REPEATABLE_READ ∧
        (lm.txn_map T).state_ = .GROWING
    · cases eraseOwn T (lm.lock_table_ rid).request_queue_ <;>
        simp [hc, SetState]
    · cases eraseOwn T (lm.lock_table_ rid).request_queue_ <;>
        simp [hc]
  · by_cases hc : (lm.txn_map t).isolation_level_ = .REPEATABLE_READ ∧
        (lm.txn_map t).state_ = .GROWING
    · cases eraseOwn t (lm.lock_table_ rid).request_queue_ <;>
        simp [hc, SetState, Function.update_apply, hT]
    · cases eraseOwn t (lm.lock_table_ rid).request_queue_ <;>
        simp [hc, Function.update_apply, hT]

theorem Unlock_shrunk (lm : LockManager RID) (t : Int) (rid : RID) (T : Int)
    (h : (lm.txn_map T).shrunk) : ((Unlock lm t rid).2.txn_map T).shrunk := by
  obtain ⟨h1, h2⟩ := Unlock_record lm t rid T
  refine ⟨by rw [h1]; exact h.1, ?_⟩
  rw [h2]
  split
  · exact Or.inl rfl
  · exact h.2

theorem Rejected_of_shrunk_shared (lm : LockManager RID) (T : Int) (rid : RID)
    (h : (lm.txn_map T).shrunk) : Rejected lm T (LockShared lm T rid) := by
  rcases h.2 with h2 | h2
  · rw [LockShared_shrinking _ _ _ h.1 h2]
    exact ⟨rfl, by simp [SetState], rfl,
      fun t => ⟨SetState_shared _ _ _ _, SetState_exclusive _ _ _ _⟩⟩
  · rw [LockShared_finished _ _ _ (Or.inl h2)]
    exact ⟨rfl, h2, rfl, fun t => ⟨rfl, rfl⟩⟩

theorem Rejected_of_shrunk_exclusive (lm : LockManager RID) (T : Int) (rid : RID)
    (h : (lm.txn_map T).shrunk) : Rejected lm T (LockExclusive lm T rid) := by
  rcases h.2 with h2 | h2
  · rw [LockExclusive_shrinking _ _ _ h.1 h2]
    exact ⟨rfl, by simp [SetState], rfl,
      fun t => ⟨SetState_shared _ _ _ _, SetState_exclusive _ _ _ _⟩⟩
  · rw [LockExclusive_finished _ _ _ (Or.inl h2)]
    exact ⟨rfl, h2, rfl, fun t => ⟨rfl, rfl⟩⟩

theorem Rejected_of_shrunk_upgrade (lm : LockManager RID) (T : Int) (rid : RID)
    (h : (lm.txn_map T).shrunk) : Rejected lm T (LockUpgrade lm T rid) := by
  rcases h.2 with h2 | h2
  · rw [LockUpgrade_shrinking _ _ _ h.1 h2]
    exact ⟨rfl, by simp [SetState], rfl,
      fun t => ⟨SetState_shared _ _ _ _, SetState_exclusive _ _ _ _⟩⟩
  · rw [LockUpgrade_finished _ _ _ (Or.inl h2)]
    exact ⟨rfl, h2, rfl, fun t => ⟨rfl, rfl⟩⟩

theorem scanExclusive_all_younger (T : Int) (rid : RID) :
    ∀ (q : List LockRequest) (m : Int → Transaction RID), (∀ e ∈ q, T < e.txn_id_) →
      scanExclusive T rid q m = (none, [], woundAll rid q m)
  | [], _, _ => rfl
  | e :: rest, m, h => by
    have he : e.txn_id_ > T := h e (List.mem_cons_self _ _)
    simp only [scanExclusive, if_pos he]
    rw [scanExclusive_all_younger T rid rest _ (fun a ha => h a (List.mem_cons_of_mem _ ha))]
    rfl

theorem woundAll_of_not_mem (rid : RID) (t : Int) :
    ∀ (q : List LockRequest) (m : Int → Transaction RID), (∀ e ∈ q, e.txn_id_ ≠ t) →
      woundAll rid q m t = m t
  | [], _, _ => rfl
  | e :: rest, m, h => by
    show woundAll rid rest (woundExclusive m e.txn_id_ rid) t = m t
    rw [woundAll_of_not_mem rid t rest _ (fun a ha => h a (List.mem_cons_of_mem _ ha))]
    have := woundGen_of_ne true m e.txn_id_ rid
      (fun hc : t = e.txn_id_ => h e (List.mem_cons_self _ _) hc.symm)
    simpa [woundGen] using this

theorem woundAll_sets (rid : RID) (t : Int) (r : RID) :
    ∀ (q : List LockRequest) (m : Int → Transaction RID),
      (woundAll rid q m t).shared_lock_set_ r =
          (if (∃ e ∈ q, e.txn_id_ = t) ∧ r = rid then false else (m t).shared_lock_set_ r) ∧
        (woundAll rid q m t).exclusive_lock_set_ r =
          (if (∃ e ∈ q, e.txn_id_ = t) ∧ r = rid then false
            else (m t).exclusive_lock_set_ r)
  | [], m => by simp [woundAll]
  | e :: rest, m => by
    obtain ⟨h1, h2⟩ := woundAll_sets rid t r rest (woundExclusive m e.txn_id_ rid)
    have hs := woundGen_shared true m e.txn_id_ rid t r
    have hx := woundGen_exclusive true m e.txn_id_ rid t r
    simp only [woundGen, if_true] at hs hx
    have hfold : woundAll rid (e :: rest) m = woundAll rid rest (woundExclusive m e.txn_id_ rid) :=
      rfl
    rw [hfold, h1, h2, hs, hx]
    by_cases hr : r = rid
    · by_cases ht : t = e.txn_id_
      · simp [hr, ht]
      · have ht' : ¬ e.txn_id_ = t := fun hc => ht hc.symm
        simp [hr, ht, ht']
    · simp [hr]

theorem woundAll_state (rid : RID) (t : Int) :
    ∀ (q : List LockRequest) (m : Int → Transaction RID), (∃ e ∈ q, e.txn_id_ = t) →
      (woundAll rid q m t).state_ = .ABORTED
  | [], _, h => by
    obtain ⟨e, he, _⟩ := h
    exact absurd he (List.not_mem_nil _)
  | e :: rest, m, h => by
    show (woundAll rid rest (woundExclusive m e.txn_id_ rid) t).state_ = .ABORTED
    by_cases hin : ∃ a ∈ rest, a.txn_id_ = t
    · exact woundAll_state rid t rest _ hin
    · rw [woundAll_of_not_mem rid t rest _ (fun a ha hc => hin ⟨a, ha, hc⟩)]
      obtain ⟨a, ha, hat⟩ := h
      rcases List.mem_cons.1 ha with h1 | h1
      · rw [← hat, h1]
        have := woundGen_state true m e.txn_id_ rid
        simpa [woundGen] using this
      · exact absurd ⟨a, h1, hat⟩ hin

end LockManager
namespace LockSystem
variable {RID : Type} [DecidableEq RID]
open LockManager

theorem applyOp_shrunk {s s' : LockSystem RID} (op : LockOp RID) (T : Int)
    (h : (s.lm.txn_map T).shrunk) (hs : applyOp s op = some s') :
    (s'.lm.txn_map T).shrunk := by
  cases op with
  | lockShared t rid =>
    simp only [applyOp] at hs
    split at hs
    · simp only [Option.some.injEq] at hs
      rw [← hs]; exact LockShared_shrunk _ _ _ _ h
    · cases hs
  | lockExclusive t rid =>
    simp only [applyOp] at hs
    split at hs
    · simp only [Option.some.injEq] at hs
      rw [← hs]; exact LockExclusive_shrunk _ _ _ _ h
    · cases hs
  | lockUpgrade t rid =>
    simp only [applyOp] at hs
    split at hs
    · simp only [Option.some.injEq] at hs
      rw [← hs]; exact LockUpgrade_shrunk _ _ _ _ h
    · cases hs
  | unlock t rid =>
    simp only [applyOp, Option.some.injEq] at hs
    rw [← hs]; exact Unlock_shrunk _ _ _ _ h

theorem runOps_shrunk (ops : List (LockOp RID)) (T : Int) :
    ∀ {s s' : LockSystem RID}, (s.lm.txn_map T).shrunk → runOps ops s = some s' →
      (s'.lm.txn_map T).shrunk := by
  induction ops with
  | nil =>
    intro s s' h hs
    simp only [runOps, Option.some.injEq] at hs
    rw [← hs]; exact h
  | cons op ops ih =>
    intro s s' h hs
    simp only [runOps] at hs
    cases h1 : applyOp s op with
    | none => rw [h1] at hs; cases hs
    | some s1 =>
      rw [h1] at hs
      exact ih (applyOp_shrunk op T h h1) hs

/-- The queue that a granted `LockUpgrade` leaves. -/
theorem LockInv.upgrade_grant_queue {s : LockSystem RID} (h : LockInv s) (T : Int) (rid : RID)
    (hr : (scanUpgrade T rid (s.lm.lock_table_ rid).request_queue_ s.lm.txn_map).1 = none) :
    upgradeFront (try_Insert T .EXCLUSIVE true
      (scanUpgrade T rid (s.lm.lock_table_ rid).request_queue_ s.lm.txn_map).2.1) =
      [{ txn_id_ := T, lock_mode_ := .EXCLUSIVE, granted_ := true }] := by
  have hW : ∀ e, younger T e = true → true = true ∨ e.lock_mode_ = .EXCLUSIVE :=
    fun _ _ => Or.inl rfl
  obtain ⟨pre, suf, hshape, hpre, hsuf, _⟩ := scanGen_shape (younger T) (older T)
    (fun _ => false) true rid (s.lm.lock_table_ rid).request_queue_ s.lm.txn_map
  have h1 := scanGen_inv (younger T) (older T) (fun _ => false) true rid
    false hW (s.lm.lock_table_ rid).request_queue_ [] s h rfl
  rw [List.nil_append] at h1
  rw [scanUpgrade_eq] at hr ⊢
  have hsufnil : suf = [] := by
    rcases hsuf hr with h2 | ⟨e, rest, _, h3⟩
    · exact h2
    · cases h3
  have hown : ∀ a ∈ (scanGen (younger T) (older T) (fun _ => false) true rid
      (s.lm.lock_table_ rid).request_queue_ s.lm.txn_map).2.1, a.txn_id_ = T := by
    intro a ha
    rw [hshape, hsufnil, List.append_nil] at ha
    obtain ⟨ha1, ha2, _⟩ := hpre a ha
    simp only [younger, older, decide_eq_false_iff_not] at ha1 ha2
    rcases lt_trichotomy a.txn_id_ T with hlt | heq | hgt
    · exact absurd hlt ha2
    · exact heq
    · exact absurd hgt ha1
  have hpwq := h1.queue rid
  simp only [setQueue, Function.update_same] at hpwq
  exact upgrade_queue T _ hpwq hown

omit [DecidableEq RID] in
/-- A transaction that holds a shared lock does not hold the exclusive lock. -/
theorem LockInv.shared_not_exclusive {s : LockSystem RID} (h : LockInv s) {T : Int} {rid : RID}
    (hsh : (s.lm.txn_map T).shared_lock_set_ rid = true) :
    (s.lm.txn_map T).exclusive_lock_set_ rid = false := by
  obtain ⟨a, ha, hat, hag⟩ := h.held T rid (Or.inl hsh)
  have hok := h.entry rid a ha
  unfold EntryOK at hok
  rw [hat] at hok
  rcases LockMode.eq_shared_or a.lock_mode_ with hmd | hmd
  · exact (hok.2.1 hag hmd).2
  · have := (hok.1 hag hmd).2
    rw [hsh] at this; cases this

end LockSystem
end bustub

/-! ### Lock manager: two-phase locking and wound-wait -/

namespace bustub
namespace LockManager
variable {RID : Type} [DecidableEq RID]

theorem LockShared_waiting {lm : LockManager RID} {T : Int} {rid : RID} {it : LockRequest}
    (h : (LockShared lm T rid).1 = .waiting it) :
    it ∈ (lm.lock_table_ rid).request_queue_ ∧ it.txn_id_ < T ∧
      it.lock_mode_ = .EXCLUSIVE := by
  rcases admitted_cases (lm.txn_map T) with hfin | hshr | hadm
  · rw [LockShared_finished _ _ _ hfin] at h; cases h
  · rw [LockShared_shrinking _ _ _ hshr.1 hshr.2] at h; cases h
  · by_cases hiso : (lm.txn_map T).isolation_level_ = .READ_UNCOMMITTED
    · rw [LockShared_uncommitted _ _ _ hadm.1 hiso] at h; cases h
    · cases hs : (lm.txn_map T).shared_lock_set_ rid with
      | true => rw [LockShared_held _ _ _ hadm hiso hs] at h; cases h
      | false =>
        cases hr : (scanShared T rid (lm.lock_table_ rid).request_queue_ lm.txn_map).1 with
        | none => rw [LockShared_grant _ _ _ hadm hiso hs hr] at h; cases h
        | some it' =>
          rw [LockShared_wait _ _ _ hadm hiso hs it' hr] at h
          simp only [LockResult.waiting.injEq] at h
          subst h
          rw [scanShared_eq] at hr
          obtain ⟨_, _, _, _, _, h4⟩ := LockSystem.scanGen_shape (youngerX T) (olderX T) (own T) false rid
            (lm.lock_table_ rid).request_queue_ lm.txn_map
          obtain ⟨hb, _, hmem⟩ := h4 it' hr
          simp only [olderX, decide_eq_true_eq] at hb
          exact ⟨hmem, hb.1, hb.2⟩

theorem LockExclusive_waiting {lm : LockManager RID} {T : Int} {rid : RID} {it : LockRequest}
    (h : (LockExclusive lm T rid).1 = .waiting it) :
    it ∈ (lm.lock_table_ rid).request_queue_ ∧ it.txn_id_ < T := by
  rcases admitted_cases (lm.txn_map T) with hfin | hshr | hadm
  · rw [LockExclusive_finished _ _ _ hfin] at h; cases h
  · rw [LockExclusive_shrinking _ _ _ hshr.1 hshr.2] at h; cases h
  · cases hs : (lm.txn_map T).exclusive_lock_set_ rid with
    | true => rw [LockExclusive_held _ _ _ hadm hs] at h; cases h
    | false =>
      cases hr : (scanExclusive T rid (lm.lock_table_ rid).request_queue_ lm.txn_map).1 with
      | none => rw [LockExclusive_grant _ _ _ hadm hs hr] at h; cases h
      | some it' =>
        rw [LockExclusive_wait _ _ _ hadm hs it' hr] at h
        simp only [LockResult.waiting.injEq] at h
        subst h
        rw [scanExclusive_eq] at hr
        obtain ⟨_, _, _, _, _, h4⟩ := LockSystem.scanGen_shape (younger T) (older T) (own T) true rid
          (lm.lock_table_ rid).request_queue_ lm.txn_map
        obtain ⟨hb, _, hmem⟩ := h4 it' hr
        simp only [older, decide_eq_true_eq] at hb
        exact ⟨hmem, hb⟩

/-- A `LockUpgrade` that blocks was admitted to the loop with the flag of the
queue clear, and has set the flag. -/
theorem LockUpgrade_waiting {lm : LockManager RID} {T : Int} {rid : RID} {it : LockRequest}
    (h : (LockUpgrade lm T rid).1 = .waiting it) :
    (it ∈ (lm.lock_table_ rid).request_queue_ ∧ it.txn_id_ < T) ∧
      admitted (lm.txn_map T) ∧ (lm.txn_map T).exclusive_lock_set_ rid = false ∧
      (LockUpgrade lm T rid).2.txn_map T = lm.txn_map T ∧
      ((LockUpgrade lm T rid).2.lock_table_ rid).upgrading_ = true := by
  rcases admitted_cases (lm.txn_map T) with hfin | hshr | hadm
  · rw [LockUpgrade_finished _ _ _ hfin] at h; cases h
  · rw [LockUpgrade_shrinking _ _ _ hshr.1 hshr.2] at h; cases h
  · cases hs : (lm.txn_map T).exclusive_lock_set_ rid with
    | true => rw [LockUpgrade_held _ _ _ hadm hs] at h; cases h
    | false =>
      cases hu : (lm.lock_table_ rid).upgrading_ with
      | true => rw [LockUpgrade_collision _ _ _ hadm hs hu] at h; cases h
      | false =>
        cases hr : (scanUpgrade T rid (lm.lock_table_ rid).request_queue_ lm.txn_map).1 with
        | none => rw [LockUpgrade_grant _ _ _ hadm hs hu hr] at h; cases h
        | some it' =>
          rw [LockUpgrade_wait _ _ _ hadm hs hu it' hr] at h ⊢
          simp only [LockResult.waiting.injEq] at h
          subst h
          rw [scanUpgrade_eq] at hr
          obtain ⟨_, _, _, _, _, h4⟩ := LockSystem.scanGen_shape (younger T) (older T) (fun _ => false)
            true rid (lm.lock_table_ rid).request_queue_ lm.txn_map
          obtain ⟨hb, _, hmem⟩ := h4 it' hr
          simp only [older, decide_eq_true_eq] at hb
          refine ⟨⟨hmem, hb⟩, hadm, rfl, ?_, ?_⟩
          · simp only [scanUpgrade_eq]
            exact LockSystem.scanGen_map_of_ne (younger T) (older T) (fun _ => false) true rid T
              (lm.lock_table_ rid).request_queue_ lm.txn_map (by
                intro e _ he
                simp only [younger, decide_eq_true_eq] at he
                exact fun hc => absurd he (by rw [hc]; exact lt_irrefl _))
          · simp

/-- A `LockUpgrade` that has blocked returns false when it runs again, whatever
the queue holds by then, and leaves the flag of the queue set. -/
theorem LockUpgrade_after_wait {lm : LockManager RID} {T : Int} {rid : RID} {it : LockRequest}
    (h : (LockUpgrade lm T rid).1 = .waiting it) :
    LockUpgrade (LockUpgrade lm T rid).2 T rid = (.returned false, (LockUpgrade lm T rid).2) := by
  obtain ⟨_, hadm, hs, hrec, hflag⟩ := LockUpgrade_waiting h
  exact LockUpgrade_collision _ _ _ (by rw [hrec]; exact hadm) (by rw [hrec]; exact hs) hflag

theorem WaitsFor.older {T U : Int} (h : WaitsFor RID T U) : U < T := by
  obtain ⟨lm, rid, it, hit, h1 | h1 | h1⟩ := h
  · rw [← hit]; exact (LockShared_waiting h1).2.1
  · rw [← hit]; exact (LockExclusive_waiting h1).2
  · rw [← hit]; exact (LockUpgrade_waiting h1).1.2

theorem WaitsFor.transGen_lt {T U : Int} (h : Relation.TransGen (WaitsFor RID) T U) :
    U < T := by
  induction h with
  | single h1 => exact h1.older
  | tail _ h2 ih => exact lt_trans h2.older ih

/-- C25: for a transaction at READ_UNCOMMITTED in state GROWING or SHRINKING,
`LockShared` returns false and the only change is that the state of the
transaction becomes ABORTED: the lock table and all lock sets stay as they
were.  For a transaction that is ABORTED or COMMITTED, `LockShared`,
`LockExclusive` and `LockUpgrade` return false and change nothing. -/
theorem lock_calls_rejected (lm : LockManager RID) (T : Int) (rid : RID) :
    ((lm.txn_map T).isolation_level_ = .READ_UNCOMMITTED →
      ((lm.txn_map T).state_ = .GROWING ∨ (lm.txn_map T).state_ = .SHRINKING) →
      LockShared lm T rid =
        (.returned false,
          { lm with
            txn_map := Function.update lm.txn_map T
              { lm.txn_map T with state_ := .ABORTED } })) ∧
    (((lm.txn_map T).state_ = .ABORTED ∨ (lm.txn_map T).state_ = .COMMITTED) →
      LockShared lm T rid = (.returned false, lm) ∧
        LockExclusive lm T rid = (.returned false, lm) ∧
        LockUpgrade lm T rid = (.returned false, lm)) := by
  constructor
  · intro hiso hst
    have hnf : ¬ (lm.txn_map T).finished := by
      intro hf
      rcases hst with h1 | h1 <;> rcases hf with h2 | h2 <;> rw [h1] at h2 <;> cases h2
    exact LockShared_uncommitted lm T rid hnf hiso
  · intro hf
    exact ⟨LockShared_finished lm T rid hf, LockExclusive_finished lm T rid hf,
      LockUpgrade_finished lm T rid hf⟩

theorem lock_calls_rejected_witness :
    (LockShared (LockSystem.start (fun _ => .READ_UNCOMMITTED) : LockSystem Nat).lm 1 0).1 =
        .returned false ∧
      (LockExclusive abortState.lm 5 1).1 = .returned false :=
  ⟨by rw [(lock_calls_rejected _ 1 0).1 rfl (Or.inl rfl)],
    by rw [((lock_calls_rejected abortState.lm 5 1).2 (Or.inl (by decide))).2.1]⟩

/-- C27: a call of `LockShared`, `LockExclusive` or `LockUpgrade` by
transaction `T` reaches `cv_.wait` only with the iterator at an entry of the
queue of `rid` whose transaction id is smaller than `T`, and in `LockShared`
that entry is in EXCLUSIVE mode; hence the waits-for relation has no cycle. -/
theorem waits_only_for_older (lm : LockManager RID) (T : Int) (rid : RID) (it : LockRequest) :
    ((LockShared lm T rid).1 = .waiting it →
      it ∈ (lm.lock_table_ rid).request_queue_ ∧ it.txn_id_ < T ∧
        it.lock_mode_ = .EXCLUSIVE) ∧
    ((LockExclusive lm T rid).1 = .waiting it →
      it ∈ (lm.lock_table_ rid).request_queue_ ∧ it.txn_id_ < T) ∧
    ((LockUpgrade lm T rid).1 = .waiting it →
      it ∈ (lm.lock_table_ rid).request_queue_ ∧ it.txn_id_ < T) ∧
    (∀ U, WaitsFor RID T U → U < T) ∧
    ∀ U, ¬ Relation.TransGen (WaitsFor RID) U U :=
  ⟨LockShared_waiting, LockExclusive_waiting, fun h => (LockUpgrade_waiting h).1,
    fun _ h => h.older, fun _ h => lt_irrefl _ (WaitsFor.transGen_lt h)⟩

theorem waits_only_for_older_witness :
    (LockExclusive holderState.lm 2 0).1 =
        .waiting { txn_id_ := 1, lock_mode_ := .SHARED, granted_ := true } ∧
      ({ txn_id_ := 1, lock_mode_ := .SHARED, granted_ := true } : LockRequest) ∈
        (holderState.lm.lock_table_ 0).request_queue_ ∧
      (1 : Int) < 2 :=
  ⟨by decide,
    ((waits_only_for_older holderState.lm 2 0 _).2.1 (by decide)).1,
    ((waits_only_for_older holderState.lm 2 0
      { txn_id_ := 1, lock_mode_ := .SHARED, granted_ := true }).2.1 (by decide)).2⟩

end LockManager
namespace LockSystem
variable {RID : Type} [DecidableEq RID]
open LockManager

/-- C23: with the calls of the lock manager as atomic steps (a call that has to
wait parks and runs again at a wake-up) and no `LockShared` or `LockExclusive`
on a RID the caller has locked already, in every reachable state a RID in the
exclusive lock set of a transaction is in no lock set of any other transaction,
aborted or not. -/
theorem exclusive_lock_excludes_others (iso : Int → IsolationLevel) (ops : List (LockOp RID))
    (s : LockSystem RID) (hs : runOps ops (start iso) = some s) (A B : Int) (rid : RID)
    (hAB : A ≠ B) (hA : (s.lm.txn_map A).exclusive_lock_set_ rid = true) :
    (s.lm.txn_map B).shared_lock_set_ rid = false ∧
      (s.lm.txn_map B).exclusive_lock_set_ rid = false :=
  (reachable_lockInv iso ops hs).exclusive_alone hAB hA

theorem exclusive_lock_excludes_others_witness :
    runOps woundOps (start exampleIso) = some woundState ∧
      (woundState.lm.txn_map 1).exclusive_lock_set_ 0 = true ∧
      (woundState.lm.txn_map 2).shared_lock_set_ 0 = false ∧
      (woundState.lm.txn_map 2).exclusive_lock_set_ 0 = false :=
  ⟨rfl, by decide,
    exclusive_lock_excludes_others exampleIso woundOps woundState rfl 1 2 0 (by decide)
      (by decide)⟩

/-- C24, counterexample: transaction 5 (REPEATABLE_READ) holds locks on RID 1
and RID 2 and is wounded on RID 2 by transaction 2; its first `Unlock`, on
RID 1, returns true and leaves its state ABORTED, not SHRINKING. -/
theorem Unlock_leaves_aborted_state :
    runOps abortOps (start exampleIso) = some abortState ∧
      (abortState.lm.txn_map 5).isolation_level_ = .REPEATABLE_READ ∧
      (Unlock abortState.lm 5 1).1 = true ∧
      ((Unlock abortState.lm 5 1).2.txn_map 5).state_ = .ABORTED ∧
      ((Unlock abortState.lm 5 1).2.txn_map 5).state_ ≠ .SHRINKING :=
  ⟨rfl, by decide, by decide, by decide, by decide⟩

/-- C24, amended: for a REPEATABLE_READ transaction `T` that is GROWING when it
calls `Unlock`, the state after the `Unlock` is SHRINKING, and after any
further steps of the system every `LockShared`, `LockExclusive` and
`LockUpgrade` by `T` returns false, leaves the state of `T` ABORTED and changes
no lock set and no queue. -/
theorem no_lock_after_unlock (s1 : LockSystem RID) (T : Int) (rid : RID)
    (hiso : (s1.lm.txn_map T).isolation_level_ = .REPEATABLE_READ)
    (hg : (s1.lm.txn_map T).state_ = .GROWING)
    (ops : List (LockOp RID)) (s3 : LockSystem RID)
    (hrun : runOps (.unlock T rid :: ops) s1 = some s3) (rid' : RID) :
    ((Unlock s1.lm T rid).2.txn_map T).state_ = .SHRINKING ∧
      Rejected s3.lm T (LockShared s3.lm T rid') ∧
      Rejected s3.lm T (LockExclusive s3.lm T rid') ∧
      Rejected s3.lm T (LockUpgrade s3.lm T rid') := by
  obtain ⟨hr1, hr2⟩ := Unlock_record s1.lm T rid T
  rw [if_pos ⟨rfl, hiso, hg⟩] at hr2
  have hsh2 : ((Unlock s1.lm T rid).2.txn_map T).shrunk :=
    ⟨by rw [hr1]; exact hiso, Or.inl hr2⟩
  simp only [runOps, applyOp, Option.some_bind] at hrun
  have hsh3 := runOps_shrunk ops T (s := { s1 with lm := (Unlock s1.lm T rid).2 }) hsh2 hrun
  exact ⟨hr2, Rejected_of_shrunk_shared _ _ _ hsh3, Rejected_of_shrunk_exclusive _ _ _ hsh3,
    Rejected_of_shrunk_upgrade _ _ _ hsh3⟩

theorem no_lock_after_unlock_witness :
    (holderState.lm.txn_map 1).isolation_level_ = .REPEATABLE_READ ∧
      (holderState.lm.txn_map 1).state_ = .GROWING ∧
      runOps [.unlock 1 0, .lockShared 2 0] holderState = some releasedState ∧
      (Unlock holderState.lm 1 0).1 = true ∧
      ((Unlock holderState.lm 1 0).2.txn_map 1).state_ = .SHRINKING ∧
      (LockShared releasedState.lm 1 0).1 = .returned false :=
  ⟨by decide, by decide, rfl, by decide,
    (no_lock_after_unlock holderState 1 0 (by decide) (by decide) [.lockShared 2 0]
      releasedState rfl 0).1,
    (no_lock_after_unlock holderState 1 0 (by decide) (by decide) [.lockShared 2 0]
      releasedState rfl 0).2.1.1⟩

/-- C26: in every reachable state, when a GROWING transaction `T` calls
`LockExclusive(rid)` and every entry of the queue of `rid` belongs to a
transaction with a larger id, the call returns true without waiting; every
transaction with an entry in that queue is then ABORTED and has `rid` in neither
lock set, while its lock sets on every other RID, and the queues of all other
RIDs, are as before; the queue of `rid` consists of the granted EXCLUSIVE entry
of `T`, and `rid` is in the exclusive lock set of `T`. -/
theorem LockExclusive_wounds_younger (iso : Int → IsolationLevel) (ops : List (LockOp RID))
    (s : LockSystem RID) (hs : runOps ops (start iso) = some s) (T : Int) (rid : RID)
    (hg : (s.lm.txn_map T).state_ = .GROWING)
    (hy : ∀ e ∈ (s.lm.lock_table_ rid).request_queue_, T < e.txn_id_) :
    (LockExclusive s.lm T rid).1 = .returned true ∧
      (∀ e ∈ (s.lm.lock_table_ rid).request_queue_,
        ((LockExclusive s.lm T rid).2.txn_map e.txn_id_).state_ = .ABORTED ∧
        ((LockExclusive s.lm T rid).2.txn_map e.txn_id_).shared_lock_set_ rid = false ∧
        ((LockExclusive s.lm T rid).2.txn_map e.txn_id_).exclusive_lock_set_ rid = false ∧
        ∀ r, r ≠ rid →
          ((LockExclusive s.lm T rid).2.txn_map e.txn_id_).shared_lock_set_ r =
              (s.lm.txn_map e.txn_id_).shared_lock_set_ r ∧
            ((LockExclusive s.lm T rid).2.txn_map e.txn_id_).exclusive_lock_set_ r =
              (s.lm.txn_map e.txn_id_).exclusive_lock_set_ r) ∧
      (∀ r, r ≠ rid → (LockExclusive s.lm T rid).2.lock_table_ r = s.lm.lock_table_ r) ∧
      ((LockExclusive s.lm T rid).2.lock_table_ rid).request_queue_ =
        [{ txn_id_ := T, lock_mode_ := .EXCLUSIVE, granted_ := true }] ∧
      ((LockExclusive s.lm T rid).2.txn_map T).exclusive_lock_set_ rid = true := by
  have hinv := reachable_lockInv iso ops hs
  have hadm : admitted (s.lm.txn_map T) := by
    constructor
    · intro hf
      rcases hf with h2 | h2 <;> rw [hg] at h2 <;> cases h2
    · intro hc
      rw [hg] at hc; cases hc.2
  have hx : (s.lm.txn_map T).exclusive_lock_set_ rid = false := by
    cases hx : (s.lm.txn_map T).exclusive_lock_set_ rid with
    | false => rfl
    | true =>
      obtain ⟨a, ha, hat, _⟩ := hinv.held T rid (Or.inr hx)
      have := hy a ha
      rw [hat] at this
      exact absurd this (lt_irrefl _)
  have hscan := scanExclusive_all_younger T rid (s.lm.lock_table_ rid).request_queue_
    s.lm.txn_map hy
  rw [LockExclusive_grant _ _ _ hadm hx (by rw [hscan])]
  rw [hscan]
  refine ⟨rfl, ?_, ?_, ?_, ?_⟩
  · intro e he
    have hne : e.txn_id_ ≠ T := fun hc => absurd (hy e he) (by rw [hc]; exact lt_irrefl _)
    have hin : ∃ a ∈ (s.lm.lock_table_ rid).request_queue_, a.txn_id_ = e.txn_id_ :=
      ⟨e, he, rfl⟩
    simp only [Function.update_noteq hne]
    refine ⟨woundAll_state rid _ _ _ hin, ?_, ?_, ?_⟩
    · rw [(woundAll_sets rid _ rid _ _).1, if_pos ⟨hin, rfl⟩]
    · rw [(woundAll_sets rid _ rid _ _).2, if_pos ⟨hin, rfl⟩]
    · intro r hr
      have hneg : ¬ ((∃ a ∈ (s.lm.lock_table_ rid).request_queue_, a.txn_id_ = e.txn_id_) ∧
          r = rid) := fun hc => hr hc.2
      rw [(woundAll_sets rid _ r _ _).1, (woundAll_sets rid _ r _ _).2, if_neg hneg,
        if_neg hneg]
      exact ⟨rfl, rfl⟩
  · intro r hr
    simp only [Function.update_noteq hr]
  · simp [try_Insert]
  · simp

theorem LockExclusive_wounds_younger_witness :
    runOps [.lockShared 2 0, .lockExclusive 3 0] (start exampleIso) = some queuedState ∧
      (queuedState.lm.txn_map 1).state_ = .GROWING ∧
      (queuedState.lm.lock_table_ 0).request_queue_ =
        [{ txn_id_ := 2, lock_mode_ := .SHARED, granted_ := true },
          { txn_id_ := 3, lock_mode_ := .EXCLUSIVE, granted_ := false }] ∧
      (LockExclusive queuedState.lm 1 0).1 = .returned true :=
  ⟨rfl, by decide, by decide,
    (LockExclusive_wounds_younger exampleIso [.lockShared 2 0, .lockExclusive 3 0] queuedState
      rfl 1 0 (by decide) (by decide)).1⟩

/-- C28: in every reachable state, when `LockUpgrade(T, rid)` returns true for
a transaction `T` with `rid` in its shared lock set, the queue of `rid` then
consists of the entry of `T`, in EXCLUSIVE mode and granted; `rid` has left the
shared lock set of `T` and is in its exclusive lock set; every entry of another
transaction found in a queue afterwards was in that queue before, unchanged;
and the upgrading flag of the queue is false. -/
theorem LockUpgrade_success (iso : Int → IsolationLevel) (ops : List (LockOp RID))
    (s : LockSystem RID) (hs : runOps ops (start iso) = some s) (T : Int) (rid : RID)
    (hsh : (s.lm.txn_map T).shared_lock_set_ rid = true)
    (hret : (LockUpgrade s.lm T rid).1 = .returned true) :
    ((LockUpgrade s.lm T rid).2.lock_table_ rid).request_queue_ =
        [{ txn_id_ := T, lock_mode_ := .EXCLUSIVE, granted_ := true }] ∧
      ((LockUpgrade s.lm T rid).2.txn_map T).shared_lock_set_ rid = false ∧
      ((LockUpgrade s.lm T rid).2.txn_map T).exclusive_lock_set_ rid = true ∧
      (∀ r e, e ∈ ((LockUpgrade s.lm T rid).2.lock_table_ r).request_queue_ →
        e.txn_id_ ≠ T → e ∈ (s.lm.lock_table_ r).request_queue_) ∧
      ((LockUpgrade s.lm T rid).2.lock_table_ rid).upgrading_ = false := by
  have hinv := reachable_lockInv iso ops hs
  have hx := hinv.shared_not_exclusive hsh
  rcases admitted_cases (s.lm.txn_map T) with hfin | hshr | hadm
  · rw [LockUpgrade_finished _ _ _ hfin] at hret; cases hret
  · rw [LockUpgrade_shrinking _ _ _ hshr.1 hshr.2] at hret; cases hret
  · cases hu : (s.lm.lock_table_ rid).upgrading_ with
    | true => rw [LockUpgrade_collision _ _ _ hadm hx hu] at hret; cases hret
    | false =>
      cases hr : (scanUpgrade T rid (s.lm.lock_table_ rid).request_queue_ s.lm.txn_map).1 with
      | some it => rw [LockUpgrade_wait _ _ _ hadm hx hu it hr] at hret; cases hret
      | none =>
        have hq := hinv.upgrade_grant_queue T rid hr
        rw [LockUpgrade_grant _ _ _ hadm hx hu hr]
        refine ⟨?_, ?_, ?_, ?_, ?_⟩
        · simp only [Function.update_same]; exact hq
        · simp
        · simp
        · intro r e he hne
          by_cases hr' : r = rid
          · subst hr'
            simp only [Function.update_same] at he
            rw [hq, List.mem_singleton] at he
            rw [he] at hne
            exact absurd rfl hne
          · simpa [Function.update_noteq hr'] using he
        · simp

theorem LockUpgrade_success_witness :
    runOps [.lockShared 1 0] (start exampleIso) = some holderState ∧
      (holderState.lm.txn_map 1).shared_lock_set_ 0 = true ∧
      (LockUpgrade holderState.lm 1 0).1 = .returned true ∧
      ((LockUpgrade holderState.lm 1 0).2.lock_table_ 0).request_queue_ =
        [{ txn_id_ := 1, lock_mode_ := .EXCLUSIVE, granted_ := true }] :=
  ⟨rfl, by decide, by decide,
    (LockUpgrade_success exampleIso [.lockShared 1 0] holderState rfl 1 0 (by decide)
      (by decide)).1⟩

/-- C29, failing run: transactions 1 and 2 hold shared locks on RID 0;
`LockUpgrade` by transaction 2 blocks behind the entry of the older
transaction 1 and sets the upgrading flag; transaction 1 unlocks, so that the
queue holds the entry of transaction 2 alone; the woken `LockUpgrade` returns
false at its own flag, transaction 2 keeps its shared lock in SHARED mode, the
flag stays set with no upgrade in progress, and the next `LockUpgrade` on RID 0
returns false as well. -/
theorem LockUpgrade_rejected_by_own_flag :
    runOps [.lockShared 1 0, .lockShared 2 0] (start exampleIso) = some sharedState ∧
      (LockUpgrade sharedState.lm 2 0).1 =
        .waiting { txn_id_ := 1, lock_mode_ := .SHARED, granted_ := true } ∧
      runOps [.lockShared 1 0, .lockShared 2 0, .lockUpgrade 2 0, .unlock 1 0]
        (start exampleIso) = some upgradeState ∧
      upgradeState.lm.lock_table_ 0 =
        { request_queue_ := [{ txn_id_ := 2, lock_mode_ := .SHARED, granted_ := true }],
          upgrading_ := true } ∧
      upgradeState.blocked 2 = some (.upgrade, 0) ∧
      (upgradeState.lm.txn_map 2).state_ = .GROWING ∧
      (LockUpgrade upgradeState.lm 2 0).1 = .returned false ∧
      (LockUpgrade upgradeState.lm 2 0).2.lock_table_ 0 =
        { request_queue_ := [{ txn_id_ := 2, lock_mode_ := .SHARED, granted_ := true }],
          upgrading_ := true } ∧
      ((LockUpgrade upgradeState.lm 2 0).2.txn_map 2).exclusive_lock_set_ 0 = false ∧
      (LockUpgrade (LockUpgrade upgradeState.lm 2 0).2 2 0).1 = .returned false :=
  ⟨rfl, by decide, rfl, by decide, by decide, by decide, by decide, by decide, by decide,
    by decide⟩

/-- C30: in every reachable state, `Unlock(T, rid)` returns true iff the queue
of `rid` holds an entry of `T`; on success the queue loses that entry and keeps
all other entries in their order, no entry of `T` is left in it, `rid` is in
neither lock set of `T`, and the queues of the other RIDs are as before.  A
REPEATABLE_READ transaction in state GROWING is SHRINKING afterwards; at
READ_COMMITTED and READ_UNCOMMITTED the state is the same as before. -/
theorem Unlock_effect (iso : Int → IsolationLevel) (ops : List (LockOp RID))
    (s : LockSystem RID) (hs : runOps ops (start iso) = some s) (T : Int) (rid : RID) :
    ((Unlock s.lm T rid).1 = true ↔
      ∃ e ∈ (s.lm.lock_table_ rid).request_queue_, e.txn_id_ = T) ∧
    ((Unlock s.lm T rid).1 = true →
      (∃ l1 e l2, (s.lm.lock_table_ rid).request_queue_ = l1 ++ e :: l2 ∧ e.txn_id_ = T ∧
        ((Unlock s.lm T rid).2.lock_table_ rid).request_queue_ = l1 ++ l2 ∧
        ∀ a ∈ l1 ++ l2, a.txn_id_ ≠ T) ∧
      ((Unlock s.lm T rid).2.txn_map T).shared_lock_set_ rid = false ∧
      ((Unlock s.lm T rid).2.txn_map T).exclusive_lock_set_ rid = false ∧
      ∀ r, r ≠ rid → (Unlock s.lm T rid).2.lock_table_ r = s.lm.lock_table_ r) ∧
    ((s.lm.txn_map T).isolation_level_ = .REPEATABLE_READ →
      (s.lm.txn_map T).state_ = .GROWING →
      ((Unlock s.lm T rid).2.txn_map T).state_ = .SHRINKING) ∧
    ((s.lm.txn_map T).isolation_level_ = .READ_COMMITTED ∨
        (s.lm.txn_map T).isolation_level_ = .READ_UNCOMMITTED →
      ((Unlock s.lm T rid).2.txn_map T).state_ = (s.lm.txn_map T).state_) := by
  have hinv := reachable_lockInv iso ops hs
  obtain ⟨_, hrec⟩ := Unlock_record s.lm T rid T
  refine ⟨?_, ?_, ?_, ?_⟩
  · unfold Unlock
    simp only []
    cases he : eraseOwn T (s.lm.lock_table_ rid).request_queue_ with
    | none =>
      have := (eraseOwn_none T _).1 he
      simp only [Bool.false_eq_true, false_iff, not_exists, not_and]
      exact fun e hmem => this e hmem
    | some q =>
      obtain ⟨l1, e, l2, hq, heT, _, _⟩ := eraseOwn_some T _ _ he
      simp only [true_iff]
      exact ⟨e, by rw [hq]; simp, heT⟩
  · intro hret
    unfold Unlock at hret ⊢
    simp only [] at hret ⊢
    cases he : eraseOwn T (s.lm.lock_table_ rid).request_queue_ with
    | none => rw [he] at hret; cases hret
    | some q =>
      obtain ⟨l1, e, l2, hq, heT, _, hq'⟩ := eraseOwn_some T _ _ he
      simp only []
      refine ⟨⟨l1, e, l2, hq, heT, by simp [hq'], ?_⟩, by simp, by simp, ?_⟩
      · intro a ha
        have hpw := hinv.queue rid
        rw [hq, List.pairwise_append, List.pairwise_cons] at hpw
        obtain ⟨_, ⟨hp2, _⟩, hp3⟩ := hpw
        rw [← heT]
        rcases List.mem_append.1 ha with h1 | h1
        · exact (hp3 a h1 e (List.mem_cons_self _ _)).1
        · exact fun hc => (hp2 a h1).1 hc.symm
      · intro r hr
        simp only [Function.update_noteq hr]
  · intro hiso hg
    rw [hrec, if_pos ⟨rfl, hiso, hg⟩]
  · intro hiso
    rw [hrec, if_neg]
    intro hc
    rcases hiso with h1 | h1 <;> rw [hc.2.1] at h1 <;> cases h1

theorem Unlock_effect_witness :
    runOps [.lockShared 1 0, .lockShared 2 0] (start exampleIso) = some sharedState ∧
      (sharedState.lm.lock_table_ 0).request_queue_ =
        [{ txn_id_ := 1, lock_mode_ := .SHARED, granted_ := true },
          { txn_id_ := 2, lock_mode_ := .SHARED, granted_ := true }] ∧
      (Unlock sharedState.lm 1 0).1 = true ∧
      ((Unlock sharedState.lm 1 0).2.txn_map 1).state_ = .SHRINKING :=
  ⟨rfl, by decide,
    (Unlock_effect exampleIso [.lockShared 1 0, .lockShared 2 0] sharedState rfl 1 0).1.2
      ⟨{ txn_id_ := 1, lock_mode_ := .SHARED, granted_ := true }, by decide, rfl⟩,
    (Unlock_effect exampleIso [.lockShared 1 0, .lockShared 2 0] sharedState rfl 1 0).2.2.1
      (by decide) (by decide)⟩

end LockSystem
end bustub

/-! ### Lock manager: the grant step of LockUpgrade -/

namespace bustub
namespace LockManager
variable {RID : Type} [DecidableEq RID]

/-- When the loop of `LockUpgrade` runs to the end, the entries it leaves are
those of the calling transaction. -/
theorem scanUpgrade_none_own (txn : Int) (rid : RID) :
    ∀ (q : List LockRequest) (m : Int → Transaction RID),
      (scanUpgrade txn rid q m).1 = none →
        ∀ e ∈ (scanUpgrade txn rid q m).2.1, e.txn_id_ = txn
  | [], _, _, e, he => by simp [scanUpgrade] at he
  | a :: rest, m, h, e, he => by
    by_cases h1 : a.txn_id_ > txn
    · simp only [scanUpgrade, if_pos h1] at h he
      exact scanUpgrade_none_own txn rid rest _ h e he
    · by_cases h2 : a.txn_id_ < txn
      · simp only [scanUpgrade, if_neg h1, if_pos h2] at h
        cases h
      · simp only [scanUpgrade, if_neg h1, if_neg h2] at h he
        rcases List.mem_cons.1 he with heq | hmem
        · rw [heq]; omega
        · exact scanUpgrade_none_own txn rid rest m h e hmem

/-- The entries of `try_Insert` on a queue of entries of one transaction are
entries of that transaction, and the queue is not empty. -/
theorem try_Insert_own (txn : Int) (md : LockMode) (grant : Bool) :
    ∀ q : List LockRequest, (∀ e ∈ q, e.txn_id_ = txn) →
      (∀ e ∈ try_Insert txn md grant q, e.txn_id_ = txn) ∧
        ∃ e rest, try_Insert txn md grant q = e :: rest
  | [], _ => ⟨fun e he => by
      simp only [try_Insert, List.mem_singleton] at he
      rw [he], _, _, rfl⟩
  | a :: rest, h => by
    have ha : a.txn_id_ = txn := h a (List.mem_cons_self _ _)
    simp only [try_Insert, if_pos ha]
    refine ⟨fun e he => ?_, _, _, rfl⟩
    rcases List.mem_cons.1 he with heq | hmem
    · rw [heq]; exact ha
    · exact h e (List.mem_cons_of_mem _ hmem)

/-- C39: when `LockUpgrade(T, rid)` reaches its grant step, that is, the
transaction is neither finished nor rejected for its phase, does not hold the exclusive lock, the
upgrading flag is clear and the scan of the queue of `rid` ends without
waiting, every entry the scan leaves in the queue belongs to `T`; the queue
after `try_Insert` starts with an entry of `T`, the call returns true and
leaves that queue with the mode of the front entry set to EXCLUSIVE, every
entry of the queue left belongs to `T`, and the queues of the other RIDs are
unchanged. -/
theorem LockUpgrade_grant_step (lm : LockManager RID) (T : Int) (rid : RID)
    (hst : (lm.txn_map T).state_ ≠ .ABORTED ∧ (lm.txn_map T).state_ ≠ .COMMITTED)
    (hph : ¬ ((lm.txn_map T).isolation_level_ = .REPEATABLE_READ ∧
      (lm.txn_map T).state_ = .SHRINKING))
    (hs : (lm.txn_map T).exclusive_lock_set_ rid = false)
    (hu : (lm.lock_table_ rid).upgrading_ = false)
    (hr : (scanUpgrade T rid (lm.lock_table_ rid).request_queue_ lm.txn_map).1 = none) :
    (∀ e ∈ (scanUpgrade T rid (lm.lock_table_ rid).request_queue_ lm.txn_map).2.1,
        e.txn_id_ = T) ∧
      (∃ request_item rest,
        try_Insert T .EXCLUSIVE true
            (scanUpgrade T rid (lm.lock_table_ rid).request_queue_ lm.txn_map).2.1 =
          request_item :: rest ∧
        request_item.txn_id_ = T ∧
        (LockUpgrade lm T rid).1 = .returned true ∧
        ((LockUpgrade lm T rid).2.lock_table_ rid).request_queue_ =
          { request_item with lock_mode_ := .EXCLUSIVE } :: rest) ∧
      (∀ e ∈ ((LockUpgrade lm T rid).2.lock_table_ rid).request_queue_, e.txn_id_ = T) ∧
      (∀ r, r ≠ rid → (LockUpgrade lm T rid).2.lock_table_ r = lm.lock_table_ r) := by
  have h : admitted (lm.txn_map T) := ⟨fun hf => hf.elim hst.1 hst.2, hph⟩
  have hown := scanUpgrade_none_own T rid _ _ hr
  obtain ⟨hall, e, rest, hq⟩ := try_Insert_own T .EXCLUSIVE true _ hown
  have he : e.txn_id_ = T := hall e (by rw [hq]; exact List.mem_cons_self _ _)
  rw [LockUpgrade_grant lm T rid h hs hu hr]
  refine ⟨hown, ⟨e, rest, hq, he, rfl, ?_⟩, ?_, ?_⟩
  · simp only [Function.update_same, hq, upgradeFront]
  · intro a ha
    simp only [Function.update_same, hq, upgradeFront] at ha
    rcases List.mem_cons.1 ha with heq | hmem
    · rw [heq]; exact he
    · exact hall a (by rw [hq]; exact List.mem_cons_of_mem _ hmem)
  · intro r hne
    simp only [Function.update_noteq hne]

end LockManager
namespace LockSystem
open LockManager

theorem LockUpgrade_grant_step_witness :
    (holderState.lm.txn_map 1).state_ = .GROWING ∧
      (LockUpgrade holderState.lm 1 0).1 = .returned true ∧
      ((LockUpgrade holderState.lm 1 0).2.lock_table_ 0).request_queue_ =
        [{ txn_id_ := 1, lock_mode_ := .EXCLUSIVE, granted_ := true }] ∧
      ∀ e ∈ ((LockUpgrade holderState.lm 1 0).2.lock_table_ 0).request_queue_,
        e.txn_id_ = 1 :=
  ⟨by decide, by decide, by decide,
    (LockUpgrade_grant_step holderState.lm 1 0 (by decide) (by decide) (by decide)
      (by decide) (by decide)).2.2.1⟩

end LockSystem
end bustub

/-! ### Hash table: the recursion of Insert -/

namespace bustub
namespace ExtendibleHashTable
open HashTableDirectoryPage HashTableBucketPage
variable {K V : Type} [DecidableEq K] [DecidableEq V] [Inhabited K] [Inhabited V]

omit [DecidableEq K] [DecidableEq V] [Inhabited K] [Inhabited V] in
theorem SetLocalDepth_page_id {d d1 : HashTableDirectoryPage} {i v : Nat}
    (h : d.SetLocalDepth i v = some d1) : d1.page_id_ = d.page_id_ := by
  unfold SetLocalDepth at h
  split at h
  · cases h; rfl
  · cases h

omit [DecidableEq K] [DecidableEq V] [Inhabited K] [Inhabited V] in
theorem IncrLocalDepth_page_id {d d1 : HashTableDirectoryPage} {i : Nat}
    (h : d.IncrLocalDepth i = some d1) : d1.page_id_ = d.page_id_ := by
  unfold IncrLocalDepth at h
  split at h
  · cases h; rfl
  · cases h

omit [DecidableEq K] [DecidableEq V] [Inhabited K] [Inhabited V] in
theorem setEntry_page_id {d d1 : HashTableDirectoryPage} {pid : Int} {idx i : Nat}
    (h : setEntry pid idx i d = some d1) : d1.page_id_ = d.page_id_ := by
  unfold setEntry at h
  rw [SetLocalDepth_page_id h]
  rfl

omit [DecidableEq K] [DecidableEq V] [Inhabited K] [Inhabited V] in
theorem loopDown_page_id (pid : Int) (idx diff : Nat) :
    ∀ (fuel : Nat) (i : Int) (d d1 : HashTableDirectoryPage),
      loopDown pid idx diff fuel i d = some d1 → d1.page_id_ = d.page_id_
  | 0, _, _, _, h => by simp [loopDown] at h
  | fuel + 1, i, d, d1, h => by
    rw [loopDown] at h
    split at h
    · cases he : setEntry pid idx i.toNat d with
      | none => rw [he] at h; cases h
      | some d2 =>
        rw [he, Option.some_bind] at h
        rw [loopDown_page_id pid idx diff fuel _ _ _ h, setEntry_page_id he]
    · cases h; rfl

omit [DecidableEq K] [DecidableEq V] [Inhabited K] [Inhabited V] in
theorem loopUp_page_id (pid : Int) (idx diff : Nat) :
    ∀ (fuel : Nat) (i : Nat) (d d1 : HashTableDirectoryPage),
      loopUp pid idx diff fuel i d = some d1 → d1.page_id_ = d.page_id_
  | 0, _, _, _, h => by simp [loopUp] at h
  | fuel + 1, i, d, d1, h => by
    rw [loopUp] at h
    split at h
    · cases he : setEntry pid idx i d with
      | none => rw [he] at h; cases h
      | some d2 =>
        rw [he, Option.some_bind] at h
        rw [loopUp_page_id pid idx diff fuel _ _ _ h, setEntry_page_id he]
    · cases h; rfl

omit [DecidableEq K] [DecidableEq V] [Inhabited K] [Inhabited V] in
theorem setStride_page_id {pid : Int} {idx start diff : Nat} {d d1 : HashTableDirectoryPage}
    (h : setStride pid idx start diff d = some d1) : d1.page_id_ = d.page_id_ := by
  unfold setStride at h
  cases he : loopDown pid idx diff (start + 2) (start : Int) d with
  | none => rw [he] at h; cases h
  | some d2 =>
    rw [he, Option.some_bind] at h
    rw [loopUp_page_id _ _ _ _ _ _ _ h, loopDown_page_id _ _ _ _ _ _ _ he]

omit [DecidableEq K] [DecidableEq V] [Inhabited K] [Inhabited V] in
theorem invalidateUpperHalf_page_id (d : HashTableDirectoryPage) :
    (invalidateUpperHalf d).page_id_ = d.page_id_ := by
  unfold invalidateUpperHalf
  generalize List.range' (d.Size / 2) (d.Size - d.Size / 2) = l
  induction l generalizing d with
  | nil => rfl
  | cons a l ih =>
    rw [List.foldl_cons, ih]
    rfl

omit [DecidableEq K] [DecidableEq V] [Inhabited K] [Inhabited V] in
theorem foldlM_page_id (f : HashTableDirectoryPage → Nat → Option HashTableDirectoryPage)
    (hf : ∀ d i d1, f d i = some d1 → d1.page_id_ = d.page_id_) :
    ∀ (l : List Nat) (d d1 : HashTableDirectoryPage),
      l.foldlM f d = some d1 → d1.page_id_ = d.page_id_
  | [], d, d1, h => by
    simp only [List.foldlM_nil] at h
    cases h; rfl
  | a :: l, d, d1, h => by
    rw [List.foldlM_cons] at h
    cases he : f d a with
    | none => rw [he] at h; cases h
    | some d2 =>
      rw [he] at h
      rw [foldlM_page_id f hf l d2 d1 h, hf d a d2 he]

omit [DecidableEq K] [DecidableEq V] [Inhabited K] [Inhabited V] in
theorem mirrorUpperHalf_page_id {d d1 : HashTableDirectoryPage}
    (h : mirrorUpperHalf d = some d1) : d1.page_id_ = d.page_id_ := by
  unfold mirrorUpperHalf at h
  refine foldlM_page_id _ ?_ _ d d1 h
  intro d i d2 hd
  split_ifs at hd with hc
  · rw [SetLocalDepth_page_id hd]
    rfl
  · cases hd; rfl

omit [DecidableEq K] [DecidableEq V] [Inhabited K] [Inhabited V] in
/-- The directory statements of `SplitInsert` leave the page id stored in the
directory page alone. -/
theorem splitDirectory_page_id {d0 d1 : HashTableDirectoryPage} {idx : Nat} {P Q : Int}
    (h : splitDirectory d0 idx P Q = some d1) : d1.page_id_ = d0.page_id_ := by
  unfold splitDirectory at h
  simp only [Option.bind_eq_some] at h
  obtain ⟨a, ha, b, hb, c, hc, e, he, hfin⟩ := h
  have h1 : a.page_id_ = d0.page_id_ := by
    rw [IncrLocalDepth_page_id ha]
    split <;> rfl
  have h2 : b.page_id_ = a.page_id_ := SetLocalDepth_page_id hb
  have h3 : c.page_id_ = b.page_id_ := by
    rw [setStride_page_id hc]
    split
    · rw [invalidateUpperHalf_page_id]; rfl
    · rfl
  have h4 : e.page_id_ = c.page_id_ := setStride_page_id he
  have h5 : d1.page_id_ = e.page_id_ := by
    split at hfin
    · exact mirrorUpperHalf_page_id hfin
    · cases hfin; rfl
  rw [h5, h4, h3, h2, h1]

/-- One round of `SplitInsert` below the maximal depth hands one state to the
recursive call, whatever that call is. -/
theorem SplitInsert_round_uniform (cfg : HashTableConfig K) (hN : cfg.BUCKET_ARRAY_SIZE ≤ 2048)
    (h30 : cfg.MAX_BUCKET_DEPTH ≤ 30)
    (t : ExtendibleHashTable K V) (hinv : HTInv cfg t) (key : K) (value : V)
    (hL : t.dir_page.local_depths_ (KeyToDirectoryIndex cfg key t.dir_page) <
      cfg.MAX_BUCKET_DEPTH) :
    ∃ t', (∀ retry, SplitInsert cfg retry t key value = retry t') ∧ HTInv cfg t' ∧
      t'.dir_page.local_depths_ (KeyToDirectoryIndex cfg key t'.dir_page) =
        t.dir_page.local_depths_ (KeyToDirectoryIndex cfg key t.dir_page) + 1 ∧
      t'.directory_page_id_ = t.directory_page_id_ ∧
      t'.next_page_id_ = t.next_page_id_ + 1 ∧
      (∃ d1, splitDirectory t.dir_page (KeyToDirectoryIndex cfg key t.dir_page)
          (t.dir_page.bucket_page_ids_ (KeyToDirectoryIndex cfg key t.dir_page))
          t.next_page_id_ = some d1 ∧ t'.dir_page = d1) := by
  obtain ⟨t', h1, hinv', _, hld⟩ := SplitInsert_round cfg hN h30
    (fun t' => some (true, t')) t hinv key value hL
  rw [SplitInsert_eq cfg _ t key value hinv.created, if_neg (by omega)] at h1
  cases hA : splitDirectory t.dir_page (KeyToDirectoryIndex cfg key t.dir_page)
      (t.dir_page.bucket_page_ids_ (KeyToDirectoryIndex cfg key t.dir_page))
      t.next_page_id_ with
  | none => rw [hA] at h1; cases h1
  | some d1 =>
    rw [hA, Option.some_bind] at h1
    cases hB : rehash cfg d1 (KeyToDirectoryIndex cfg key t.dir_page)
          (t.dir_page.bucket_page_ids_ (KeyToDirectoryIndex cfg key t.dir_page)) t.next_page_id_
          ((t.bucket_pages (t.dir_page.bucket_page_ids_
            (KeyToDirectoryIndex cfg key t.dir_page))).GetArrayCopy cfg.BUCKET_ARRAY_SIZE)
          (Function.update (Function.update t.bucket_pages
            (t.dir_page.bucket_page_ids_ (KeyToDirectoryIndex cfg key t.dir_page))
            (t.bucket_pages (t.dir_page.bucket_page_ids_
              (KeyToDirectoryIndex cfg key t.dir_page))).Reset)
            t.next_page_id_ HashTableBucketPage.zeroed) with
    | none => rw [hB] at h1; cases h1
    | some pages =>
      rw [hB, Option.some_bind] at h1
      simp only [Option.some.injEq, Prod.mk.injEq, true_and] at h1
      subst h1
      refine ⟨_, ?_, hinv', hld, rfl, rfl, d1, rfl, rfl⟩
      intro retry
      rw [SplitInsert_eq cfg _ t key value hinv.created, if_neg (by omega), hA,
        Option.some_bind, hB, Option.some_bind]

/-- The result of `Insert` does not depend on the bound of the recursion, once
the bound exceeds the number of local depths left below `MAX_BUCKET_DEPTH`. -/
theorem InsertFuel_stable (cfg : HashTableConfig K) (hN : cfg.BUCKET_ARRAY_SIZE ≤ 2048)
    (h30 : cfg.MAX_BUCKET_DEPTH ≤ 30) (key : K) (value : V) :
    ∀ (n : Nat) (t : ExtendibleHashTable K V), HTInv cfg t →
      cfg.MAX_BUCKET_DEPTH + 1 ≤
        n + t.dir_page.local_depths_ (KeyToDirectoryIndex cfg key t.dir_page) →
      ∃ r t', HTInv cfg t' ∧ t'.directory_page_id_ = t.directory_page_id_ ∧
        t.next_page_id_ ≤ t'.next_page_id_ ∧
        t'.dir_page.page_id_ = t.dir_page.page_id_ ∧
        ∀ fuel, cfg.MAX_BUCKET_DEPTH + 1 ≤
          fuel + t.dir_page.local_depths_ (KeyToDirectoryIndex cfg key t.dir_page) →
          InsertFuel cfg fuel t key value = some (r, t') := by
  intro n
  induction n with
  | zero =>
    intro t hinv hf
    have h1 := hinv.dir.ld_le _ (KeyToDirectoryIndex_lt cfg key t.dir_page)
    have h2 := hinv.dir.gd_le
    omega
  | succ n ih =>
    intro t hinv hf
    have hld := hinv.dir.ld_le _ (KeyToDirectoryIndex_lt cfg key t.dir_page)
    have hgd := hinv.dir.gd_le
    cases hfull : ((t.bucket_pages (KeyToPageId cfg key t.dir_page)).IsFull
        cfg.BUCKET_ARRAY_SIZE) with
    | false =>
      refine ⟨((t.bucket_pages (KeyToPageId cfg key t.dir_page)).Insert
          cfg.BUCKET_ARRAY_SIZE key value).1,
        { t with bucket_pages := (Function.update t.bucket_pages (KeyToPageId cfg key t.dir_page)
          ((t.bucket_pages (KeyToPageId cfg key t.dir_page)).Insert
            cfg.BUCKET_ARRAY_SIZE key value).2) },
        (Insert_inPlace cfg hN t hinv key value hfull).1, rfl, le_refl _, rfl, ?_⟩
      intro fuel hfuel
      obtain ⟨f, rfl⟩ : ∃ f, fuel = f + 1 := ⟨fuel - 1, by omega⟩
      rw [InsertFuel]
      simp only [FetchDirectoryPage_of_created hinv.created, hfull, Bool.not_false, if_true]
    | true =>
      by_cases hL : t.dir_page.local_depths_ (KeyToDirectoryIndex cfg key t.dir_page) <
          cfg.MAX_BUCKET_DEPTH
      · obtain ⟨t1, h1, hinv1, hld1, hid1, hnext1, d1, hd1, hdir1⟩ :=
          SplitInsert_round_uniform cfg hN h30 t hinv key value hL
        obtain ⟨r, t', hinv', hid', hnext', hpid', h2⟩ := ih t1 hinv1 (by rw [hld1]; omega)
        refine ⟨r, t', hinv', hid'.trans hid1, by omega, ?_, ?_⟩
        · rw [hpid', hdir1]
          exact splitDirectory_page_id hd1
        · intro fuel hfuel
          obtain ⟨f, rfl⟩ : ∃ f, fuel = f + 1 := ⟨fuel - 1, by omega⟩
          rw [InsertFuel]
          simp only [FetchDirectoryPage_of_created hinv.created, hfull, Bool.not_true,
            Bool.false_eq_true, if_false]
          rw [h1]
          exact h2 f (by rw [hld1]; omega)
      · refine ⟨false, t, hinv, rfl, le_refl _, rfl, ?_⟩
        intro fuel hfuel
        obtain ⟨f, rfl⟩ : ∃ f, fuel = f + 1 := ⟨fuel - 1, by omega⟩
        rw [InsertFuel]
        simp only [FetchDirectoryPage_of_created hinv.created, hfull, Bool.not_true,
          Bool.false_eq_true, if_false]
        rw [SplitInsert_eq cfg _ t key value hinv.created, if_pos (by omega)]

theorem InsertFuel_FetchDirectoryPage {cfg : HashTableConfig K} {t : ExtendibleHashTable K V}
    (h : HTInv cfg t.FetchDirectoryPage) (fuel : Nat) (key : K) (value : V) :
    InsertFuel cfg fuel t.FetchDirectoryPage key value = InsertFuel cfg fuel t key value := by
  cases fuel with
  | zero => rfl
  | succ f =>
    rw [InsertFuel, InsertFuel]
    simp only [FetchDirectoryPage_idem h]

theorem SplitInsert_FetchDirectoryPage {cfg : HashTableConfig K} {t : ExtendibleHashTable K V}
    (h : HTInv cfg t.FetchDirectoryPage)
    (retry : ExtendibleHashTable K V → Option (Bool × ExtendibleHashTable K V))
    (key : K) (value : V) :
    SplitInsert cfg retry t.FetchDirectoryPage key value = SplitInsert cfg retry t key value := by
  unfold SplitInsert
  simp only [FetchDirectoryPage_idem h]

/-- C37: in every state `t` reached by calls of `Insert` and `Remove`, and for
every key and value, the recursion `Insert -> SplitInsert -> Insert` ends:
`Insert` returns a result, and the same result is returned under every bound on
the number of nested calls that is at least `MAX_BUCKET_DEPTH + 1` minus the
local depth of the bucket of the key.  A call of `SplitInsert` that finds this
local depth below `MAX_BUCKET_DEPTH` passes to the nested `Insert` a state in
which the local depth of the bucket of the key is larger by one; a call that
finds the local depth at `MAX_BUCKET_DEPTH` or above returns false and leaves
the state that `FetchDirectoryPage` returned, directory included. -/
theorem Insert_recursion_terminates (cfg : HashTableConfig K)
    (hN : cfg.BUCKET_ARRAY_SIZE ≤ 2048) (h30 : cfg.MAX_BUCKET_DEPTH ≤ 30)
    (ops : List (HashOp K V)) (key : K) (value : V) :
    ∃ t, runOps cfg ops (init : ExtendibleHashTable K V) = some t ∧
      (∃ r t', Insert cfg t key value = some (r, t') ∧
        ∀ fuel, cfg.MAX_BUCKET_DEPTH + 1 ≤ fuel +
            t.FetchDirectoryPage.dir_page.local_depths_
              (KeyToDirectoryIndex cfg key t.FetchDirectoryPage.dir_page) →
          InsertFuel cfg fuel t key value = some (r, t')) ∧
      (t.FetchDirectoryPage.dir_page.local_depths_
          (KeyToDirectoryIndex cfg key t.FetchDirectoryPage.dir_page) < cfg.MAX_BUCKET_DEPTH →
        ∃ t', (∀ retry, SplitInsert cfg retry t key value = retry t') ∧
          t'.dir_page.local_depths_ (KeyToDirectoryIndex cfg key t'.dir_page) =
            t.FetchDirectoryPage.dir_page.local_depths_
              (KeyToDirectoryIndex cfg key t.FetchDirectoryPage.dir_page) + 1) ∧
      (cfg.MAX_BUCKET_DEPTH ≤ t.FetchDirectoryPage.dir_page.local_depths_
          (KeyToDirectoryIndex cfg key t.FetchDirectoryPage.dir_page) →
        ∀ retry, SplitInsert cfg retry t key value = some (false, t.FetchDirectoryPage)) := by
  obtain ⟨t, hrun, hinv⟩ := reachable_inv cfg hN h30 ops
  refine ⟨t, hrun, ?_, ?_, ?_⟩
  · have hld := hinv.dir.ld_le _ (KeyToDirectoryIndex_lt cfg key t.FetchDirectoryPage.dir_page)
    have hgd := hinv.dir.gd_le
    obtain ⟨r, t', _, _, _, _, h⟩ := InsertFuel_stable cfg hN h30 key value
      (cfg.MAX_BUCKET_DEPTH + 1) t.FetchDirectoryPage hinv (by omega)
    refine ⟨r, t', ?_, ?_⟩
    · unfold Insert
      rw [← InsertFuel_FetchDirectoryPage hinv]
      exact h _ (by omega)
    · intro fuel hfuel
      rw [← InsertFuel_FetchDirectoryPage hinv]
      exact h fuel hfuel
  · intro hL
    obtain ⟨t', h1, _, hld, _⟩ := SplitInsert_round_uniform cfg hN h30 t.FetchDirectoryPage hinv
      key value hL
    refine ⟨t', ?_, hld⟩
    intro retry
    rw [← SplitInsert_FetchDirectoryPage hinv]
    exact h1 retry
  · intro hL retry
    rw [← SplitInsert_FetchDirectoryPage hinv,
      SplitInsert_eq cfg _ t.FetchDirectoryPage key value hinv.created, if_pos hL]

theorem Insert_recursion_terminates_witness :
    exampleConfig.BUCKET_ARRAY_SIZE ≤ 2048 ∧ exampleConfig.MAX_BUCKET_DEPTH ≤ 30 ∧
    ∃ t, runOps exampleConfig [HashOp.insert 1 10]
        (init : ExtendibleHashTable Nat Nat) = some t ∧
      ∃ r t', Insert exampleConfig t 3 30 = some (r, t') ∧
        ∀ fuel, exampleConfig.MAX_BUCKET_DEPTH + 1 ≤ fuel +
            t.FetchDirectoryPage.dir_page.local_depths_
              (KeyToDirectoryIndex exampleConfig 3 t.FetchDirectoryPage.dir_page) →
          InsertFuel exampleConfig fuel t 3 30 = some (r, t') :=
  ⟨by decide, by decide,
    (Insert_recursion_terminates exampleConfig (by decide) (by decide) _ 3 30).imp
      fun _ h => ⟨h.1, h.2.1⟩⟩

end ExtendibleHashTable
end bustub

/-! ### Hash table: the range of the depths -/

namespace bustub
namespace ExtendibleHashTable
open HashTableDirectoryPage HashTableBucketPage
variable {K V : Type} [DecidableEq K] [DecidableEq V] [Inhabited K] [Inhabited V]

omit [DecidableEq K] [DecidableEq V] [Inhabited K] [Inhabited V] in
/-- With global depth 0 the loop of `CanShrink` returns false at index 0. -/
theorem CanShrink_zero (d : HashTableDirectoryPage) (h : d.global_depth_ = 0) :
    d.CanShrink = false := by
  cases hc : d.CanShrink with
  | false => rfl
  | true =>
    have := (CanShrink_iff d).1 hc 0 (by positivity)
    omega

omit [DecidableEq K] [DecidableEq V] [Inhabited K] [Inhabited V] in
/-- Where `CanShrink` holds, `DecrGlobalDepth` subtracts one without wrapping. -/
theorem DecrGlobalDepth_of_CanShrink (d : HashTableDirectoryPage)
    (h32 : d.global_depth_ < 2 ^ 32) (hc : d.CanShrink = true) :
    0 < d.global_depth_ ∧ d.DecrGlobalDepth.global_depth_ + 1 = d.global_depth_ := by
  have hpos : 0 < d.global_depth_ := by
    by_contra h0
    have := CanShrink_zero d (by omega)
    rw [this] at hc
    cases hc
  refine ⟨hpos, ?_⟩
  simp only [DecrGlobalDepth]
  have : (2 : Nat) ^ 32 = 4294967296 := by norm_num
  omega

omit [DecidableEq K] [DecidableEq V] in
/-- `Merge` on an index of local depth 0 returns at its guard. -/
theorem Merge_depth_zero (t : ExtendibleHashTable K V) (idx : Nat)
    (h : t.FetchDirectoryPage.dir_page.local_depths_ idx = 0) :
    Merge t idx = some t.FetchDirectoryPage := by
  unfold Merge
  simp only [GetLocalDepth, h, if_true]

omit [DecidableEq K] [DecidableEq V] in
/-- `Merge` on an index of positive local depth: the directory `dM` that the
two loops leave has the global depth of the directory before, and the result
is `dM`, with the global depth decremented where `CanShrink` holds. -/
theorem Merge_shrink_step (cfg : HashTableConfig K) (h30 : cfg.MAX_BUCKET_DEPTH ≤ 30)
    (t : ExtendibleHashTable K V) (hinv : HTInv cfg t) (idx : Nat)
    (hidx : idx < 2 ^ t.dir_page.global_depth_) (hpos : t.dir_page.local_depths_ idx ≠ 0) :
    ∃ dM : HashTableDirectoryPage,
      dM.global_depth_ = t.dir_page.global_depth_ ∧ dM.page_id_ = t.dir_page.page_id_ ∧
      Merge t idx =
        some { t with dir_page := if dM.CanShrink then dM.DecrGlobalDepth else dM } := by
  unfold Merge
  simp only [FetchDirectoryPage_of_created hinv.created, GetLocalDepth]
  rw [if_neg hpos]
  have hstride := mergeStride_eq hinv.dir h30 hidx (Nat.pos_of_ne_zero hpos)
    (t.dir_page.GetBucketPageId (t.dir_page.GetSplitImageIndex idx))
  simp only [GetLocalDepth] at hstride
  rw [hstride, Option.some_bind]
  exact ⟨setClass (t.dir_page.GetBucketPageId (t.dir_page.GetSplitImageIndex idx))
    (t.dir_page.local_depths_ idx - 1)
    (fun j => decide (j < 2 ^ t.dir_page.global_depth_ ∧
      j % 2 ^ (t.dir_page.local_depths_ idx - 1) = idx % 2 ^ (t.dir_page.local_depths_ idx - 1)))
    (t.dir_page.DecrLocalDepth idx), rfl, rfl, rfl⟩

/-- C38: in every state reached by calls of `Insert` and `Remove`, with `d` the
directory that `FetchDirectoryPage` returns there: the global depth is at most
`MAX_BUCKET_DEPTH`; every index computed by `KeyToDirectoryIndex` is below
`Size()`, which is 2 to the global depth; a `SplitInsert` that splits (local
depth of the bucket of the key below `MAX_BUCKET_DEPTH`) increments the global
depth only to a value of at most `MAX_BUCKET_DEPTH`, applies
`GetSplitImageIndex` to a directory in which the local depth of the index is
positive, and hands on a state whose global depth is at most
`MAX_BUCKET_DEPTH`; `Merge` on an index of local depth 0 returns at its guard,
before `GetSplitImageIndex` and `DecrLocalDepth`; `Merge` on another index
below `Size()` leaves the loops with a directory `dM` of the same global depth
and decrements the global depth only where `CanShrink` holds, which implies
a positive global depth, so that the decrement does not wrap; and `CanShrink`
is false on every directory page of global depth 0. -/
theorem depths_stay_in_range (cfg : HashTableConfig K)
    (hN : cfg.BUCKET_ARRAY_SIZE ≤ 2048) (h30 : cfg.MAX_BUCKET_DEPTH ≤ 30)
    (ops : List (HashOp K V)) :
    ∃ t, runOps cfg ops (init : ExtendibleHashTable K V) = some t ∧
      t.FetchDirectoryPage.dir_page.global_depth_ ≤ cfg.MAX_BUCKET_DEPTH ∧
      (∀ key : K,
        KeyToDirectoryIndex cfg key t.FetchDirectoryPage.dir_page <
            t.FetchDirectoryPage.dir_page.Size ∧
          t.FetchDirectoryPage.dir_page.Size =
            2 ^ t.FetchDirectoryPage.dir_page.global_depth_) ∧
      (∀ (key : K) (value : V),
        t.FetchDirectoryPage.dir_page.GetLocalDepth
            (KeyToDirectoryIndex cfg key t.FetchDirectoryPage.dir_page) <
          cfg.MAX_BUCKET_DEPTH →
        (t.FetchDirectoryPage.dir_page.GetLocalDepth
            (KeyToDirectoryIndex cfg key t.FetchDirectoryPage.dir_page) =
          t.FetchDirectoryPage.dir_page.GetGlobalDepth →
          t.FetchDirectoryPage.dir_page.IncrGlobalDepth.global_depth_ =
              t.FetchDirectoryPage.dir_page.global_depth_ + 1 ∧
            t.FetchDirectoryPage.dir_page.IncrGlobalDepth.global_depth_ ≤
              cfg.MAX_BUCKET_DEPTH) ∧
        (∃ d1,
          (if decide (t.FetchDirectoryPage.dir_page.GetLocalDepth
                (KeyToDirectoryIndex cfg key t.FetchDirectoryPage.dir_page) =
              t.FetchDirectoryPage.dir_page.GetGlobalDepth)
            then t.FetchDirectoryPage.dir_page.IncrGlobalDepth
            else t.FetchDirectoryPage.dir_page).IncrLocalDepth
              (KeyToDirectoryIndex cfg key t.FetchDirectoryPage.dir_page) = some d1 ∧
          0 < d1.local_depths_ (KeyToDirectoryIndex cfg key t.FetchDirectoryPage.dir_page)) ∧
        ∃ t', (∀ retry, SplitInsert cfg retry t key value = retry t') ∧
          t'.dir_page.global_depth_ ≤ cfg.MAX_BUCKET_DEPTH) ∧
      (∀ idx, t.FetchDirectoryPage.dir_page.GetLocalDepth idx = 0 →
        Merge t idx = some t.FetchDirectoryPage) ∧
      (∀ idx, idx < t.FetchDirectoryPage.dir_page.Size →
        t.FetchDirectoryPage.dir_page.GetLocalDepth idx ≠ 0 →
        ∃ dM : HashTableDirectoryPage,
          dM.global_depth_ = t.FetchDirectoryPage.dir_page.global_depth_ ∧
          Merge t idx = some { t.FetchDirectoryPage with
            dir_page := if dM.CanShrink then dM.DecrGlobalDepth else dM } ∧
          (dM.CanShrink = true →
            0 < dM.global_depth_ ∧ dM.DecrGlobalDepth.global_depth_ + 1 = dM.global_depth_)) ∧
      (∀ d : HashTableDirectoryPage, d.global_depth_ = 0 → d.CanShrink = false) := by
  obtain ⟨t, hrun, hinv⟩ := reachable_inv cfg hN h30 ops
  have hgd := hinv.dir.gd_le
  have h32 : (2 : Nat) ^ 32 = 4294967296 := by norm_num
  refine ⟨t, hrun, hgd, ?_, ?_, ?_, ?_, CanShrink_zero⟩
  · intro key
    rw [Size_eq]
    exact ⟨KeyToDirectoryIndex_lt cfg key _, rfl⟩
  · intro key value hL
    have hld := hinv.dir.ld_le _ (KeyToDirectoryIndex_lt cfg key t.FetchDirectoryPage.dir_page)
    simp only [GetLocalDepth, HashTableDirectoryPage.GetGlobalDepth] at hL ⊢
    refine ⟨?_, ?_, ?_⟩
    · intro heq
      have : t.FetchDirectoryPage.dir_page.IncrGlobalDepth.global_depth_ =
          t.FetchDirectoryPage.dir_page.global_depth_ + 1 := by
        simp only [IncrGlobalDepth]
        omega
      exact ⟨this, by omega⟩
    · by_cases heq : t.FetchDirectoryPage.dir_page.local_depths_
          (KeyToDirectoryIndex cfg key t.FetchDirectoryPage.dir_page) =
          t.FetchDirectoryPage.dir_page.global_depth_
      · have hlt : t.FetchDirectoryPage.dir_page.local_depths_
            (KeyToDirectoryIndex cfg key t.FetchDirectoryPage.dir_page) <
            (t.FetchDirectoryPage.dir_page.global_depth_ + 1) % 2 ^ 32 := by omega
        simp only [heq, decide_True, if_true, IncrLocalDepth, IncrGlobalDepth]
        rw [heq] at hlt
        rw [if_pos hlt]
        refine ⟨_, rfl, ?_⟩
        simp only [Function.update_same]
        omega
      · have hlt : t.FetchDirectoryPage.dir_page.local_depths_
            (KeyToDirectoryIndex cfg key t.FetchDirectoryPage.dir_page) <
            t.FetchDirectoryPage.dir_page.global_depth_ := by omega
        simp only [heq, decide_False, Bool.false_eq_true, if_false, IncrLocalDepth]
        rw [if_pos hlt]
        refine ⟨_, rfl, ?_⟩
        simp only [Function.update_same]
        omega
    · obtain ⟨t', h1, hinv', _⟩ := SplitInsert_round_uniform cfg hN h30 t.FetchDirectoryPage hinv
        key value hL
      refine ⟨t', ?_, hinv'.dir.gd_le⟩
      intro retry
      rw [← SplitInsert_FetchDirectoryPage hinv]
      exact h1 retry
  · intro idx h0
    exact Merge_depth_zero t idx h0
  · intro idx hidx hpos
    rw [Size_eq] at hidx
    obtain ⟨dM, hg, _, hM⟩ := Merge_shrink_step cfg h30 t.FetchDirectoryPage hinv idx hidx hpos
    refine ⟨dM, hg, ?_, ?_⟩
    · rw [← hM]
      unfold Merge
      simp only [FetchDirectoryPage_idem hinv]
    · intro hc
      exact DecrGlobalDepth_of_CanShrink dM (by rw [hg]; omega) hc

theorem depths_stay_in_range_witness :
    exampleConfig.BUCKET_ARRAY_SIZE ≤ 2048 ∧ exampleConfig.MAX_BUCKET_DEPTH ≤ 30 ∧
    ∃ t, runOps exampleConfig [HashOp.insert 1 10, HashOp.insert 3 30, HashOp.remove 3 30]
        (init : ExtendibleHashTable Nat Nat) = some t ∧
      t.FetchDirectoryPage.dir_page.global_depth_ ≤ exampleConfig.MAX_BUCKET_DEPTH :=
  ⟨by decide, by decide,
    (depths_stay_in_range exampleConfig (by decide) (by decide) _).imp
      fun _ h => ⟨h.1, h.2.1⟩⟩

end ExtendibleHashTable
end bustub

/-! ### Executors: the caller, Limit -/

namespace bustub

/-- The caller of an executor gets the rows that are pending in the state it
starts from, when every call of `Next` returns the first pending row and
leaves the others pending. -/
theorem pullAll_pending {S Row : Type} (next : S → Option (Option Row × S))
    (pending : S → List Row) (Inv : S → Prop)
    (hstep : ∀ s, Inv s → ∃ s', Inv s' ∧ pending s' = (pending s).tail ∧
      next s = some ((pending s).head?, s')) :
    ∀ (n : Nat) (s : S), Inv s → (pending s).length = n → ∀ fuel, n + 1 ≤ fuel →
      ∃ s', Inv s' ∧ pending s' = [] ∧ pullAll next fuel s = some (pending s, s') := by
  intro n
  induction n with
  | zero =>
    intro s hs hlen fuel hfuel
    obtain ⟨f, rfl⟩ : ∃ f, fuel = f + 1 := ⟨fuel - 1, by omega⟩
    obtain ⟨s', hs', hp, hn⟩ := hstep s hs
    have hnil : pending s = [] := List.length_eq_zero.1 hlen
    rw [hnil] at hp hn ⊢
    refine ⟨s', hs', by simpa using hp, ?_⟩
    simp only [pullAll, hn, List.head?_nil]
  | succ n ih =>
    intro s hs hlen fuel hfuel
    obtain ⟨f, rfl⟩ : ∃ f, fuel = f + 1 := ⟨fuel - 1, by omega⟩
    obtain ⟨s', hs', hp, hn⟩ := hstep s hs
    obtain ⟨row, rest, hcons⟩ : ∃ row rest, pending s = row :: rest := by
      cases h : pending s with
      | nil => rw [h] at hlen; cases hlen
      | cons row rest => exact ⟨row, rest, rfl⟩
    rw [hcons] at hp hn hlen ⊢
    simp only [List.tail_cons] at hp
    simp only [List.head?_cons] at hn
    obtain ⟨s'', hs'', hp'', hrun⟩ := ih s' hs' (by rw [hp]; simpa using hlen) f (by omega)
    refine ⟨s'', hs'', hp'', ?_⟩
    simp only [pullAll, hn, hrun, Option.map_some', hp]

namespace LimitExecutor
variable {Val RID : Type}

/-- With the limit reached, `Next` returns false and leaves the executor, its
child included, as it is. -/
theorem Next_at_limit (s : LimitExecutor Val RID) (h : s.plan_.GetLimit ≤ s.output_num_) :
    s.Next = (none, s) := by
  unfold Next
  rw [if_pos h]

theorem run_from (N : Nat) (rows : List (Tuple Val RID × RID)) :
    ∀ (c : List (Tuple Val RID × RID)) (k fuel : Nat), k ≤ N →
      min (N - k) c.length + 1 ≤ fuel →
      pullAll (fun s : LimitExecutor Val RID => some s.Next) fuel
          { plan_ := { GetLimit := N }, child_executor_ := { rows := rows, cursor := c },
            output_num_ := k } =
        some (c.take (N - k),
          { plan_ := { GetLimit := N },
            child_executor_ := { rows := rows, cursor := c.drop (N - k) },
            output_num_ := k + min (N - k) c.length })
  | [], k, fuel, hk, hfuel => by
    obtain ⟨f, rfl⟩ : ∃ f, fuel = f + 1 := ⟨fuel - 1, by omega⟩
    by_cases hlim : N ≤ k
    · simp [pullAll, Next, hlim]
    · simp [pullAll, Next, hlim, AbstractExecutor.Next]
  | r :: rs, k, fuel, hk, hfuel => by
    obtain ⟨f, rfl⟩ : ∃ f, fuel = f + 1 := ⟨fuel - 1, by omega⟩
    by_cases hlim : N ≤ k
    · have h0 : N - k = 0 := by omega
      simp [pullAll, Next, hlim, h0]
    · obtain ⟨m, hm⟩ : ∃ m, N - k = m + 1 := ⟨N - k - 1, by omega⟩
      have hm' : N - (k + 1) = m := by omega
      have hf : min (N - (k + 1)) rs.length + 1 ≤ f := by
        rw [hm'] 
        rw [hm] at hfuel
        simp only [List.length_cons] at hfuel
        omega
      have ih := run_from N rows rs (k + 1) f (by omega) hf
      rw [hm'] at ih
      have hnext : LimitExecutor.Next
          { plan_ := { GetLimit := N },
            child_executor_ := { rows := rows, cursor := r :: rs },
            output_num_ := k } =
          (some r,
            { plan_ := { GetLimit := N },
              child_executor_ := { rows := rows, cursor := rs },
              output_num_ := k + 1 }) := by
        simp [Next, AbstractExecutor.Next, hlim]
      rw [pullAll]
      simp only [hnext, ih, Option.map_some', hm, List.take_succ_cons, List.drop_succ_cons,
        List.length_cons]
      congr 3
      omega

/-- C35: a `LimitExecutor` with limit `N` over a child that produces the rows
`C`, after `Init`, returns to a caller that calls `Next` until it returns false
the first `min N |C|` rows of `C`, in order and each with its RID; the child is
then positioned behind the first `N` rows, so no row beyond them was pulled,
and the counter stands at `min N |C|`.  In every state in which the counter has
reached the limit, `Next` returns false and leaves the executor and its child
unchanged. -/
theorem Limit_emits_first_rows (e : LimitExecutor Val RID) (fuel : Nat)
    (hfuel : min e.plan_.GetLimit e.child_executor_.rows.length + 1 ≤ fuel) :
    pullAll (fun s : LimitExecutor Val RID => some s.Next) fuel e.Init =
        some (e.child_executor_.rows.take e.plan_.GetLimit,
          { plan_ := e.plan_,
            child_executor_ :=
              { rows := e.child_executor_.rows,
                cursor := e.child_executor_.rows.drop e.plan_.GetLimit },
            output_num_ := min e.plan_.GetLimit e.child_executor_.rows.length }) ∧
      (e.child_executor_.rows.take e.plan_.GetLimit).length =
        min e.plan_.GetLimit e.child_executor_.rows.length ∧
      ∀ s : LimitExecutor Val RID, s.plan_.GetLimit ≤ s.output_num_ → s.Next = (none, s) := by
  refine ⟨?_, List.length_take _ _, Next_at_limit⟩
  have h := run_from e.plan_.GetLimit e.child_executor_.rows e.child_executor_.rows 0 fuel
    (Nat.zero_le _) (by simpa using hfuel)
  simpa [Init, AbstractExecutor.Init] using h

end LimitExecutor
namespace LimitExecutor

theorem Limit_emits_first_rows_witness :
    pullAll (fun s : LimitExecutor Int Nat => some s.Next) 3
        (LimitExecutor.Init
          { plan_ := { GetLimit := 2 },
            child_executor_ :=
              { rows := [exampleRow [1] 10, exampleRow [2] 11, exampleRow [3] 12],
                cursor := [] },
            output_num_ := 0 }) =
      some ([exampleRow [1] 10, exampleRow [2] 11],
        { plan_ := { GetLimit := 2 },
          child_executor_ :=
            { rows := [exampleRow [1] 10, exampleRow [2] 11, exampleRow [3] 12],
              cursor := [exampleRow [3] 12] },
          output_num_ := 2 }) :=
  (Limit_emits_first_rows
    { plan_ := { GetLimit := 2 },
      child_executor_ :=
        { rows := [exampleRow [1] 10, exampleRow [2] 11, exampleRow [3] 12],
          cursor := [] },
      output_num_ := 0 } 3 (by decide)).1

end LimitExecutor

theorem unseen_eq {α : Type} [DecidableEq α] :
    ∀ (l seen : List α),
      unseen seen l = (firstOccurrences l).filter fun b => decide (b ∉ seen)
  | [], _ => rfl
  | a :: l, seen => by
    by_cases ha : a ∈ seen
    · rw [unseen, if_pos ha, unseen_eq l seen, firstOccurrences, List.filter_cons,
        if_neg (by simpa using ha), List.filter_filter]
      apply List.filter_congr
      intro b _
      by_cases hb : b ∈ seen
      · simp [hb]
      · have : b ≠ a := fun h => hb (h ▸ ha)
        simp [hb, this]
    · rw [unseen, if_neg ha, unseen_eq l (a :: seen), firstOccurrences, List.filter_cons,
        if_pos (by simpa using ha), List.filter_filter]
      congr 1
      apply List.filter_congr
      intro b _
      by_cases hb : b ∈ seen <;> by_cases hba : b = a <;> simp [hb, hba]

theorem unseen_nil_eq {α : Type} [DecidableEq α] (l : List α) :
    unseen [] l = firstOccurrences l := by
  rw [unseen_eq]
  simp

theorem mem_firstOccurrences {α : Type} [DecidableEq α] :
    ∀ (l : List α) (a : α), a ∈ firstOccurrences l ↔ a ∈ l
  | [], a => by simp [firstOccurrences]
  | b :: l, a => by
    simp only [firstOccurrences, List.mem_cons, List.mem_filter, mem_firstOccurrences l a,
      decide_eq_true_eq]
    by_cases h : a = b
    · simp [h]
    · simp [h]

theorem firstOccurrences_nodup {α : Type} [DecidableEq α] :
    ∀ l : List α, (firstOccurrences l).Nodup
  | [] => List.nodup_nil
  | a :: l => by
    rw [firstOccurrences, List.nodup_cons]
    refine ⟨?_, (firstOccurrences_nodup l).filter _⟩
    simp [List.mem_filter]

theorem firstOccurrences_sublist {α : Type} [DecidableEq α] :
    ∀ l : List α, (firstOccurrences l).Sublist l
  | [] => List.Sublist.slnil
  | a :: l => by
    rw [firstOccurrences]
    exact ((List.filter_sublist _).trans (firstOccurrences_sublist l)).cons₂ a

end bustub

/-! ### Executors: Distinct -/

namespace bustub
namespace Tuple
variable {Val RID : Type}

/-- The loop over the columns below `n` returns the first `n` values of a
tuple that has them. -/
theorem columnValues_eq (t : Tuple Val RID) :
    ∀ n, n ≤ t.values.length → t.columnValues n = some (t.values.take n)
  | 0, _ => rfl
  | n + 1, h => by
    have hlt : n < t.values.length := by omega
    rw [columnValues, columnValues_eq t n (by omega), Option.some_bind, GetValue,
      List.getElem?_eq_getElem hlt, Option.map_some', List.take_succ,
      List.getElem?_eq_getElem hlt]
    rfl

end Tuple

/-- An element of a list without duplicates occurs in it once. -/
theorem filter_eq_length_one {α : Type} [DecidableEq α] :
    ∀ (l : List α) (a : α), l.Nodup → a ∈ l →
      (l.filter fun b => decide (b = a)).length = 1
  | [], _, _, h => absurd h (List.not_mem_nil _)
  | b :: l, a, hnd, h => by
    rw [List.nodup_cons] at hnd
    by_cases hb : b = a
    · subst hb
      have hnil : l.filter (fun c => decide (c = b)) = [] := by
        rw [List.filter_eq_nil_iff]
        intro c hc
        have : c ≠ b := fun h => hnd.1 (h ▸ hc)
        simpa using this
      rw [List.filter_cons, if_pos (by simp), hnil]
      rfl
    · have ha : a ∈ l := by
        rcases List.mem_cons.1 h with h1 | h1
        · exact absurd h1.symm hb
        · exact h1
      rw [List.filter_cons, if_neg (by simpa using hb)]
      exact filter_eq_length_one l a hnd.2 ha

namespace DistinctExecutor
variable {Val RID : Type} [DecidableEq Val] [Inhabited RID]

omit [Inhabited RID] in
theorem find_isNone_iff (map : List (List Val × Tuple Val RID)) (key : List Val) :
    (map.find? fun entry => decide (entry.1 = key)).isNone = true ↔
      key ∉ map.map Prod.fst := by
  rw [Option.isNone_iff_eq_none, List.find?_eq_none]
  simp only [decide_eq_true_eq, List.mem_map, not_exists, not_and]

theorem NextFuel_pending (plan : DistinctPlanNode Val RID) (rows : List (Tuple Val RID × RID)) :
    ∀ (cursor : List (Tuple Val RID × RID)) (map : List (List Val × Tuple Val RID))
      (fuel : Nat),
      (∀ row ∈ cursor, plan.OutputSchema.length ≤ row.1.values.length) →
      cursor.length + 1 ≤ fuel →
      ∃ s', Stays plan rows s' ∧
        pending s' = (pending
          { plan_ := plan, child_executor_ := { rows := rows, cursor := cursor },
            map_ := map }).tail ∧
        NextFuel fuel
            { plan_ := plan, child_executor_ := { rows := rows, cursor := cursor },
              map_ := map } =
          some ((pending
            { plan_ := plan, child_executor_ := { rows := rows, cursor := cursor },
              map_ := map }).head?, s')
  | [], map, fuel, hcols, hfuel => by
    obtain ⟨f, rfl⟩ : ∃ f, fuel = f + 1 := ⟨fuel - 1, by omega⟩
    refine ⟨{ plan_ := plan, child_executor_ := { rows := rows, cursor := [] },
              map_ := map }, ⟨rfl, rfl, hcols⟩, ?_, ?_⟩
    · simp [pending, unseen]
    · simp [NextFuel, AbstractExecutor.Next, pending, unseen]
  | r :: rs, map, fuel, hcols, hfuel => by
    obtain ⟨f, rfl⟩ : ∃ f, fuel = f + 1 := ⟨fuel - 1, by omega⟩
    have hr := hcols r (List.mem_cons_self _ _)
    have hrs : ∀ row ∈ rs, plan.OutputSchema.length ≤ row.1.values.length :=
      fun row h => hcols row (List.mem_cons_of_mem _ h)
    have hkey := Tuple.columnValues_eq r.1 plan.OutputSchema.length hr
    by_cases hseen : keyOf plan.OutputSchema.length r ∈ map.map Prod.fst
    · obtain ⟨s', hs', hp, hn⟩ := NextFuel_pending plan rows rs map f hrs
        (by simp only [List.length_cons] at hfuel; omega)
      refine ⟨s', hs', ?_, ?_⟩
      · rw [hp]
        simp only [pending, List.map_cons, unseen, if_pos hseen]
      · have hnone : ¬ (map.find? fun entry =>
            decide (entry.1 = List.take plan.OutputSchema.length r.1.values)).isNone = true :=
          fun h => (find_isNone_iff map _).1 h hseen
        rw [NextFuel]
        simp only [AbstractExecutor.Next, hkey, Option.some_bind, if_neg hnone]
        rw [hn]
        simp only [pending, List.map_cons, unseen, if_pos hseen]
    · refine ⟨{ plan_ := plan, child_executor_ := { rows := rows, cursor := rs },
                map_ := (keyOf plan.OutputSchema.length r,
                  Tuple.ofValues (keyOf plan.OutputSchema.length r)) :: map },
        ⟨rfl, rfl, hrs⟩, ?_, ?_⟩
      · simp only [pending, List.map_cons, unseen, if_neg hseen, List.tail_cons]
      · have hnone : (map.find? fun entry =>
            decide (entry.1 = List.take plan.OutputSchema.length r.1.values)).isNone = true :=
          (find_isNone_iff map _).2 hseen
        rw [NextFuel]
        simp only [AbstractExecutor.Next, hkey, Option.some_bind, if_pos hnone]
        simp only [pending, List.map_cons, unseen, if_neg hseen, List.head?_cons]
        rfl

theorem Next_pending (plan : DistinctPlanNode Val RID) (rows : List (Tuple Val RID × RID))
    (s : DistinctExecutor Val RID) (hs : Stays plan rows s) :
    ∃ s', Stays plan rows s' ∧ pending s' = (pending s).tail ∧
      Next s = some ((pending s).head?, s') := by
  obtain ⟨p, ⟨rows', cursor⟩, map⟩ := s
  obtain ⟨hp, hr, hcols⟩ := hs
  simp only at hp hr hcols
  subst hp hr
  exact NextFuel_pending p rows' cursor map _ hcols (le_refl _)

/-- C36: a `DistinctExecutor` with an empty map over a child that produces the
rows `C`, each with at least as many values as the output schema has columns,
after `Init`, returns to a caller that calls `Next` until it returns false one
row for every key of `C`, the key of a row being the values of its
output-schema columns: the rows returned are the tuples built from the first
occurrences of the keys of `C`, in the order of `C`.  No key is returned twice,
the keys returned are the keys that occur in `C`, each of them is returned
exactly once, and they form a subsequence of the keys of `C`. -/
theorem Distinct_emits_first_occurrences (plan : DistinctPlanNode Val RID)
    (child : AbstractExecutor Val RID)
    (hcols : ∀ row ∈ child.rows, plan.OutputSchema.length ≤ row.1.values.length)
    (fuel : Nat) (hfuel : child.rows.length + 1 ≤ fuel) :
    (∃ s, pullAll Next fuel
        (Init { plan_ := plan, child_executor_ := child, map_ := [] }) =
      some ((firstOccurrences (child.rows.map (keyOf plan.OutputSchema.length))).map rowOf,
        s)) ∧
      (firstOccurrences (child.rows.map (keyOf plan.OutputSchema.length))).Nodup ∧
      (∀ key, key ∈ firstOccurrences (child.rows.map (keyOf plan.OutputSchema.length)) ↔
        key ∈ child.rows.map (keyOf plan.OutputSchema.length)) ∧
      (∀ key ∈ child.rows.map (keyOf plan.OutputSchema.length),
        ((firstOccurrences (child.rows.map (keyOf plan.OutputSchema.length))).filter
          fun k => decide (k = key)).length = 1) ∧
      (firstOccurrences (child.rows.map (keyOf plan.OutputSchema.length))).Sublist
        (child.rows.map (keyOf plan.OutputSchema.length)) := by
  have hnodup := firstOccurrences_nodup (child.rows.map (keyOf plan.OutputSchema.length))
  have hsub := firstOccurrences_sublist (child.rows.map (keyOf plan.OutputSchema.length))
  refine ⟨?_, hnodup, mem_firstOccurrences _, ?_, hsub⟩
  · have hpend : pending (Init { plan_ := plan, child_executor_ := child, map_ := [] }) =
        (firstOccurrences (child.rows.map (keyOf plan.OutputSchema.length))).map rowOf := by
      simp only [pending, Init, AbstractExecutor.Init, List.map_nil, unseen_nil_eq]
    have hlen : (pending (Init { plan_ := plan, child_executor_ := child, map_ := [] })).length
        ≤ child.rows.length := by
      rw [hpend, List.length_map]
      simpa using hsub.length_le
    obtain ⟨s', _, _, hrun⟩ := pullAll_pending Next pending (Stays plan child.rows)
      (Next_pending plan child.rows) _
      (Init { plan_ := plan, child_executor_ := child, map_ := [] })
      ⟨rfl, rfl, hcols⟩ rfl fuel (by omega)
    rw [hpend] at hrun
    exact ⟨s', hrun⟩
  · intro key hkey
    exact filter_eq_length_one _ key hnodup ((mem_firstOccurrences _ _).2 hkey)

end DistinctExecutor
namespace DistinctExecutor

theorem Distinct_emits_first_occurrences_witness :
    (∀ row ∈ exampleChild.rows, exampleSchema.length ≤ row.1.values.length) ∧
      ∃ s, pullAll Next 4
        (Init { plan_ := { OutputSchema := exampleSchema }, child_executor_ := exampleChild,
                map_ := [] }) =
        some ([({ values := [1, 5], rid_ := 0 }, 0), ({ values := [2, 6], rid_ := 0 }, 0)], s) :=
  ⟨by decide,
    (Distinct_emits_first_occurrences { OutputSchema := exampleSchema } exampleChild
      (by decide) 4 (by decide)).1⟩

end DistinctExecutor
end bustub

/-! ### Executors: HashJoin -/

namespace bustub
namespace HashJoinExecutor
variable {Val RID : Type} [DecidableEq Val] [Inhabited RID]

omit [Inhabited RID] in
theorem buildLoop_eq (plan : HashJoinPlanNode Val RID) (rows : List (Tuple Val RID × RID)) :
    ∀ (cursor : List (Tuple Val RID × RID)) (map : Val → Option (List (Tuple Val RID)))
      (fuel : Nat), cursor.length + 1 ≤ fuel →
      buildLoop plan fuel { rows := rows, cursor := cursor } map =
        some ({ rows := rows, cursor := [] }, addRows plan map cursor)
  | [], map, fuel, hfuel => by
    obtain ⟨f, rfl⟩ : ∃ f, fuel = f + 1 := ⟨fuel - 1, by omega⟩
    simp [buildLoop, AbstractExecutor.Next, addRows]
  | row :: rest, map, fuel, hfuel => by
    obtain ⟨f, rfl⟩ : ∃ f, fuel = f + 1 := ⟨fuel - 1, by omega⟩
    have hf : rest.length + 1 ≤ f := by simp only [List.length_cons] at hfuel; omega
    rw [buildLoop]
    simp only [AbstractExecutor.Next]
    cases hm : map (plan.LeftJoinKeyExpression.Evaluate row.1) with
    | none =>
      simp only [buildLoop_eq plan rows rest _ f hf, addRows, hm, Option.getD_none,
        List.nil_append]
    | some bucket =>
      simp only [buildLoop_eq plan rows rest _ f hf, addRows, hm, Option.getD_some]

omit [Inhabited RID] in
theorem addRows_getD (plan : HashJoinPlanNode Val RID) :
    ∀ (rows : List (Tuple Val RID × RID)) (map : Val → Option (List (Tuple Val RID)))
      (k : Val),
      (addRows plan map rows k).getD [] =
        (map k).getD [] ++
          (rows.map Prod.fst).filter fun l => decide (plan.LeftJoinKeyExpression.Evaluate l = k)
  | [], map, k => by simp [addRows]
  | row :: rest, map, k => by
    rw [addRows, addRows_getD plan rest]
    by_cases hk : plan.LeftJoinKeyExpression.Evaluate row.1 = k
    · subst hk
      simp [List.filter_cons]
    · have hk' : k ≠ plan.LeftJoinKeyExpression.Evaluate row.1 := fun h => hk h.symm
      simp [List.filter_cons, hk, Function.update_noteq hk']

/-- A call of `Next` with the cursor `fl` at -1. -/
theorem NextFuel_fresh (plan : HashJoinPlanNode Val RID)
    (map : Val → Option (List (Tuple Val RID))) (left : AbstractExecutor Val RID)
    (rows : List (Tuple Val RID × RID)) :
    ∀ (cursor : List (Tuple Val RID × RID)) (right_tu : Tuple Val RID) (right_rid : RID)
      (fuel : Nat), cursor.length + 1 ≤ fuel →
      ∃ s', Stays plan map s' ∧
        pending s' =
          (pending
            { plan_ := plan, left_child_executor_ := left,
              right_child_executor_ := { rows := rows, cursor := cursor },
              map_ := map, fl := -1, right_tu := right_tu, right_rid := right_rid }).tail ∧
        NextFuel fuel
            { plan_ := plan, left_child_executor_ := left,
              right_child_executor_ := { rows := rows, cursor := cursor },
              map_ := map, fl := -1, right_tu := right_tu, right_rid := right_rid } =
          some ((pending
            { plan_ := plan, left_child_executor_ := left,
              right_child_executor_ := { rows := rows, cursor := cursor },
              map_ := map, fl := -1, right_tu := right_tu, right_rid := right_rid }).head?,
            s')
  | [], right_tu, right_rid, fuel, hfuel => by
    obtain ⟨f, rfl⟩ : ∃ f, fuel = f + 1 := ⟨fuel - 1, by omega⟩
    refine ⟨{ plan_ := plan, left_child_executor_ := left,
              right_child_executor_ := { rows := rows, cursor := [] },
              map_ := map, fl := -1, right_tu := right_tu, right_rid := right_rid },
      ⟨rfl, rfl, le_refl _⟩, ?_, ?_⟩
    · simp [pending]
    · simp [NextFuel, AbstractExecutor.Next, pending]
  | r :: rs, right_tu, right_rid, fuel, hfuel => by
    obtain ⟨f, rfl⟩ : ∃ f, fuel = f + 1 := ⟨fuel - 1, by omega⟩
    have hf : rs.length + 1 ≤ f := by simp only [List.length_cons] at hfuel; omega
    obtain ⟨s', hs', hp, hn⟩ := NextFuel_fresh plan map left rows rs r.1 r.2 f hf
    cases hm : map (plan.RightJoinKeyExpression.Evaluate r.1) with
    | none =>
      refine ⟨s', hs', ?_, ?_⟩
      · rw [hp]
        simp [pending, bucketOf, hm]
      · rw [NextFuel]
        simp only [AbstractExecutor.Next, if_true, hm]
        rw [hn]
        simp [pending, bucketOf, hm]
    | some bucket =>
      cases bucket with
      | nil =>
        refine ⟨s', hs', ?_, ?_⟩
        · rw [hp]
          simp [pending, bucketOf, hm]
        · rw [NextFuel]
          simp only [AbstractExecutor.Next, if_true, hm]
          rw [if_pos (by simp)]
          rw [hn]
          simp [pending, bucketOf, hm]
      | cons b bs =>
        refine ⟨{ plan_ := plan, left_child_executor_ := left,
                  right_child_executor_ := { rows := rows, cursor := rs },
                  map_ := map, fl := 0, right_tu := r.1, right_rid := r.2 },
          ⟨rfl, rfl, by show (-1 : Int) ≤ 0; omega⟩, ?_, ?_⟩
        · simp [pending, bucketOf, hm]
        · rw [NextFuel]
          simp only [AbstractExecutor.Next, if_true, hm]
          rw [if_neg (by simp only [List.length_cons]; omega)]
          simp [pending, bucketOf, hm, joinRow]

/-- A call of `Next`. -/
theorem Next_matches (plan : HashJoinPlanNode Val RID)
    (map : Val → Option (List (Tuple Val RID))) (s : HashJoinExecutor Val RID)
    (hs : Stays plan map s) :
    ∃ s', Stays plan map s' ∧ pending s' = (pending s).tail ∧
      Next s = some ((pending s).head?, s') := by
  obtain ⟨p, left, ⟨rows, cursor⟩, m, fl, right_tu, right_rid⟩ := s
  obtain ⟨hp, hm, hfl⟩ := hs
  simp only at hp hm hfl
  subst hp hm
  by_cases hfresh : fl = -1
  · subst hfresh
    exact NextFuel_fresh p m left rows cursor right_tu right_rid _ (by simp [Next])
  · obtain ⟨i, rfl⟩ : ∃ i : Nat, fl = (i : Int) := ⟨fl.toNat, by omega⟩
    obtain ⟨s', hs', hp', hn⟩ := NextFuel_fresh p m left rows cursor right_tu right_rid
      (cursor.length + 1) (le_refl _)
    have hcont : pending
          { plan_ := p, left_child_executor_ := left,
            right_child_executor_ := { rows := rows, cursor := cursor },
            map_ := m, fl := -1, right_tu := right_tu, right_rid := right_rid } =
        cursor.flatMap fun r =>
          (bucketOf
            { plan_ := p, left_child_executor_ := left,
              right_child_executor_ := { rows := rows, cursor := cursor },
              map_ := m, fl := (i : Int), right_tu := right_tu, right_rid := right_rid }
            r.1).map fun l => joinRow p l r.1 := by
      simp [pending, bucketOf]
    have hdrop : ∀ bucket : List (Tuple Val RID), bucket.length ≤ i + 1 →
        bucket.drop (i + 1) = [] := fun bucket h => List.drop_eq_nil_of_le h
    unfold Next
    rw [NextFuel]
    simp only [if_neg hfresh]
    cases hmk : m (p.RightJoinKeyExpression.Evaluate right_tu) with
    | none =>
      refine ⟨s', hs', ?_, ?_⟩
      · rw [hp', hcont]
        simp [pending, bucketOf, hmk]
      · simp only []
        rw [hn, hcont]
        simp [pending, bucketOf, hmk]
    | some bucket =>
      by_cases hlen : ((i : Int) + 1) ≥ (bucket.length : Int)
      · have hd := hdrop bucket (by omega)
        refine ⟨s', hs', ?_, ?_⟩
        · rw [hp', hcont]
          simp [pending, bucketOf, hmk, hd]
        · simp only [if_pos hlen]
          rw [hn, hcont]
          simp [pending, bucketOf, hmk, hd]
      · have hlt : i + 1 < bucket.length := by omega
        have hnat : ((i : Int) + 1).toNat = i + 1 := by omega
        refine ⟨{ plan_ := p, left_child_executor_ := left,
                  right_child_executor_ := { rows := rows, cursor := cursor },
                  map_ := m, fl := (i : Int) + 1, right_tu := right_tu,
                  right_rid := right_rid },
          ⟨rfl, rfl, by show (-1 : Int) ≤ (i : Int) + 1; omega⟩, ?_, ?_⟩
        · have hne : ¬ ((i : Int) + 1 = -1) := by omega
          simp only [pending, bucketOf, hmk, Option.getD_some, if_neg hne, if_neg hfresh,
            hnat, Int.toNat_ofNat]
          rw [List.drop_eq_getElem_cons hlt]
          simp only [List.map_cons, List.cons_append, List.tail_cons]
        · simp only [if_neg hlen, hnat, List.getElem?_eq_getElem hlt, Option.map_some']
          simp only [pending, bucketOf, hmk, Option.getD_some, if_neg hfresh, Int.toNat_ofNat]
          rw [List.drop_eq_getElem_cons hlt]
          simp only [List.map_cons, List.cons_append, List.head?_cons, joinRow]

omit [Inhabited RID] in
/-- `Init` on an executor with an empty map: the map built holds under every
key the left rows with that key, in the order of the left child. -/
theorem Init_eq (plan : HashJoinPlanNode Val RID) (left right : AbstractExecutor Val RID)
    (fl : Int) (right_tu : Tuple Val RID) (right_rid : RID) :
    Init { plan_ := plan, left_child_executor_ := left, right_child_executor_ := right,
           map_ := fun _ => none, fl := fl, right_tu := right_tu, right_rid := right_rid } =
      some { plan_ := plan,
             left_child_executor_ := { rows := left.rows, cursor := [] },
             right_child_executor_ := { rows := right.rows, cursor := right.rows },
             map_ := addRows plan (fun _ => none) left.rows,
             fl := -1, right_tu := right_tu, right_rid := right_rid } := by
  unfold Init
  simp only [AbstractExecutor.Init]
  rw [buildLoop_eq plan left.rows left.rows _ _ (le_refl _)]
  rfl

omit [Inhabited RID] in
/-- The number of pairs selected from a product. -/
theorem length_flatMap_filter {α β γ : Type} (p : α → β → Bool) (g : α → β → γ) (L : List β) :
    ∀ R : List α,
      (R.flatMap fun r => (L.filter fun l => p r l).map fun l => g r l).length =
        ((R.product L).filter fun x => p x.1 x.2).length
  | [] => rfl
  | r :: R => by
    have hprod : (r :: R).product L = L.map (Prod.mk r) ++ R.product L := rfl
    rw [List.flatMap_cons, List.length_append, length_flatMap_filter p g L R,
      hprod, List.filter_append, List.length_append, List.length_map,
      List.filter_map, List.length_map]
    rfl

/-- C34: a `HashJoinExecutor` with an empty map over a left child that
produces the rows `L` and a right child that produces the rows `R`: `Init`
returns, and a caller that then calls `Next` until it returns false gets, for
every right row in the order of `R` and, for that right row, for every left
row in the order of `L` whose join key equals the key of the right row, the
tuple built from the pair by the expressions of the output schema, and no
other row.  The number of rows returned is the number of pairs of a right and
a left row with equal keys. -/
theorem HashJoin_emits_matches (plan : HashJoinPlanNode Val RID)
    (left right : AbstractExecutor Val RID) (fl : Int) (right_tu : Tuple Val RID)
    (right_rid : RID) (fuel : Nat)
    (hfuel : (joinRows plan left.rows right.rows).length + 1 ≤ fuel) :
    ∃ e, Init { plan_ := plan, left_child_executor_ := left, right_child_executor_ := right,
                map_ := fun _ => none, fl := fl, right_tu := right_tu,
                right_rid := right_rid } = some e ∧
      (∃ s, pullAll Next fuel e = some (joinRows plan left.rows right.rows, s)) ∧
      (joinRows plan left.rows right.rows).length =
        ((right.rows.product left.rows).filter fun x =>
          decide (plan.LeftJoinKeyExpression.Evaluate x.2.1 =
            plan.RightJoinKeyExpression.Evaluate x.1.1)).length := by
  refine ⟨_, Init_eq plan left right fl right_tu right_rid, ?_, ?_⟩
  · have hpend : pending
          { plan_ := plan,
            left_child_executor_ := { rows := left.rows, cursor := [] },
            right_child_executor_ := { rows := right.rows, cursor := right.rows },
            map_ := addRows plan (fun _ => none) left.rows,
            fl := -1, right_tu := right_tu, right_rid := right_rid } =
        joinRows plan left.rows right.rows := by
      simp only [pending, if_true, List.nil_append, joinRows, bucketOf, addRows_getD,
        Option.getD_none, List.filter_map, List.map_map]
      rfl
    obtain ⟨s', _, _, hrun⟩ := pullAll_pending Next pending
      (Stays plan (addRows plan (fun _ => none) left.rows))
      (Next_matches plan _) _
      { plan_ := plan,
        left_child_executor_ := { rows := left.rows, cursor := [] },
        right_child_executor_ := { rows := right.rows, cursor := right.rows },
        map_ := addRows plan (fun _ => none) left.rows,
        fl := -1, right_tu := right_tu, right_rid := right_rid }
      ⟨rfl, rfl, le_refl _⟩ rfl fuel (by rw [hpend]; exact hfuel)
    rw [hpend] at hrun
    exact ⟨s', hrun⟩
  · exact length_flatMap_filter _ _ _ _

end HashJoinExecutor
end bustub

/-! ### Executors: NestedLoopJoin and SeqScan -/

namespace bustub
namespace HashJoinExecutor

theorem HashJoin_emits_matches_witness :
    (joinRows exampleJoinPlan exampleChild.rows exampleRight.rows).length + 1 ≤ 3 ∧
      ∃ e, Init { plan_ := exampleJoinPlan, left_child_executor_ := exampleChild,
                  right_child_executor_ := exampleRight, map_ := fun _ => none, fl := 0,
                  right_tu := Tuple.ofValues [], right_rid := 0 } = some e ∧
        ∃ s, pullAll Next 3 e =
          some ([({ values := [5, 8], rid_ := 0 }, 0), ({ values := [5, 8], rid_ := 0 }, 0)],
            s) :=
  ⟨by decide,
    (HashJoin_emits_matches exampleJoinPlan exampleChild exampleRight 0 (Tuple.ofValues []) 0 3
      (by decide)).imp fun _ h => ⟨h.1, h.2.1⟩⟩

end HashJoinExecutor
namespace NestedLoopJoinExecutor
variable {Val RID : Type}

/-- C31, failing input: the left child produces one row, the right child two,
and there is no predicate.  The join of the rows has two rows, one for each
right row; the executor returns the first of them, and false on the second call
of `Next`. -/
theorem NestedLoopJoin_drops_inner_rows :
    joinRows exampleLoopPlan exampleOuter.rows exampleInner.rows =
        [({ values := [1, 2], rid_ := 0 }, 0), ({ values := [1, 3], rid_ := 0 }, 0)] ∧
      ((Next (Init { plan_ := exampleLoopPlan, left_executor_ := exampleOuter,
                     right_executor_ := exampleInner })).map Prod.fst) =
        some (some ({ values := [1, 2], rid_ := 0 }, 0)) ∧
      ((Next (Init { plan_ := exampleLoopPlan, left_executor_ := exampleOuter,
                     right_executor_ := exampleInner })).bind fun r =>
          (Next r.2).map Prod.fst) = some none ∧
      ∀ fuel, 2 ≤ fuel →
        (pullAll Next fuel
          (Init { plan_ := exampleLoopPlan, left_executor_ := exampleOuter,
                  right_executor_ := exampleInner })).map Prod.fst =
          some [({ values := [1, 2], rid_ := 0 }, 0)] := by
  refine ⟨by decide, by decide, by decide, ?_⟩
  intro fuel hfuel
  obtain ⟨f, rfl⟩ : ∃ f, fuel = f + 2 := ⟨fuel - 2, by omega⟩
  rfl

end NestedLoopJoinExecutor
namespace SeqScanExecutor
variable {Val RID : Type}

/-- C32, failing input: the table has the row (1, 0) at RID 10, the output
schema is the second column and the predicate compares the first column with
1.  The row satisfies the predicate, so the scan of the table has the row (0)
with RID 10; the executor evaluates the predicate on the tuple (0) that it has
built with the output schema and returns no row. -/
theorem SeqScan_filters_projected_tuple :
    scanRows exampleScanPlan exampleTable = [({ values := [0], rid_ := 0 }, 10)] ∧
      ∀ fuel, 1 ≤ fuel →
        (pullAll Next fuel
          (Init { plan_ := exampleScanPlan, table := exampleTable, table_heap_ := [],
                  iter_ := [] })).map Prod.fst = some [] := by
  refine ⟨by decide, ?_⟩
  intro fuel hfuel
  obtain ⟨f, rfl⟩ : ∃ f, fuel = f + 1 := ⟨fuel - 1, by omega⟩
  rfl

end SeqScanExecutor
end bustub

/-! ### Executors: Update -/

namespace bustub
namespace UpdateExecutor

/-- C33, failing input: the table has the row (5, 7) at RID 10 and an index on
its first column that holds the entry ((5), 10); the update sets the second
column to 8, so the key of the row stays (5).  `Next` returns false after it
has processed the row; the table then holds (5, 8) at RID 10, and the index
holds no entry under the key (5): `InsertEntry` found the entry present and
`DeleteEntry` removed it. -/
theorem Update_drops_unchanged_key :
    (exampleUpdate.indexes.map fun inde => inde.ScanKey [5]) = [[10]] ∧
      (exampleUpdate.GenerateUpdatedTuple { values := [5, 7], rid_ := 10 }).bind
        (fun new_tu => new_tu.KeyFromTuple [0]) = some [5] ∧
      (Next (Init exampleUpdate)).map (fun r => r.1) = some none ∧
      (Next (Init exampleUpdate)).map (fun r => r.2.table_info_.table_) =
        some [{ values := [5, 8], rid_ := 10 }] ∧
      (Next (Init exampleUpdate)).map
        (fun r => r.2.indexes.map fun inde => inde.ScanKey [5]) = some [[]] := by
  refine ⟨by decide, by decide, by decide, by decide, by decide⟩

end UpdateExecutor
end bustub

/-! ### Buffer pool: the pin count of a page -/

namespace bustub
open LRUKReplacer
namespace BufferPoolManager
variable {D : Type} [Inhabited D]

omit [Inhabited D] in
/-- The frame that `acquireFrame` hands out holds no pinned page. -/
theorem acquireFrame_victim {s s1 : BufferPoolManager D} {fra : Int} (h : BPMInv s)
    (ha : acquireFrame s = some (fra, s1)) {q : Int} (hq : s.page_table_ q = some fra) :
    (s.pages_ fra).pin_count_ = 0 := by
  unfold acquireFrame at ha
  cases hfl : s.free_list_ with
  | cons f0 rest =>
    rw [hfl] at ha
    simp only [Option.some.injEq, Prod.mk.injEq] at ha
    obtain ⟨rfl, _⟩ := ha
    exact absurd (by rw [hfl]; exact List.mem_cons_self _ _) (h.table q f0 hq).2.2.2
  | nil =>
    rw [hfl] at ha
    simp only at ha
    obtain ⟨_, hsome⟩ := Evict_spec h.repl
    cases hev : s.replacer_.Evict with
    | mk o r =>
      rw [hev] at ha
      cases o with
      | none => simp at ha
      | some f0 =>
        simp only [Option.some.injEq, Prod.mk.injEq] at ha
        obtain ⟨rfl, _⟩ := ha
        obtain ⟨⟨n, hn, hne⟩, _⟩ := hsome f0 (by rw [hev])
        exact (h.evictable f0 n hn hne).1

omit [Inhabited D] in
/-- The pin counts after a frame was installed for a page that was not in the
pool: one for that page, and as before for the others. -/
theorem install_pinCount {s s1 : BufferPoolManager D} {fra : Int} (h : BPMInv s)
    (ha : acquireFrame s = some (fra, s1)) (r : LRUKReplacer) (pid next : Int) (data : D)
    (hpid : s.page_table_ pid = none) (q : Int) :
    pinCount (install s1 fra r pid next data) q =
      pinCount s q + if q = pid then 1 else 0 := by
  obtain ⟨hacq, hpages, _, _, hsub, hkeep, _, _⟩ := acquireFrame_spec h ha
  have hnone : s1.page_table_ pid = none := by
    cases hc : s1.page_table_ pid with
    | none => rfl
    | some f => rw [hsub pid f hc] at hpid; cases hpid
  unfold pinCount
  simp only [install, tableInsert_apply, hpages]
  by_cases hqp : q = pid
  · subst hqp
    rw [if_pos ⟨rfl, hnone⟩, hpid, if_pos rfl]
    simp
  · rw [if_neg (fun hc => hqp hc.1), if_neg hqp, add_zero]
    cases hs : s.page_table_ q with
    | none =>
      cases hs1 : s1.page_table_ q with
      | none => rfl
      | some g => rw [hsub q g hs1] at hs; cases hs
    | some f =>
      by_cases hf : f = fra
      · subst hf
        have hz := acquireFrame_victim h ha hs
        cases hs1 : s1.page_table_ q with
        | none => simp only [hz]
        | some g =>
          have := hsub q g hs1
          rw [hs] at this
          cases this
          exact absurd hs1 (hacq.fra_unmapped q)
      · rw [hkeep q f hs hf]
        simp only [Function.update_noteq hf]

/-- A successful `NewPage` hands out the allocation counter as page id,
advances the counter by one and pins the new page once. -/
theorem NewPage_pinCount {s s' : BufferPoolManager D} (h : BPMInv s) (ha : AllocInv s)
    {pid fra : Int} (hn : NewPage s = some (some (pid, fra), s')) :
    BPMInv s' ∧ AllocInv s' ∧ s'.next_page_id_ = s.next_page_id_ + 1 ∧
      ∀ q, pinCount s' q = pinCount s q + if q = s.next_page_id_ then 1 else 0 := by
  have hpid : s.page_table_ s.next_page_id_ = none := by
    cases hc : s.page_table_ s.next_page_id_ with
    | none => rfl
    | some f => exact absurd (ha.below _ f hc) (lt_irrefl _)
  obtain ⟨s1, r, hacq, _, hs', _, hinv⟩ := NewPage_some h hn
  subst hs'
  refine ⟨hinv, install_alloc h ha hacq r _ _ _ hpid (by omega) (by omega), rfl, ?_⟩
  intro q
  exact install_pinCount h hacq r _ _ _ hpid q

omit [Inhabited D] in
/-- A successful `FetchPage` of an allocated page pins the page once more. -/
theorem FetchPage_pinCount {s s' : BufferPoolManager D} (h : BPMInv s) (ha : AllocInv s)
    {p fra : Int} (hp : p < s.next_page_id_) (hn : FetchPage s p = some (some fra, s')) :
    BPMInv s' ∧ AllocInv s' ∧ s'.next_page_id_ = s.next_page_id_ ∧
      ∀ q, pinCount s' q = pinCount s q + if q = p then 1 else 0 := by
  obtain ⟨res, s'', hn', hinv⟩ := FetchPage_inv h p
  rw [hn] at hn'
  simp only [Option.some.injEq, Prod.mk.injEq] at hn'
  obtain ⟨_, rfl⟩ := hn'
  cases hm : s.page_table_ p with
  | none =>
    rcases FetchPage_unmapped_cases h p hm with ⟨_, hn2⟩ | ⟨f, s1, r, hacq, hr, hn2⟩
    · rw [hn] at hn2
      cases hn2
    · rw [hn] at hn2
      simp only [Option.some.injEq, Prod.mk.injEq] at hn2
      obtain ⟨_, rfl⟩ := hn2
      refine ⟨hinv, install_alloc h ha hacq r _ _ _ hm hp (le_refl _), rfl, ?_⟩
      intro q
      exact install_pinCount h hacq r _ _ _ hm q
  | some f =>
    obtain ⟨r, _, _, hn2⟩ := FetchPage_mapped h hm
    rw [hn] at hn2
    simp only [Option.some.injEq, Prod.mk.injEq] at hn2
    obtain ⟨_, rfl⟩ := hn2
    refine ⟨hinv, ⟨ha.below, ha.mapped⟩, rfl, ?_⟩
    intro q
    unfold pinCount
    simp only
    by_cases hqp : q = p
    · subst hqp
      rw [hm, if_pos rfl]
      simp only [Function.update_same]
    · rw [if_neg hqp, add_zero]
      cases hq : s.page_table_ q with
      | none => rfl
      | some g =>
        have hg : g ≠ f := by
          intro hc
          subst hc
          have h1 := (h.table q g hq).2.2.1
          have h2 := (h.table p g hm).2.2.1
          exact hqp (h1.symm.trans h2)
        simp only [Function.update_noteq hg]

omit [Inhabited D] in
/-- A successful `UnpinPage` takes one pin from the page. -/
theorem UnpinPage_pinCount {s s' : BufferPoolManager D} (h : BPMInv s) (ha : AllocInv s)
    {p : Int} {d : Bool} (hn : UnpinPage s p d = some (true, s')) :
    BPMInv s' ∧ AllocInv s' ∧ s'.next_page_id_ = s.next_page_id_ ∧
      ∀ q, pinCount s' q = pinCount s q - if q = p then 1 else 0 := by
  obtain ⟨res, s'', hn', hinv⟩ := UnpinPage_inv h p d
  rw [hn] at hn'
  simp only [Option.some.injEq, Prod.mk.injEq] at hn'
  obtain ⟨_, rfl⟩ := hn'
  rcases UnpinPage_cases h p d with hf | ⟨f, r, hm, _, _, _, hn2⟩
  · rw [hn] at hf
    simp only [Option.some.injEq, Prod.mk.injEq] at hf
    exact absurd hf.1 (by decide)
  · rw [hn] at hn2
    simp only [Option.some.injEq, Prod.mk.injEq, true_and] at hn2
    subst hn2
    refine ⟨hinv, ⟨ha.below, ha.mapped⟩, rfl, ?_⟩
    intro q
    unfold pinCount
    simp only
    by_cases hqp : q = p
    · subst hqp
      rw [hm, if_pos rfl]
      simp only [Function.update_same]
    · rw [if_neg hqp, sub_zero]
      cases hq : s.page_table_ q with
      | none => rfl
      | some g =>
        have hg : g ≠ f := by
          intro hc
          subst hc
          have h1 := (h.table q g hq).2.2.1
          have h2 := (h.table p g hm).2.2.1
          exact hqp (h1.symm.trans h2)
        simp only [Function.update_noteq hg]

omit [Inhabited D] in
/-- `UnpinPage` of a pinned page returns true. -/
theorem UnpinPage_of_pinned {s : BufferPoolManager D} (h : BPMInv s) {p : Int} (d : Bool)
    (hp : 0 ≤ p) (hpin : 0 < pinCount s p) :
    ∃ s', UnpinPage s p d = some (true, s') := by
  unfold pinCount at hpin
  cases hm : s.page_table_ p with
  | none => rw [hm] at hpin; exact absurd hpin (lt_irrefl _)
  | some f =>
    rw [hm] at hpin
    simp only at hpin
    obtain ⟨r, _, _, hn⟩ := UnpinPage_mapped h d hm (by
      rintro (hc | hc)
      · rw [hc] at hp
        exact absurd hp (by decide)
      · omega)
    exact ⟨_, hn⟩

end BufferPoolManager
end bustub

/-! ### Buffer pool: the pin counts after a sequence of calls -/

namespace bustub
open LRUKReplacer
namespace BufferPoolManager
variable {D : Type} [Inhabited D]

theorem poolCalls_append (a b : List PoolCall) (s : BufferPoolManager D) :
    poolCalls (a ++ b) s = (poolCalls a s).bind (poolCalls b) := by
  induction a generalizing s with
  | nil => rfl
  | cons c a ih =>
    show (poolCall s c).bind (poolCalls (a ++ b)) = ((poolCall s c).bind (poolCalls a)).bind _
    cases poolCall s c with
    | none => rfl
    | some s1 => exact ih s1

omit [Inhabited D] in
theorem pinCount_nonneg {s : BufferPoolManager D} (h : BPMInv s) (q : Int) :
    0 ≤ pinCount s q := by
  unfold pinCount
  cases s.page_table_ q with
  | none => exact le_refl _
  | some f => exact h.pin_nonneg f

/-- The pin counts after a sequence of calls of the hash table that ran to
its end. -/
theorem poolCalls_pinCount :
    ∀ (cs : List PoolCall) (s s' : BufferPoolManager D) (lo : Int → Int),
      BPMInv s → AllocInv s → (∀ q, lo q ≤ pinCount s q) →
      fetchesBelow s.next_page_id_ cs → uncheckedPinned s.next_page_id_ lo cs →
      poolCalls cs s = some s' →
      BPMInv s' ∧ AllocInv s' ∧ s'.next_page_id_ = nextAfter s.next_page_id_ cs ∧
        ∀ q, pinCount s' q = pinCount s q + pinDelta s.next_page_id_ cs q
  | [], s, s', _, h, ha, _, _, _, hrun => by
    simp only [poolCalls, Option.some.injEq] at hrun
    subst hrun
    exact ⟨h, ha, rfl, fun q => by simp [pinDelta]⟩
  | .newPage :: cs, s, s', lo, h, ha, hlo, hf, hu, hrun => by
    simp only [poolCalls, poolCall] at hrun
    cases hn : NewPage s with
    | none => rw [hn] at hrun; cases hrun
    | some x =>
      obtain ⟨res, s1⟩ := x
      cases res with
      | none => rw [hn] at hrun; cases hrun
      | some pf =>
        rw [hn] at hrun
        simp only [Option.some_bind] at hrun
        have hn' : NewPage s = some (some (pf.1, pf.2), s1) := hn
        obtain ⟨h1, ha1, hnext, hpin⟩ := NewPage_pinCount h ha hn'
        have := poolCalls_pinCount cs s1 s'
          (fun q => lo q + if q = s.next_page_id_ then 1 else 0) h1 ha1
          (fun q => by rw [hpin q]; exact add_le_add_right (hlo q) _)
          (by rw [hnext]; exact hf) (by rw [hnext]; exact hu) hrun
        obtain ⟨h2, ha2, hn2, hp2⟩ := this
        refine ⟨h2, ha2, by rw [hn2, hnext]; rfl, ?_⟩
        intro q
        rw [hp2 q, hpin q, hnext]
        simp only [pinDelta]
        ring
  | .fetchPage p :: cs, s, s', lo, h, ha, hlo, hf, hu, hrun => by
    simp only [poolCalls, poolCall] at hrun
    cases hn : FetchPage s p with
    | none => rw [hn] at hrun; cases hrun
    | some x =>
      obtain ⟨res, s1⟩ := x
      cases res with
      | none => rw [hn] at hrun; cases hrun
      | some f =>
        rw [hn] at hrun
        simp only [Option.some_bind] at hrun
        obtain ⟨h1, ha1, hnext, hpin⟩ := FetchPage_pinCount h ha hf.1 hn
        have := poolCalls_pinCount cs s1 s'
          (fun q => lo q + if q = p then 1 else 0) h1 ha1
          (fun q => by rw [hpin q]; exact add_le_add_right (hlo q) _)
          (by rw [hnext]; exact hf.2) (by rw [hnext]; exact hu) hrun
        obtain ⟨h2, ha2, hn2, hp2⟩ := this
        refine ⟨h2, ha2, by rw [hn2, hnext]; rfl, ?_⟩
        intro q
        rw [hp2 q, hpin q, hnext]
        simp only [pinDelta]
        ring
  | .unpinPage p d :: cs, s, s', lo, h, ha, hlo, hf, hu, hrun => by
    simp only [poolCalls, poolCall] at hrun
    cases hn : UnpinPage s p d with
    | none => rw [hn] at hrun; cases hrun
    | some x =>
      obtain ⟨res, s1⟩ := x
      cases res with
      | false => rw [hn] at hrun; cases hrun
      | true =>
        rw [hn] at hrun
        simp only [Option.some_bind] at hrun
        obtain ⟨h1, ha1, hnext, hpin⟩ := UnpinPage_pinCount h ha hn
        have := poolCalls_pinCount cs s1 s'
          (fun q => lo q - if q = p then 1 else 0) h1 ha1
          (fun q => by rw [hpin q]; exact sub_le_sub_right (hlo q) _)
          (by rw [hnext]; exact hf) (by rw [hnext]; exact hu) hrun
        obtain ⟨h2, ha2, hn2, hp2⟩ := this
        refine ⟨h2, ha2, by rw [hn2, hnext]; rfl, ?_⟩
        intro q
        rw [hp2 q, hpin q, hnext]
        simp only [pinDelta]
        ring
  | .unpinPageUnchecked p d :: cs, s, s', lo, h, ha, hlo, hf, hu, hrun => by
    obtain ⟨hp0, hlop, hu'⟩ := hu
    obtain ⟨s1, hn⟩ := UnpinPage_of_pinned h d hp0 (lt_of_lt_of_le hlop (hlo p))
    simp only [poolCalls, poolCall, hn, Option.map_some', Option.some_bind] at hrun
    obtain ⟨h1, ha1, hnext, hpin⟩ := UnpinPage_pinCount h ha hn
    have := poolCalls_pinCount cs s1 s'
      (fun q => lo q - if q = p then 1 else 0) h1 ha1
      (fun q => by rw [hpin q]; exact sub_le_sub_right (hlo q) _)
      (by rw [hnext]; exact hf) (by rw [hnext]; exact hu') hrun
    obtain ⟨h2, ha2, hn2, hp2⟩ := this
    refine ⟨h2, ha2, by rw [hn2, hnext]; rfl, ?_⟩
    intro q
    rw [hp2 q, hpin q, hnext]
    simp only [pinDelta]
    ring

end BufferPoolManager
end bustub

/-! ### Hash table on its pool: page ids -/

namespace bustub
namespace ExtendibleHashTable
open HashTableDirectoryPage HashTableBucketPage
variable {K V : Type} [DecidableEq K] [DecidableEq V] [Inhabited K] [Inhabited V]

omit [DecidableEq K] [DecidableEq V] in
theorem FetchDirectoryPageCalls_eq (t : ExtendibleHashTable K V) :
    t.FetchDirectoryPageCalls =
      creationCalls t ++ [.fetchPage t.FetchDirectoryPage.directory_page_id_] := rfl

omit [DecidableEq K] [DecidableEq V] [Inhabited K] [Inhabited V] in
theorem creationCalls_of_created {t : ExtendibleHashTable K V}
    (h : t.directory_page_id_ ≠ INVALID_PAGE_ID) : creationCalls t = [] := by
  unfold creationCalls
  rw [if_neg h]

omit [DecidableEq K] [DecidableEq V] in
theorem FetchDirectoryPageCalls_of_created {t : ExtendibleHashTable K V}
    (h : t.directory_page_id_ ≠ INVALID_PAGE_ID) :
    t.FetchDirectoryPageCalls = [.fetchPage t.directory_page_id_] := by
  rw [FetchDirectoryPageCalls_eq, creationCalls_of_created h, FetchDirectoryPage_of_created h]
  rfl

omit [DecidableEq K] [DecidableEq V] in
/-- The table that `FetchDirectoryPage` returns satisfies `TableInv`, when it
did before or the directory page is created now. -/
theorem TableInv_FetchDirectoryPage {cfg : HashTableConfig K} {t : ExtendibleHashTable K V}
    (hinv : HTInv cfg t.FetchDirectoryPage) (hnext : 0 ≤ t.next_page_id_)
    (hdir : t.directory_page_id_ ≠ INVALID_PAGE_ID → TableInv cfg t) :
    TableInv cfg t.FetchDirectoryPage := by
  by_cases hc : t.directory_page_id_ = INVALID_PAGE_ID
  · refine ⟨hinv, ?_, ?_, ?_⟩
    · simp only [FetchDirectoryPage, if_pos hc]
      exact hnext
    · simp only [FetchDirectoryPage, if_pos hc]
      omega
    · simp only [FetchDirectoryPage, if_pos hc]
      rfl
  · rw [FetchDirectoryPage_of_created hc]
    exact hdir hc

omit [DecidableEq K] [DecidableEq V] [Inhabited K] [Inhabited V] in
theorem DecrGlobalDepth_page_id (d : HashTableDirectoryPage) :
    d.DecrGlobalDepth.page_id_ = d.page_id_ := by
  unfold DecrGlobalDepth
  rfl

omit [DecidableEq K] [DecidableEq V] in
/-- `Merge` changes the directory only, and not the page id stored in it. -/
theorem Merge_ids {t t' : ExtendibleHashTable K V} {idx : Nat} (h : Merge t idx = some t') :
    t'.directory_page_id_ = t.FetchDirectoryPage.directory_page_id_ ∧
      t'.next_page_id_ = t.FetchDirectoryPage.next_page_id_ ∧
      t'.dir_page.page_id_ = t.FetchDirectoryPage.dir_page.page_id_ := by
  unfold Merge at h
  simp only at h
  split at h
  · cases h
    exact ⟨rfl, rfl, rfl⟩
  · simp only [Option.bind_eq_some] at h
    obtain ⟨d, hd, hfin⟩ := h
    cases hfin
    refine ⟨rfl, rfl, ?_⟩
    have hp : d.page_id_ = t.FetchDirectoryPage.dir_page.page_id_ := by
      rw [setStride_page_id hd]
      unfold DecrLocalDepth
      rfl
    simp only
    split
    · rw [DecrGlobalDepth_page_id, hp]
    · exact hp

/-- `Remove` keeps the directory page id, the allocation counter and the page
id stored in the directory. -/
theorem Remove_ids {cfg : HashTableConfig K} {t t' : ExtendibleHashTable K V} {key : K}
    {value : V} {r : Bool} (hc : t.FetchDirectoryPage.directory_page_id_ ≠ INVALID_PAGE_ID)
    (h : Remove cfg t key value = some (r, t')) :
    t'.directory_page_id_ = t.FetchDirectoryPage.directory_page_id_ ∧
      t'.next_page_id_ = t.FetchDirectoryPage.next_page_id_ ∧
      t'.dir_page.page_id_ = t.FetchDirectoryPage.dir_page.page_id_ := by
  unfold Remove at h
  simp only at h
  split at h
  · simp only [Option.map_eq_some'] at h
    obtain ⟨t2, hm, heq⟩ := h
    simp only [Prod.mk.injEq] at heq
    obtain ⟨_, rfl⟩ := heq
    obtain ⟨h1, h2, h3⟩ := Merge_ids hm
    rw [FetchDirectoryPage_of_created (by exact hc)] at h1 h2 h3
    exact ⟨h1, h2, h3⟩
  · simp only [Option.some.injEq, Prod.mk.injEq] at h
    obtain ⟨_, rfl⟩ := h
    exact ⟨rfl, rfl, rfl⟩

end ExtendibleHashTable
end bustub

/-! ### Hash table on its pool: GetValue and GetGlobalDepth -/

namespace bustub
namespace BufferPoolManager
variable {D : Type} [Inhabited D]

/-- A sequence of calls that ran to its end and adds no pin to any page
leaves every pin count as it was. -/
theorem balanced_calls (cs : List PoolCall) (s s' : BufferPoolManager D) (h : BPMInv s)
    (ha : AllocInv s) (hf : fetchesBelow s.next_page_id_ cs)
    (hu : uncheckedPinned s.next_page_id_ (fun _ => 0) cs)
    (hd : ∀ q, pinDelta s.next_page_id_ cs q = 0) (hrun : poolCalls cs s = some s') :
    BPMInv s' ∧ AllocInv s' ∧ s'.next_page_id_ = nextAfter s.next_page_id_ cs ∧
      ∀ q, pinCount s' q = pinCount s q := by
  obtain ⟨h1, h2, h3, h4⟩ := poolCalls_pinCount cs s s' (fun _ => 0) h ha
    (fun q => pinCount_nonneg h q) hf hu hrun
  exact ⟨h1, h2, h3, fun q => by rw [h4 q, hd q, add_zero]⟩

end BufferPoolManager
namespace ExtendibleHashTable
open HashTableDirectoryPage HashTableBucketPage BufferPoolManager
variable {K V : Type} [DecidableEq K] [DecidableEq V] [Inhabited K] [Inhabited V]
variable {D : Type} [Inhabited D]

omit [DecidableEq K] [DecidableEq V] in
/-- The calls that create the directory page leave no pin behind. -/
theorem creationCalls_balanced (t : ExtendibleHashTable K V) (s s' : BufferPoolManager D)
    (h : BPMInv s) (ha : AllocInv s) (hnext : s.next_page_id_ = t.next_page_id_)
    (h0 : 0 ≤ t.next_page_id_) (hrun : poolCalls (creationCalls t) s = some s') :
    BPMInv s' ∧ AllocInv s' ∧ s'.next_page_id_ = t.FetchDirectoryPage.next_page_id_ ∧
      ∀ q, pinCount s' q = pinCount s q := by
  by_cases hc : t.directory_page_id_ = INVALID_PAGE_ID
  · have hcalls : creationCalls t =
        [.newPage, .newPage, .unpinPageUnchecked t.next_page_id_ true,
          .unpinPageUnchecked (t.next_page_id_ + 1) true] := by
      unfold creationCalls
      rw [if_pos hc]
    rw [hcalls] at hrun
    obtain ⟨h1, h2, h3, h4⟩ := balanced_calls _ s s' h ha
      (by simp [fetchesBelow])
      (by
        rw [hnext]
        simp only [uncheckedPinned, if_true, and_true]
        refine ⟨h0, by norm_num, by omega, ?_⟩
        have : ¬ (t.next_page_id_ + 1 = t.next_page_id_) := by omega
        simp [this])
      (by
        intro q
        rw [hnext]
        simp only [pinDelta]
        split_ifs <;> omega)
      hrun
    refine ⟨h1, h2, ?_, h4⟩
    rw [h3, hnext]
    simp only [nextAfter, FetchDirectoryPage, if_pos hc]
    ring
  · rw [creationCalls_of_created hc] at hrun
    simp only [poolCalls, Option.some.injEq] at hrun
    subst hrun
    rw [FetchDirectoryPage_of_created hc]
    exact ⟨h, ha, hnext, fun _ => rfl⟩

omit [DecidableEq K] [DecidableEq V] [Inhabited K] [Inhabited V] in
theorem KeyToPageId_lt {cfg : HashTableConfig K} {t : ExtendibleHashTable K V}
    (h : HTInv cfg t) (key : K) : KeyToPageId cfg key t.dir_page < t.next_page_id_ :=
  (h.dir.pid_range _ (KeyToDirectoryIndex_lt cfg key t.dir_page)).2

omit [DecidableEq K] [DecidableEq V] in
/-- The calls of `GetValue` on a table with a directory page. -/
theorem GetValueCalls_balanced {cfg : HashTableConfig K} {t : ExtendibleHashTable K V}
    (ht : TableInv cfg t) (key : K) (s s' : BufferPoolManager D) (h : BPMInv s)
    (ha : AllocInv s) (hnext : s.next_page_id_ = t.next_page_id_)
    (hrun : poolCalls (t.GetValueCalls cfg key) s = some s') :
    BPMInv s' ∧ AllocInv s' ∧ s'.next_page_id_ = t.next_page_id_ ∧
      ∀ q, pinCount s' q = pinCount s q := by
  have hB := KeyToPageId_lt ht.ht key
  have hD := ht.dir_lt
  unfold GetValueCalls at hrun
  simp only [FetchDirectoryPageCalls_of_created ht.ht.created,
    FetchDirectoryPage_of_created ht.ht.created, GetPageId, ht.dir_page_id,
    List.singleton_append] at hrun
  obtain ⟨h1, h2, h3, h4⟩ := balanced_calls _ s s' h ha
    (by rw [hnext]; simp only [fetchesBelow, and_true]; exact ⟨hD, hB⟩)
    (by simp [uncheckedPinned])
    (by
      intro q
      simp only [pinDelta]
      split_ifs <;> omega)
    hrun
  exact ⟨h1, h2, by rw [h3, hnext]; rfl, h4⟩

omit [DecidableEq K] [DecidableEq V] in
/-- The calls of `GetGlobalDepth` on a table with a directory page. -/
theorem GetGlobalDepthCalls_balanced {cfg : HashTableConfig K} {t : ExtendibleHashTable K V}
    (ht : TableInv cfg t) (s s' : BufferPoolManager D) (h : BPMInv s)
    (ha : AllocInv s) (hnext : s.next_page_id_ = t.next_page_id_)
    (hrun : poolCalls t.GetGlobalDepthCalls s = some s') :
    BPMInv s' ∧ AllocInv s' ∧ s'.next_page_id_ = t.next_page_id_ ∧
      ∀ q, pinCount s' q = pinCount s q := by
  have hD := ht.dir_lt
  unfold GetGlobalDepthCalls at hrun
  simp only [FetchDirectoryPageCalls_of_created ht.ht.created,
    FetchDirectoryPage_of_created ht.ht.created, List.singleton_append] at hrun
  obtain ⟨h1, h2, h3, h4⟩ := balanced_calls _ s s' h ha
    (by rw [hnext]; simp only [fetchesBelow, and_true]; exact hD)
    (by simp [uncheckedPinned])
    (by
      intro q
      simp only [pinDelta]
      split_ifs <;> omega)
    hrun
  exact ⟨h1, h2, by rw [h3, hnext]; rfl, h4⟩

end ExtendibleHashTable
end bustub

/-! ### Hash table on its pool: Insert and Remove -/

namespace bustub
namespace ExtendibleHashTable
open HashTableDirectoryPage HashTableBucketPage BufferPoolManager
variable {K V : Type} [DecidableEq K] [DecidableEq V] [Inhabited K] [Inhabited V]
variable {D : Type} [Inhabited D]

/-- The calls of `Insert` on a table with a directory page, through every
nested call of `SplitInsert` and `Insert`. -/
theorem InsertCallsFuel_balanced (cfg : HashTableConfig K) (hN : cfg.BUCKET_ARRAY_SIZE ≤ 2048)
    (h30 : cfg.MAX_BUCKET_DEPTH ≤ 30) (key : K) (value : V) :
    ∀ (fuel : Nat) (t : ExtendibleHashTable K V), TableInv cfg t →
      ∀ (s s' : BufferPoolManager D) (calls : List PoolCall) (r : Bool)
        (t' : ExtendibleHashTable K V),
        BPMInv s → AllocInv s → s.next_page_id_ = t.next_page_id_ →
        InsertCallsFuel cfg fuel t key value = some calls →
        InsertFuel cfg fuel t key value = some (r, t') →
        poolCalls calls s = some s' →
        BPMInv s' ∧ AllocInv s' ∧ s'.next_page_id_ = t'.next_page_id_ ∧
          ∀ q, pinCount s' q = pinCount s q := by
  intro fuel
  induction fuel with
  | zero =>
    intro t _ s s' calls r t' _ _ _ hcalls
    simp [InsertCallsFuel] at hcalls
  | succ fuel ih =>
    intro t ht s s' calls r t' h ha hnext hcalls hins hrun
    have hB := KeyToPageId_lt ht.ht key
    have hD := ht.dir_lt
    rw [InsertCallsFuel] at hcalls
    rw [InsertFuel] at hins
    simp only [FetchDirectoryPageCalls_of_created ht.ht.created,
      FetchDirectoryPage_of_created ht.ht.created, GetPageId, ht.dir_page_id,
      List.singleton_append, List.cons_append, List.nil_append] at hcalls hins
    cases hfull : ((t.bucket_pages (KeyToPageId cfg key t.dir_page)).IsFull
        cfg.BUCKET_ARRAY_SIZE) with
    | false =>
      simp only [hfull, Bool.not_false, if_true, Option.some.injEq, Prod.mk.injEq] at hcalls hins
      subst hcalls
      obtain ⟨_, rfl⟩ := hins
      obtain ⟨h1, h2, h3, h4⟩ := balanced_calls _ s s' h ha
        (by rw [hnext]; simp only [fetchesBelow, and_true]; exact ⟨hD, hB⟩)
        (by simp [uncheckedPinned])
        (by
          intro q
          simp only [pinDelta]
          split_ifs <;> omega)
        hrun
      exact ⟨h1, h2, by rw [h3, hnext]; rfl, h4⟩
    | true =>
      simp only [hfull, Bool.not_true, Bool.false_eq_true, if_false,
        Option.map_eq_some'] at hcalls hins
      obtain ⟨calls2, hsplit, rfl⟩ := hcalls
      unfold SplitInsertCalls at hsplit
      simp only [FetchDirectoryPageCalls_of_created ht.ht.created,
        FetchDirectoryPage_of_created ht.ht.created, GetPageId, ht.dir_page_id,
        List.singleton_append, List.cons_append, List.nil_append, GetLocalDepth] at hsplit
      by_cases hL : cfg.MAX_BUCKET_DEPTH ≤
          t.dir_page.local_depths_ (KeyToDirectoryIndex cfg key t.dir_page)
      · rw [if_pos hL] at hsplit
        simp only [Option.some.injEq] at hsplit
        subst hsplit
        rw [SplitInsert_eq cfg _ t key value ht.ht.created, if_pos hL] at hins
        simp only [Option.some.injEq, Prod.mk.injEq] at hins
        obtain ⟨_, rfl⟩ := hins
        obtain ⟨h1, h2, h3, h4⟩ := balanced_calls _ s s' h ha
          (by rw [hnext]; simp only [fetchesBelow, and_true]; exact ⟨hD, hB, hD, hB⟩)
          (by simp [uncheckedPinned])
          (by
            intro q
            simp only [pinDelta]
            split_ifs <;> omega)
          hrun
        exact ⟨h1, h2, by rw [h3, hnext]; rfl, h4⟩
      · rw [if_neg hL] at hsplit
        obtain ⟨t2, h2, hinv2, _, hid2, hnext2, d1, hd1, hdir2⟩ :=
          SplitInsert_round_uniform cfg hN h30 t ht.ht key value (by omega)
        rw [h2] at hsplit hins
        simp only [Option.some_bind, Option.map_eq_some'] at hsplit
        obtain ⟨calls3, hcalls3, rfl⟩ := hsplit
        have ht2 : TableInv cfg t2 := by
          refine ⟨hinv2, by rw [hid2]; exact ht.dir_nonneg, by rw [hid2, hnext2]; omega, ?_⟩
          rw [hdir2, splitDirectory_page_id hd1, hid2]
          exact ht.dir_page_id
        have hpid2 : t2.dir_page.page_id_ = t.directory_page_id_ := by
          rw [ht2.dir_page_id, hid2]
        rw [hpid2] at hrun
        have happ : ∀ (x : List PoolCall),
            PoolCall.fetchPage t.directory_page_id_ ::
              PoolCall.fetchPage (KeyToPageId cfg key t.dir_page) ::
              PoolCall.unpinPage (KeyToPageId cfg key t.dir_page) false ::
              PoolCall.unpinPage t.directory_page_id_ false ::
              (PoolCall.fetchPage t.directory_page_id_ ::
                PoolCall.fetchPage (KeyToPageId cfg key t.dir_page) ::
                PoolCall.newPage ::
                PoolCall.unpinPage (KeyToPageId cfg key t.dir_page) true ::
                PoolCall.unpinPage t.next_page_id_ true ::
                PoolCall.unpinPage t.directory_page_id_ true :: x) =
            [PoolCall.fetchPage t.directory_page_id_,
              PoolCall.fetchPage (KeyToPageId cfg key t.dir_page),
              PoolCall.unpinPage (KeyToPageId cfg key t.dir_page) false,
              PoolCall.unpinPage t.directory_page_id_ false,
              PoolCall.fetchPage t.directory_page_id_,
              PoolCall.fetchPage (KeyToPageId cfg key t.dir_page),
              PoolCall.newPage,
              PoolCall.unpinPage (KeyToPageId cfg key t.dir_page) true,
              PoolCall.unpinPage t.next_page_id_ true,
              PoolCall.unpinPage t.directory_page_id_ true] ++ x := fun _ => rfl
        rw [happ, poolCalls_append] at hrun
        cases hs2 : poolCalls
            [PoolCall.fetchPage t.directory_page_id_,
              PoolCall.fetchPage (KeyToPageId cfg key t.dir_page),
              PoolCall.unpinPage (KeyToPageId cfg key t.dir_page) false,
              PoolCall.unpinPage t.directory_page_id_ false,
              PoolCall.fetchPage t.directory_page_id_,
              PoolCall.fetchPage (KeyToPageId cfg key t.dir_page),
              PoolCall.newPage,
              PoolCall.unpinPage (KeyToPageId cfg key t.dir_page) true,
              PoolCall.unpinPage t.next_page_id_ true,
              PoolCall.unpinPage t.directory_page_id_ true] s with
        | none => rw [hs2] at hrun; cases hrun
        | some s2 =>
          rw [hs2, Option.some_bind] at hrun
          obtain ⟨h1, ha1, hn1, hp1⟩ := balanced_calls _ s s2 h ha
            (by rw [hnext]; simp only [fetchesBelow, and_true]; exact ⟨hD, hB, hD, hB⟩)
            (by simp [uncheckedPinned])
            (by
              intro q
              rw [hnext]
              simp only [pinDelta]
              split_ifs <;> omega)
            hs2
          have hn1' : s2.next_page_id_ = t2.next_page_id_ := by
            rw [hn1, hnext, hnext2]
            rfl
          obtain ⟨h3, ha3, hn3, hp3⟩ := ih t2 ht2 s2 s' calls3 r t' h1 ha1 hn1' hcalls3 hins hrun
          exact ⟨h3, ha3, hn3, fun q => by rw [hp3 q, hp1 q]⟩

/-- The calls of `Remove` on a table with a directory page, those of `Merge`
included. -/
theorem RemoveCalls_balanced (cfg : HashTableConfig K) {t : ExtendibleHashTable K V}
    (ht : TableInv cfg t) (key : K) (value : V) (s s' : BufferPoolManager D)
    (calls : List PoolCall) (h : BPMInv s) (ha : AllocInv s)
    (hnext : s.next_page_id_ = t.next_page_id_)
    (hcalls : RemoveCalls cfg t key value = some calls)
    (hrun : poolCalls calls s = some s') :
    BPMInv s' ∧ AllocInv s' ∧ s'.next_page_id_ = t.next_page_id_ ∧
      ∀ q, pinCount s' q = pinCount s q := by
  have hB := KeyToPageId_lt ht.ht key
  have hD := ht.dir_lt
  unfold RemoveCalls at hcalls
  simp only [FetchDirectoryPageCalls_of_created ht.ht.created,
    FetchDirectoryPage_of_created ht.ht.created, GetPageId, ht.dir_page_id,
    List.singleton_append, List.cons_append, List.nil_append] at hcalls
  split at hcalls
  · simp only [Option.map_eq_some'] at hcalls
    obtain ⟨merge, hmerge, rfl⟩ := hcalls
    unfold MergeCalls at hmerge
    have hcr : ∀ bp : Int → HashTableBucketPage K V,
        ExtendibleHashTable.directory_page_id_
          { t with bucket_pages := bp } ≠ INVALID_PAGE_ID := fun _ => ht.ht.created
    simp only [FetchDirectoryPageCalls_of_created (hcr _),
      FetchDirectoryPage_of_created (hcr _), GetPageId, ht.dir_page_id,
      List.singleton_append, List.cons_append, List.nil_append] at hmerge
    split at hmerge
    · simp only [Option.some.injEq] at hmerge
      subst hmerge
      obtain ⟨h1, h2, h3, h4⟩ := balanced_calls _ s s' h ha
        (by rw [hnext]; simp only [fetchesBelow, and_true]; exact ⟨hD, hB, hD⟩)
        (by simp [uncheckedPinned])
        (by
          intro q
          simp only [pinDelta]
          split_ifs <;> omega)
        hrun
      exact ⟨h1, h2, by rw [h3, hnext]; rfl, h4⟩
    · simp only [Option.map_eq_some'] at hmerge
      obtain ⟨merged, hm, rfl⟩ := hmerge
      obtain ⟨_, _, hpid⟩ := Merge_ids hm
      rw [FetchDirectoryPage_of_created (hcr _)] at hpid
      simp only [ht.dir_page_id] at hpid
      rw [hpid] at hrun
      obtain ⟨h1, h2, h3, h4⟩ := balanced_calls _ s s' h ha
        (by rw [hnext]; simp only [fetchesBelow, and_true]; exact ⟨hD, hB, hD⟩)
        (by simp [uncheckedPinned])
        (by
          intro q
          simp only [pinDelta]
          split_ifs <;> omega)
        hrun
      exact ⟨h1, h2, by rw [h3, hnext]; rfl, h4⟩
  · simp only [Option.some.injEq] at hcalls
    subst hcalls
    obtain ⟨h1, h2, h3, h4⟩ := balanced_calls _ s s' h ha
      (by rw [hnext]; simp only [fetchesBelow, and_true]; exact ⟨hD, hB⟩)
      (by simp [uncheckedPinned])
      (by
        intro q
        simp only [pinDelta]
        split_ifs <;> omega)
      hrun
    exact ⟨h1, h2, by rw [h3, hnext]; rfl, h4⟩

end ExtendibleHashTable
end bustub

/-! ### Hash table on its pool: every call is pin-balanced -/

namespace bustub
namespace IndexOnPool
open ExtendibleHashTable BufferPoolManager
variable {K V : Type} [DecidableEq K] [DecidableEq V] [Inhabited K] [Inhabited V]
variable {D : Type} [Inhabited D]

/-- The calls of a call of the table start with those that create the
directory page on first use; the others are those of the same call on the
table with its directory page. -/
theorem callsOf_FetchDirectoryPage (cfg : HashTableConfig K) {t : ExtendibleHashTable K V}
    (h : HTInv cfg t.FetchDirectoryPage) (c : TableCall K V) :
    callsOf cfg t c =
      (callsOf cfg t.FetchDirectoryPage c).map fun calls => creationCalls t ++ calls := by
  have hidem := FetchDirectoryPage_idem h
  have hcr := creationCalls_of_created h.created
  cases c with
  | getValue key =>
    simp only [callsOf, GetValueCalls, FetchDirectoryPageCalls_eq, hidem, hcr,
      Option.map_some', List.nil_append, List.append_assoc]
  | getGlobalDepth =>
    simp only [callsOf, GetGlobalDepthCalls, FetchDirectoryPageCalls_eq, hidem, hcr,
      Option.map_some', List.nil_append, List.append_assoc]
  | insert key value =>
    simp only [callsOf, InsertCalls]
    rw [InsertCallsFuel, InsertCallsFuel]
    simp only [FetchDirectoryPageCalls_eq, hidem, hcr, List.nil_append, List.append_assoc]
    split
    · simp only [Option.map_some']
    · simp only [Option.map_map]
      congr 1
  | remove key value =>
    simp only [callsOf, RemoveCalls, FetchDirectoryPageCalls_eq, hidem, hcr, List.nil_append,
      List.append_assoc]
    split
    · simp only [Option.map_map]
      congr 1
    · simp only [Option.map_some']

theorem tableAfter_FetchDirectoryPage (cfg : HashTableConfig K) {t : ExtendibleHashTable K V}
    (h : HTInv cfg t.FetchDirectoryPage) (c : TableCall K V) :
    tableAfter cfg t c = tableAfter cfg t.FetchDirectoryPage c := by
  have hidem := FetchDirectoryPage_idem h
  cases c with
  | getValue key => simp only [tableAfter, ExtendibleHashTable.GetValue, hidem]
  | getGlobalDepth => simp only [tableAfter, hidem]
  | insert key value => simp only [tableAfter, Insert_FetchDirectoryPage h]
  | remove key value => simp only [tableAfter, Remove_FetchDirectoryPage h]

/-- One call on a table with a directory page: the table it leaves satisfies
`TableInv`, and the calls it has made leave every pin count as it was. -/
theorem step_created (cfg : HashTableConfig K) (hN : cfg.BUCKET_ARRAY_SIZE ≤ 2048)
    (h30 : cfg.MAX_BUCKET_DEPTH ≤ 30) {t t' : ExtendibleHashTable K V} (ht : TableInv cfg t)
    (s s' : BufferPoolManager D) (h : BPMInv s) (ha : AllocInv s)
    (hnext : s.next_page_id_ = t.next_page_id_) (c : TableCall K V) (calls : List PoolCall)
    (hcalls : callsOf cfg t c = some calls) (hrun : poolCalls calls s = some s')
    (hafter : tableAfter cfg t c = some t') :
    TableInv cfg t' ∧ BPMInv s' ∧ AllocInv s' ∧ s'.next_page_id_ = t'.next_page_id_ ∧
      ∀ q, pinCount s' q = pinCount s q := by
  have hfetch := FetchDirectoryPage_of_created ht.ht.created
  cases c with
  | getValue key =>
    simp only [callsOf, Option.some.injEq] at hcalls
    subst hcalls
    simp only [tableAfter, ExtendibleHashTable.GetValue, hfetch, Option.some.injEq] at hafter
    subst hafter
    exact ⟨ht, GetValueCalls_balanced ht key s s' h ha hnext hrun⟩
  | getGlobalDepth =>
    simp only [callsOf, Option.some.injEq] at hcalls
    subst hcalls
    simp only [tableAfter, hfetch, Option.some.injEq] at hafter
    subst hafter
    exact ⟨ht, GetGlobalDepthCalls_balanced ht s s' h ha hnext hrun⟩
  | insert key value =>
    simp only [callsOf, InsertCalls] at hcalls
    simp only [tableAfter, Option.map_eq_some', Prod.exists, exists_eq_right] at hafter
    obtain ⟨r, hins⟩ := hafter
    have hld := ht.ht.dir.ld_le _ (KeyToDirectoryIndex_lt cfg key t.dir_page)
    have hgd := ht.ht.dir.gd_le
    obtain ⟨r0, t0, hinv0, hid0, hnext0, hpid0, hall⟩ := InsertFuel_stable cfg hN h30 key value
      (cfg.MAX_BUCKET_DEPTH + 1) t ht.ht (by omega)
    have h0 := hall (cfg.MAX_BUCKET_DEPTH + 1) (by omega)
    unfold ExtendibleHashTable.Insert at hins
    rw [h0] at hins
    simp only [Option.some.injEq, Prod.mk.injEq] at hins
    obtain ⟨rfl, rfl⟩ := hins
    refine ⟨⟨hinv0, by rw [hid0]; exact ht.dir_nonneg,
      by rw [hid0]; exact lt_of_lt_of_le ht.dir_lt hnext0,
      by rw [hpid0, hid0]; exact ht.dir_page_id⟩, ?_⟩
    exact InsertCallsFuel_balanced cfg hN h30 key value _ t ht s s' calls r0 t0 h ha hnext
      hcalls h0 hrun
  | remove key value =>
    simp only [callsOf] at hcalls
    simp only [tableAfter, Option.map_eq_some', Prod.exists, exists_eq_right] at hafter
    obtain ⟨r, hrem⟩ := hafter
    obtain ⟨r0, t0, h0, hinv0⟩ := Remove_spec cfg hN h30 t ht.ht key value
    rw [h0] at hrem
    simp only [Option.some.injEq, Prod.mk.injEq] at hrem
    obtain ⟨rfl, rfl⟩ := hrem
    obtain ⟨hid, hnx, hpid⟩ := Remove_ids (by rw [hfetch]; exact ht.ht.created) h0
    rw [hfetch] at hid hnx hpid
    obtain ⟨h1, h2, h3, h4⟩ := RemoveCalls_balanced cfg ht key value s s' calls h ha hnext
      hcalls hrun
    exact ⟨⟨hinv0, by rw [hid]; exact ht.dir_nonneg, by rw [hid, hnx]; exact ht.dir_lt,
      by rw [hpid, hid]; exact ht.dir_page_id⟩, h1, h2, by rw [h3, hnx], h4⟩

/-- One call of the table that runs to its end keeps `PoolInv` and leaves
every pin count as it was. -/
theorem step_poolInv (cfg : HashTableConfig K) (hN : cfg.BUCKET_ARRAY_SIZE ≤ 2048)
    (h30 : cfg.MAX_BUCKET_DEPTH ≤ 30) {x x' : IndexOnPool K V D} (hx : PoolInv cfg x)
    (c : TableCall K V) (hstep : step cfg x c = some x') :
    PoolInv cfg x' ∧ ∀ q, pinCount x'.pool q = pinCount x.pool q := by
  unfold step at hstep
  rw [callsOf_FetchDirectoryPage cfg hx.table.ht, tableAfter_FetchDirectoryPage cfg hx.table.ht]
    at hstep
  simp only [Option.bind_eq_some, Option.map_eq_some'] at hstep
  obtain ⟨calls, ⟨calls1, hcalls1, rfl⟩, pool, hrun, t', hafter, rfl⟩ := hstep
  rw [poolCalls_append] at hrun
  cases hs1 : poolCalls (creationCalls x.table) x.pool with
  | none => rw [hs1] at hrun; cases hrun
  | some s1 =>
    rw [hs1, Option.some_bind] at hrun
    obtain ⟨h1, ha1, hn1, hp1⟩ := creationCalls_balanced x.table x.pool s1 hx.bpm hx.alloc
      hx.next_eq hx.next_nonneg hs1
    obtain ⟨ht', h2, ha2, hn2, hp2⟩ := step_created cfg hN h30 hx.table s1 pool h1 ha1 hn1 c
      calls1 hcalls1 hrun hafter
    have hpin : ∀ q, pinCount pool q = pinCount x.pool q := fun q => by rw [hp2 q, hp1 q]
    refine ⟨⟨?_, ?_, h2, ha2, hn2, fun q => by rw [hpin q]; exact hx.unpinned q⟩, hpin⟩
    · show TableInv cfg t'.FetchDirectoryPage
      rw [FetchDirectoryPage_of_created ht'.ht.created]
      exact ht'
    · exact le_trans ht'.dir_nonneg (le_of_lt ht'.dir_lt)

omit [DecidableEq K] [DecidableEq V] in
/-- The table before its first call, on a pool without pages. -/
theorem PoolInv_init (cfg : HashTableConfig K) (pool_size k : Nat) (hk : 0 < k)
    (disk : Int → D) :
    PoolInv cfg
      ({ table := ExtendibleHashTable.init, pool := BufferPoolManager.new pool_size k disk } :
        IndexOnPool K V D) := by
  refine ⟨TableInv_FetchDirectoryPage (HTInv_init cfg) (le_refl _) ?_, le_refl _,
    BPMInv_new pool_size k hk disk, AllocInv_new pool_size k disk, rfl, fun q => rfl⟩
  intro hc
  exact absurd rfl hc

theorem run_poolInv (cfg : HashTableConfig K) (hN : cfg.BUCKET_ARRAY_SIZE ≤ 2048)
    (h30 : cfg.MAX_BUCKET_DEPTH ≤ 30) :
    ∀ (cs : List (TableCall K V)) (x x' : IndexOnPool K V D), PoolInv cfg x →
      run cfg cs x = some x' → PoolInv cfg x'
  | [], x, x', hx, hrun => by
    simp only [run, Option.some.injEq] at hrun
    exact hrun ▸ hx
  | c :: cs, x, x', hx, hrun => by
    simp only [run, Option.bind_eq_some] at hrun
    obtain ⟨x1, hstep, hrest⟩ := hrun
    exact run_poolInv cfg hN h30 cs x1 x' (step_poolInv cfg hN h30 hx c hstep).1 hrest

/-- C40: a hash table on a buffer pool of its own, after any sequence of calls
of `GetValue`, `Insert`, `Remove` and `GetGlobalDepth` that ran to their end
from the state the constructors leave: a further call that runs to its end,
with every nested call of `SplitInsert`, `Insert` and `Merge`, leaves the pin
count of every page, the directory page and the bucket pages among them, as it
was before the call, which is 0; in particular the pin count of every page
that the call has created, by `SplitInsert` or on first use of the directory,
is 0.  The allocation counters of the pool and of the table agree after the
call. -/
theorem index_calls_pin_balanced (cfg : HashTableConfig K)
    (hN : cfg.BUCKET_ARRAY_SIZE ≤ 2048) (h30 : cfg.MAX_BUCKET_DEPTH ≤ 30)
    (pool_size k : Nat) (hk : 0 < k) (disk : Int → D) (cs : List (TableCall K V))
    (x : IndexOnPool K V D)
    (hx : run cfg cs { table := ExtendibleHashTable.init,
                       pool := BufferPoolManager.new pool_size k disk } = some x)
    (c : TableCall K V) (x' : IndexOnPool K V D) (hstep : step cfg x c = some x') :
    (∀ q, pinCount x'.pool q = pinCount x.pool q) ∧
      (∀ q, pinCount x'.pool q = 0) ∧
      (∀ q, x.pool.next_page_id_ ≤ q → q < x'.pool.next_page_id_ → pinCount x'.pool q = 0) ∧
      x'.pool.next_page_id_ = x'.table.next_page_id_ := by
  have hinv := run_poolInv cfg hN h30 cs _ x (PoolInv_init cfg pool_size k hk disk) hx
  obtain ⟨hinv', hpin⟩ := step_poolInv cfg hN h30 hinv c hstep
  exact ⟨hpin, hinv'.unpinned, fun q _ _ => hinv'.unpinned q, hinv'.next_eq⟩

end IndexOnPool
end bustub

/-! ### Hash table on its pool: an example -/

namespace bustub
namespace IndexOnPool
open BufferPoolManager

theorem index_calls_pin_balanced_witness :
    run exampleConfig [TableCall.insert 1 10] examplePooledInit = some examplePooled ∧
      step exampleConfig examplePooled (TableCall.insert 3 30) = some examplePooledSplit ∧
      examplePooled.pool.next_page_id_ = 2 ∧
      examplePooledSplit.pool.next_page_id_ = 4 ∧
      pinCount examplePooledSplit.pool 3 = 0 :=
  ⟨rfl, rfl, by decide, by decide,
    (index_calls_pin_balanced exampleConfig (by decide) (by decide) 3 2 (by decide)
      exampleDisk [TableCall.insert 1 10] examplePooled
      (show run exampleConfig [TableCall.insert 1 10] examplePooledInit = some examplePooled
        from rfl)
      (TableCall.insert 3 30) examplePooledSplit rfl).2.1 3⟩

end IndexOnPool
end bustub
